import Mathlib

/-!
Order matching engine: embedding of `services/matching_engine.go`,
`services/order_book.go`, `models/*.go`, `handlers/orders.go` (validation) and
`database/transactions.go`.

Conventions of the embedding.

* Go pointers to orders are replaced by explicit state passing: a function that
  mutates an order (or a book) through a pointer returns the new value.
* `float64` prices are modelled by the rationals they denote. Prices enter through
  JSON decoding, which yields finite values only, and the engine only compares
  prices (`>=`, `==`, `>`, `<`); on finite floats these comparisons agree with
  the comparisons of the rationals they denote. The one float64 operation that
  rounds, the subtraction of `calculateSpread`, is modelled with its rounding
  (`float64Sub`).
* Go `int` quantities are modelled by integers, with subtraction wrapping to 64
  bits as in Go.
* `time.Time` values are modelled by integers (instants), `Before` is `<`.
* The trade fields `ID` (a fresh uuid) and `ExecutedAt` (the wall clock) come from
  the environment and are not part of the model.
* The database is the pair of its two tables. A statement or a transaction that
  fails leaves the tables as they were and returns its error: for `ProcessOrder`
  the outcome is that of the sink, for `CancelOrder` it is given by `StoreFaults`.
-/

namespace OrderMatching

/-! ## models -/

/-- Order record of `models/order.go`. The Go field `Type` is called `Typ` here. -/
structure Order where
  ID : String
  Symbol : String
  Side : String
  Typ : String
  Price : Option Rat
  InitialQuantity : Int
  RemainingQuantity : Int
  Status : String
  CreatedAt : Int
deriving DecidableEq

/-- Trade record of `models/trade.go` (without `ID` and `ExecutedAt`). -/
structure Trade where
  Symbol : String
  BuyOrderID : String
  SellOrderID : String
  Price : Rat
  Quantity : Int
deriving DecidableEq

/-! ## order_book.go -/

/-- Book of one symbol: `BuyOrders` are the bids, `SellOrders` the asks. -/
structure OrderBook where
  Symbol : String
  BuyOrders : List Order
  SellOrders : List Order
deriving DecidableEq

/-- Go `NewOrderBook`. -/
def NewOrderBook (symbol : String) : OrderBook :=
  { Symbol := symbol, BuyOrders := [], SellOrders := [] }

/-- Go `compareBuyOrders`: `a` goes strictly before `b` among the bids. -/
def compareBuyOrders (a b : Order) : Bool :=
  match a.Price, b.Price with
  | some pa, some pb =>
    if pa = pb then decide (a.CreatedAt < b.CreatedAt) else decide (pb < pa)
  | _, _ => false

/-- Go `compareSellOrders`: `a` goes strictly before `b` among the asks. -/
def compareSellOrders (a b : Order) : Bool :=
  match a.Price, b.Price with
  | some pa, some pb =>
    if pa = pb then decide (a.CreatedAt < b.CreatedAt) else decide (pa < pb)
  | _, _ => false

/-- Binary search loop shared by `insertSortedBuy` and `insertSortedSell`
(`for left < right { ... }`), with the comparison as a parameter. The first
argument bounds the number of iterations; `searchLoop_fuel` shows that
`right - left` iterations are enough. -/
def searchLoop (cmp : Order → Order → Bool) (orders : List Order) (newOrder : Order) :
    Nat → Nat → Nat → Nat
  | 0, left, _ => left
  | fuel + 1, left, right =>
    if left < right then
      let mid := (left + right) / 2
      match orders[mid]? with
      | some o =>
        if cmp newOrder o then searchLoop cmp orders newOrder fuel left mid
        else searchLoop cmp orders newOrder fuel (mid + 1) right
      | none => left
    else left

/-- The splice `append(orders, nil); copy(orders[left+1:], orders[left:]);
orders[left] = newOrder`. -/
def insertAt (orders : List Order) (left : Nat) (newOrder : Order) : List Order :=
  orders.take left ++ newOrder :: orders.drop left

/-- Go `insertSortedBuy`. -/
def insertSortedBuy (orders : List Order) (newOrder : Order) : List Order :=
  if orders.length = 0 then [newOrder]
  else insertAt orders (searchLoop compareBuyOrders orders newOrder orders.length 0 orders.length)
    newOrder

/-- Go `insertSortedSell`. -/
def insertSortedSell (orders : List Order) (newOrder : Order) : List Order :=
  if orders.length = 0 then [newOrder]
  else insertAt orders (searchLoop compareSellOrders orders newOrder orders.length 0 orders.length)
    newOrder

/-- Go `AddOrder` (the order is not nil). -/
def AddOrder (ob : OrderBook) (order : Order) : OrderBook :=
  if order.Side = "buy" then { ob with BuyOrders := insertSortedBuy ob.BuyOrders order }
  else { ob with SellOrders := insertSortedSell ob.SellOrders order }

/-! ## matching_engine.go -/

/-- Two's complement wrap of an integer to the range of a 64 bit Go `int`. -/
def wrapInt64 (x : Int) : Int := (x + 2 ^ 63) % 2 ^ 64 - 2 ^ 63

/-- Go `canMatch`. -/
def canMatch (buyOrder sellOrder : Order) : Bool :=
  if buyOrder.Typ = "market" ∨ sellOrder.Typ = "market" then true
  else
    match buyOrder.Price, sellOrder.Price with
    | some pb, some ps => decide (ps ≤ pb)
    | _, _ => false

/-- Quantity chosen by `executeTrade`: the smaller remaining quantity. -/
def tradeQuantity (buyOrder sellOrder : Order) : Int :=
  if sellOrder.RemainingQuantity < buyOrder.RemainingQuantity then sellOrder.RemainingQuantity
  else buyOrder.RemainingQuantity

/-- Price chosen by `executeTrade`: the sell order's price when it is a priced
limit order, else the buy order's price when it is a priced limit order, else the
zero value. -/
def tradePrice (buyOrder sellOrder : Order) : Rat :=
  match decide (sellOrder.Typ = "limit"), sellOrder.Price with
  | true, some p => p
  | _, _ =>
    match decide (buyOrder.Typ = "limit"), buyOrder.Price with
    | true, some p => p
    | _, _ => 0

/-- Go `executeTrade`: returns the trade, the updated buy order and the updated
sell order. -/
def executeTrade (buyOrder sellOrder : Order) : Trade × Order × Order :=
  let quantity := tradeQuantity buyOrder sellOrder
  let price := tradePrice buyOrder sellOrder
  let buy1 := { buyOrder with RemainingQuantity := wrapInt64 (buyOrder.RemainingQuantity - quantity) }
  let sell1 :=
    { sellOrder with RemainingQuantity := wrapInt64 (sellOrder.RemainingQuantity - quantity) }
  ({ Symbol := buyOrder.Symbol, BuyOrderID := buyOrder.ID, SellOrderID := sellOrder.ID,
     Price := price, Quantity := quantity }, buy1, sell1)

/-- Go `updateOrderStatus`. -/
def updateOrderStatus (order : Order) : Order :=
  if order.RemainingQuantity = 0 then { order with Status := "filled" }
  else if order.RemainingQuantity < order.InitialQuantity then { order with Status := "partial" }
  else order

/-- State of the crossing loop. `pre ++ suf` is the opposite side of the book and
`pre.length` is the loop index `i`; `trades` and `updatedOrders` are the two
slices built by the loop. -/
structure LoopState where
  taker : Order
  pre : List Order
  suf : List Order
  trades : List Trade
  updatedOrders : List Order
deriving DecidableEq

/-- The `for` loop of `matchBuyOrder`, by recursion on the part `suf` of
`book.SellOrders` from index `i` on. -/
def buyLoop (buyOrder : Order) (pre : List Order) (trades : List Trade)
    (updatedOrders : List Order) : List Order → LoopState
  | [] => { taker := buyOrder, pre := pre, suf := [], trades := trades,
            updatedOrders := updatedOrders }
  | sellOrder :: rest =>
    if 0 < buyOrder.RemainingQuantity then
      if canMatch buyOrder sellOrder then
        let r := executeTrade buyOrder sellOrder
        let buy1 := updateOrderStatus r.2.1
        let sell1 := updateOrderStatus r.2.2
        if sell1.RemainingQuantity = 0 then
          buyLoop buy1 pre (trades ++ [r.1]) (updatedOrders ++ [sell1]) rest
        else
          buyLoop buy1 (pre ++ [sell1]) (trades ++ [r.1]) (updatedOrders ++ [sell1]) rest
      else { taker := buyOrder, pre := pre, suf := sellOrder :: rest, trades := trades,
             updatedOrders := updatedOrders }
    else { taker := buyOrder, pre := pre, suf := sellOrder :: rest, trades := trades,
           updatedOrders := updatedOrders }

/-- The `for` loop of `matchSellOrder`, by recursion on the part `suf` of
`book.BuyOrders` from index `i` on. -/
def sellLoop (sellOrder : Order) (pre : List Order) (trades : List Trade)
    (updatedOrders : List Order) : List Order → LoopState
  | [] => { taker := sellOrder, pre := pre, suf := [], trades := trades,
            updatedOrders := updatedOrders }
  | buyOrder :: rest =>
    if 0 < sellOrder.RemainingQuantity then
      if canMatch buyOrder sellOrder then
        let r := executeTrade buyOrder sellOrder
        let buy1 := updateOrderStatus r.2.1
        let sell1 := updateOrderStatus r.2.2
        if buy1.RemainingQuantity = 0 then
          sellLoop sell1 pre (trades ++ [r.1]) (updatedOrders ++ [buy1]) rest
        else
          sellLoop sell1 (pre ++ [buy1]) (trades ++ [r.1]) (updatedOrders ++ [buy1]) rest
      else { taker := sellOrder, pre := pre, suf := buyOrder :: rest, trades := trades,
             updatedOrders := updatedOrders }
    else { taker := sellOrder, pre := pre, suf := buyOrder :: rest, trades := trades,
           updatedOrders := updatedOrders }

/-- What `matchBuyOrder` and `matchSellOrder` leave behind: the two returned
slices, the taker and the book as mutated through their pointers. -/
structure MatchResult where
  trades : List Trade
  updatedOrders : List Order
  order : Order
  book : OrderBook
deriving DecidableEq

/-- The part of `matchBuyOrder` and `matchSellOrder` after the loop, on the
taker and the book the loop left. -/
def finishOrder (order : Order) (book : OrderBook) : Order × OrderBook :=
  if order.Typ = "market" ∧ 0 < order.RemainingQuantity then
    ({ order with Status := "cancelled" }, book)
  else if 0 < order.RemainingQuantity ∧ order.Typ = "limit" then
    (order, AddOrder book order)
  else (order, book)

/-- Go `matchBuyOrder`. -/
def matchBuyOrder (buyOrder : Order) (book : OrderBook) : MatchResult :=
  let s := buyLoop buyOrder [] [] [] book.SellOrders
  let f := finishOrder s.taker { book with SellOrders := s.pre ++ s.suf }
  { trades := s.trades, updatedOrders := s.updatedOrders, order := f.1, book := f.2 }

/-- Go `matchSellOrder`. -/
def matchSellOrder (sellOrder : Order) (book : OrderBook) : MatchResult :=
  let s := sellLoop sellOrder [] [] [] book.BuyOrders
  let f := finishOrder s.taker { book with BuyOrders := s.pre ++ s.suf }
  { trades := s.trades, updatedOrders := s.updatedOrders, order := f.1, book := f.2 }

/-- Engine state: the map `orderBooks` from symbol to book, as an association
list with one entry per symbol. -/
structure MatchingEngine where
  orderBooks : List (String × OrderBook)
deriving DecidableEq

/-- Go `NewMatchingEngine`. -/
def NewMatchingEngine : MatchingEngine := { orderBooks := [] }

/-- Map read `me.orderBooks[symbol]`. -/
def lookupBook (me : MatchingEngine) (symbol : String) : Option OrderBook :=
  (me.orderBooks.find? (fun e => e.1 = symbol)).map Prod.snd

/-- Write through the book pointer held in the map under `symbol`. -/
def storeBook (me : MatchingEngine) (symbol : String) (book : OrderBook) : MatchingEngine :=
  { orderBooks := me.orderBooks.map (fun e => if e.1 = symbol then (e.1, book) else e) }

/-- Go `getOrderBook`: the book of `symbol`, created and put in the map when
the map has none. -/
def getOrderBook (me : MatchingEngine) (symbol : String) : OrderBook × MatchingEngine :=
  match lookupBook me symbol with
  | some book => (book, me)
  | none =>
    let book := NewOrderBook symbol
    (book, { orderBooks := me.orderBooks ++ [(symbol, book)] })

/-- Batch handed to `database.ExecuteOrderMatching`. -/
structure CommitBatch where
  order : Order
  trades : List Trade
  updatedOrders : List Order
deriving DecidableEq

/-- The commit sink as the engine sees it: `none` is Go `nil` (success), `some e`
an error. -/
abbrev CommitSink := CommitBatch → Option String

/-- Everything observable after a `ProcessOrder` call: the returned pair
`(trades, err)`, the engine and the taker as mutated, and the batches handed to
the sink. -/
structure ProcessResult where
  trades : List Trade
  err : Option String
  engine : MatchingEngine
  order : Option Order
  sinkCalls : List CommitBatch
deriving DecidableEq

/-- Go `ProcessOrder`; `none` is the nil order. -/
def ProcessOrder (sink : CommitSink) (me : MatchingEngine) (order : Option Order) :
    ProcessResult :=
  match order with
  | none => { trades := [], err := some "order cannot be nil", engine := me, order := none,
              sinkCalls := [] }
  | some order =>
    let g := getOrderBook me order.Symbol
    let m := if order.Side = "buy" then matchBuyOrder order g.1 else matchSellOrder order g.1
    let me1 := storeBook g.2 order.Symbol m.book
    let batch : CommitBatch := { order := m.order, trades := m.trades,
                                 updatedOrders := m.updatedOrders }
    match sink batch with
    | some e =>
      { trades := [],
        err := some ("failed to execute order matching transaction: " ++ e),
        engine := me1, order := some m.order, sinkCalls := [batch] }
    | none =>
      { trades := m.trades, err := none, engine := me1, order := some m.order,
        sinkCalls := [batch] }

/-- A sink that accepts every batch. -/
def okSink : CommitSink := fun _ => none

/-! ## Vocabulary of the statements -/

/-- The book `getOrderBook` hands out for `symbol` (an empty one when the map has
none). -/
def bookOf (me : MatchingEngine) (symbol : String) : OrderBook := (getOrderBook me symbol).1

/-- The side of the book a taker is matched against: the asks for a buy, the
bids otherwise (`ProcessOrder` sends every order that is not a buy to
`matchSellOrder`). -/
def oppositeSide (book : OrderBook) (order : Order) : List Order :=
  if order.Side = "buy" then book.SellOrders else book.BuyOrders

/-- The side of the book a taker rests on. -/
def ownSide (book : OrderBook) (order : Order) : List Order :=
  if order.Side = "buy" then book.BuyOrders else book.SellOrders

/-- The id of the resting order in a trade of the given taker. -/
def makerID (taker : Order) (t : Trade) : String :=
  if taker.Side = "buy" then t.SellOrderID else t.BuyOrderID

/-- The id of the incoming order in a trade of the given taker. -/
def takerID (taker : Order) (t : Trade) : String :=
  if taker.Side = "buy" then t.BuyOrderID else t.SellOrderID

/-- The order differs from `o` at most in `RemainingQuantity` and `Status`. -/
def SameOrder (o1 o : Order) : Prop :=
  o1.ID = o.ID ∧ o1.Symbol = o.Symbol ∧ o1.Side = o.Side ∧ o1.Typ = o.Typ ∧
  o1.Price = o.Price ∧ o1.InitialQuantity = o.InitialQuantity ∧ o1.CreatedAt = o.CreatedAt

/-- A resting order is a limit order with a price. -/
def PricedLimit (o : Order) : Prop := o.Typ = "limit" ∧ o.Price.isSome = true

/-! ## The two loops as one

`crossLoop true` is the loop of `matchBuyOrder` and `crossLoop false` the loop of
`matchSellOrder`; the lemmas on the loops are proved once, on `crossLoop`. -/

/-- One matched iteration: the trade, the taker and the maker after
`executeTrade` and the two `updateOrderStatus` calls. -/
def crossStep (isBuy : Bool) (taker maker : Order) : Trade × Order × Order :=
  if isBuy then
    let r := executeTrade taker maker
    (r.1, updateOrderStatus r.2.1, updateOrderStatus r.2.2)
  else
    let r := executeTrade maker taker
    (r.1, updateOrderStatus r.2.2, updateOrderStatus r.2.1)

/-- The `canMatch` call of the loop with the given taker. -/
def crossCan (isBuy : Bool) (taker maker : Order) : Bool :=
  if isBuy then canMatch taker maker else canMatch maker taker

/-- The crossing loop for either side. -/
def crossLoop (isBuy : Bool) (taker : Order) (pre : List Order) (trades : List Trade)
    (updatedOrders : List Order) : List Order → LoopState
  | [] => { taker := taker, pre := pre, suf := [], trades := trades,
            updatedOrders := updatedOrders }
  | maker :: rest =>
    if 0 < taker.RemainingQuantity then
      if crossCan isBuy taker maker then
        let r := crossStep isBuy taker maker
        if r.2.2.RemainingQuantity = 0 then
          crossLoop isBuy r.2.1 pre (trades ++ [r.1]) (updatedOrders ++ [r.2.2]) rest
        else
          crossLoop isBuy r.2.1 (pre ++ [r.2.2]) (trades ++ [r.1]) (updatedOrders ++ [r.2.2]) rest
      else { taker := taker, pre := pre, suf := maker :: rest, trades := trades,
             updatedOrders := updatedOrders }
    else { taker := taker, pre := pre, suf := maker :: rest, trades := trades,
           updatedOrders := updatedOrders }

/-- The crossing of a taker against an opposite side, from the initial loop
state. -/
def cross (isBuy : Bool) (taker : Order) (opp : List Order) : LoopState :=
  crossLoop isBuy taker [] [] [] opp

/-- The result of the `matchBuyOrder` or `matchSellOrder` call of `ProcessOrder`. -/
def matchOrder (order : Order) (book : OrderBook) : MatchResult :=
  if order.Side = "buy" then matchBuyOrder order book else matchSellOrder order book


/-- Whether `ProcessOrder` sends the order to `matchBuyOrder`. -/
def isBuy (order : Order) : Bool := decide (order.Side = "buy")

/-- The book with the side opposite to the taker replaced. -/
def setOpposite (book : OrderBook) (order : Order) (side : List Order) : OrderBook :=
  if order.Side = "buy" then { book with SellOrders := side } else { book with BuyOrders := side }

/-- The batch `ProcessOrder` hands to the sink. -/
def batchOf (m : MatchResult) : CommitBatch :=
  { order := m.order, trades := m.trades, updatedOrders := m.updatedOrders }

/-! ## handlers/orders.go: what reaches the engine -/

/-- Request record of `models/order.go`. The Go field `Type` is called `Typ` here. -/
structure PlaceOrderRequest where
  Symbol : String
  Side : String
  Typ : String
  Price : Option Rat
  Quantity : Int
deriving DecidableEq

/-- Go `validateOrderRequest`: `none` is Go `nil`, `some msg` the error with that
message. Go `len` on a string counts bytes. -/
def validateOrderRequest (req : PlaceOrderRequest) : Option String :=
  if req.Symbol = "" then some "symbol is required"
  else if req.Symbol.utf8ByteSize > 50 then some "symbol too long (max 50 characters)"
  else if req.Side = "" then some "side is required"
  else if req.Typ = "" then some "type is required"
  else if req.Quantity ≤ 0 then some "quantity must be positive"
  else if req.Side ≠ "buy" ∧ req.Side ≠ "sell" then some "side must be 'buy' or 'sell'"
  else if req.Typ ≠ "limit" ∧ req.Typ ≠ "market" then some "type must be 'limit' or 'market'"
  else if req.Typ = "limit" ∧ req.Price = none then some "price required for limit orders"
  else if req.Typ = "limit" ∧ (∃ p, req.Price = some p ∧ p ≤ 0) then
    some "price must be positive"
  else if req.Typ = "market" ∧ req.Price ≠ none then some "market orders should not have price"
  else none

/-- The order `PlaceOrder` builds from a request, with the uuid and the clock
reading it draws. -/
def orderOfRequest (req : PlaceOrderRequest) (id : String) (now : Int) : Order :=
  { ID := id, Symbol := req.Symbol, Side := req.Side, Typ := req.Typ, Price := req.Price,
    InitialQuantity := req.Quantity, RemainingQuantity := req.Quantity, Status := "open",
    CreatedAt := now }

/-- The request an order was built from. -/
def requestOf (o : Order) : PlaceOrderRequest :=
  { Symbol := o.Symbol, Side := o.Side, Typ := o.Typ, Price := o.Price,
    Quantity := o.InitialQuantity }

/-- A validated order: an order as `PlaceOrder` hands it to `ProcessOrder`, built
from a request that `validateOrderRequest` accepts (the quantity is a Go `int`). -/
def Validated (o : Order) : Prop :=
  validateOrderRequest (requestOf o) = none ∧ o.RemainingQuantity = o.InitialQuantity ∧
  o.Status = "open" ∧ o.InitialQuantity < 2 ^ 63

/-! ## Sample orders (symbol `X`) -/

/-- A fresh limit order. -/
def limitOrder (id side : String) (price : Rat) (qty t : Int) : Order :=
  orderOfRequest { Symbol := "X", Side := side, Typ := "limit", Price := some price,
                   Quantity := qty } id t

/-- A fresh market order. -/
def marketOrder (id side : String) (qty t : Int) : Order :=
  orderOfRequest { Symbol := "X", Side := side, Typ := "market", Price := none,
                   Quantity := qty } id t

/-- The engine after the given orders, processed in turn with a sink that
accepts. -/
def engineAfter (orders : List Order) : MatchingEngine :=
  orders.foldl (fun me o => (ProcessOrder okSink me (some o)).engine) NewMatchingEngine

instance (o : Order) : Decidable (Validated o) := by
  unfold Validated; infer_instance

instance (o : Order) : Decidable (PricedLimit o) := by
  unfold PricedLimit; infer_instance

instance (a b : Order) : Decidable (SameOrder a b) := by
  unfold SameOrder; infer_instance

/-! ## Priority order of a side, in the words of the specification -/

/-- Bid `a` may stand before bid `b`: both are priced and `a` has the higher
price, or the same price and a `created_at` that is not later. -/
def bidPriority (a b : Order) : Prop :=
  match a.Price, b.Price with
  | some pa, some pb => pb < pa ∨ (pa = pb ∧ a.CreatedAt ≤ b.CreatedAt)
  | _, _ => False

/-- Ask `a` may stand before ask `b`: both are priced and `a` has the lower
price, or the same price and a `created_at` that is not later. -/
def askPriority (a b : Order) : Prop :=
  match a.Price, b.Price with
  | some pa, some pb => pa < pb ∨ (pa = pb ∧ a.CreatedAt ≤ b.CreatedAt)
  | _, _ => False

/-- Bid `a` has priority over bid `b`: a better (higher) price, or the same price
and an earlier `created_at`. -/
def bidBetter (a b : Order) : Prop :=
  match a.Price, b.Price with
  | some pa, some pb => pb < pa ∨ (pa = pb ∧ a.CreatedAt < b.CreatedAt)
  | _, _ => False

/-- Ask `a` has priority over ask `b`: a better (lower) price, or the same price
and an earlier `created_at`. -/
def askBetter (a b : Order) : Prop :=
  match a.Price, b.Price with
  | some pa, some pb => pa < pb ∨ (pa = pb ∧ a.CreatedAt < b.CreatedAt)
  | _, _ => False

instance (a b : Order) : Decidable (bidPriority a b) := by
  unfold bidPriority; split <;> infer_instance

instance (a b : Order) : Decidable (askPriority a b) := by
  unfold askPriority; split <;> infer_instance

instance (a b : Order) : Decidable (bidBetter a b) := by
  unfold bidBetter; split <;> infer_instance

instance (a b : Order) : Decidable (askBetter a b) := by
  unfold askBetter; split <;> infer_instance

/-- The bids are in priority order: (price descending, created_at ascending). -/
def SortedBids (bids : List Order) : Prop := bids.Pairwise bidPriority

/-- The asks are in priority order: (price ascending, created_at ascending). -/
def SortedAsks (asks : List Order) : Prop := asks.Pairwise askPriority

instance (l : List Order) : Decidable (SortedBids l) := by
  unfold SortedBids; infer_instance

instance (l : List Order) : Decidable (SortedAsks l) := by
  unfold SortedAsks; infer_instance

/-- The side opposite to the taker is in priority order. -/
def OppositeSorted (book : OrderBook) (taker : Order) : Prop :=
  if taker.Side = "buy" then SortedAsks book.SellOrders else SortedBids book.BuyOrders

/-- Resting order `a` has priority over resting order `b` on the side opposite to
the taker. -/
def oppositeBetter (taker a b : Order) : Prop :=
  if taker.Side = "buy" then askBetter a b else bidBetter a b

instance (book : OrderBook) (taker : Order) : Decidable (OppositeSorted book taker) := by
  unfold OppositeSorted; infer_instance

instance (taker a b : Order) : Decidable (oppositeBetter taker a b) := by
  unfold oppositeBetter; infer_instance

/-- A sink that rejects every batch. -/
def failSink : CommitSink := fun _ => some "commit failed"

/-- A limit order built without a price, as the engine receives it when the
transport validation is bypassed. -/
def pricelessLimitOrder (id side : String) (qty t : Int) : Order :=
  orderOfRequest { Symbol := "X", Side := side, Typ := "limit", Price := none,
                   Quantity := qty } id t

/-! ## The book is not crossed -/

/-- Every bid's price is strictly below every ask's price. -/
def NoCross (book : OrderBook) : Prop :=
  ∀ b ∈ book.BuyOrders, ∀ a ∈ book.SellOrders,
    ∃ pb pa, b.Price = some pb ∧ a.Price = some pa ∧ pb < pa

/-- The highest price on a side, if the side has a priced order. -/
def maxPrice (side : List Order) : Option Rat := (side.filterMap (fun o => o.Price)).max?

/-- The lowest price on a side, if the side has a priced order. -/
def minPrice (side : List Order) : Option Rat := (side.filterMap (fun o => o.Price)).min?

/-- Every resting order has a price, both sides are in priority order and the
book is not crossed. -/
def BookOrdered (book : OrderBook) : Prop :=
  (∀ x ∈ book.BuyOrders, x.Price.isSome = true) ∧
  (∀ x ∈ book.SellOrders, x.Price.isSome = true) ∧
  SortedBids book.BuyOrders ∧ SortedAsks book.SellOrders ∧ NoCross book

/-- Priority order of the bids (`true`) or of the asks (`false`). -/
def sidePriority (isBid : Bool) : Order → Order → Prop :=
  if isBid then bidPriority else askPriority

/-- Insertion among the bids (`true`) or among the asks (`false`). -/
def insertSorted (isBid : Bool) : List Order → Order → List Order :=
  if isBid then insertSortedBuy else insertSortedSell

/-- An order of the taker's side and an order of the opposite side do not cross:
the bid's price is strictly below the ask's. -/
def priceBelow (isBuy : Bool) (own opp : Order) : Prop :=
  ∃ po pp, own.Price = some po ∧ opp.Price = some pp ∧ (if isBuy then po < pp else pp < po)

/-! ## database/transactions.go and runs of the engine -/

/-- The two tables the engine writes. -/
structure Database where
  orders : List Order
  trades : List Trade
deriving DecidableEq

/-- Go `updateOrderTx`:
`UPDATE orders SET remaining_quantity = ?, status = ? WHERE id = ?`. -/
def updateOrderTx (rows : List Order) (u : Order) : List Order :=
  rows.map (fun r =>
    if r.ID = u.ID then { r with RemainingQuantity := u.RemainingQuantity, Status := u.Status }
    else r)

/-- One row after the updates of a batch, applied in turn. -/
def updatedRow (updatedOrders : List Order) (row : Order) : Order :=
  updatedOrders.foldl (fun r u =>
    if r.ID = u.ID then { r with RemainingQuantity := u.RemainingQuantity, Status := u.Status }
    else r) row

/-- The sum of the quantities of the trades that name the order id as their buy
order or as their sell order. -/
def tradedQuantity (trades : List Trade) (id : String) : Int :=
  ((trades.filter (fun t => decide (t.BuyOrderID = id ∨ t.SellOrderID = id))).map
    Trade.Quantity).sum

/-- Go `ExecuteOrderMatching` when the transaction commits: the new order is
inserted, then the trades, then every updated order is written by id. -/
def ExecuteOrderMatching (db : Database) (batch : CommitBatch) : Database :=
  { orders := batch.updatedOrders.foldl updateOrderTx (db.orders ++ [batch.order]),
    trades := db.trades ++ batch.trades }

/-- The engine together with the database behind its sink. -/
structure Exchange where
  engine : MatchingEngine
  db : Database
deriving DecidableEq

/-- One `ProcessOrder` call whose commit succeeds. -/
def place (x : Exchange) (o : Order) : Exchange :=
  { engine := (ProcessOrder okSink x.engine (some o)).engine,
    db := (ProcessOrder okSink x.engine (some o)).sinkCalls.foldl ExecuteOrderMatching x.db }

/-- The empty engine over empty tables. -/
def emptyExchange : Exchange := { engine := NewMatchingEngine, db := { orders := [], trades := [] } }

/-- The state after processing the given orders in turn, from the empty engine,
every commit succeeding. -/
def run (orders : List Order) : Exchange := orders.foldl place emptyExchange

/-- What the accounting needs of one side of the book of `symbol`: every resting
order is a row of the orders table, has a positive remaining quantity (a Go
`int`), carries the book's symbol and the side it rests on, and no two resting
orders share an id. -/
def SideOK (rows : List Order) (symbol : String) (isBid : Bool) (side : List Order) : Prop :=
  (∀ b ∈ side, b ∈ rows ∧ 0 < b.RemainingQuantity ∧ b.RemainingQuantity < 2 ^ 63 ∧
    b.Symbol = symbol ∧ (b.Side = "buy" ↔ isBid = true)) ∧
  (side.map Order.ID).Nodup

/-- Invariant of a run behind the accounting: the rows of the orders table are
the orders seen so far (up to remaining quantity and status), every row's
remaining quantity is its initial quantity less the quantity traded under its
id, trades only name orders seen, and both sides of every book are `SideOK`. -/
def RunInv (x : Exchange) (seen : List Order) : Prop :=
  List.Forall₂ SameOrder x.db.orders seen ∧
  (∀ r ∈ x.db.orders,
    r.RemainingQuantity = r.InitialQuantity - tradedQuantity x.db.trades r.ID) ∧
  (∀ t ∈ x.db.trades, t.BuyOrderID ∈ seen.map Order.ID ∧ t.SellOrderID ∈ seen.map Order.ID) ∧
  (∀ symbol, SideOK x.db.orders symbol true (bookOf x.engine symbol).BuyOrders ∧
    SideOK x.db.orders symbol false (bookOf x.engine symbol).SellOrders)

/-! ## Resting orders, their quantities and statuses -/

/-- The resting-order invariant on one order: a limit order with a price, status
open or partial and something left. -/
def Resting (o : Order) : Prop :=
  o.Typ = "limit" ∧ o.Price.isSome = true ∧ (o.Status = "open" ∨ o.Status = "partial") ∧
  0 < o.RemainingQuantity

/-- The resting-order invariant on a book: the bids are resting buys and the
asks are resting sells. -/
def RestingBook (book : OrderBook) : Prop :=
  (∀ b ∈ book.BuyOrders, Resting b ∧ b.Side = "buy") ∧
  (∀ a ∈ book.SellOrders, Resting a ∧ a.Side = "sell")

/-- The remaining quantity does not exceed the initial quantity, a Go `int`. -/
def Bounded (o : Order) : Prop :=
  o.RemainingQuantity ≤ o.InitialQuantity ∧ o.InitialQuantity < 2 ^ 63

/-- The order has a positive price. -/
def PositivePrice (o : Order) : Prop := ∃ p, o.Price = some p ∧ 0 < p

/-- The status says filled exactly when nothing is left and partial exactly when
something but not everything is left. -/
def StatusMatches (o : Order) : Prop :=
  (o.Status = "filled" ↔ o.RemainingQuantity = 0) ∧
  (o.Status = "partial" ↔ 0 < o.RemainingQuantity ∧ o.RemainingQuantity < o.InitialQuantity)

/-- The resting-order invariant on a book together with the bounds on the
quantities and the positivity of the prices. -/
def RestingBounded (book : OrderBook) : Prop :=
  RestingBook book ∧
  ∀ x ∈ book.BuyOrders ++ book.SellOrders, Bounded x ∧ PositivePrice x

instance (o : Order) : Decidable (Resting o) := by
  unfold Resting; infer_instance

instance (book : OrderBook) : Decidable (RestingBook book) := by
  unfold RestingBook; infer_instance

instance (o : Order) : Decidable (Bounded o) := by
  unfold Bounded; infer_instance

instance (o : Order) : Decidable (StatusMatches o) := by
  unfold StatusMatches; infer_instance

/-- One side of a book under `RestingBounded`: the bids for `true`, the asks for
`false`. -/
def SideResting (isBid : Bool) (side : List Order) : Prop :=
  ∀ x ∈ side, Resting x ∧ Bounded x ∧ PositivePrice x ∧
    x.Side = (if isBid then "buy" else "sell")

instance (o : Order) : Decidable (PositivePrice o) := by
  unfold PositivePrice; infer_instance

instance (book : OrderBook) : Decidable (RestingBounded book) := by
  unfold RestingBounded; infer_instance

/-- A well-formed trade among the orders seen: positive quantity and price, two
different orders, the buy order a buy and the sell order a sell. -/
def TradeOK (seen : List Order) (t : Trade) : Prop :=
  0 < t.Quantity ∧ 0 < t.Price ∧ t.BuyOrderID ≠ t.SellOrderID ∧
  (∃ b ∈ seen, b.ID = t.BuyOrderID ∧ b.Side = "buy") ∧
  (∃ a ∈ seen, a.ID = t.SellOrderID ∧ a.Side = "sell")

/-! ## Symbols -/

/-- Every character of the string is an ASCII character. -/
def isASCII (s : String) : Prop := ∀ c ∈ s.data, c.val ≤ 0x7F

instance (s : String) : Decidable (isASCII s) := by
  unfold isASCII; infer_instance

/-- A request that is valid but for its symbol. -/
def requestWithSymbol (symbol : String) : PlaceOrderRequest :=
  { Symbol := symbol, Side := "buy", Typ := "limit", Price := some 100, Quantity := 1 }

/-! ## CancelOrder, with the orders table as the order store

`database.GetOrderByID` and `database.UpdateOrder` return the error of the
database connection when their statement fails. `StoreFaults` gives, for one
`CancelOrder` call, the error of each of the two statements, `none` when the
statement succeeds. -/

/-- The errors of the two database statements of one `CancelOrder` call: of the
`SELECT` of `GetOrderByID` (other than `sql.ErrNoRows`) and of the `UPDATE` of
`UpdateOrder`. -/
structure StoreFaults where
  getErr : Option String
  updateErr : Option String
deriving DecidableEq

/-- Go error values of `CancelOrder`: the sentinel `utils.ErrOrderNotFound`, which
callers recognise with `errors.Is`, the errors made by `fmt.Errorf`, and the
error of the database connection that `UpdateOrder` returns as it is. -/
inductive GoError where
  | ErrOrderNotFound
  | Errorf (msg : String)
  | driver (msg : String)
deriving DecidableEq

/-- Go `GetOrderByID` when the `SELECT` succeeds: the row with the id, `none` for
`(nil, nil)`. -/
def GetOrderByID (db : Database) (id : String) : Option Order :=
  db.orders.find? (fun r => r.ID = id)

/-- Go `UpdateOrder` when the `UPDATE` succeeds:
`UPDATE orders SET remaining_quantity = ?, status = ? WHERE id = ?`. -/
def UpdateOrder (db : Database) (order : Order) : Database :=
  { db with orders := updateOrderTx db.orders order }

/-- Go `RemoveOrder`: the first buy order with the id is removed, and only when
there is none the first sell order with the id. -/
def RemoveOrder (ob : OrderBook) (orderID : String) : OrderBook :=
  if ob.BuyOrders.any (fun o => o.ID = orderID) then
    { ob with BuyOrders := ob.BuyOrders.eraseP (fun o => o.ID = orderID) }
  else { ob with SellOrders := ob.SellOrders.eraseP (fun o => o.ID = orderID) }

/-- Go `CancelOrder`: the returned error and the state it leaves. A failing
`SELECT` is wrapped by `fmt.Errorf("failed to get order: %w", err)`. The order
is removed from the book before the `UPDATE`, and the error of a failing
`UPDATE`, which writes no row, is returned as it is. -/
def CancelOrder (faults : StoreFaults) (x : Exchange) (orderID : String) :
    Option GoError × Exchange :=
  match faults.getErr with
  | some e => (some (GoError.Errorf ("failed to get order: " ++ e)), x)
  | none =>
    match GetOrderByID x.db orderID with
    | none => (some GoError.ErrOrderNotFound, x)
    | some order =>
      if order.Status = "filled" ∨ order.Status = "cancelled" then
        (some (GoError.Errorf ("cannot cancel order with status: " ++ order.Status)), x)
      else
        let engine1 :=
          match lookupBook x.engine order.Symbol with
          | some book => storeBook x.engine order.Symbol (RemoveOrder book orderID)
          | none => x.engine
        match faults.updateErr with
        | some e => (some (GoError.driver e), { engine := engine1, db := x.db })
        | none =>
          (none, { engine := engine1,
                   db := UpdateOrder x.db { order with Status := "cancelled" } })

/-- One call of the engine: `ProcessOrder` with the sink it commits through, or
`CancelOrder` with the errors of its database statements. -/
inductive Call where
  | process (sink : CommitSink) (order : Order)
  | cancel (faults : StoreFaults) (orderID : String)

/-- The state after one call. The sink of `ProcessOrder` is the transaction of
`ExecuteOrderMatching`: the tables change when it returns no error and are
rolled back when it returns one. -/
def applyCall (x : Exchange) : Call → Exchange
  | Call.process sink order =>
    { engine := (ProcessOrder sink x.engine (some order)).engine,
      db := (ProcessOrder sink x.engine (some order)).sinkCalls.foldl
        (fun db batch => if sink batch = none then ExecuteOrderMatching db batch else db) x.db }
  | Call.cancel faults orderID => (CancelOrder faults x orderID).2

/-- The state after the given calls in turn, from the empty engine over empty
tables. -/
def runCalls (calls : List Call) : Exchange := calls.foldl applyCall emptyExchange

/-- The ids of the orders handed to `ProcessOrder` by the calls, in turn. -/
def processedIDs : List Call → List String
  | [] => []
  | Call.process _ order :: rest => order.ID :: processedIDs rest
  | Call.cancel _ _ :: rest => processedIDs rest

/-- The ids of the orders resting in a book, the bids first. -/
def restingIDs (book : OrderBook) : List String :=
  (book.BuyOrders ++ book.SellOrders).map Order.ID

/-- No two orders resting in one book share an id, and every resting id is one
of `seen`. -/
def IdsOK (me : MatchingEngine) (seen : List String) : Prop :=
  ∀ symbol, (restingIDs (bookOf me symbol)).Nodup ∧
    ∀ i ∈ restingIDs (bookOf me symbol), i ∈ seen

/-- Three resting bids and a resting ask, every commit succeeding. -/
def restingCalls : List Call :=
  [Call.process okSink (limitOrder "b1" "buy" 10 1 1),
   Call.process okSink (limitOrder "b2" "buy" 9 2 2),
   Call.process okSink (limitOrder "b3" "buy" 8 3 3),
   Call.process okSink (limitOrder "s1" "sell" 11 4 4)]

/-! ## handlers/orders.go: aggregation of a side into price levels -/

/-- Go `OrderBookLevel` of `models/orderbook.go`. -/
structure OrderBookLevel where
  Price : Rat
  Quantity : Int
  Timestamp : Int
  QueuePosition : Nat
deriving DecidableEq

/-- Go local type `priceInfo`. -/
structure priceInfo where
  Quantity : Int
  EarliestTime : Int
  QueuePosition : Nat
deriving DecidableEq

/-- The Go map `priceMap`, as an association list with one entry per price, in the
order in which the prices were first written. -/
abbrev PriceMap := List (Rat × priceInfo)

/-- Body of the loop `for i, order := range orders` of `formatBidsWithTimestamp`
and `formatAsksWithTimestamp`. -/
def addToPriceMap (priceMap : PriceMap) (i : Nat) (order : Order) : PriceMap :=
  match order.Price with
  | none => priceMap
  | some p =>
    if priceMap.any (fun e => e.1 = p) then
      priceMap.map (fun e =>
        if e.1 = p then
          (e.1,
            { Quantity := wrapInt64 (e.2.Quantity + order.RemainingQuantity),
              EarliestTime :=
                if order.CreatedAt < e.2.EarliestTime then order.CreatedAt
                else e.2.EarliestTime,
              QueuePosition :=
                if order.CreatedAt < e.2.EarliestTime then i + 1 else e.2.QueuePosition })
        else e)
    else
      priceMap ++ [(p, { Quantity := order.RemainingQuantity, EarliestTime := order.CreatedAt,
                         QueuePosition := i + 1 })]

/-- The loop `for i, order := range orders`, from index `i` on. -/
def priceMapLoop (priceMap : PriceMap) (i : Nat) : List Order → PriceMap
  | [] => priceMap
  | order :: rest => priceMapLoop (addToPriceMap priceMap i order) (i + 1) rest

/-- The loop `for price, info := range priceMap`, for one iteration order of the
map. -/
def levelsOf (priceMap : PriceMap) : List OrderBookLevel :=
  priceMap.map (fun e =>
    { Price := e.1, Quantity := e.2.Quantity, Timestamp := e.2.EarliestTime,
      QueuePosition := e.2.QueuePosition })

/-- Go `sort.Slice` with the given `less`, as an insertion sort: the result is a
permutation of the slice in which no element is less than an earlier one. -/
def sortSlice (less : OrderBookLevel → OrderBookLevel → Bool) (levels : List OrderBookLevel) :
    List OrderBookLevel :=
  levels.insertionSort (fun a b => less b a = false)

/-- Go `formatBidsWithTimestamp`, the map being iterated in the order of its
association list. -/
def formatBidsWithTimestamp (orders : List Order) : List OrderBookLevel :=
  if orders.length = 0 then []
  else sortSlice (fun a b => decide (b.Price < a.Price)) (levelsOf (priceMapLoop [] 0 orders))

/-- Go `formatAsksWithTimestamp`, the map being iterated in the order of its
association list. -/
def formatAsksWithTimestamp (orders : List Order) : List OrderBookLevel :=
  if orders.length = 0 then []
  else sortSlice (fun a b => decide (a.Price < b.Price)) (levelsOf (priceMapLoop [] 0 orders))

/-- The sum of the remaining quantities of the orders at price `p`. -/
def levelQuantity (orders : List Order) (p : Rat) : Int :=
  ((orders.filter (fun o => decide (o.Price = some p))).map
    (fun o => o.RemainingQuantity)).sum

/-- What a level says of the orders at its price `p`: the quantity is the sum of
their remaining quantities in the 64-bit arithmetic of Go; the time is the
`created_at` of the order at index `k`, no order at that price is earlier and
those before index `k` are later; the queue position is `k + 1`. -/
def EntrySpec (orders : List Order) (p : Rat) (quantity time : Int) (position : Nat) : Prop :=
  quantity = wrapInt64 (levelQuantity orders p) ∧
  (∃ (k : Nat) (o : Order), orders[k]? = some o ∧ o.Price = some p ∧ o.CreatedAt = time ∧
    position = k + 1 ∧
    ∀ (j : Nat) (o2 : Order), j < k → orders[j]? = some o2 → o2.Price = some p →
      time < o2.CreatedAt) ∧
  (∀ o ∈ orders, o.Price = some p → time ≤ o.CreatedAt)

/-- The level aggregates the orders at its price. -/
def LevelSpec (orders : List Order) (l : OrderBookLevel) : Prop :=
  EntrySpec orders l.Price l.Quantity l.Timestamp l.QueuePosition

/-- The map aggregates the orders: one entry per price of an order, each entry
aggregating the orders at its price. -/
def Aggregates (orders : List Order) (priceMap : PriceMap) : Prop :=
  (priceMap.map Prod.fst).Nodup ∧
  (∀ p, p ∈ priceMap.map Prod.fst ↔ ∃ o ∈ orders, o.Price = some p) ∧
  ∀ e ∈ priceMap, EntrySpec orders e.1 e.2.Quantity e.2.EarliestTime e.2.QueuePosition

/-- Go `GetTopBids`, for a limit that is not negative: the first `limit` bids. -/
def GetTopBids (ob : OrderBook) (limit : Nat) : List Order := ob.BuyOrders.take limit

/-- Go `GetTopAsks`, for a limit that is not negative: the first `limit` asks. -/
def GetTopAsks (ob : OrderBook) (limit : Nat) : List Order := ob.SellOrders.take limit

/-- The top bids of the book after two bids of 2^62 units each at the price 100. -/
def heavyBids : List Order :=
  GetTopBids (bookOf (run [limitOrder "a" "buy" 100 4611686018427387904 1,
    limitOrder "b" "buy" 100 4611686018427387904 2]).engine "X") 10

/-- Two bids at 100 and one at 101, the later bid at 100 created first. -/
def sampleBids : List Order :=
  [limitOrder "c" "buy" 101 1 6, limitOrder "a" "buy" 100 2 5, limitOrder "b" "buy" 100 3 4]

/-! ## float64 subtraction

A float64 price is modelled by the rational it denotes. The engine compares
prices, which is exact; the handler subtracts two prices, which is not: the
result of a float64 subtraction is the exact difference rounded to the nearest
float64, to the one with an even significand when two are equally near, and to
an infinity when that is out of range (IEEE 754 binary64: significands of 53
bits, exponents of the unit in the last place from -1074 to 971). -/

/-- A float64 value that is not NaN: a finite value, by the rational it denotes,
or an infinity. -/
inductive Float64 where
  | finite (value : Rat)
  | infinite (negative : Bool)
deriving DecidableEq

/-- The natural number nearest to `p / q` (for positive `q`), the even one of two
that are equally near. -/
def roundHalfEven (p q : Nat) : Nat :=
  if 2 * (p % q) < q then p / q
  else if q < 2 * (p % q) then p / q + 1
  else if (p / q) % 2 = 0 then p / q
  else p / q + 1

/-- Halving `n` until it is below 2, at most `fuel` times: the number of
halvings. `log2Loop_spec` shows that `n` halvings are enough. -/
def log2Loop : Nat → Nat → Nat
  | 0, _ => 0
  | fuel + 1, n => if 2 ≤ n then log2Loop fuel (n / 2) + 1 else 0

/-- The number `k` with `2^k ≤ n < 2^(k+1)`, for positive `n`. -/
def log2 (n : Nat) : Nat := log2Loop n n

/-- The integer `k` with `2^k ≤ n / d < 2^(k+1)`, for positive `n` and `d`: it is
`log2 n - log2 d` or one less. -/
def floorLog2 (n d : Nat) : Int :=
  if d * 2 ^ ((log2 n : Int) - (log2 d : Int)).toNat ≤
      n * 2 ^ ((log2 d : Int) - (log2 n : Int)).toNat then (log2 n : Int) - (log2 d : Int)
  else (log2 n : Int) - (log2 d : Int) - 1

/-- The exponent `e` of the unit in the last place of float64 at a rational `x`
other than 0: significands have 53 bits, so `e` is 52 below the exponent of
`|x|`, and it is not below -1074. -/
def ulpExponent (x : Rat) : Int := max (floorLog2 x.num.natAbs x.den - 52) (-1074)

/-- The integer nearest to `|x| / 2^e`, ties to even, for `e = ulpExponent x`: the
significand of the float64 nearest to `x`. -/
def significand (x : Rat) : Nat :=
  roundHalfEven (x.num.natAbs * 2 ^ (-ulpExponent x).toNat) (x.den * 2 ^ (ulpExponent x).toNat)

/-- The least power of two above every finite float64: `2^1024`. -/
@[irreducible] def float64Limit : Nat := 2 ^ 1024

/-- The float64 nearest to the rational `x`: with `e` the exponent of the unit in
the last place at `x` and `m` the integer nearest to `|x| / 2^e`, ties to even,
it is `m * 2^e` with the sign of `x`, or the infinity of that sign when
`m * 2^e` reaches `2^1024`. -/
def roundFloat64 (x : Rat) : Float64 :=
  if x = 0 then Float64.finite 0
  else if float64Limit ≤ significand x * 2 ^ (ulpExponent x).toNat then
    Float64.infinite (decide (x < 0))
  else Float64.finite ((if x < 0 then -1 else 1) * (significand x : Rat) * 2 ^ ulpExponent x)

/-- Go `a - b` on two finite float64 values: the exact difference, rounded. -/
def float64Sub (a b : Rat) : Float64 := roundFloat64 (a - b)

/-- The float64 value is not negative. -/
def notNegative : Float64 → Prop
  | Float64.finite value => 0 ≤ value
  | Float64.infinite negative => negative = false

instance (f : Float64) : Decidable (notNegative f) := by
  cases f <;> unfold notNegative <;> infer_instance

/-! ## handlers/orders.go: the spread -/

/-- Go `calculateSpread`: `none` is the nil pointer. -/
def calculateSpread (bids asks : List OrderBookLevel) : Option Float64 :=
  if bids.length = 0 ∨ asks.length = 0 then none
  else
    match asks[0]?, bids[0]? with
    | some a, some b => some (float64Sub a.Price b.Price)
    | _, _ => none

/-- The field `Spread` of the response of the handler `GetOrderBook` for a book:
the spread of the aggregated top 10 bids and top 10 asks. -/
def bookSpread (book : OrderBook) : Option Float64 :=
  calculateSpread (formatBidsWithTimestamp (GetTopBids book 10))
    (formatAsksWithTimestamp (GetTopAsks book 10))

/-- The book after an ask at 9007199254740994 (2^53 + 2) and a bid at 1, two
prices that float64 holds exactly. -/
def wideBook : OrderBook :=
  bookOf (run [limitOrder "s" "sell" 9007199254740994 1 1,
    limitOrder "b" "buy" 1 1 2]).engine "X"

/-! ## matching_engine.go: the read operations -/

/-- Go `GetOrderBook` of the engine: `getOrderBook` under the read lock. The
result is the book together with the engine the call leaves. -/
def GetOrderBook (me : MatchingEngine) (symbol : String) : OrderBook × MatchingEngine :=
  getOrderBook me symbol

/-- One entry of the map `GetAllOrderBooks` returns: the symbol and, for the top
10 orders of each side that have a price, the pair (price, quantity). -/
structure SimpleBook where
  symbol : String
  bids : List (Rat × Int)
  asks : List (Rat × Int)
deriving DecidableEq

/-- Go `GetAllOrderBooks`: the returned map (one entry per symbol of the engine's
map) together with the engine the call leaves; the function writes nothing. -/
def GetAllOrderBooks (me : MatchingEngine) : List SimpleBook × MatchingEngine :=
  (me.orderBooks.map (fun e =>
    { symbol := e.1,
      bids := (GetTopBids e.2 10).filterMap
        (fun order => order.Price.map (fun p => (p, order.RemainingQuantity))),
      asks := (GetTopAsks e.2 10).filterMap
        (fun order => order.Price.map (fun p => (p, order.RemainingQuantity))) }), me)

/-- The symbols of the engine's map. -/
def symbolsOf (me : MatchingEngine) : List String := me.orderBooks.map Prod.fst

/-! ## Scenario 3 of the specification: walk the book -/

/-- The engine with the asks 100 x 2 (t=1), 101 x 4 (t=2) and 102 x 1 (t=3) resting. -/
def walkEngine : MatchingEngine :=
  engineAfter [limitOrder "s1" "sell" 100 2 1, limitOrder "s2" "sell" 101 4 2,
    limitOrder "s3" "sell" 102 1 3]

/-- The market buy of 5 of scenario 3. -/
def walkTaker : Order := marketOrder "b" "buy" 5 4

/-- Every order resting in a book of the engine carries the symbol the book is
kept under. -/
def SymbolsOK (me : MatchingEngine) : Prop :=
  ∀ (symbol : String) (x : Order),
    x ∈ (bookOf me symbol).BuyOrders ∨ x ∈ (bookOf me symbol).SellOrders → x.Symbol = symbol

/-! ## The crossing loop, iteration by iteration

The loops above follow the opposite side by recursion. Here the `for` loop of
`matchBuyOrder` (`true`) and of `matchSellOrder` (`false`) is written as the
source has it, with the index `i` and the slice of the book, one iteration at a
time, so that its termination is a statement and not a property of the
recursion. -/

/-- State of the `for` loop: the index `i`, the opposite side of the book
(`book.SellOrders` for a buy, `book.BuyOrders` otherwise), the taker and the two
slices the loop builds. -/
structure IndexState where
  i : Nat
  side : List Order
  taker : Order
  trades : List Trade
  updatedOrders : List Order
deriving DecidableEq

/-- One iteration of `for i := 0; i < len(side) && taker.RemainingQuantity > 0; { ... }`:
`none` when the loop condition fails or the body breaks, else the state after
the body: the filled maker is cut out of the slice at `i`, or `i` advances past
the maker that is left. -/
def loopIteration (isBuy : Bool) (s : IndexState) : Option IndexState :=
  if s.i < s.side.length ∧ 0 < s.taker.RemainingQuantity then
    match s.side[s.i]? with
    | none => none
    | some maker =>
      if crossCan isBuy s.taker maker then
        let r := crossStep isBuy s.taker maker
        if r.2.2.RemainingQuantity = 0 then
          some { i := s.i, side := s.side.take s.i ++ s.side.drop (s.i + 1), taker := r.2.1,
                 trades := s.trades ++ [r.1], updatedOrders := s.updatedOrders ++ [r.2.2] }
        else
          some { i := s.i + 1, side := s.side.set s.i r.2.2, taker := r.2.1,
                 trades := s.trades ++ [r.1], updatedOrders := s.updatedOrders ++ [r.2.2] }
      else none
  else none

/-- The loop run for at most `fuel` iterations: the state in which the loop exits,
or `none` when it has not exited after `fuel` iterations. -/
def runLoop (isBuy : Bool) : Nat → IndexState → Option IndexState
  | 0, s =>
    match loopIteration isBuy s with
    | none => some s
    | some _ => none
  | fuel + 1, s =>
    match loopIteration isBuy s with
    | none => some s
    | some s1 => runLoop isBuy fuel s1

/-- The state after exactly `n` iterations, `none` when the loop exits earlier. -/
def afterIterations (isBuy : Bool) : Nat → IndexState → Option IndexState
  | 0, s => some s
  | n + 1, s =>
    match loopIteration isBuy s with
    | none => none
    | some s1 => afterIterations isBuy n s1

/-- The state in which the loop starts. -/
def initLoop (taker : Order) (side : List Order) : IndexState :=
  { i := 0, side := side, taker := taker, trades := [], updatedOrders := [] }

/-- The state of the recursive loop as a state of the indexed loop. -/
def indexState (s : LoopState) : IndexState :=
  { i := s.pre.length, side := s.pre ++ s.suf, taker := s.taker, trades := s.trades,
    updatedOrders := s.updatedOrders }

/-- The book after an ask at the float64 nearest to 2.1 and a bid at the float64
nearest to 0.01, as JSON decoding yields them. -/
def decimalBook : OrderBook :=
  bookOf (run [limitOrder "s" "sell" (4728779608739021 / 2251799813685248) 1 1,
    limitOrder "b" "buy" (5764607523034235 / 576460752303423488) 1 2]).engine "X"
/-! ## Lemmas on the loop -/

theorem buyLoop_eq_crossLoop (suf : List Order) :
    ∀ (o : Order) (pre : List Order) (tr : List Trade) (upd : List Order),
      buyLoop o pre tr upd suf = crossLoop true o pre tr upd suf := by
  induction suf with
  | nil => intro o pre tr upd; rfl
  | cons m rest ih =>
    intro o pre tr upd
    simp only [buyLoop, crossLoop, crossCan, crossStep, if_true, ih]

theorem sellLoop_eq_crossLoop (suf : List Order) :
    ∀ (o : Order) (pre : List Order) (tr : List Trade) (upd : List Order),
      sellLoop o pre tr upd suf = crossLoop false o pre tr upd suf := by
  induction suf with
  | nil => intro o pre tr upd; rfl
  | cons m rest ih =>
    intro o pre tr upd
    simp only [sellLoop, crossLoop, crossCan, crossStep, Bool.false_eq_true, if_false, ih]

/-- The accumulators of the loop only collect: the loop from any accumulators is
the loop from empty ones, appended. -/
theorem crossLoop_acc (isBuy : Bool) (suf : List Order) :
    ∀ (o : Order) (pre : List Order) (tr : List Trade) (upd : List Order),
      crossLoop isBuy o pre tr upd suf =
        { taker := (cross isBuy o suf).taker,
          pre := pre ++ (cross isBuy o suf).pre,
          suf := (cross isBuy o suf).suf,
          trades := tr ++ (cross isBuy o suf).trades,
          updatedOrders := upd ++ (cross isBuy o suf).updatedOrders } := by
  induction suf with
  | nil => intro o pre tr upd; simp [cross, crossLoop]
  | cons m rest ih =>
    intro o pre tr upd
    unfold cross
    simp only [crossLoop]
    split_ifs with h1 h2 h3
    · rw [ih, ih _ [] _ _]; simp
    · rw [ih, ih _ ([] ++ _) _ _]; simp
    · simp
    · simp

theorem cross_nil (isBuy : Bool) (o : Order) :
    cross isBuy o [] = { taker := o, pre := [], suf := [], trades := [], updatedOrders := [] } :=
  rfl

/-- The loop stops at once when the taker has nothing left or the head does not
match. -/
theorem cross_stop (isBuy : Bool) (o m : Order) (rest : List Order)
    (h : ¬ (0 < o.RemainingQuantity ∧ crossCan isBuy o m = true)) :
    cross isBuy o (m :: rest) =
      { taker := o, pre := [], suf := m :: rest, trades := [], updatedOrders := [] } := by
  unfold cross
  simp only [crossLoop]
  split_ifs with h1 h2 h3
  · exact absurd ⟨h1, h2⟩ h
  · exact absurd ⟨h1, h2⟩ h
  · rfl
  · rfl

/-- A matched iteration that fills the maker. -/
theorem cross_fill (isBuy : Bool) (o m : Order) (rest : List Order)
    (h1 : 0 < o.RemainingQuantity) (h2 : crossCan isBuy o m = true)
    (h3 : (crossStep isBuy o m).2.2.RemainingQuantity = 0) :
    cross isBuy o (m :: rest) =
      { taker := (cross isBuy (crossStep isBuy o m).2.1 rest).taker,
        pre := (cross isBuy (crossStep isBuy o m).2.1 rest).pre,
        suf := (cross isBuy (crossStep isBuy o m).2.1 rest).suf,
        trades := (crossStep isBuy o m).1 :: (cross isBuy (crossStep isBuy o m).2.1 rest).trades,
        updatedOrders :=
          (crossStep isBuy o m).2.2 ::
            (cross isBuy (crossStep isBuy o m).2.1 rest).updatedOrders } := by
  conv_lhs => unfold cross
  simp only [crossLoop, h1, h2, h3, if_true]
  rw [crossLoop_acc]; simp

/-- A matched iteration that leaves the maker partly filled. -/
theorem cross_keep (isBuy : Bool) (o m : Order) (rest : List Order)
    (h1 : 0 < o.RemainingQuantity) (h2 : crossCan isBuy o m = true)
    (h3 : ¬ (crossStep isBuy o m).2.2.RemainingQuantity = 0) :
    cross isBuy o (m :: rest) =
      { taker := (cross isBuy (crossStep isBuy o m).2.1 rest).taker,
        pre := (crossStep isBuy o m).2.2 :: (cross isBuy (crossStep isBuy o m).2.1 rest).pre,
        suf := (cross isBuy (crossStep isBuy o m).2.1 rest).suf,
        trades := (crossStep isBuy o m).1 :: (cross isBuy (crossStep isBuy o m).2.1 rest).trades,
        updatedOrders :=
          (crossStep isBuy o m).2.2 ::
            (cross isBuy (crossStep isBuy o m).2.1 rest).updatedOrders } := by
  conv_lhs => unfold cross
  simp only [crossLoop, h1, h2, h3, if_true, if_false]
  rw [crossLoop_acc]; simp

/-! ## Lemmas on one matched iteration -/

theorem wrapInt64_zero : wrapInt64 0 = 0 := by decide

theorem wrapInt64_of_range (x : Int) (h1 : -(2 ^ 63) ≤ x) (h2 : x < 2 ^ 63) : wrapInt64 x = x := by
  unfold wrapInt64
  rw [Int.emod_eq_of_lt (by linarith) (by linarith)]
  ring

theorem updateOrderStatus_same (o : Order) : SameOrder (updateOrderStatus o) o := by
  unfold updateOrderStatus SameOrder
  split_ifs <;> simp

theorem updateOrderStatus_rem (o : Order) :
    (updateOrderStatus o).RemainingQuantity = o.RemainingQuantity := by
  unfold updateOrderStatus
  split_ifs <;> rfl

theorem SameOrder.refl (o : Order) : SameOrder o o := by simp [SameOrder]

theorem SameOrder.trans {a b c : Order} (h1 : SameOrder a b) (h2 : SameOrder b c) :
    SameOrder a c := by
  unfold SameOrder at *
  obtain ⟨a1, a2, a3, a4, a5, a6, a7⟩ := h1
  obtain ⟨b1, b2, b3, b4, b5, b6, b7⟩ := h2
  exact ⟨a1.trans b1, a2.trans b2, a3.trans b3, a4.trans b4, a5.trans b5, a6.trans b6,
    a7.trans b7⟩

theorem crossStep_taker_same (isBuy : Bool) (o m : Order) :
    SameOrder (crossStep isBuy o m).2.1 o := by
  cases isBuy <;>
    exact SameOrder.trans (updateOrderStatus_same _) (by simp [executeTrade, SameOrder])

theorem crossStep_maker_same (isBuy : Bool) (o m : Order) :
    SameOrder (crossStep isBuy o m).2.2 m := by
  cases isBuy <;>
    exact SameOrder.trans (updateOrderStatus_same _) (by simp [executeTrade, SameOrder])

/-- Quantity of a step, whichever side the taker is on. -/
theorem crossStep_quantity (isBuy : Bool) (o m : Order) :
    (crossStep isBuy o m).1.Quantity = min o.RemainingQuantity m.RemainingQuantity := by
  cases isBuy <;> simp only [crossStep, executeTrade, tradeQuantity, if_true, Bool.false_eq_true,
    if_false]
  · split_ifs with h
    · exact (min_eq_left (le_of_lt h)).symm
    · exact (min_eq_right (not_lt.mp h)).symm
  · split_ifs with h
    · exact (min_eq_right (le_of_lt h)).symm
    · exact (min_eq_left (not_lt.mp h)).symm

theorem crossStep_taker_rem (isBuy : Bool) (o m : Order) :
    (crossStep isBuy o m).2.1.RemainingQuantity =
      wrapInt64 (o.RemainingQuantity - (crossStep isBuy o m).1.Quantity) := by
  cases isBuy <;> simp [crossStep, executeTrade, updateOrderStatus_rem]

theorem crossStep_maker_rem (isBuy : Bool) (o m : Order) :
    (crossStep isBuy o m).2.2.RemainingQuantity =
      wrapInt64 (m.RemainingQuantity - (crossStep isBuy o m).1.Quantity) := by
  cases isBuy <;> simp [crossStep, executeTrade, updateOrderStatus_rem]

/-- After a step one of the two orders has nothing left. -/
theorem crossStep_one_filled (isBuy : Bool) (o m : Order)
    (h : ¬ (crossStep isBuy o m).2.2.RemainingQuantity = 0) :
    (crossStep isBuy o m).2.1.RemainingQuantity = 0 := by
  rw [crossStep_maker_rem, crossStep_quantity] at h
  rw [crossStep_taker_rem, crossStep_quantity]
  rcases le_total o.RemainingQuantity m.RemainingQuantity with h1 | h1
  · rw [min_eq_left h1]; simp [wrapInt64_zero]
  · rw [min_eq_right h1] at h; simp [wrapInt64_zero] at h

theorem crossStep_ids (isBuy : Bool) (o m : Order) :
    (if isBuy then (crossStep isBuy o m).1.SellOrderID else (crossStep isBuy o m).1.BuyOrderID)
      = m.ID ∧
    (if isBuy then (crossStep isBuy o m).1.BuyOrderID else (crossStep isBuy o m).1.SellOrderID)
      = o.ID := by
  cases isBuy <;> simp [crossStep, executeTrade]
/-! ## `ProcessOrder` in terms of the loop -/

theorem matchOrder_eq (o : Order) (book : OrderBook) :
    matchOrder o book =
      { trades := (cross (isBuy o) o (oppositeSide book o)).trades,
        updatedOrders := (cross (isBuy o) o (oppositeSide book o)).updatedOrders,
        order := (finishOrder (cross (isBuy o) o (oppositeSide book o)).taker
          (setOpposite book o ((cross (isBuy o) o (oppositeSide book o)).pre ++
            (cross (isBuy o) o (oppositeSide book o)).suf))).1,
        book := (finishOrder (cross (isBuy o) o (oppositeSide book o)).taker
          (setOpposite book o ((cross (isBuy o) o (oppositeSide book o)).pre ++
            (cross (isBuy o) o (oppositeSide book o)).suf))).2 } := by
  unfold matchOrder isBuy oppositeSide setOpposite
  by_cases h : o.Side = "buy"
  · simp only [h, if_true, matchBuyOrder, buyLoop_eq_crossLoop, decide_True, cross]
  · simp only [h, if_false, matchSellOrder, sellLoop_eq_crossLoop, decide_False, cross]

theorem ProcessOrder_engine (sink : CommitSink) (me : MatchingEngine) (o : Order) :
    (ProcessOrder sink me (some o)).engine =
      storeBook (getOrderBook me o.Symbol).2 o.Symbol (matchOrder o (bookOf me o.Symbol)).book := by
  simp only [ProcessOrder, matchOrder, bookOf]
  split <;> rfl

theorem ProcessOrder_order (sink : CommitSink) (me : MatchingEngine) (o : Order) :
    (ProcessOrder sink me (some o)).order = some (matchOrder o (bookOf me o.Symbol)).order := by
  simp only [ProcessOrder, matchOrder, bookOf]
  split <;> rfl

theorem ProcessOrder_sinkCalls (sink : CommitSink) (me : MatchingEngine) (o : Order) :
    (ProcessOrder sink me (some o)).sinkCalls = [batchOf (matchOrder o (bookOf me o.Symbol))] := by
  simp only [ProcessOrder, matchOrder, bookOf, batchOf]
  split <;> rfl

theorem ProcessOrder_trades (sink : CommitSink) (me : MatchingEngine) (o : Order) :
    (ProcessOrder sink me (some o)).trades =
      if sink (batchOf (matchOrder o (bookOf me o.Symbol))) = none
      then (matchOrder o (bookOf me o.Symbol)).trades else [] := by
  simp only [ProcessOrder, matchOrder, bookOf, batchOf]
  split <;> rename_i h <;> simp [h]

theorem ProcessOrder_err (sink : CommitSink) (me : MatchingEngine) (o : Order) :
    (ProcessOrder sink me (some o)).err =
      (sink (batchOf (matchOrder o (bookOf me o.Symbol)))).map
        (fun e => "failed to execute order matching transaction: " ++ e) := by
  simp only [ProcessOrder, matchOrder, bookOf, batchOf]
  split <;> rename_i h <;> simp [h]

theorem lookupBook_storeBook (me : MatchingEngine) (symbol : String) (book : OrderBook) :
    lookupBook (storeBook me symbol book) symbol = (lookupBook me symbol).map (fun _ => book) := by
  unfold lookupBook storeBook
  simp only
  generalize me.orderBooks = l
  induction l with
  | nil => rfl
  | cons e l ih =>
    by_cases he : e.1 = symbol
    · simp [List.find?_cons, he]
    · simpa [List.find?_cons, he] using ih

theorem bookOf_eq (me : MatchingEngine) (symbol : String) :
    bookOf me symbol = (lookupBook me symbol).getD (NewOrderBook symbol) := by
  unfold bookOf getOrderBook
  cases lookupBook me symbol <;> rfl

theorem lookupBook_getOrderBook (me : MatchingEngine) (symbol : String) :
    lookupBook (getOrderBook me symbol).2 symbol = some (bookOf me symbol) := by
  rw [bookOf_eq]
  unfold getOrderBook
  cases h : lookupBook me symbol with
  | none =>
    simp only [lookupBook, Option.map_eq_none', List.find?_eq_none] at h
    simp only [lookupBook, List.find?_append, Option.getD_none]
    rw [List.find?_eq_none.mpr h]
    simp
  | some b => simpa using h

theorem bookOf_ProcessOrder (sink : CommitSink) (me : MatchingEngine) (o : Order) :
    bookOf (ProcessOrder sink me (some o)).engine o.Symbol =
      (matchOrder o (bookOf me o.Symbol)).book := by
  rw [ProcessOrder_engine, bookOf_eq, lookupBook_storeBook, lookupBook_getOrderBook]
  rfl
/-! ## Trades of the loop and their makers -/

theorem crossStep_price (isBuy : Bool) (o m : Order) (hc : crossCan isBuy o m = true)
    (hm : PricedLimit m) :
    some (crossStep isBuy o m).1.Price =
      if isBuy = false ∧ o.Typ = "limit" then o.Price else m.Price := by
  obtain ⟨hm1, hm2⟩ := hm
  obtain ⟨p, hp⟩ := Option.isSome_iff_exists.mp hm2
  cases isBuy
  · by_cases ht : o.Typ = "limit"
    · simp only [crossCan, Bool.false_eq_true, if_false, canMatch, hm1, ht, hp] at hc
      cases hq : o.Price with
      | none => simp [hq] at hc
      | some q => simp [crossStep, executeTrade, tradePrice, ht, hq]
    · simp [crossStep, executeTrade, tradePrice, ht, hm1, hp]
  · simp [crossStep, executeTrade, tradePrice, hm1, hp]

theorem cross_trades_makers (isBuy : Bool) (typ : String) (price : Option Rat)
    (opp : List Order) :
    ∀ o : Order, o.Typ = typ → o.Price = price → (∀ m ∈ opp, PricedLimit m) →
      List.Forall₂
        (fun t m => (if isBuy then t.SellOrderID else t.BuyOrderID) = m.ID ∧
          some t.Price = if isBuy = false ∧ typ = "limit" then price else m.Price)
        (cross isBuy o opp).trades (opp.take (cross isBuy o opp).trades.length) := by
  induction opp with
  | nil => intro o _ _ _; simp [cross_nil]
  | cons m rest ih =>
    intro o ht hp hm
    have hm0 : PricedLimit m := hm m (List.mem_cons_self _ _)
    have hrest : ∀ x ∈ rest, PricedLimit x := fun x hx => hm x (List.mem_cons_of_mem _ hx)
    have hsame := crossStep_taker_same isBuy o m
    have ih1 := ih (crossStep isBuy o m).2.1 (hsame.2.2.2.1.trans ht) (hsame.2.2.2.2.1.trans hp)
      hrest
    have hstep : (if isBuy then (crossStep isBuy o m).1.SellOrderID
          else (crossStep isBuy o m).1.BuyOrderID) = m.ID ∧
        (0 < o.RemainingQuantity ∧ crossCan isBuy o m = true →
          some (crossStep isBuy o m).1.Price =
            if isBuy = false ∧ typ = "limit" then price else m.Price) := by
      refine ⟨(crossStep_ids isBuy o m).1, fun h => ?_⟩
      have := crossStep_price isBuy o m h.2 hm0
      rw [ht, hp] at this
      exact this
    by_cases h : 0 < o.RemainingQuantity ∧ crossCan isBuy o m = true
    · by_cases h3 : (crossStep isBuy o m).2.2.RemainingQuantity = 0
      · rw [cross_fill isBuy o m rest h.1 h.2 h3]
        simp only [List.length_cons, List.take_succ_cons]
        exact List.Forall₂.cons ⟨hstep.1, hstep.2 h⟩ ih1
      · rw [cross_keep isBuy o m rest h.1 h.2 h3]
        simp only [List.length_cons, List.take_succ_cons]
        exact List.Forall₂.cons ⟨hstep.1, hstep.2 h⟩ ih1
    · rw [cross_stop isBuy o m rest h]
      simp
/-! ## C1: execution price -/

/-- C1, counterexample. A limit sell at 90 that crosses a resting bid at 100 trades at 90,
the taker's price, not at the maker's limit price 100. -/
theorem trade_price_not_maker_price :
    ¬ (∀ t ∈ (ProcessOrder okSink (engineAfter [limitOrder "b1" "buy" 100 5 1])
          (some (limitOrder "s1" "sell" 90 3 2))).trades,
        ∀ m ∈ oppositeSide (bookOf (engineAfter [limitOrder "b1" "buy" 100 5 1]) "X")
          (limitOrder "s1" "sell" 90 3 2),
        makerID (limitOrder "s1" "sell" 90 3 2) t = m.ID → m.Price = some t.Price) := by
  decide

/-- C1, amended. Against resting priced limit orders, the i-th trade returned by
`ProcessOrder` is made with the i-th order of the opposite side, and its price is
the sell order's limit price: the maker's limit price when the taker is a buy
(limit or market) or is not a limit order, and the taker's own limit price when
the taker is a limit order that is not a buy. -/
theorem trade_price_rule (sink : CommitSink) (me : MatchingEngine) (o : Order)
    (hm : ∀ m ∈ oppositeSide (bookOf me o.Symbol) o, PricedLimit m) :
    List.Forall₂
      (fun t m => makerID o t = m.ID ∧
        some t.Price = if o.Side ≠ "buy" ∧ o.Typ = "limit" then o.Price else m.Price)
      (ProcessOrder sink me (some o)).trades
      ((oppositeSide (bookOf me o.Symbol) o).take (ProcessOrder sink me (some o)).trades.length) := by
  rw [ProcessOrder_trades]
  by_cases hs : sink (batchOf (matchOrder o (bookOf me o.Symbol))) = none
  · simp only [hs, if_true]
    rw [matchOrder_eq]
    have := cross_trades_makers (isBuy o) o.Typ o.Price (oppositeSide (bookOf me o.Symbol) o) o
      rfl rfl hm
    simpa [makerID, isBuy] using this
  · simp only [hs, if_false]
    simp

/-- Witness of `trade_price_rule`: a limit buy at 105 against a resting ask at 100. -/
theorem trade_price_rule_witness :
    List.Forall₂
      (fun t m => makerID (limitOrder "b1" "buy" 105 3 2) t = m.ID ∧
        some t.Price = if (limitOrder "b1" "buy" 105 3 2).Side ≠ "buy" ∧
          (limitOrder "b1" "buy" 105 3 2).Typ = "limit"
          then (limitOrder "b1" "buy" 105 3 2).Price else m.Price)
      (ProcessOrder okSink (engineAfter [limitOrder "s1" "sell" 100 5 1])
        (some (limitOrder "b1" "buy" 105 3 2))).trades
      ((oppositeSide (bookOf (engineAfter [limitOrder "s1" "sell" 100 5 1])
          (limitOrder "b1" "buy" 105 3 2).Symbol) (limitOrder "b1" "buy" 105 3 2)).take
        (ProcessOrder okSink (engineAfter [limitOrder "s1" "sell" 100 5 1])
          (some (limitOrder "b1" "buy" 105 3 2))).trades.length) :=
  trade_price_rule okSink (engineAfter [limitOrder "s1" "sell" 100 5 1])
    (limitOrder "b1" "buy" 105 3 2) (by decide)
/-! ## Induction over the loop -/

/-- A taker with nothing left does not enter the loop. -/
theorem cross_done (isBuy : Bool) (o : Order) (opp : List Order)
    (h : ¬ 0 < o.RemainingQuantity) :
    cross isBuy o opp =
      { taker := o, pre := [], suf := opp, trades := [], updatedOrders := [] } := by
  cases opp with
  | nil => rfl
  | cons m rest => exact cross_stop isBuy o m rest (fun hh => h hh.1)

/-- A matched iteration that leaves the maker partly filled is the last one: the
taker is used up, and the loop state is explicit. -/
theorem cross_keep_last (isBuy : Bool) (o m : Order) (rest : List Order)
    (h1 : 0 < o.RemainingQuantity) (h2 : crossCan isBuy o m = true)
    (h3 : ¬ (crossStep isBuy o m).2.2.RemainingQuantity = 0) :
    cross isBuy o (m :: rest) =
      { taker := (crossStep isBuy o m).2.1, pre := [(crossStep isBuy o m).2.2], suf := rest,
        trades := [(crossStep isBuy o m).1], updatedOrders := [(crossStep isBuy o m).2.2] } := by
  rw [cross_keep isBuy o m rest h1 h2 h3,
    cross_done isBuy _ rest (by rw [crossStep_one_filled isBuy o m h3]; decide)]

/-- Induction principle of the crossing loop: the four ways an iteration can go. -/
theorem cross_induction (isBuy : Bool) (P : Order → List Order → LoopState → Prop)
    (hnil : ∀ o, P o [] { taker := o, pre := [], suf := [], trades := [], updatedOrders := [] })
    (hstop : ∀ o m rest, ¬ (0 < o.RemainingQuantity ∧ crossCan isBuy o m = true) →
      P o (m :: rest)
        { taker := o, pre := [], suf := m :: rest, trades := [], updatedOrders := [] })
    (hfill : ∀ o m rest, 0 < o.RemainingQuantity → crossCan isBuy o m = true →
      (crossStep isBuy o m).2.2.RemainingQuantity = 0 →
      P (crossStep isBuy o m).2.1 rest (cross isBuy (crossStep isBuy o m).2.1 rest) →
      P o (m :: rest)
        { taker := (cross isBuy (crossStep isBuy o m).2.1 rest).taker,
          pre := (cross isBuy (crossStep isBuy o m).2.1 rest).pre,
          suf := (cross isBuy (crossStep isBuy o m).2.1 rest).suf,
          trades := (crossStep isBuy o m).1 ::
            (cross isBuy (crossStep isBuy o m).2.1 rest).trades,
          updatedOrders := (crossStep isBuy o m).2.2 ::
            (cross isBuy (crossStep isBuy o m).2.1 rest).updatedOrders })
    (hkeep : ∀ o m rest, 0 < o.RemainingQuantity → crossCan isBuy o m = true →
      ¬ (crossStep isBuy o m).2.2.RemainingQuantity = 0 →
      (crossStep isBuy o m).2.1.RemainingQuantity = 0 →
      P o (m :: rest)
        { taker := (crossStep isBuy o m).2.1, pre := [(crossStep isBuy o m).2.2], suf := rest,
          trades := [(crossStep isBuy o m).1],
          updatedOrders := [(crossStep isBuy o m).2.2] }) :
    ∀ (opp : List Order) (o : Order), P o opp (cross isBuy o opp) := by
  intro opp
  induction opp with
  | nil => intro o; exact hnil o
  | cons m rest ih =>
    intro o
    by_cases h : 0 < o.RemainingQuantity ∧ crossCan isBuy o m = true
    · by_cases h3 : (crossStep isBuy o m).2.2.RemainingQuantity = 0
      · rw [cross_fill isBuy o m rest h.1 h.2 h3]
        exact hfill o m rest h.1 h.2 h3 (ih _)
      · rw [cross_keep_last isBuy o m rest h.1 h.2 h3]
        exact hkeep o m rest h.1 h.2 h3 (crossStep_one_filled isBuy o m h3)
    · rw [cross_stop isBuy o m rest h]
      exact hstop o m rest h

theorem updateOrderStatus_filled (o : Order) (h : (updateOrderStatus o).RemainingQuantity = 0) :
    (updateOrderStatus o).Status = "filled" := by
  rw [updateOrderStatus_rem] at h
  simp [updateOrderStatus, h]

theorem crossStep_maker_filled (isBuy : Bool) (o m : Order)
    (h : (crossStep isBuy o m).2.2.RemainingQuantity = 0) :
    (crossStep isBuy o m).2.2.Status = "filled" := by
  cases isBuy
  · exact updateOrderStatus_filled _ h
  · exact updateOrderStatus_filled _ h

/-- The makers of the loop: as many updated orders as trades, the i-th trade and
the i-th updated order belong to the i-th order of the opposite side, and every
maker before the last one is filled. -/
theorem cross_makers (isBuy : Bool) (opp : List Order) (o : Order) :
    (cross isBuy o opp).updatedOrders.length = (cross isBuy o opp).trades.length ∧
    List.Forall₂ (fun t m => (if isBuy then t.SellOrderID else t.BuyOrderID) = m.ID)
      (cross isBuy o opp).trades (opp.take (cross isBuy o opp).trades.length) ∧
    List.Forall₂ SameOrder (cross isBuy o opp).updatedOrders
      (opp.take (cross isBuy o opp).trades.length) ∧
    (∀ i u, (cross isBuy o opp).updatedOrders[i]? = some u →
      i + 1 < (cross isBuy o opp).trades.length →
      u.RemainingQuantity = 0 ∧ u.Status = "filled") := by
  refine cross_induction isBuy
    (fun o opp s => s.updatedOrders.length = s.trades.length ∧
      List.Forall₂ (fun t m => (if isBuy then t.SellOrderID else t.BuyOrderID) = m.ID)
        s.trades (opp.take s.trades.length) ∧
      List.Forall₂ SameOrder s.updatedOrders (opp.take s.trades.length) ∧
      (∀ i u, s.updatedOrders[i]? = some u → i + 1 < s.trades.length →
        u.RemainingQuantity = 0 ∧ u.Status = "filled")) ?_ ?_ ?_ ?_ opp o
  · intro o; simp
  · intro o m rest _; simp
  · intro o m rest _ _ h3 ih
    obtain ⟨ih1, ih2, ih3, ih4⟩ := ih
    refine ⟨by simp [ih1], ?_, ?_, ?_⟩
    · simp only [List.length_cons, List.take_succ_cons]
      exact List.Forall₂.cons (crossStep_ids isBuy o m).1 ih2
    · simp only [List.length_cons, List.take_succ_cons]
      exact List.Forall₂.cons (crossStep_maker_same isBuy o m) ih3
    · intro i u hu hi
      cases i with
      | zero =>
        simp only [List.getElem?_cons_zero, Option.some.injEq] at hu
        subst hu
        exact ⟨h3, crossStep_maker_filled isBuy o m h3⟩
      | succ i =>
        simp only [List.getElem?_cons_succ] at hu
        simp only [List.length_cons] at hi
        exact ih4 i u hu (by omega)
  · intro o m rest _ _ _ _
    refine ⟨rfl, ?_, ?_, ?_⟩
    · simp only [List.length_cons, List.length_nil, List.take_succ_cons, List.take_zero]
      exact List.Forall₂.cons (crossStep_ids isBuy o m).1 List.Forall₂.nil
    · simp only [List.length_cons, List.length_nil, List.take_succ_cons, List.take_zero]
      exact List.Forall₂.cons (crossStep_maker_same isBuy o m) List.Forall₂.nil
    · intro i u _ hi
      simp at hi
/-! ## C2: price-time priority -/

theorem bidBetter_not_priority (a b : Order) (h : bidBetter a b) : ¬ bidPriority b a := by
  unfold bidBetter at h
  unfold bidPriority
  cases ha : a.Price with
  | none => simp [ha] at h
  | some pa =>
    cases hb : b.Price with
    | none => simp [ha, hb] at h
    | some pb =>
      simp only [ha, hb] at h ⊢
      rcases h with h | ⟨h1, h2⟩
      · intro hh
        rcases hh with hh | ⟨hh1, _⟩
        · exact absurd h (not_lt.mpr (le_of_lt hh))
        · rw [hh1] at h; exact lt_irrefl _ h
      · intro hh
        rcases hh with hh | ⟨_, hh2⟩
        · rw [h1] at hh; exact lt_irrefl _ hh
        · omega

theorem askBetter_not_priority (a b : Order) (h : askBetter a b) : ¬ askPriority b a := by
  unfold askBetter at h
  unfold askPriority
  cases ha : a.Price with
  | none => simp [ha] at h
  | some pa =>
    cases hb : b.Price with
    | none => simp [ha, hb] at h
    | some pb =>
      simp only [ha, hb] at h ⊢
      rcases h with h | ⟨h1, h2⟩
      · intro hh
        rcases hh with hh | ⟨hh1, _⟩
        · exact absurd h (not_lt.mpr (le_of_lt hh))
        · rw [hh1] at h; exact lt_irrefl _ h
      · intro hh
        rcases hh with hh | ⟨_, hh2⟩
        · rw [h1] at hh; exact lt_irrefl _ hh
        · omega

theorem bidBetter_irrefl (a : Order) : ¬ bidBetter a a := by
  unfold bidBetter
  cases ha : a.Price <;> simp

theorem askBetter_irrefl (a : Order) : ¬ askBetter a a := by
  unfold askBetter
  cases ha : a.Price <;> simp

/-- In a list in priority order, an order with priority over another stands
before it. -/
theorem index_lt_of_better {R B : Order → Order → Prop} (l : List Order)
    (hs : l.Pairwise R) (hb : ∀ a b, B a b → ¬ R b a) (hirr : ∀ a, ¬ B a a) (i j : Nat)
    (a b : Order) (ha : l[i]? = some a) (hbj : l[j]? = some b) (hab : B a b) : i < j := by
  by_contra hij
  have hji : j ≤ i := not_lt.mp hij
  rcases Nat.lt_or_eq_of_le hji with hlt | heq
  · obtain ⟨hj, hbj1⟩ := List.getElem?_eq_some.mp hbj
    obtain ⟨hi, hai⟩ := List.getElem?_eq_some.mp ha
    have := List.pairwise_iff_getElem.mp hs j i hj hi hlt
    rw [hbj1, hai] at this
    exact hb a b hab this
  · subst heq
    rw [ha] at hbj
    cases hbj
    exact hirr a hab

/-- C2. Price-time priority. On a book whose opposite side is in priority order,
the makers of the trades `ProcessOrder` returns are, in order, the first k orders
of the opposite side as it stood before the call (k the number of trades), also
in the batch of updated orders; and when a resting order B is matched, every
resting order A with priority over B (better price, or same price and earlier
created_at) stands before it, is the maker of an earlier trade and is filled. -/
theorem price_time_priority (sink : CommitSink) (me : MatchingEngine) (o : Order)
    (hs : OppositeSorted (bookOf me o.Symbol) o) :
    (ProcessOrder sink me (some o)).trades.map (makerID o) =
      ((oppositeSide (bookOf me o.Symbol) o).take
        (ProcessOrder sink me (some o)).trades.length).map Order.ID ∧
    (∀ b ∈ (ProcessOrder sink me (some o)).sinkCalls,
      List.Forall₂ SameOrder b.updatedOrders
        ((oppositeSide (bookOf me o.Symbol) o).take b.trades.length)) ∧
    (∀ (i j : Nat) (A B : Order),
      (oppositeSide (bookOf me o.Symbol) o)[i]? = some A →
      (oppositeSide (bookOf me o.Symbol) o)[j]? = some B →
      oppositeBetter o A B →
      j < (ProcessOrder sink me (some o)).trades.length →
      i < j ∧
      ∀ b ∈ (ProcessOrder sink me (some o)).sinkCalls,
        ∃ u, b.updatedOrders[i]? = some u ∧ SameOrder u A ∧
          u.RemainingQuantity = 0 ∧ u.Status = "filled") := by
  obtain ⟨h1, h2, h3, h4⟩ := cross_makers (isBuy o) (oppositeSide (bookOf me o.Symbol) o) o
  have hlt : ∀ (i j : Nat) (A B : Order),
      (oppositeSide (bookOf me o.Symbol) o)[i]? = some A →
      (oppositeSide (bookOf me o.Symbol) o)[j]? = some B →
      oppositeBetter o A B → i < j := by
    intro i j A B hA hB hAB
    unfold OppositeSorted at hs
    unfold oppositeBetter at hAB
    unfold oppositeSide at hA hB
    by_cases hside : o.Side = "buy"
    · simp only [hside, if_true] at hs hAB hA hB
      exact index_lt_of_better _ hs askBetter_not_priority askBetter_irrefl i j A B hA hB hAB
    · simp only [hside, if_false] at hs hAB hA hB
      exact index_lt_of_better _ hs bidBetter_not_priority bidBetter_irrefl i j A B hA hB hAB
  have htr : (ProcessOrder sink me (some o)).trades = [] ∨
      (ProcessOrder sink me (some o)).trades =
        (cross (isBuy o) o (oppositeSide (bookOf me o.Symbol) o)).trades := by
    rw [ProcessOrder_trades, matchOrder_eq]
    by_cases hsink : sink (batchOf (matchOrder o (bookOf me o.Symbol))) = none
    · right; rw [matchOrder_eq] at hsink; simp only [hsink, if_true]
    · left; rw [matchOrder_eq] at hsink; simp only [hsink, if_false]
  refine ⟨?_, ?_, ?_⟩
  · rcases htr with htr | htr
    · rw [htr]; simp
    · rw [htr]
      have : ∀ (ts : List Trade) (ms : List Order),
          List.Forall₂ (fun t m => (if isBuy o then t.SellOrderID else t.BuyOrderID) = m.ID)
            ts ms → ts.map (makerID o) = ms.map Order.ID := by
        intro ts ms h
        induction h with
        | nil => rfl
        | cons hx _ ih =>
          simp only [List.map_cons, ih, List.cons.injEq, and_true]
          simpa [makerID, isBuy] using hx
      exact this _ _ h2
  · intro b hb
    rw [ProcessOrder_sinkCalls, List.mem_singleton] at hb
    subst hb
    rw [matchOrder_eq]
    exact h3
  · intro i j A B hA hB hAB hj
    have hij := hlt i j A B hA hB hAB
    refine ⟨hij, ?_⟩
    intro b hb
    rw [ProcessOrder_sinkCalls, List.mem_singleton] at hb
    subst hb
    rw [matchOrder_eq]
    simp only [batchOf]
    rcases htr with htr | htr
    · rw [htr] at hj; simp at hj
    · rw [htr] at hj
      have hi : i < (cross (isBuy o) o (oppositeSide (bookOf me o.Symbol) o)).updatedOrders.length := by
        rw [h1]; omega
      refine ⟨(cross (isBuy o) o (oppositeSide (bookOf me o.Symbol) o)).updatedOrders[i],
        List.getElem?_eq_getElem hi, ?_, h4 i _ (List.getElem?_eq_getElem hi) (by omega)⟩
      have hi2 : i < ((oppositeSide (bookOf me o.Symbol) o).take
          (cross (isBuy o) o (oppositeSide (bookOf me o.Symbol) o)).trades.length).length := by
        rw [← h3.length_eq]; exact hi
      have := List.Forall₂.get h3 hi hi2
      simp only [List.get_eq_getElem] at this
      have hA2 : ((oppositeSide (bookOf me o.Symbol) o).take
          (cross (isBuy o) o (oppositeSide (bookOf me o.Symbol) o)).trades.length)[i] = A := by
        rw [List.getElem_take]
        obtain ⟨_, h⟩ := List.getElem?_eq_some.mp hA
        exact h
      rw [hA2] at this
      exact this

/-- Witness of `price_time_priority`: scenario 5 of the specification, two bids at 50
resting, a limit sell at 50 arrives. -/
theorem price_time_priority_witness :
    (ProcessOrder okSink
        (engineAfter [limitOrder "A" "buy" 50 1 1, limitOrder "B" "buy" 50 1 2])
        (some (limitOrder "s" "sell" 50 1 3))).trades.map
          (makerID (limitOrder "s" "sell" 50 1 3)) = ["A"] ∧
    (bookOf (ProcessOrder okSink
        (engineAfter [limitOrder "A" "buy" 50 1 1, limitOrder "B" "buy" 50 1 2])
        (some (limitOrder "s" "sell" 50 1 3))).engine "X").BuyOrders =
      [limitOrder "B" "buy" 50 1 2] :=
  ⟨(price_time_priority okSink
      (engineAfter [limitOrder "A" "buy" 50 1 1, limitOrder "B" "buy" 50 1 2])
      (limitOrder "s" "sell" 50 1 3) (by decide)).1.trans (by decide), by decide⟩
/-! ## C4: execution quantity -/

/-- C4. The trade made by `executeTrade` has the smaller of the two remaining
quantities, and both orders' remaining quantities go down by exactly that
quantity while their initial quantities stay; the updated orders are the ones the
loop's `updateOrderStatus` calls then keep (they change the status only). The
hypotheses say that the difference of the two remaining quantities fits a Go
`int`, as it does for the non-negative quantities of the crossing loop. -/
theorem executeTrade_quantity (buyOrder sellOrder : Order)
    (h1 : buyOrder.RemainingQuantity - sellOrder.RemainingQuantity < 2 ^ 63)
    (h2 : sellOrder.RemainingQuantity - buyOrder.RemainingQuantity < 2 ^ 63) :
    (executeTrade buyOrder sellOrder).1.Quantity =
      min buyOrder.RemainingQuantity sellOrder.RemainingQuantity ∧
    (executeTrade buyOrder sellOrder).2.1.RemainingQuantity =
      buyOrder.RemainingQuantity - (executeTrade buyOrder sellOrder).1.Quantity ∧
    (executeTrade buyOrder sellOrder).2.2.RemainingQuantity =
      sellOrder.RemainingQuantity - (executeTrade buyOrder sellOrder).1.Quantity ∧
    (executeTrade buyOrder sellOrder).2.1.InitialQuantity = buyOrder.InitialQuantity ∧
    (executeTrade buyOrder sellOrder).2.2.InitialQuantity = sellOrder.InitialQuantity ∧
    (updateOrderStatus (executeTrade buyOrder sellOrder).2.1).RemainingQuantity =
      buyOrder.RemainingQuantity - (executeTrade buyOrder sellOrder).1.Quantity ∧
    (updateOrderStatus (executeTrade buyOrder sellOrder).2.2).RemainingQuantity =
      sellOrder.RemainingQuantity - (executeTrade buyOrder sellOrder).1.Quantity ∧
    (updateOrderStatus (executeTrade buyOrder sellOrder).2.1).InitialQuantity =
      buyOrder.InitialQuantity ∧
    (updateOrderStatus (executeTrade buyOrder sellOrder).2.2).InitialQuantity =
      sellOrder.InitialQuantity := by
  have hq : (executeTrade buyOrder sellOrder).1.Quantity =
      min buyOrder.RemainingQuantity sellOrder.RemainingQuantity := by
    simp only [executeTrade, tradeQuantity]
    split_ifs with h
    · exact (min_eq_right (le_of_lt h)).symm
    · exact (min_eq_left (not_lt.mp h)).symm
  have hb : (executeTrade buyOrder sellOrder).2.1.RemainingQuantity =
      buyOrder.RemainingQuantity - (executeTrade buyOrder sellOrder).1.Quantity := by
    rw [hq]
    simp only [executeTrade, tradeQuantity]
    split_ifs with h
    · rw [min_eq_right (le_of_lt h)]
      exact wrapInt64_of_range _ (by linarith) h1
    · rw [min_eq_left (not_lt.mp h)]
      simp [wrapInt64_zero]
  have hs : (executeTrade buyOrder sellOrder).2.2.RemainingQuantity =
      sellOrder.RemainingQuantity - (executeTrade buyOrder sellOrder).1.Quantity := by
    rw [hq]
    simp only [executeTrade, tradeQuantity]
    split_ifs with h
    · rw [min_eq_right (le_of_lt h)]
      simp [wrapInt64_zero]
    · rw [min_eq_left (not_lt.mp h)]
      exact wrapInt64_of_range _ (by linarith [not_lt.mp h]) h2
  refine ⟨hq, hb, hs, rfl, rfl, ?_, ?_, ?_, ?_⟩
  · rw [updateOrderStatus_rem, hb]
  · rw [updateOrderStatus_rem, hs]
  · exact (updateOrderStatus_same _).2.2.2.2.2.1
  · exact (updateOrderStatus_same _).2.2.2.2.2.1

/-- Witness of `executeTrade_quantity`: a buy with 5 left against a sell with 3 left
trades 3 and leaves 2 and 0. -/
theorem executeTrade_quantity_witness :
    (executeTrade (limitOrder "b" "buy" 100 5 2) (limitOrder "s" "sell" 100 3 1)).1.Quantity = 3 ∧
    (executeTrade (limitOrder "b" "buy" 100 5 2)
      (limitOrder "s" "sell" 100 3 1)).2.1.RemainingQuantity = 2 ∧
    (executeTrade (limitOrder "b" "buy" 100 5 2)
      (limitOrder "s" "sell" 100 3 1)).2.2.RemainingQuantity = 0 :=
  have h := executeTrade_quantity (limitOrder "b" "buy" 100 5 2)
    (limitOrder "s" "sell" 100 3 1) (by decide) (by decide)
  ⟨h.1.trans (by decide), h.2.1.trans (by decide), h.2.2.1.trans (by decide)⟩
/-! ## What the loop leaves of the opposite side and of the taker -/

theorem cross_taker_same (isBuy : Bool) (opp : List Order) (o : Order) :
    SameOrder (cross isBuy o opp).taker o := by
  refine cross_induction isBuy (fun o _ s => SameOrder s.taker o) ?_ ?_ ?_ ?_ opp o
  · intro o; exact SameOrder.refl o
  · intro o m rest _; exact SameOrder.refl o
  · intro o m rest _ _ _ ih; exact SameOrder.trans ih (crossStep_taker_same isBuy o m)
  · intro o m rest _ _ _ _; exact crossStep_taker_same isBuy o m

/-- The opposite side after the loop: the first k orders are gone (k the number
of trades), except that the last of them stays at the head with a reduced
remaining quantity when it is not filled, in which case the taker is used up. -/
theorem cross_residual (isBuy : Bool) (opp : List Order) (o : Order) :
    (cross isBuy o opp).suf = opp.drop (cross isBuy o opp).trades.length ∧
    (cross isBuy o opp).trades.length ≤ opp.length ∧
    ((cross isBuy o opp).pre = [] ∨
      ∃ u, (cross isBuy o opp).pre = [u] ∧ (cross isBuy o opp).updatedOrders.getLast? = some u ∧
        u.RemainingQuantity ≠ 0 ∧ (cross isBuy o opp).taker.RemainingQuantity = 0) := by
  refine cross_induction isBuy
    (fun _ opp s => s.suf = opp.drop s.trades.length ∧ s.trades.length ≤ opp.length ∧
      (s.pre = [] ∨ ∃ u, s.pre = [u] ∧ s.updatedOrders.getLast? = some u ∧
        u.RemainingQuantity ≠ 0 ∧ s.taker.RemainingQuantity = 0)) ?_ ?_ ?_ ?_ opp o
  · intro o; simp
  · intro o m rest _; simp
  · intro o m rest _ _ _ ih
    obtain ⟨ih1, ih2, ih3⟩ := ih
    refine ⟨by simpa using ih1, by simpa using ih2, ?_⟩
    rcases ih3 with ih3 | ⟨u, hu1, hu2, hu3, hu4⟩
    · exact Or.inl ih3
    · refine Or.inr ⟨u, hu1, ?_, hu3, hu4⟩
      simp only [List.getLast?_cons]
      rw [hu2]; rfl
  · intro o m rest _ _ h3 h4
    exact ⟨by simp, by simp, Or.inr ⟨_, rfl, by simp, h3, h4⟩⟩

/-- Every order the loop leaves on the opposite side is an order that was there,
up to its remaining quantity and status. -/
theorem cross_rest_same (isBuy : Bool) (opp : List Order) (o : Order) :
    ∀ x ∈ (cross isBuy o opp).pre ++ (cross isBuy o opp).suf, ∃ y ∈ opp, SameOrder x y := by
  refine cross_induction isBuy
    (fun _ opp s => ∀ x ∈ s.pre ++ s.suf, ∃ y ∈ opp, SameOrder x y) ?_ ?_ ?_ ?_ opp o
  · intro o x hx; simp at hx
  · intro o m rest _ x hx
    exact ⟨x, by simpa using hx, SameOrder.refl x⟩
  · intro o m rest _ _ _ ih x hx
    obtain ⟨y, hy, hxy⟩ := ih x hx
    exact ⟨y, List.mem_cons_of_mem _ hy, hxy⟩
  · intro o m rest _ _ _ _ x hx
    simp only [List.singleton_append, List.mem_cons] at hx
    rcases hx with hx | hx
    · subst hx
      exact ⟨m, List.mem_cons_self _ _, crossStep_maker_same isBuy o m⟩
    · exact ⟨x, List.mem_cons_of_mem _ hx, SameOrder.refl x⟩

/-! ## `finishOrder` and the two sides of the book -/

theorem ownSide_setOpposite (book : OrderBook) (o : Order) (l : List Order) :
    ownSide (setOpposite book o l) o = ownSide book o := by
  unfold ownSide setOpposite
  split_ifs <;> rfl

theorem oppositeSide_setOpposite (book : OrderBook) (o : Order) (l : List Order) :
    oppositeSide (setOpposite book o l) o = l := by
  unfold oppositeSide setOpposite
  split_ifs <;> rfl

theorem finishOrder_order (t : Order) (book : OrderBook) :
    (finishOrder t book).1 =
      if t.Typ = "market" ∧ 0 < t.RemainingQuantity then { t with Status := "cancelled" }
      else t := by
  unfold finishOrder
  split_ifs <;> rfl

theorem finishOrder_book (t : Order) (book : OrderBook) :
    (finishOrder t book).2 =
      if 0 < t.RemainingQuantity ∧ t.Typ = "limit" then AddOrder book t else book := by
  unfold finishOrder
  by_cases h1 : t.Typ = "market" ∧ 0 < t.RemainingQuantity
  · have : ¬ (0 < t.RemainingQuantity ∧ t.Typ = "limit") := by
      intro h; rw [h1.1] at h; exact absurd h.2 (by decide)
    simp [h1, this]
  · simp only [h1, if_false]
    split_ifs <;> rfl

/-- The side a taker rests on, with the taker added by `AddOrder`. -/
theorem ownSide_AddOrder (book : OrderBook) (o t : Order) (h : t.Side = o.Side) :
    ownSide (AddOrder book t) o =
      (if o.Side = "buy" then insertSortedBuy (ownSide book o) t
       else insertSortedSell (ownSide book o) t) ∧
    oppositeSide (AddOrder book t) o = oppositeSide book o := by
  unfold ownSide oppositeSide AddOrder
  rw [h]
  split_ifs <;> exact ⟨rfl, rfl⟩

/-- The two sides of the book and the taker after `matchBuyOrder` or
`matchSellOrder`, in terms of the loop. -/
theorem matchOrder_sides (o : Order) (book : OrderBook) :
    oppositeSide (matchOrder o book).book o =
      (cross (isBuy o) o (oppositeSide book o)).pre ++
        (cross (isBuy o) o (oppositeSide book o)).suf ∧
    ownSide (matchOrder o book).book o =
      (if 0 < (cross (isBuy o) o (oppositeSide book o)).taker.RemainingQuantity ∧ o.Typ = "limit"
       then
        (if o.Side = "buy" then
          insertSortedBuy (ownSide book o) (cross (isBuy o) o (oppositeSide book o)).taker
         else insertSortedSell (ownSide book o) (cross (isBuy o) o (oppositeSide book o)).taker)
       else ownSide book o) ∧
    (matchOrder o book).order =
      (if o.Typ = "market" ∧ 0 < (cross (isBuy o) o (oppositeSide book o)).taker.RemainingQuantity
       then { (cross (isBuy o) o (oppositeSide book o)).taker with Status := "cancelled" }
       else (cross (isBuy o) o (oppositeSide book o)).taker) := by
  have hsame := cross_taker_same (isBuy o) (oppositeSide book o) o
  rw [matchOrder_eq]
  simp only [finishOrder_book, finishOrder_order, hsame.2.2.2.1, and_true]
  refine ⟨?_, ?_⟩
  · split_ifs with h
    · rw [(ownSide_AddOrder _ o _ hsame.2.2.1).2, oppositeSide_setOpposite]
    · rw [oppositeSide_setOpposite]
  · split_ifs with h h2
    · rw [(ownSide_AddOrder _ o _ hsame.2.2.1).1, ownSide_setOpposite, if_pos h2]
    · rw [(ownSide_AddOrder _ o _ hsame.2.2.1).1, ownSide_setOpposite, if_neg h2]
    · rw [ownSide_setOpposite]
/-! ## C6: a failing sink -/

/-- C6, counterexample. With an ask of 5 at 100 resting, a limit buy of 3 at 100 whose
commit fails returns an error and no trades, but the book is not as before the
call: the resting ask has 2 left. -/
theorem commit_failure_not_rolled_back :
    ¬ ((∃ b ∈ (ProcessOrder failSink (engineAfter [limitOrder "s1" "sell" 100 5 1])
          (some (limitOrder "b1" "buy" 100 3 2))).sinkCalls, failSink b ≠ none) →
        (ProcessOrder failSink (engineAfter [limitOrder "s1" "sell" 100 5 1])
          (some (limitOrder "b1" "buy" 100 3 2))).err ≠ none ∧
        (ProcessOrder failSink (engineAfter [limitOrder "s1" "sell" 100 5 1])
          (some (limitOrder "b1" "buy" 100 3 2))).trades = [] ∧
        bookOf (ProcessOrder failSink (engineAfter [limitOrder "s1" "sell" 100 5 1])
          (some (limitOrder "b1" "buy" 100 3 2))).engine "X" =
          bookOf (engineAfter [limitOrder "s1" "sell" 100 5 1]) "X") := by
  decide

/-- C6, amended. When the sink reports failure, `ProcessOrder` returns an error and
no trades, and the engine (every book) and the taker are left as the crossing
left them: exactly as a call whose commit succeeds leaves them. -/
theorem commit_failure_keeps_crossing (sink : CommitSink) (me : MatchingEngine) (o : Order)
    (h : ∃ b ∈ (ProcessOrder sink me (some o)).sinkCalls, sink b ≠ none) :
    (ProcessOrder sink me (some o)).err ≠ none ∧
    (ProcessOrder sink me (some o)).trades = [] ∧
    (ProcessOrder sink me (some o)).engine = (ProcessOrder okSink me (some o)).engine ∧
    (ProcessOrder sink me (some o)).order = (ProcessOrder okSink me (some o)).order ∧
    (ProcessOrder sink me (some o)).sinkCalls = (ProcessOrder okSink me (some o)).sinkCalls := by
  obtain ⟨b, hb, hne⟩ := h
  rw [ProcessOrder_sinkCalls, List.mem_singleton] at hb
  subst hb
  refine ⟨?_, ?_, ?_, ?_, ?_⟩
  · rw [ProcessOrder_err]
    cases hs : sink (batchOf (matchOrder o (bookOf me o.Symbol))) with
    | none => exact absurd hs hne
    | some e => simp
  · rw [ProcessOrder_trades, if_neg hne]
  · rw [ProcessOrder_engine, ProcessOrder_engine]
  · rw [ProcessOrder_order, ProcessOrder_order]
  · rw [ProcessOrder_sinkCalls, ProcessOrder_sinkCalls]

/-- Witness of `commit_failure_keeps_crossing`: the failing commit of the
counterexample. -/
theorem commit_failure_keeps_crossing_witness :
    (ProcessOrder failSink (engineAfter [limitOrder "s1" "sell" 100 5 1])
      (some (limitOrder "b1" "buy" 100 3 2))).err ≠ none ∧
    (ProcessOrder failSink (engineAfter [limitOrder "s1" "sell" 100 5 1])
      (some (limitOrder "b1" "buy" 100 3 2))).trades = [] ∧
    (ProcessOrder failSink (engineAfter [limitOrder "s1" "sell" 100 5 1])
      (some (limitOrder "b1" "buy" 100 3 2))).engine =
      (ProcessOrder okSink (engineAfter [limitOrder "s1" "sell" 100 5 1])
        (some (limitOrder "b1" "buy" 100 3 2))).engine :=
  have h := commit_failure_keeps_crossing failSink (engineAfter [limitOrder "s1" "sell" 100 5 1])
    (limitOrder "b1" "buy" 100 3 2) (by decide)
  ⟨h.1, h.2.1, h.2.2.1⟩
/-! ## The binary search of `insertSortedBuy` and `insertSortedSell` -/

/-- The loop `for left < right` ends within `right - left` iterations: with at
least that much fuel the result does not depend on the fuel. -/
theorem searchLoop_fuel (cmp : Order → Order → Bool) (orders : List Order) (newOrder : Order)
    (fuel : Nat) :
    ∀ (fuel2 left right : Nat), right - left ≤ fuel → right - left ≤ fuel2 →
      searchLoop cmp orders newOrder fuel left right =
        searchLoop cmp orders newOrder fuel2 left right := by
  induction fuel with
  | zero =>
    intro fuel2 left right h1 _
    have hle : ¬ left < right := by omega
    cases fuel2 with
    | zero => rfl
    | succ f2 => simp [searchLoop, hle]
  | succ f ih =>
    intro fuel2 left right h1 h2
    by_cases hlt : left < right
    · cases fuel2 with
      | zero => omega
      | succ f2 =>
        simp only [searchLoop, hlt, if_true]
        cases orders[(left + right) / 2]? with
        | none => rfl
        | some x =>
          simp only
          split_ifs
          · exact ih f2 left _ (by omega) (by omega)
          · exact ih f2 _ right (by omega) (by omega)
    · cases fuel2 with
      | zero => simp [searchLoop, hlt]
      | succ f2 => simp [searchLoop, hlt]

/-- Result of the binary search when the comparison is monotone along the list
(once the new order goes before an order, it goes before all later ones): the
index found splits the list into the orders the new order does not go before
and the orders it goes before. -/
theorem searchLoop_split (cmp : Order → Order → Bool) (orders : List Order) (newOrder : Order)
    (hmono : ∀ (i j : Nat) (x y : Order), i ≤ j → orders[i]? = some x → orders[j]? = some y →
      cmp newOrder x = true → cmp newOrder y = true)
    (fuel : Nat) :
    ∀ (left right : Nat), right - left ≤ fuel → left ≤ right → right ≤ orders.length →
      (∀ i x, i < left → orders[i]? = some x → cmp newOrder x = false) →
      (∀ i x, right ≤ i → orders[i]? = some x → cmp newOrder x = true) →
      left ≤ searchLoop cmp orders newOrder fuel left right ∧
      searchLoop cmp orders newOrder fuel left right ≤ right ∧
      (∀ i x, i < searchLoop cmp orders newOrder fuel left right → orders[i]? = some x →
        cmp newOrder x = false) ∧
      (∀ i x, searchLoop cmp orders newOrder fuel left right ≤ i → orders[i]? = some x →
        cmp newOrder x = true) := by
  induction fuel with
  | zero =>
    intro left right h1 h2 _ hl hr
    have : left = right := by omega
    subst this
    exact ⟨le_refl _, le_refl _, hl, hr⟩
  | succ f ih =>
    intro left right h1 h2 h3 hl hr
    by_cases hlt : left < right
    · have hmid : (left + right) / 2 < orders.length := by omega
      simp only [searchLoop, hlt, if_true, List.getElem?_eq_getElem hmid]
      have hget : orders[(left + right) / 2]? = some orders[(left + right) / 2] :=
        List.getElem?_eq_getElem hmid
      by_cases hc : cmp newOrder orders[(left + right) / 2] = true
      · simp only [hc, if_true]
        have := ih left ((left + right) / 2) (by omega) (by omega) (by omega) hl
          (fun i x hi hx => hmono _ i _ x hi hget hx hc)
        exact ⟨this.1, by omega, this.2.2.1, this.2.2.2⟩
      · have hc0 : cmp newOrder orders[(left + right) / 2] = false := by simpa using hc
        simp only [hc0, Bool.false_eq_true, if_false]
        have := ih ((left + right) / 2 + 1) right (by omega) (by omega) h3
          (fun i x hi hx => by
            by_contra hcx
            have hcx1 : cmp newOrder x = true := by simpa using hcx
            exact hc (hmono i _ x _ (by omega) hx hget hcx1))
          hr
        exact ⟨by omega, this.2.1, this.2.2.1, this.2.2.2⟩
    · have : left = right := by omega
      subst this
      simp only [searchLoop, hlt, if_false]
      exact ⟨le_refl _, le_refl _, hl, hr⟩

/-- Position found by the binary search on a whole list. -/
theorem searchLoop_whole (cmp : Order → Order → Bool) (orders : List Order) (newOrder : Order)
    (hmono : ∀ (i j : Nat) (x y : Order), i ≤ j → orders[i]? = some x → orders[j]? = some y →
      cmp newOrder x = true → cmp newOrder y = true) :
    searchLoop cmp orders newOrder orders.length 0 orders.length ≤ orders.length ∧
    (∀ x ∈ orders.take (searchLoop cmp orders newOrder orders.length 0 orders.length),
      cmp newOrder x = false) ∧
    (∀ x ∈ orders.drop (searchLoop cmp orders newOrder orders.length 0 orders.length),
      cmp newOrder x = true) := by
  have h := searchLoop_split cmp orders newOrder hmono orders.length 0 orders.length
    (by omega) (by omega) (le_refl _) (fun i x hi _ => by omega)
    (fun i x hi hx => by
      have := (List.getElem?_eq_some.mp hx).1
      omega)
  refine ⟨h.2.1, ?_, ?_⟩
  · intro x hx
    obtain ⟨i, hi, rfl⟩ := List.mem_iff_getElem.mp hx
    rw [List.length_take] at hi
    rw [List.getElem_take]
    exact h.2.2.1 i _ (by omega) (List.getElem?_eq_getElem (by omega))
  · intro x hx
    obtain ⟨i, hi, rfl⟩ := List.mem_iff_getElem.mp hx
    rw [List.length_drop] at hi
    rw [List.getElem_drop]
    exact h.2.2.2 _ _ (by omega) (List.getElem?_eq_getElem (by omega))

/-- An order that goes before no order of the list is inserted at the end. -/
theorem searchLoop_never (cmp : Order → Order → Bool) (orders : List Order) (newOrder : Order)
    (h : ∀ x ∈ orders, cmp newOrder x = false) :
    searchLoop cmp orders newOrder orders.length 0 orders.length = orders.length := by
  have hw := searchLoop_whole cmp orders newOrder (fun i j x y _ hx _ hc => by
    have := h x (List.getElem?_mem hx)
    rw [this] at hc
    exact absurd hc (by decide))
  by_contra hne
  have hlt : searchLoop cmp orders newOrder orders.length 0 orders.length < orders.length := by
    omega
  have hmem : orders[searchLoop cmp orders newOrder orders.length 0 orders.length] ∈
      orders.drop (searchLoop cmp orders newOrder orders.length 0 orders.length) := by
    rw [List.mem_iff_getElem]
    refine ⟨0, by rw [List.length_drop]; omega, ?_⟩
    rw [List.getElem_drop]
    rfl
  have h1 := hw.2.2 _ hmem
  have h2 := h _ (List.getElem_mem hlt)
  rw [h2] at h1
  exact absurd h1 (by decide)
/-! ## C8: market orders never rest -/

theorem setOpposite_self (book : OrderBook) (o : Order) :
    setOpposite book o (oppositeSide book o) = book := by
  unfold setOpposite oppositeSide
  split_ifs <;> rfl

/-- C8. A market order never rests. After `ProcessOrder` on a market order its own
side is as before and every order on the opposite side is one that was resting
there (up to remaining quantity and status), so the order is on neither side
unless an order with its id was resting before; if it ends with remaining > 0
its status is cancelled; and against an empty opposite side a market order with
remaining > 0 yields zero trades, ends cancelled with its quantities untouched
(remaining equal to initial when it entered so), and leaves the book as it was. -/
theorem market_order_never_rests (sink : CommitSink) (me : MatchingEngine) (o : Order)
    (hmk : o.Typ = "market") :
    ownSide (bookOf (ProcessOrder sink me (some o)).engine o.Symbol) o =
      ownSide (bookOf me o.Symbol) o ∧
    (∀ x ∈ oppositeSide (bookOf (ProcessOrder sink me (some o)).engine o.Symbol) o,
      ∃ y ∈ oppositeSide (bookOf me o.Symbol) o, SameOrder x y) ∧
    ((∀ y ∈ (bookOf me o.Symbol).BuyOrders ++ (bookOf me o.Symbol).SellOrders, y.ID ≠ o.ID) →
      ∀ x ∈ (bookOf (ProcessOrder sink me (some o)).engine o.Symbol).BuyOrders ++
          (bookOf (ProcessOrder sink me (some o)).engine o.Symbol).SellOrders, x.ID ≠ o.ID) ∧
    (∀ t, (ProcessOrder sink me (some o)).order = some t → 0 < t.RemainingQuantity →
      t.Status = "cancelled") ∧
    (oppositeSide (bookOf me o.Symbol) o = [] → 0 < o.RemainingQuantity →
      (ProcessOrder sink me (some o)).trades = [] ∧
      (ProcessOrder sink me (some o)).order = some { o with Status := "cancelled" } ∧
      (o.RemainingQuantity = o.InitialQuantity →
        ∀ t, (ProcessOrder sink me (some o)).order = some t →
          t.RemainingQuantity = t.InitialQuantity ∧ t.InitialQuantity = o.InitialQuantity) ∧
      bookOf (ProcessOrder sink me (some o)).engine o.Symbol = bookOf me o.Symbol) := by
  have hs := matchOrder_sides o (bookOf me o.Symbol)
  have hnl : ¬ o.Typ = "limit" := by rw [hmk]; decide
  have hown : ownSide (bookOf (ProcessOrder sink me (some o)).engine o.Symbol) o =
      ownSide (bookOf me o.Symbol) o := by
    rw [bookOf_ProcessOrder, hs.2.1]
    simp [hnl]
  have hopp : ∀ x ∈ oppositeSide (bookOf (ProcessOrder sink me (some o)).engine o.Symbol) o,
      ∃ y ∈ oppositeSide (bookOf me o.Symbol) o, SameOrder x y := by
    rw [bookOf_ProcessOrder, hs.1]
    exact cross_rest_same (isBuy o) _ o
  refine ⟨hown, hopp, ?_, ?_, ?_⟩
  · intro hfresh x hx
    have hmem : ∀ (b : OrderBook) (z : Order), z ∈ b.BuyOrders ++ b.SellOrders ↔
        z ∈ ownSide b o ∨ z ∈ oppositeSide b o := by
      intro b z
      unfold ownSide oppositeSide
      rw [List.mem_append]
      split_ifs
      · exact Iff.rfl
      · exact Or.comm
    rcases (hmem _ x).mp hx with h | h
    · rw [hown] at h
      exact hfresh x ((hmem _ x).mpr (Or.inl h))
    · obtain ⟨y, hy, hxy⟩ := hopp x h
      rw [hxy.1]
      exact hfresh y ((hmem _ y).mpr (Or.inr hy))
  · intro t ht hpos
    rw [ProcessOrder_order, hs.2.2] at ht
    simp only [hmk, true_and, Option.some.injEq] at ht
    split_ifs at ht with h
    · rw [← ht]
    · rw [← ht] at hpos; exact absurd hpos h
  · intro hempty hpos
    have hcross : cross (isBuy o) o (oppositeSide (bookOf me o.Symbol) o) =
        { taker := o, pre := [], suf := [], trades := [], updatedOrders := [] } := by
      rw [hempty]; rfl
    have hord : (ProcessOrder sink me (some o)).order = some { o with Status := "cancelled" } := by
      rw [ProcessOrder_order, hs.2.2, hcross]
      simp [hmk, hpos]
    refine ⟨?_, hord, ?_, ?_⟩
    · rw [ProcessOrder_trades, matchOrder_eq, hcross]
      simp
    · intro hri t ht
      rw [hord] at ht
      cases ht
      exact ⟨hri, rfl⟩
    · rw [bookOf_ProcessOrder, matchOrder_eq, hcross]
      simp only [finishOrder_book, hnl, and_false, if_false, List.append_nil]
      rw [← hempty, setOpposite_self]

/-- Witness of `market_order_never_rests`: scenario 4 of the specification, a market buy of
10 on an empty book. -/
theorem market_order_never_rests_witness :
    (ProcessOrder okSink NewMatchingEngine (some (marketOrder "m" "buy" 10 1))).trades = [] ∧
    (ProcessOrder okSink NewMatchingEngine (some (marketOrder "m" "buy" 10 1))).order =
      some { marketOrder "m" "buy" 10 1 with Status := "cancelled" } ∧
    bookOf (ProcessOrder okSink NewMatchingEngine (some (marketOrder "m" "buy" 10 1))).engine "X"
      = bookOf NewMatchingEngine "X" :=
  have h := (market_order_never_rests okSink NewMatchingEngine (marketOrder "m" "buy" 10 1)
    (by decide)).2.2.2.2 (by decide) (by decide)
  ⟨h.1, h.2.1, h.2.2.2⟩
/-! ## C9: the taker's own side -/

theorem insertSortedBuy_insertAt (orders : List Order) (newOrder : Order) :
    ∃ pos, pos ≤ orders.length ∧ insertSortedBuy orders newOrder = insertAt orders pos newOrder := by
  unfold insertSortedBuy
  split_ifs with h
  · exact ⟨0, Nat.zero_le _, by simp [insertAt, List.length_eq_zero.mp h]⟩
  · by_cases hp : searchLoop compareBuyOrders orders newOrder orders.length 0 orders.length ≤
        orders.length
    · exact ⟨_, hp, rfl⟩
    · refine ⟨orders.length, le_refl _, ?_⟩
      have hp1 : orders.length ≤
          searchLoop compareBuyOrders orders newOrder orders.length 0 orders.length := by omega
      simp [insertAt, List.take_of_length_le hp1, List.drop_of_length_le hp1]

theorem insertSortedSell_insertAt (orders : List Order) (newOrder : Order) :
    ∃ pos, pos ≤ orders.length ∧ insertSortedSell orders newOrder = insertAt orders pos newOrder := by
  unfold insertSortedSell
  split_ifs with h
  · exact ⟨0, Nat.zero_le _, by simp [insertAt, List.length_eq_zero.mp h]⟩
  · by_cases hp : searchLoop compareSellOrders orders newOrder orders.length 0 orders.length ≤
        orders.length
    · exact ⟨_, hp, rfl⟩
    · refine ⟨orders.length, le_refl _, ?_⟩
      have hp1 : orders.length ≤
          searchLoop compareSellOrders orders newOrder orders.length 0 orders.length := by omega
      simp [insertAt, List.take_of_length_le hp1, List.drop_of_length_le hp1]

/-- C9. Own-side effect of `ProcessOrder`. When the taker is a limit order that ends
the crossing with remaining > 0, its own side afterwards is the own side before
with the taker (in its final state) added by `AddOrder`, which is the old list
with the taker spliced in at one position; in every other case the own side is
exactly as before. Either way the orders that were resting on that side are
neither modified nor reordered. In scenario 2 of the specification the buyer
rests as the top bid with remaining 2 and status partial, and the asks are empty. -/
theorem own_side_effect (sink : CommitSink) (me : MatchingEngine) (o : Order) :
    (∀ t, (ProcessOrder sink me (some o)).order = some t →
      (o.Typ = "limit" ∧ 0 < t.RemainingQuantity →
        ownSide (bookOf (ProcessOrder sink me (some o)).engine o.Symbol) o =
          ownSide (AddOrder (bookOf me o.Symbol) t) o ∧
        ∃ pos, pos ≤ (ownSide (bookOf me o.Symbol) o).length ∧
          ownSide (bookOf (ProcessOrder sink me (some o)).engine o.Symbol) o =
            (ownSide (bookOf me o.Symbol) o).take pos ++
              t :: (ownSide (bookOf me o.Symbol) o).drop pos) ∧
      (¬ (o.Typ = "limit" ∧ 0 < t.RemainingQuantity) →
        ownSide (bookOf (ProcessOrder sink me (some o)).engine o.Symbol) o =
          ownSide (bookOf me o.Symbol) o)) ∧
    (ownSide (bookOf me o.Symbol) o).Sublist
      (ownSide (bookOf (ProcessOrder sink me (some o)).engine o.Symbol) o) ∧
    (bookOf (ProcessOrder okSink (engineAfter [limitOrder "s" "sell" 100 3 1])
        (some (limitOrder "b" "buy" 100 5 2))).engine "X").BuyOrders =
      [{ limitOrder "b" "buy" 100 5 2 with RemainingQuantity := 2, Status := "partial" }] ∧
    (bookOf (ProcessOrder okSink (engineAfter [limitOrder "s" "sell" 100 3 1])
        (some (limitOrder "b" "buy" 100 5 2))).engine "X").SellOrders = [] := by
  have hs := matchOrder_sides o (bookOf me o.Symbol)
  have hsame := cross_taker_same (isBuy o) (oppositeSide (bookOf me o.Symbol) o) o
  have hcase : ∀ t, (ProcessOrder sink me (some o)).order = some t →
      (o.Typ = "limit" ∧ 0 < t.RemainingQuantity →
        t = (cross (isBuy o) o (oppositeSide (bookOf me o.Symbol) o)).taker ∧
        ownSide (bookOf (ProcessOrder sink me (some o)).engine o.Symbol) o =
          ownSide (AddOrder (bookOf me o.Symbol) t) o) ∧
      (¬ (o.Typ = "limit" ∧ 0 < t.RemainingQuantity) →
        ownSide (bookOf (ProcessOrder sink me (some o)).engine o.Symbol) o =
          ownSide (bookOf me o.Symbol) o) := by
    intro t ht
    rw [ProcessOrder_order, hs.2.2] at ht
    simp only [Option.some.injEq] at ht
    have hrem : t.RemainingQuantity =
        (cross (isBuy o) o (oppositeSide (bookOf me o.Symbol) o)).taker.RemainingQuantity := by
      rw [← ht]; split_ifs <;> rfl
    constructor
    · intro h
      have hnm : ¬ o.Typ = "market" := by rw [h.1]; decide
      have ht2 : t = (cross (isBuy o) o (oppositeSide (bookOf me o.Symbol) o)).taker := by
        rw [← ht]; simp [hnm]
      refine ⟨ht2, ?_⟩
      rw [bookOf_ProcessOrder, hs.2.1, ← hrem, if_pos ⟨h.2, h.1⟩,
        (ownSide_AddOrder _ o t (by rw [ht2]; exact hsame.2.2.1)).1, ← ht2]
    · intro h
      rw [bookOf_ProcessOrder, hs.2.1, ← hrem, if_neg (fun hh => h ⟨hh.2, hh.1⟩)]
  have hshape : ∀ t, o.Typ = "limit" ∧ 0 < t.RemainingQuantity → t.Side = o.Side →
      ∃ pos, pos ≤ (ownSide (bookOf me o.Symbol) o).length ∧
        ownSide (AddOrder (bookOf me o.Symbol) t) o =
          (ownSide (bookOf me o.Symbol) o).take pos ++
            t :: (ownSide (bookOf me o.Symbol) o).drop pos := by
    intro t _ hside
    rw [(ownSide_AddOrder _ o t hside).1]
    split_ifs
    · exact insertSortedBuy_insertAt _ t
    · exact insertSortedSell_insertAt _ t
  refine ⟨?_, ?_, by decide, by decide⟩
  · intro t ht
    refine ⟨fun h => ?_, (hcase t ht).2⟩
    obtain ⟨ht2, hown⟩ := (hcase t ht).1 h
    refine ⟨hown, ?_⟩
    rw [hown]
    exact hshape t h (by rw [ht2]; exact hsame.2.2.1)
  · have ht := ProcessOrder_order sink me o
    by_cases h : o.Typ = "limit" ∧
        0 < (matchOrder o (bookOf me o.Symbol)).order.RemainingQuantity
    · obtain ⟨ht2, hown⟩ := (hcase _ ht).1 h
      rw [hown]
      obtain ⟨pos, _, hpos⟩ := hshape _ h (by rw [ht2]; exact hsame.2.2.1)
      rw [hpos]
      conv_lhs => rw [← List.take_append_drop pos (ownSide (bookOf me o.Symbol) o)]
      exact List.Sublist.append (List.Sublist.refl _) (List.sublist_cons_self _ _)
    · rw [(hcase _ ht).2 h]
/-! ## C10: `AddOrder` keeps a side in priority order and is stable -/

/-- Insertion at the index the binary search finds, for a comparison `cmp` that
agrees with the order `R` of the list. -/
theorem insertAt_search_sorted (cmp : Order → Order → Bool) (R : Order → Order → Prop)
    (orders : List Order) (newOrder : Order) (hs : orders.Pairwise R)
    (htrans : ∀ x y, x ∈ orders → y ∈ orders → R x y → cmp newOrder x = true →
      cmp newOrder y = true)
    (hfalse : ∀ x ∈ orders, cmp newOrder x = false → R x newOrder)
    (htrue : ∀ x ∈ orders, cmp newOrder x = true → R newOrder x) :
    (insertAt orders (searchLoop cmp orders newOrder orders.length 0 orders.length)
      newOrder).Pairwise R ∧
    searchLoop cmp orders newOrder orders.length 0 orders.length ≤ orders.length ∧
    (∀ i x, orders[i]? = some x → cmp newOrder x = false →
      i < searchLoop cmp orders newOrder orders.length 0 orders.length) := by
  have hmono : ∀ (i j : Nat) (x y : Order), i ≤ j → orders[i]? = some x → orders[j]? = some y →
      cmp newOrder x = true → cmp newOrder y = true := by
    intro i j x y hij hx hy hc
    rcases Nat.lt_or_eq_of_le hij with hlt | heq
    · obtain ⟨hi, hxi⟩ := List.getElem?_eq_some.mp hx
      obtain ⟨hj, hyj⟩ := List.getElem?_eq_some.mp hy
      have hR := List.pairwise_iff_getElem.mp hs i j hi hj hlt
      rw [hxi, hyj] at hR
      exact htrans x y (List.getElem?_mem hx) (List.getElem?_mem hy) hR hc
    · subst heq
      rw [hx] at hy
      cases hy
      exact hc
  obtain ⟨hle, htake, hdrop⟩ := searchLoop_whole cmp orders newOrder hmono
  refine ⟨?_, hle, ?_⟩
  · unfold insertAt
    rw [List.pairwise_append]
    refine ⟨hs.sublist (List.take_sublist _ _), ?_, ?_⟩
    · rw [List.pairwise_cons]
      exact ⟨fun y hy => htrue y (List.mem_of_mem_drop hy) (hdrop y hy),
        hs.sublist (List.drop_sublist _ _)⟩
    · intro x hx y hy
      rw [List.mem_cons] at hy
      rcases hy with hy | hy
      · subst hy
        exact hfalse x (List.mem_of_mem_take hx) (htake x hx)
      · have := List.pairwise_append.mp
          ((List.take_append_drop
            (searchLoop cmp orders newOrder orders.length 0 orders.length) orders).symm ▸ hs)
        exact this.2.2 x hx y hy
  · intro i x hx hc
    by_contra hge
    obtain ⟨hi, hxi⟩ := List.getElem?_eq_some.mp hx
    have hmem : x ∈ orders.drop
        (searchLoop cmp orders newOrder orders.length 0 orders.length) := by
      rw [List.mem_iff_getElem]
      refine ⟨i - searchLoop cmp orders newOrder orders.length 0 orders.length,
        by rw [List.length_drop]; omega, ?_⟩
      rw [List.getElem_drop, ← hxi]
      congr 1
      omega
    rw [hdrop x hmem] at hc
    exact absurd hc (by decide)

theorem compareBuyOrders_trans (n x y : Order) (hR : bidPriority x y)
    (hc : compareBuyOrders n x = true) : compareBuyOrders n y = true := by
  unfold bidPriority at hR
  unfold compareBuyOrders at hc ⊢
  cases hx : x.Price with
  | none => simp [hx] at hR
  | some px =>
    cases hy : y.Price with
    | none => simp [hx, hy] at hR
    | some py =>
      cases hn : n.Price with
      | none => simp [hn] at hc
      | some pn =>
        simp only [hx, hy] at hR
        simp only [hn, hx] at hc
        simp only [hn, hy]
        split_ifs at hc with h1
        · subst h1
          rcases hR with hR | ⟨hR1, hR2⟩
          · have hne : ¬ pn = py := ne_of_gt hR
            simp only [hne, if_false]
            exact decide_eq_true hR
          · subst hR1
            simp only [if_true]
            have := of_decide_eq_true hc
            exact decide_eq_true (lt_of_lt_of_le this hR2)
        · have hlt : px < pn := of_decide_eq_true hc
          have hpy : py < pn := by
            rcases hR with hR | ⟨hR1, _⟩
            · exact lt_trans hR hlt
            · rw [← hR1]; exact hlt
          have hne : ¬ pn = py := ne_of_gt hpy
          simp only [hne, if_false]
          exact decide_eq_true hpy

theorem compareSellOrders_trans (n x y : Order) (hR : askPriority x y)
    (hc : compareSellOrders n x = true) : compareSellOrders n y = true := by
  unfold askPriority at hR
  unfold compareSellOrders at hc ⊢
  cases hx : x.Price with
  | none => simp [hx] at hR
  | some px =>
    cases hy : y.Price with
    | none => simp [hx, hy] at hR
    | some py =>
      cases hn : n.Price with
      | none => simp [hn] at hc
      | some pn =>
        simp only [hx, hy] at hR
        simp only [hn, hx] at hc
        simp only [hn, hy]
        split_ifs at hc with h1
        · subst h1
          rcases hR with hR | ⟨hR1, hR2⟩
          · have hne : ¬ pn = py := ne_of_lt hR
            simp only [hne, if_false]
            exact decide_eq_true hR
          · subst hR1
            simp only [if_true]
            have := of_decide_eq_true hc
            exact decide_eq_true (lt_of_lt_of_le this hR2)
        · have hlt : pn < px := of_decide_eq_true hc
          have hpy : pn < py := by
            rcases hR with hR | ⟨hR1, _⟩
            · exact lt_trans hlt hR
            · rw [← hR1]; exact hlt
          have hne : ¬ pn = py := ne_of_lt hpy
          simp only [hne, if_false]
          exact decide_eq_true hpy

theorem compareBuyOrders_true (n x : Order) (hc : compareBuyOrders n x = true) :
    bidPriority n x := by
  unfold compareBuyOrders at hc
  unfold bidPriority
  cases hn : n.Price with
  | none => simp [hn] at hc
  | some pn =>
    cases hx : x.Price with
    | none => simp [hn, hx] at hc
    | some px =>
      simp only [hn, hx] at hc ⊢
      split_ifs at hc with h1
      · exact Or.inr ⟨h1, le_of_lt (of_decide_eq_true hc)⟩
      · exact Or.inl (of_decide_eq_true hc)

theorem compareSellOrders_true (n x : Order) (hc : compareSellOrders n x = true) :
    askPriority n x := by
  unfold compareSellOrders at hc
  unfold askPriority
  cases hn : n.Price with
  | none => simp [hn] at hc
  | some pn =>
    cases hx : x.Price with
    | none => simp [hn, hx] at hc
    | some px =>
      simp only [hn, hx] at hc ⊢
      split_ifs at hc with h1
      · exact Or.inr ⟨h1, le_of_lt (of_decide_eq_true hc)⟩
      · exact Or.inl (of_decide_eq_true hc)

theorem compareBuyOrders_false (n x : Order) (hn : n.Price.isSome = true)
    (hx : x.Price.isSome = true) (hc : compareBuyOrders n x = false) : bidPriority x n := by
  unfold compareBuyOrders at hc
  unfold bidPriority
  obtain ⟨pn, hpn⟩ := Option.isSome_iff_exists.mp hn
  obtain ⟨px, hpx⟩ := Option.isSome_iff_exists.mp hx
  simp only [hpn, hpx] at hc ⊢
  split_ifs at hc with h1
  · exact Or.inr ⟨h1.symm, not_lt.mp (of_decide_eq_false hc)⟩
  · have := not_lt.mp (of_decide_eq_false hc)
    exact Or.inl (lt_of_le_of_ne this h1)

theorem compareSellOrders_false (n x : Order) (hn : n.Price.isSome = true)
    (hx : x.Price.isSome = true) (hc : compareSellOrders n x = false) : askPriority x n := by
  unfold compareSellOrders at hc
  unfold askPriority
  obtain ⟨pn, hpn⟩ := Option.isSome_iff_exists.mp hn
  obtain ⟨px, hpx⟩ := Option.isSome_iff_exists.mp hx
  simp only [hpn, hpx] at hc ⊢
  split_ifs at hc with h1
  · exact Or.inr ⟨h1.symm, not_lt.mp (of_decide_eq_false hc)⟩
  · have := not_lt.mp (of_decide_eq_false hc)
    exact Or.inl (lt_of_le_of_ne this (Ne.symm h1))
theorem insertSortedBuy_sorted (orders : List Order) (newOrder : Order)
    (hp : ∀ x ∈ orders, x.Price.isSome = true) (hn : newOrder.Price.isSome = true)
    (hs : SortedBids orders) :
    SortedBids (insertSortedBuy orders newOrder) ∧
    ∃ pos, pos ≤ orders.length ∧
      insertSortedBuy orders newOrder = orders.take pos ++ newOrder :: orders.drop pos ∧
      ∀ i x, orders[i]? = some x → x.Price = newOrder.Price →
        x.CreatedAt ≤ newOrder.CreatedAt → i < pos := by
  unfold insertSortedBuy
  split_ifs with h
  · have hnil := List.length_eq_zero.mp h
    subst hnil
    exact ⟨List.pairwise_singleton _ _, 0, le_refl _, rfl, fun i x hx => by simp at hx⟩
  · obtain ⟨h1, h2, h3⟩ := insertAt_search_sorted compareBuyOrders bidPriority orders newOrder hs
      (fun x y _ _ hR hc => compareBuyOrders_trans newOrder x y hR hc)
      (fun x hx hc => compareBuyOrders_false newOrder x hn (hp x hx) hc)
      (fun x _ hc => compareBuyOrders_true newOrder x hc)
    refine ⟨h1, _, h2, rfl, ?_⟩
    intro i x hx hprice htime
    refine h3 i x hx ?_
    obtain ⟨pn, hpn⟩ := Option.isSome_iff_exists.mp hn
    unfold compareBuyOrders
    rw [hprice, hpn]
    simp only [if_true]
    exact decide_eq_false (not_lt.mpr htime)

theorem insertSortedSell_sorted (orders : List Order) (newOrder : Order)
    (hp : ∀ x ∈ orders, x.Price.isSome = true) (hn : newOrder.Price.isSome = true)
    (hs : SortedAsks orders) :
    SortedAsks (insertSortedSell orders newOrder) ∧
    ∃ pos, pos ≤ orders.length ∧
      insertSortedSell orders newOrder = orders.take pos ++ newOrder :: orders.drop pos ∧
      ∀ i x, orders[i]? = some x → x.Price = newOrder.Price →
        x.CreatedAt ≤ newOrder.CreatedAt → i < pos := by
  unfold insertSortedSell
  split_ifs with h
  · have hnil := List.length_eq_zero.mp h
    subst hnil
    exact ⟨List.pairwise_singleton _ _, 0, le_refl _, rfl, fun i x hx => by simp at hx⟩
  · obtain ⟨h1, h2, h3⟩ := insertAt_search_sorted compareSellOrders askPriority orders newOrder hs
      (fun x y _ _ hR hc => compareSellOrders_trans newOrder x y hR hc)
      (fun x hx hc => compareSellOrders_false newOrder x hn (hp x hx) hc)
      (fun x _ hc => compareSellOrders_true newOrder x hc)
    refine ⟨h1, _, h2, rfl, ?_⟩
    intro i x hx hprice htime
    refine h3 i x hx ?_
    obtain ⟨pn, hpn⟩ := Option.isSome_iff_exists.mp hn
    unfold compareSellOrders
    rw [hprice, hpn]
    simp only [if_true]
    exact decide_eq_false (not_lt.mpr htime)

/-- C10. `AddOrder` keeps the ordering invariant and is stable. For a side of
priced orders in priority order (bids: price descending then created_at
ascending, asks: price ascending then created_at ascending) and a priced new
order, the binary-search insertion returns a list in priority order that is the
old list with the new order spliced in at one position `pos` (so the existing
orders keep their relative order), and every existing order with the same price
and the same or an earlier created_at stands before `pos`; `AddOrder` applies
the insertion to the bids for a buy and to the asks otherwise and leaves the
other side alone. -/
theorem add_sorted_stable (orders : List Order) (newOrder : Order)
    (hp : ∀ x ∈ orders, x.Price.isSome = true) (hn : newOrder.Price.isSome = true) :
    (SortedBids orders →
      SortedBids (insertSortedBuy orders newOrder) ∧
      ∃ pos, pos ≤ orders.length ∧
        insertSortedBuy orders newOrder = orders.take pos ++ newOrder :: orders.drop pos ∧
        ∀ i x, orders[i]? = some x → x.Price = newOrder.Price →
          x.CreatedAt ≤ newOrder.CreatedAt → i < pos) ∧
    (SortedAsks orders →
      SortedAsks (insertSortedSell orders newOrder) ∧
      ∃ pos, pos ≤ orders.length ∧
        insertSortedSell orders newOrder = orders.take pos ++ newOrder :: orders.drop pos ∧
        ∀ i x, orders[i]? = some x → x.Price = newOrder.Price →
          x.CreatedAt ≤ newOrder.CreatedAt → i < pos) ∧
    (∀ book : OrderBook,
      (newOrder.Side = "buy" →
        (AddOrder book newOrder).BuyOrders = insertSortedBuy book.BuyOrders newOrder ∧
        (AddOrder book newOrder).SellOrders = book.SellOrders) ∧
      (newOrder.Side ≠ "buy" →
        (AddOrder book newOrder).SellOrders = insertSortedSell book.SellOrders newOrder ∧
        (AddOrder book newOrder).BuyOrders = book.BuyOrders)) := by
  refine ⟨insertSortedBuy_sorted orders newOrder hp hn,
    insertSortedSell_sorted orders newOrder hp hn, ?_⟩
  intro book
  constructor
  · intro h; simp [AddOrder, h]
  · intro h; simp [AddOrder, h]

/-- Witness of `add_sorted_stable`: a bid at 100 with the timestamp of the second
resting bid at 100 goes behind it and before the bid at 90. -/
theorem add_sorted_stable_witness :
    SortedBids (insertSortedBuy
      [limitOrder "a" "buy" 100 1 1, limitOrder "b" "buy" 100 1 2, limitOrder "c" "buy" 90 1 3]
      (limitOrder "n" "buy" 100 1 2)) ∧
    insertSortedBuy
      [limitOrder "a" "buy" 100 1 1, limitOrder "b" "buy" 100 1 2, limitOrder "c" "buy" 90 1 3]
      (limitOrder "n" "buy" 100 1 2) =
      [limitOrder "a" "buy" 100 1 1, limitOrder "b" "buy" 100 1 2, limitOrder "n" "buy" 100 1 2,
        limitOrder "c" "buy" 90 1 3] :=
  ⟨((add_sorted_stable
      [limitOrder "a" "buy" 100 1 1, limitOrder "b" "buy" 100 1 2, limitOrder "c" "buy" 90 1 3]
      (limitOrder "n" "buy" 100 1 2) (by decide) (by decide)).1 (by decide)).1, by decide⟩
/-! ## C7: structurally invalid orders -/

theorem insertAt_length (orders : List Order) (newOrder : Order) :
    insertAt orders orders.length newOrder = orders ++ [newOrder] := by
  simp [insertAt]

theorem insertSortedBuy_never (orders : List Order) (newOrder : Order)
    (h : ∀ x ∈ orders, compareBuyOrders newOrder x = false) :
    insertSortedBuy orders newOrder = orders ++ [newOrder] := by
  unfold insertSortedBuy
  split_ifs with h0
  · simp [List.length_eq_zero.mp h0]
  · rw [searchLoop_never compareBuyOrders orders newOrder h, insertAt_length]

theorem insertSortedSell_never (orders : List Order) (newOrder : Order)
    (h : ∀ x ∈ orders, compareSellOrders newOrder x = false) :
    insertSortedSell orders newOrder = orders ++ [newOrder] := by
  unfold insertSortedSell
  split_ifs with h0
  · simp [List.length_eq_zero.mp h0]
  · rw [searchLoop_never compareSellOrders orders newOrder h, insertAt_length]

/-- A limit taker without a price matches no resting limit order. -/
theorem crossCan_priceless (isBuy : Bool) (o m : Order) (ht : o.Typ = "limit")
    (hp : o.Price = none) (hm : m.Typ = "limit") : crossCan isBuy o m = false := by
  cases isBuy
  · simp only [crossCan, Bool.false_eq_true, if_false, canMatch, ht, hm, hp]
    cases m.Price <;> simp
  · simp only [crossCan, if_true, canMatch, ht, hm, hp]
    simp

/-- C7, counterexample. `ProcessOrder` rejects neither a limit order without a price nor
an order with remaining quantity 0: on an empty engine both calls return no
error and hand a batch to the sink, and the price-less limit order is put in the
book. -/
theorem invalid_order_not_rejected :
    ¬ ((ProcessOrder okSink NewMatchingEngine (some (pricelessLimitOrder "p" "buy" 5 1))).err
          ≠ none ∧
        (ProcessOrder okSink NewMatchingEngine
          (some (pricelessLimitOrder "p" "buy" 5 1))).sinkCalls = [] ∧
        bookOf (ProcessOrder okSink NewMatchingEngine
          (some (pricelessLimitOrder "p" "buy" 5 1))).engine "X" = bookOf NewMatchingEngine "X") ∧
    ¬ ((ProcessOrder okSink NewMatchingEngine (some (limitOrder "z" "buy" 100 0 1))).err ≠ none ∧
        (ProcessOrder okSink NewMatchingEngine
          (some (limitOrder "z" "buy" 100 0 1))).sinkCalls = []) ∧
    (bookOf (ProcessOrder okSink NewMatchingEngine
      (some (pricelessLimitOrder "p" "buy" 5 1))).engine "X").BuyOrders =
        [pricelessLimitOrder "p" "buy" 5 1] := by
  decide

/-- C7, amended. `ProcessOrder` validates nothing but the nil order. An order with
remaining quantity ≤ 0 yields no trades and is handed to the sink unchanged in a
batch without trades or updated orders; the only error is the sink's; the book
is unchanged. A limit order without a price and with remaining > 0, against
resting limit orders, likewise yields no trades and is handed to the sink
unchanged, the only error is the sink's, and the order is put on its own side
behind all resting orders while the opposite side is unchanged. -/
theorem invalid_order_processed (sink : CommitSink) (me : MatchingEngine) (o : Order) :
    (ProcessOrder sink me none).err = some "order cannot be nil" ∧
    (o.RemainingQuantity ≤ 0 →
      (ProcessOrder sink me (some o)).sinkCalls =
        [{ order := o, trades := [], updatedOrders := [] }] ∧
      (ProcessOrder sink me (some o)).trades = [] ∧
      (ProcessOrder sink me (some o)).order = some o ∧
      (ProcessOrder sink me (some o)).err =
        (sink { order := o, trades := [], updatedOrders := [] }).map
          (fun e => "failed to execute order matching transaction: " ++ e) ∧
      bookOf (ProcessOrder sink me (some o)).engine o.Symbol = bookOf me o.Symbol) ∧
    (o.Typ = "limit" → o.Price = none → 0 < o.RemainingQuantity →
      (∀ m ∈ oppositeSide (bookOf me o.Symbol) o, m.Typ = "limit") →
      (ProcessOrder sink me (some o)).sinkCalls =
        [{ order := o, trades := [], updatedOrders := [] }] ∧
      (ProcessOrder sink me (some o)).trades = [] ∧
      (ProcessOrder sink me (some o)).order = some o ∧
      (ProcessOrder sink me (some o)).err =
        (sink { order := o, trades := [], updatedOrders := [] }).map
          (fun e => "failed to execute order matching transaction: " ++ e) ∧
      ownSide (bookOf (ProcessOrder sink me (some o)).engine o.Symbol) o =
        ownSide (bookOf me o.Symbol) o ++ [o] ∧
      oppositeSide (bookOf (ProcessOrder sink me (some o)).engine o.Symbol) o =
        oppositeSide (bookOf me o.Symbol) o) := by
  have hs := matchOrder_sides o (bookOf me o.Symbol)
  have hfin : ∀ (hc : cross (isBuy o) o (oppositeSide (bookOf me o.Symbol) o) =
      { taker := o, pre := [], suf := oppositeSide (bookOf me o.Symbol) o, trades := [],
        updatedOrders := [] }) (_ : ¬ (o.Typ = "market" ∧ 0 < o.RemainingQuantity)),
      (ProcessOrder sink me (some o)).sinkCalls =
        [{ order := o, trades := [], updatedOrders := [] }] ∧
      (ProcessOrder sink me (some o)).trades = [] ∧
      (ProcessOrder sink me (some o)).order = some o ∧
      (ProcessOrder sink me (some o)).err =
        (sink { order := o, trades := [], updatedOrders := [] }).map
          (fun e => "failed to execute order matching transaction: " ++ e) := by
    intro hc hnm
    have hm : batchOf (matchOrder o (bookOf me o.Symbol)) =
        { order := o, trades := [], updatedOrders := [] } := by
      have h3 := hs.2.2
      rw [hc] at h3
      simp only [hnm, if_false] at h3
      unfold batchOf
      rw [h3, matchOrder_eq, hc]
    refine ⟨by rw [ProcessOrder_sinkCalls, hm], ?_, ?_, by rw [ProcessOrder_err, hm]⟩
    · rw [ProcessOrder_trades, matchOrder_eq, hc]; simp
    · rw [ProcessOrder_order, hs.2.2, hc]; simp only [hnm, if_false]
  refine ⟨rfl, ?_, ?_⟩
  · intro hle
    have hc := cross_done (isBuy o) o (oppositeSide (bookOf me o.Symbol) o) (not_lt.mpr hle)
    obtain ⟨h1, h2, h3, h4⟩ := hfin hc (fun h => absurd h.2 (not_lt.mpr hle))
    refine ⟨h1, h2, h3, h4, ?_⟩
    rw [bookOf_ProcessOrder, matchOrder_eq, hc]
    simp only [finishOrder_book, not_lt.mpr hle, false_and, if_false, List.nil_append]
    exact setOpposite_self _ o
  · intro ht hp hpos hm
    have hc : cross (isBuy o) o (oppositeSide (bookOf me o.Symbol) o) =
        { taker := o, pre := [], suf := oppositeSide (bookOf me o.Symbol) o, trades := [],
          updatedOrders := [] } := by
      cases hopp : oppositeSide (bookOf me o.Symbol) o with
      | nil => rfl
      | cons m rest =>
        refine cross_stop (isBuy o) o m rest (fun h => ?_)
        rw [crossCan_priceless (isBuy o) o m ht hp (hm m (by rw [hopp]; exact List.mem_cons_self _ _))]
          at h
        exact absurd h.2 (by decide)
    obtain ⟨h1, h2, h3, h4⟩ := hfin hc (fun h => by rw [ht] at h; exact absurd h.1 (by decide))
    refine ⟨h1, h2, h3, h4, ?_, ?_⟩
    · rw [bookOf_ProcessOrder, hs.2.1, hc]
      simp only [hpos, ht, and_self, if_true]
      split_ifs
      · exact insertSortedBuy_never _ o (fun x _ => by simp [compareBuyOrders, hp])
      · exact insertSortedSell_never _ o (fun x _ => by simp [compareSellOrders, hp])
    · rw [bookOf_ProcessOrder, hs.1, hc]
      simp

/-- Witness of `invalid_order_processed`: a price-less limit buy goes behind the resting
bid, with no error from an accepting sink. -/
theorem invalid_order_processed_witness :
    (ProcessOrder okSink (engineAfter [limitOrder "b" "buy" 100 5 1])
      (some (pricelessLimitOrder "p" "buy" 5 2))).err = none ∧
    ownSide (bookOf (ProcessOrder okSink (engineAfter [limitOrder "b" "buy" 100 5 1])
      (some (pricelessLimitOrder "p" "buy" 5 2))).engine "X") (pricelessLimitOrder "p" "buy" 5 2)
      = [limitOrder "b" "buy" 100 5 1, pricelessLimitOrder "p" "buy" 5 2] :=
  have h := (invalid_order_processed okSink (engineAfter [limitOrder "b" "buy" 100 5 1])
    (pricelessLimitOrder "p" "buy" 5 2)).2.2 (by decide) (by decide) (by decide) (by decide)
  ⟨h.2.2.2.1.trans (by decide), h.2.2.2.2.1.trans (by decide)⟩
/-! ## How the loop ends, and the keys of what it leaves -/

/-- When the loop ends, the taker has nothing left, or the opposite side is used
up, or its head does not match the taker. -/
theorem cross_end (isBuy : Bool) (opp : List Order) (o : Order) :
    ¬ 0 < (cross isBuy o opp).taker.RemainingQuantity ∨ (cross isBuy o opp).suf = [] ∨
    ∃ m rest, (cross isBuy o opp).suf = m :: rest ∧
      crossCan isBuy (cross isBuy o opp).taker m = false := by
  refine cross_induction isBuy
    (fun _ _ s => ¬ 0 < s.taker.RemainingQuantity ∨ s.suf = [] ∨
      ∃ m rest, s.suf = m :: rest ∧ crossCan isBuy s.taker m = false) ?_ ?_ ?_ ?_ opp o
  · intro o; exact Or.inr (Or.inl rfl)
  · intro o m rest h
    by_cases hpos : 0 < o.RemainingQuantity
    · refine Or.inr (Or.inr ⟨m, rest, rfl, ?_⟩)
      by_contra hc
      exact h ⟨hpos, by simpa using hc⟩
    · exact Or.inl hpos
  · intro o m rest _ _ _ ih; exact ih
  · intro o m rest _ _ _ h4
    exact Or.inl (by rw [h4]; decide)

/-- The opposite side after the loop is, order by order, a final segment of the
opposite side before, up to remaining quantity and status. -/
theorem cross_rest_segment (isBuy : Bool) (opp : List Order) (o : Order) :
    ∃ j, List.Forall₂ SameOrder ((cross isBuy o opp).pre ++ (cross isBuy o opp).suf)
      (opp.drop j) := by
  have hrefl : ∀ l : List Order, List.Forall₂ SameOrder l l := by
    intro l
    induction l with
    | nil => exact List.Forall₂.nil
    | cons a l ih => exact List.Forall₂.cons (SameOrder.refl a) ih
  refine cross_induction isBuy
    (fun _ opp s => ∃ j, List.Forall₂ SameOrder (s.pre ++ s.suf) (opp.drop j)) ?_ ?_ ?_ ?_ opp o
  · intro o; exact ⟨0, List.Forall₂.nil⟩
  · intro o m rest _; exact ⟨0, hrefl _⟩
  · intro o m rest _ _ _ ih
    obtain ⟨j, hj⟩ := ih
    exact ⟨j + 1, hj⟩
  · intro o m rest _ _ _ _
    exact ⟨0, List.Forall₂.cons (crossStep_maker_same isBuy o m) (hrefl _)⟩

/-- A relation on orders that only looks at what `SameOrder` keeps carries over
from a list to a list of the same orders. -/
theorem pairwise_of_sameOrder (R : Order → Order → Prop)
    (hR : ∀ a b x y, SameOrder a x → SameOrder b y → R x y → R a b) (l1 l2 : List Order)
    (h : List.Forall₂ SameOrder l1 l2) (hp : l2.Pairwise R) : l1.Pairwise R := by
  induction h with
  | nil => exact List.Pairwise.nil
  | cons hab _ ih =>
    rename_i a b l1 l2 hrest
    rw [List.pairwise_cons] at hp ⊢
    refine ⟨?_, ih hp.2⟩
    intro x hx
    have : ∃ y ∈ l2, SameOrder x y := by
      clear ih hp
      induction hrest with
      | nil => simp at hx
      | cons hcd _ ih2 =>
        rw [List.mem_cons] at hx
        rcases hx with hx | hx
        · subst hx; exact ⟨_, List.mem_cons_self _ _, hcd⟩
        · obtain ⟨y, hy, hxy⟩ := ih2 hx
          exact ⟨y, List.mem_cons_of_mem _ hy, hxy⟩
    obtain ⟨y, hy, hxy⟩ := this
    exact hR _ _ _ _ hab hxy (hp.1 y hy)

theorem bidPriority_sameOrder (a b x y : Order) (h1 : SameOrder a x) (h2 : SameOrder b y)
    (h : bidPriority x y) : bidPriority a b := by
  unfold bidPriority at h ⊢
  rw [h1.2.2.2.2.1, h2.2.2.2.2.1, h1.2.2.2.2.2.2, h2.2.2.2.2.2.2]
  exact h

theorem askPriority_sameOrder (a b x y : Order) (h1 : SameOrder a x) (h2 : SameOrder b y)
    (h : askPriority x y) : askPriority a b := by
  unfold askPriority at h ⊢
  rw [h1.2.2.2.2.1, h2.2.2.2.2.1, h1.2.2.2.2.2.2, h2.2.2.2.2.2.2]
  exact h

/-! ## Books of other symbols -/

theorem lookupBook_storeBook_ne (me : MatchingEngine) (symbol other : String) (book : OrderBook)
    (h : other ≠ symbol) :
    lookupBook (storeBook me symbol book) other = lookupBook me other := by
  unfold lookupBook storeBook
  simp only
  generalize me.orderBooks = l
  induction l with
  | nil => rfl
  | cons e l ih =>
    simp only [List.map_cons, List.find?_cons]
    by_cases he : e.1 = symbol
    · have hne : ¬ e.1 = other := by rw [he]; exact fun hh => h hh.symm
      rw [if_pos he]
      simp only [hne, decide_False]
      exact ih
    · rw [if_neg he]
      by_cases ho : e.1 = other
      · simp only [ho, decide_True]
      · simp only [ho, decide_False]
        exact ih

theorem lookupBook_getOrderBook_ne (me : MatchingEngine) (symbol other : String)
    (h : other ≠ symbol) :
    lookupBook (getOrderBook me symbol).2 other = lookupBook me other := by
  unfold getOrderBook
  cases hl : lookupBook me symbol with
  | some b => rfl
  | none =>
    simp only [lookupBook, List.find?_append]
    cases hf : List.find? (fun e => decide (e.1 = other)) me.orderBooks with
    | some e => rfl
    | none => simp [List.find?_cons, Ne.symm h]

/-- `ProcessOrder` leaves the books of the other symbols as they are. -/
theorem bookOf_ProcessOrder_ne (sink : CommitSink) (me : MatchingEngine) (o : Order)
    (other : String) (h : other ≠ o.Symbol) :
    bookOf (ProcessOrder sink me (some o)).engine other = bookOf me other := by
  rw [ProcessOrder_engine, bookOf_eq, lookupBook_storeBook_ne _ _ _ _ h,
    lookupBook_getOrderBook_ne _ _ _ h, ← bookOf_eq]
/-! ## C3: the book stays uncrossed -/

theorem sidePriority_sameOrder (isBid : Bool) (a b x y : Order) (h1 : SameOrder a x)
    (h2 : SameOrder b y) (h : sidePriority isBid x y) : sidePriority isBid a b := by
  cases isBid
  · exact askPriority_sameOrder a b x y h1 h2 h
  · exact bidPriority_sameOrder a b x y h1 h2 h

theorem insertSorted_sorted (isBid : Bool) (orders : List Order) (newOrder : Order)
    (hp : ∀ x ∈ orders, x.Price.isSome = true) (hn : newOrder.Price.isSome = true)
    (hs : orders.Pairwise (sidePriority isBid)) :
    (insertSorted isBid orders newOrder).Pairwise (sidePriority isBid) ∧
    ∀ x ∈ insertSorted isBid orders newOrder, x = newOrder ∨ x ∈ orders := by
  have hmem : ∀ (l : List Order), (∃ pos, pos ≤ orders.length ∧
      l = orders.take pos ++ newOrder :: orders.drop pos ∧
        ∀ i x, orders[i]? = some x → x.Price = newOrder.Price →
          x.CreatedAt ≤ newOrder.CreatedAt → i < pos) →
      ∀ x ∈ l, x = newOrder ∨ x ∈ orders := by
    intro l hl x hx
    obtain ⟨pos, _, hl, _⟩ := hl
    rw [hl, List.mem_append, List.mem_cons] at hx
    rcases hx with hx | hx | hx
    · exact Or.inr (List.mem_of_mem_take hx)
    · exact Or.inl hx
    · exact Or.inr (List.mem_of_mem_drop hx)
  cases isBid
  · have := insertSortedSell_sorted orders newOrder hp hn hs
    exact ⟨this.1, hmem _ this.2⟩
  · have := insertSortedBuy_sorted orders newOrder hp hn hs
    exact ⟨this.1, hmem _ this.2⟩

theorem crossCan_false_below (isBuy : Bool) (t m : Order) (hc : crossCan isBuy t m = false)
    (ht : t.Price.isSome = true) (hm : m.Price.isSome = true) : priceBelow isBuy t m := by
  obtain ⟨pt, hpt⟩ := Option.isSome_iff_exists.mp ht
  obtain ⟨pm, hpm⟩ := Option.isSome_iff_exists.mp hm
  refine ⟨pt, pm, hpt, hpm, ?_⟩
  cases isBuy
  · simp only [crossCan, Bool.false_eq_true, if_false, canMatch, hpt, hpm] at hc
    split_ifs at hc
    simpa using hc
  · simp only [crossCan, if_true, canMatch, hpt, hpm] at hc
    split_ifs at hc
    simpa using hc

theorem priceBelow_of_priority (isBuy : Bool) (t m y : Order) (h : priceBelow isBuy t m)
    (hp : sidePriority (!isBuy) m y) : priceBelow isBuy t y := by
  obtain ⟨pt, pm, hpt, hpm, hlt⟩ := h
  cases isBuy
  · simp only [sidePriority, Bool.not_false, if_true, bidPriority, hpm] at hp
    cases hy : y.Price with
    | none => simp [hy] at hp
    | some py =>
      simp only [hy] at hp
      refine ⟨pt, py, hpt, hy, ?_⟩
      simp only [Bool.false_eq_true, if_false] at hlt ⊢
      rcases hp with hp | ⟨hp, _⟩
      · exact lt_trans hp hlt
      · rw [← hp]; exact hlt
  · simp only [sidePriority, Bool.not_true, Bool.false_eq_true, if_false, askPriority, hpm] at hp
    cases hy : y.Price with
    | none => simp [hy] at hp
    | some py =>
      simp only [hy] at hp
      refine ⟨pt, py, hpt, hy, ?_⟩
      simp only [if_true] at hlt ⊢
      rcases hp with hp | ⟨hp, _⟩
      · exact lt_trans hlt hp
      · rw [← hp]; exact hlt

theorem priceBelow_sameOrder (isBuy : Bool) (x y y1 : Order) (h : priceBelow isBuy x y)
    (hs : SameOrder y1 y) : priceBelow isBuy x y1 := by
  obtain ⟨px, py, hpx, hpy, hlt⟩ := h
  exact ⟨px, py, hpx, by rw [hs.2.2.2.2.1]; exact hpy, hlt⟩

/-- The two sides after the crossing and the insertion of the taker: priced, in
priority order and not crossed, if they were so before. -/
theorem cross_sides_ordered (o : Order) (own opp : List Order)
    (ho : o.Typ = "limit" → o.Price.isSome = true)
    (hown : ∀ x ∈ own, x.Price.isSome = true) (hopp : ∀ x ∈ opp, x.Price.isSome = true)
    (hso : own.Pairwise (sidePriority (isBuy o)))
    (hsp : opp.Pairwise (sidePriority (!isBuy o)))
    (hnc : ∀ x ∈ own, ∀ y ∈ opp, priceBelow (isBuy o) x y) :
    (∀ x ∈ (if 0 < (cross (isBuy o) o opp).taker.RemainingQuantity ∧ o.Typ = "limit"
        then insertSorted (isBuy o) own (cross (isBuy o) o opp).taker else own),
      x.Price.isSome = true) ∧
    (∀ x ∈ (cross (isBuy o) o opp).pre ++ (cross (isBuy o) o opp).suf, x.Price.isSome = true) ∧
    (if 0 < (cross (isBuy o) o opp).taker.RemainingQuantity ∧ o.Typ = "limit"
        then insertSorted (isBuy o) own (cross (isBuy o) o opp).taker else own).Pairwise
      (sidePriority (isBuy o)) ∧
    ((cross (isBuy o) o opp).pre ++ (cross (isBuy o) o opp).suf).Pairwise
      (sidePriority (!isBuy o)) ∧
    (∀ x ∈ (if 0 < (cross (isBuy o) o opp).taker.RemainingQuantity ∧ o.Typ = "limit"
        then insertSorted (isBuy o) own (cross (isBuy o) o opp).taker else own),
      ∀ y ∈ (cross (isBuy o) o opp).pre ++ (cross (isBuy o) o opp).suf,
        priceBelow (isBuy o) x y) := by
  have hsame := cross_taker_same (isBuy o) opp o
  have hrest := cross_rest_same (isBuy o) opp o
  have hopp1 : ∀ x ∈ (cross (isBuy o) o opp).pre ++ (cross (isBuy o) o opp).suf,
      x.Price.isSome = true := by
    intro x hx
    obtain ⟨y, hy, hxy⟩ := hrest x hx
    rw [hxy.2.2.2.2.1]
    exact hopp y hy
  have hsp1 : ((cross (isBuy o) o opp).pre ++ (cross (isBuy o) o opp).suf).Pairwise
      (sidePriority (!isBuy o)) := by
    obtain ⟨j, hj⟩ := cross_rest_segment (isBuy o) opp o
    exact pairwise_of_sameOrder _ (sidePriority_sameOrder _) _ _ hj
      (hsp.sublist (List.drop_sublist _ _))
  have hnc1 : ∀ x ∈ own, ∀ y ∈ (cross (isBuy o) o opp).pre ++ (cross (isBuy o) o opp).suf,
      priceBelow (isBuy o) x y := by
    intro x hx y hy
    obtain ⟨z, hz, hyz⟩ := hrest y hy
    exact priceBelow_sameOrder _ x z y (hnc x hx z hz) hyz
  by_cases hins : 0 < (cross (isBuy o) o opp).taker.RemainingQuantity ∧ o.Typ = "limit"
  · simp only [hins, and_self, if_true]
    have htp : (cross (isBuy o) o opp).taker.Price.isSome = true := by
      rw [hsame.2.2.2.2.1]; exact ho hins.2
    have hin := insertSorted_sorted (isBuy o) own (cross (isBuy o) o opp).taker hown htp hso
    have htaker : ∀ y ∈ (cross (isBuy o) o opp).pre ++ (cross (isBuy o) o opp).suf,
        priceBelow (isBuy o) (cross (isBuy o) o opp).taker y := by
      have hres := (cross_residual (isBuy o) opp o).2.2
      have hpre : (cross (isBuy o) o opp).pre = [] := by
        rcases hres with h | ⟨u, _, _, _, h0⟩
        · exact h
        · rw [h0] at hins; exact absurd hins.1 (by decide)
      rw [hpre, List.nil_append] at hsp1 hopp1 ⊢
      rcases cross_end (isBuy o) opp o with h | h | ⟨m, rest, hsuf, hcan⟩
      · exact absurd hins.1 h
      · rw [h]; intro y hy; simp at hy
      · rw [hsuf] at hsp1 hopp1 ⊢
        have hm := crossCan_false_below (isBuy o) _ m hcan htp
          (hopp1 m (List.mem_cons_self _ _))
        intro y hy
        rw [List.mem_cons] at hy
        rcases hy with hy | hy
        · rw [hy]; exact hm
        · exact priceBelow_of_priority _ _ m y hm ((List.pairwise_cons.mp hsp1).1 y hy)
    refine ⟨?_, hopp1, hin.1, hsp1, ?_⟩
    · intro x hx
      rcases hin.2 x hx with h | h
      · rw [h]; exact htp
      · exact hown x h
    · intro x hx y hy
      rcases hin.2 x hx with h | h
      · rw [h]; exact htaker y hy
      · exact hnc1 x h y hy
  · simp only [hins, if_false]
    exact ⟨hown, hopp1, hso, hsp1, hnc1⟩
theorem ite_some_eq_none {c : Prop} [Decidable c] (m : String) (rest : Option String) :
    (if c then some m else rest) = none ↔ ¬ c ∧ rest = none := by
  by_cases h : c
  · rw [if_pos h]
    exact ⟨fun hh => Option.noConfusion hh, fun hh => absurd h hh.1⟩
  · rw [if_neg h]
    exact ⟨fun hh => ⟨h, hh⟩, fun hh => hh.2⟩

/-- What `validateOrderRequest` accepts. -/
theorem validateOrderRequest_none (req : PlaceOrderRequest) :
    validateOrderRequest req = none ↔
      req.Symbol ≠ "" ∧ req.Symbol.utf8ByteSize ≤ 50 ∧ 0 < req.Quantity ∧
      (req.Side = "buy" ∨ req.Side = "sell") ∧
      ((req.Typ = "limit" ∧ ∃ p, req.Price = some p ∧ 0 < p) ∨
        (req.Typ = "market" ∧ req.Price = none)) := by
  unfold validateOrderRequest
  simp only [ite_some_eq_none, and_true]
  have hbuy : ("buy" : String) ≠ "" := by decide
  have hsell : ("sell" : String) ≠ "" := by decide
  have hlim : ("limit" : String) ≠ "" := by decide
  have hmar : ("market" : String) ≠ "" := by decide
  have hlm : ("limit" : String) ≠ "market" := by decide
  constructor
  · rintro ⟨h1, h2, h3, h4, h5, h6, h7, h8, h9, h10⟩
    refine ⟨h1, not_lt.mp h2, not_le.mp h5, ?_, ?_⟩
    · by_contra hc
      exact h6 ⟨fun hh => hc (Or.inl hh), fun hh => hc (Or.inr hh)⟩
    · by_cases hl : req.Typ = "limit"
      · left
        refine ⟨hl, ?_⟩
        cases hp : req.Price with
        | none => exact absurd ⟨hl, hp⟩ h8
        | some p =>
          refine ⟨p, rfl, ?_⟩
          by_contra hle
          exact h9 ⟨hl, p, hp, not_lt.mp hle⟩
      · right
        have hm : req.Typ = "market" := by
          by_contra hc
          exact h7 ⟨hl, hc⟩
        refine ⟨hm, ?_⟩
        by_contra hc
        exact h10 ⟨hm, hc⟩
  · rintro ⟨h1, h2, h3, h4, h5⟩
    refine ⟨h1, not_lt.mpr h2, ?_, ?_, not_le.mpr h3, ?_, ?_, ?_, ?_, ?_⟩
    · rcases h4 with h | h
      · rw [h]; exact hbuy
      · rw [h]; exact hsell
    · rcases h5 with ⟨h, _⟩ | ⟨h, _⟩
      · rw [h]; exact hlim
      · rw [h]; exact hmar
    · rintro ⟨ha, hb⟩
      rcases h4 with h | h
      · exact ha h
      · exact hb h
    · rintro ⟨ha, hb⟩
      rcases h5 with ⟨h, _⟩ | ⟨h, _⟩
      · exact ha h
      · exact hb h
    · rintro ⟨ha, hb⟩
      rcases h5 with ⟨_, p, hp, _⟩ | ⟨h, _⟩
      · rw [hp] at hb; exact Option.noConfusion hb
      · rw [h] at ha; exact hlm ha.symm
    · rintro ⟨ha, q, hq, hq0⟩
      rcases h5 with ⟨_, p, hp, hp0⟩ | ⟨h, _⟩
      · rw [hp] at hq
        cases hq
        exact absurd hp0 (not_lt.mpr hq0)
      · rw [h] at ha; exact hlm ha.symm
    · rintro ⟨ha, hb⟩
      rcases h5 with ⟨h, _⟩ | ⟨_, h⟩
      · rw [h] at ha; exact hlm ha
      · exact hb h

/-- The fields of a validated order. -/
theorem Validated.fields {o : Order} (h : Validated o) :
    (o.Side = "buy" ∨ o.Side = "sell") ∧
    ((o.Typ = "limit" ∧ ∃ p, o.Price = some p ∧ 0 < p) ∨ (o.Typ = "market" ∧ o.Price = none)) ∧
    0 < o.InitialQuantity ∧ o.InitialQuantity < 2 ^ 63 ∧
    o.RemainingQuantity = o.InitialQuantity ∧ o.Status = "open" := by
  obtain ⟨h1, h2, h3, h4⟩ := h
  obtain ⟨_, _, h5, h6, h7⟩ := (validateOrderRequest_none _).mp h1
  exact ⟨h6, h7, h5, h4, h2, h3⟩

theorem Validated.limit_priced {o : Order} (h : Validated o) (hl : o.Typ = "limit") :
    o.Price.isSome = true := by
  rcases h.fields.2.1 with ⟨_, p, hp, _⟩ | ⟨hm, _⟩
  · rw [hp]; rfl
  · rw [hm] at hl; exact absurd hl (by decide)

theorem insertSorted_isBuy (o : Order) (l : List Order) (t : Order) :
    (if o.Side = "buy" then insertSortedBuy l t else insertSortedSell l t) =
      insertSorted (isBuy o) l t := by
  unfold insertSorted isBuy
  by_cases h : o.Side = "buy" <;> simp [h]

/-- `matchBuyOrder` and `matchSellOrder` keep a book priced, in priority order
and uncrossed, for a taker that has a price if it is a limit order. -/
theorem matchOrder_ordered (o : Order) (book : OrderBook)
    (ho : o.Typ = "limit" → o.Price.isSome = true) (hb : BookOrdered book) :
    BookOrdered (matchOrder o book).book := by
  obtain ⟨hs1, hs2, _⟩ := matchOrder_sides o book
  rw [insertSorted_isBuy] at hs2
  obtain ⟨hb1, hb2, hb3, hb4, hb5⟩ := hb
  by_cases hside : o.Side = "buy"
  · have hib : isBuy o = true := by simp [isBuy, hside]
    have hown : ∀ b : OrderBook, ownSide b o = b.BuyOrders := fun b => by simp [ownSide, hside]
    have hopp : ∀ b : OrderBook, oppositeSide b o = b.SellOrders := fun b => by
      simp [oppositeSide, hside]
    have h := cross_sides_ordered o book.BuyOrders book.SellOrders ho hb1 hb2
      (by rw [hib]; exact hb3) (by rw [hib]; exact hb4)
      (fun x hx y hy => by
        obtain ⟨pb, pa, h1, h2, h3⟩ := hb5 x hx y hy
        exact ⟨pb, pa, h1, h2, by rw [hib]; simpa using h3⟩)
    rw [hown, hown, hopp] at hs2
    rw [hopp, hopp] at hs1
    rw [← hs1, ← hs2] at h
    obtain ⟨h1, h2, h3, h4, h5⟩ := h
    rw [hib] at h3 h4 h5
    refine ⟨h1, h2, h3, h4, ?_⟩
    intro x hx y hy
    obtain ⟨pb, pa, h6, h7, h8⟩ := h5 x hx y hy
    exact ⟨pb, pa, h6, h7, by simpa using h8⟩
  · have hib : isBuy o = false := by simp [isBuy, hside]
    have hown : ∀ b : OrderBook, ownSide b o = b.SellOrders := fun b => by simp [ownSide, hside]
    have hopp : ∀ b : OrderBook, oppositeSide b o = b.BuyOrders := fun b => by
      simp [oppositeSide, hside]
    have h := cross_sides_ordered o book.SellOrders book.BuyOrders ho hb2 hb1
      (by rw [hib]; exact hb4) (by rw [hib]; exact hb3)
      (fun x hx y hy => by
        obtain ⟨pb, pa, h1, h2, h3⟩ := hb5 y hy x hx
        exact ⟨pa, pb, h2, h1, by rw [hib]; simpa using h3⟩)
    rw [hown, hown, hopp] at hs2
    rw [hopp, hopp] at hs1
    rw [← hs1, ← hs2] at h
    obtain ⟨h1, h2, h3, h4, h5⟩ := h
    rw [hib] at h3 h4 h5
    refine ⟨h2, h1, h4, h3, ?_⟩
    intro x hx y hy
    obtain ⟨pa, pb, h6, h7, h8⟩ := h5 y hy x hx
    exact ⟨pb, pa, h7, h6, by simpa using h8⟩
theorem bookOf_NewMatchingEngine (symbol : String) :
    bookOf NewMatchingEngine symbol = NewOrderBook symbol := rfl

theorem place_engine (x : Exchange) (o : Order) :
    (place x o).engine = (ProcessOrder okSink x.engine (some o)).engine := rfl

/-- Every book of the engine stays priced, in priority order and uncrossed along
a run of validated orders. -/
theorem foldl_place_ordered (os : List Order) :
    ∀ x : Exchange, (∀ o ∈ os, Validated o) →
      (∀ symbol, BookOrdered (bookOf x.engine symbol)) →
      ∀ symbol, BookOrdered (bookOf (os.foldl place x).engine symbol) := by
  induction os with
  | nil => intro x _ h; exact h
  | cons o os ih =>
    intro x hv hx
    rw [List.foldl_cons]
    refine ih (place x o) (fun y hy => hv y (List.mem_cons_of_mem _ hy)) ?_
    intro symbol
    rw [place_engine]
    by_cases hs : symbol = o.Symbol
    · subst hs
      rw [bookOf_ProcessOrder]
      exact matchOrder_ordered o _ (hv o (List.mem_cons_self _ _)).limit_priced (hx _)
    · rw [bookOf_ProcessOrder_ne _ _ _ _ hs]
      exact hx symbol

theorem maxPrice_mem (side : List Order) (hi : Rat) (h : maxPrice side = some hi) :
    ∃ b ∈ side, b.Price = some hi := by
  unfold maxPrice at h
  have := List.max?_mem max_choice h
  rw [List.mem_filterMap] at this
  exact this

theorem minPrice_mem (side : List Order) (lo : Rat) (h : minPrice side = some lo) :
    ∃ a ∈ side, a.Price = some lo := by
  unfold minPrice at h
  have := List.min?_mem min_choice h
  rw [List.mem_filterMap] at this
  exact this

/-- C3. No crossed book. Along every sequence of validated orders processed from
the empty engine with a sink that always succeeds, after each call (after the
first n orders, for every n) every symbol's book has each bid priced strictly
below each ask; so whenever both sides are non-empty the highest bid price is
strictly below the lowest ask price. -/
theorem no_crossed_book (os : List Order) (hv : ∀ o ∈ os, Validated o) (n : Nat)
    (symbol : String) :
    NoCross (bookOf (run (os.take n)).engine symbol) ∧
    ∀ hi lo, maxPrice (bookOf (run (os.take n)).engine symbol).BuyOrders = some hi →
      minPrice (bookOf (run (os.take n)).engine symbol).SellOrders = some lo → hi < lo := by
  have hinv := foldl_place_ordered (os.take n) emptyExchange
    (fun o ho => hv o (List.mem_of_mem_take ho))
    (fun s => by
      show BookOrdered (NewOrderBook s)
      refine ⟨?_, ?_, List.Pairwise.nil, List.Pairwise.nil, ?_⟩
      · intro x hx; simp [NewOrderBook] at hx
      · intro x hx; simp [NewOrderBook] at hx
      · intro x hx; simp [NewOrderBook] at hx)
    symbol
  have hnc : NoCross (bookOf (run (os.take n)).engine symbol) := hinv.2.2.2.2
  refine ⟨hnc, ?_⟩
  intro hi lo hhi hlo
  obtain ⟨b, hb, hbp⟩ := maxPrice_mem _ hi hhi
  obtain ⟨a, ha, hap⟩ := minPrice_mem _ lo hlo
  obtain ⟨pb, pa, h1, h2, h3⟩ := hnc b hb a ha
  rw [hbp] at h1
  rw [hap] at h2
  cases h1
  cases h2
  exact h3

/-- Witness of `no_crossed_book`: an ask at 100, then bids at 99 and at 100; the book
ends with the bid at 99 below the ask at 100. -/
theorem no_crossed_book_witness :
    NoCross (bookOf (run ([limitOrder "s" "sell" 100 5 1, limitOrder "b1" "buy" 99 3 2,
      limitOrder "b2" "buy" 100 2 3].take 3)).engine "X") ∧
    maxPrice (bookOf (run ([limitOrder "s" "sell" 100 5 1, limitOrder "b1" "buy" 99 3 2,
      limitOrder "b2" "buy" 100 2 3].take 3)).engine "X").BuyOrders = some 99 ∧
    minPrice (bookOf (run ([limitOrder "s" "sell" 100 5 1, limitOrder "b1" "buy" 99 3 2,
      limitOrder "b2" "buy" 100 2 3].take 3)).engine "X").SellOrders = some 100 :=
  ⟨(no_crossed_book [limitOrder "s" "sell" 100 5 1, limitOrder "b1" "buy" 99 3 2,
      limitOrder "b2" "buy" 100 2 3] (by decide) 3 "X").1, by decide, by decide⟩
/-! ## C5: quantity accounting -/

theorem tradedQuantity_nil (id : String) : tradedQuantity [] id = 0 := rfl

theorem tradedQuantity_cons (t : Trade) (l : List Trade) (id : String) :
    tradedQuantity (t :: l) id =
      (if t.BuyOrderID = id ∨ t.SellOrderID = id then t.Quantity else 0) +
        tradedQuantity l id := by
  unfold tradedQuantity
  by_cases h : t.BuyOrderID = id ∨ t.SellOrderID = id
  · simp [List.filter_cons, h]
  · simp [List.filter_cons, h]

theorem tradedQuantity_append (l1 l2 : List Trade) (id : String) :
    tradedQuantity (l1 ++ l2) id = tradedQuantity l1 id + tradedQuantity l2 id := by
  unfold tradedQuantity
  simp [List.filter_append, List.map_append, List.sum_append]

/-- A trade of the loop names the taker and the maker, nobody else. -/
theorem crossStep_refers (isBuy : Bool) (o m : Order) (id : String) :
    ((crossStep isBuy o m).1.BuyOrderID = id ∨ (crossStep isBuy o m).1.SellOrderID = id) ↔
      (o.ID = id ∨ m.ID = id) := by
  have h := crossStep_ids isBuy o m
  cases isBuy
  · simp only [Bool.false_eq_true, if_false] at h
    rw [h.1, h.2]
    exact Or.comm
  · simp only [if_true] at h
    rw [h.1, h.2]

/-- One matched iteration on quantities that are positive Go `int`s: no wrap. -/
theorem crossStep_exact (isBuy : Bool) (o m : Order) (ho : 0 < o.RemainingQuantity)
    (ho2 : o.RemainingQuantity < 2 ^ 63) (hm : 0 < m.RemainingQuantity)
    (hm2 : m.RemainingQuantity < 2 ^ 63) :
    0 < (crossStep isBuy o m).1.Quantity ∧
    (crossStep isBuy o m).2.1.RemainingQuantity =
      o.RemainingQuantity - (crossStep isBuy o m).1.Quantity ∧
    (crossStep isBuy o m).2.2.RemainingQuantity =
      m.RemainingQuantity - (crossStep isBuy o m).1.Quantity ∧
    0 ≤ (crossStep isBuy o m).2.1.RemainingQuantity ∧
    0 ≤ (crossStep isBuy o m).2.2.RemainingQuantity := by
  have hq := crossStep_quantity isBuy o m
  have hq1 : (crossStep isBuy o m).1.Quantity ≤ o.RemainingQuantity := by
    rw [hq]; exact min_le_left _ _
  have hq2 : (crossStep isBuy o m).1.Quantity ≤ m.RemainingQuantity := by
    rw [hq]; exact min_le_right _ _
  have hq0 : 0 < (crossStep isBuy o m).1.Quantity := by
    rw [hq]; exact lt_min ho hm
  have h1 : (crossStep isBuy o m).2.1.RemainingQuantity =
      o.RemainingQuantity - (crossStep isBuy o m).1.Quantity := by
    rw [crossStep_taker_rem]
    exact wrapInt64_of_range _ (by linarith) (by linarith)
  have h2 : (crossStep isBuy o m).2.2.RemainingQuantity =
      m.RemainingQuantity - (crossStep isBuy o m).1.Quantity := by
    rw [crossStep_maker_rem]
    exact wrapInt64_of_range _ (by linarith) (by linarith)
  exact ⟨hq0, h1, h2, by rw [h1]; linarith, by rw [h2]; linarith⟩

/-- Accounting of one crossing. With positive Go `int` quantities on the taker
and on the opposite side, whose ids are pairwise distinct and differ from the
taker's: the taker's remaining quantity goes down by the quantity of the
trades, each updated maker's by the quantity of the trades that name it, and no
other id is named by a trade. -/
theorem cross_accounting (isBuy : Bool) (opp : List Order) (o : Order) :
    0 ≤ o.RemainingQuantity → o.RemainingQuantity < 2 ^ 63 →
    (∀ m ∈ opp, 0 < m.RemainingQuantity ∧ m.RemainingQuantity < 2 ^ 63) →
    (opp.map Order.ID).Nodup → o.ID ∉ opp.map Order.ID →
    ((cross isBuy o opp).taker.RemainingQuantity =
        o.RemainingQuantity - tradedQuantity (cross isBuy o opp).trades o.ID ∧
      0 ≤ (cross isBuy o opp).taker.RemainingQuantity ∧
      (cross isBuy o opp).taker.RemainingQuantity ≤ o.RemainingQuantity) ∧
    (∀ (i : Nat) (u m : Order), (cross isBuy o opp).updatedOrders[i]? = some u → opp[i]? = some m →
      u.RemainingQuantity =
        m.RemainingQuantity - tradedQuantity (cross isBuy o opp).trades m.ID ∧
      0 ≤ u.RemainingQuantity ∧ u.RemainingQuantity < 2 ^ 63) ∧
    (∀ id, id ≠ o.ID → id ∉ (opp.take (cross isBuy o opp).trades.length).map Order.ID →
      tradedQuantity (cross isBuy o opp).trades id = 0) := by
  refine cross_induction isBuy
    (fun o opp s => 0 ≤ o.RemainingQuantity → o.RemainingQuantity < 2 ^ 63 →
      (∀ m ∈ opp, 0 < m.RemainingQuantity ∧ m.RemainingQuantity < 2 ^ 63) →
      (opp.map Order.ID).Nodup → o.ID ∉ opp.map Order.ID →
      (s.taker.RemainingQuantity = o.RemainingQuantity - tradedQuantity s.trades o.ID ∧
        0 ≤ s.taker.RemainingQuantity ∧ s.taker.RemainingQuantity ≤ o.RemainingQuantity) ∧
      (∀ (i : Nat) (u m : Order), s.updatedOrders[i]? = some u → opp[i]? = some m →
        u.RemainingQuantity = m.RemainingQuantity - tradedQuantity s.trades m.ID ∧
        0 ≤ u.RemainingQuantity ∧ u.RemainingQuantity < 2 ^ 63) ∧
      (∀ id, id ≠ o.ID → id ∉ (opp.take s.trades.length).map Order.ID →
        tradedQuantity s.trades id = 0)) ?_ ?_ ?_ ?_ opp o
  · intro o h0 _ _ _ _
    simp [tradedQuantity_nil, h0]
  · intro o m rest _ h0 _ _ _ _
    simp [tradedQuantity_nil, h0]
  · intro o m rest hpos _ _ ih h0 h1 hq hnd hid
    have hm := hq m (List.mem_cons_self _ _)
    obtain ⟨e0, e1, e2, e3, e4⟩ := crossStep_exact isBuy o m hpos h1 hm.1 hm.2
    have hsame := crossStep_taker_same isBuy o m
    rw [List.map_cons, List.nodup_cons] at hnd
    rw [List.map_cons, List.mem_cons, not_or] at hid
    obtain ⟨⟨a1, a2, a3⟩, ih2, ih3⟩ := ih e3 (by linarith)
      (fun x hx => hq x (List.mem_cons_of_mem _ hx)) hnd.2 (by rw [hsame.1]; exact hid.2)
    rw [hsame.1] at a1 ih3
    have hmo : m.ID ≠ o.ID := fun h => hid.1 h.symm
    have hm0 : tradedQuantity (cross isBuy (crossStep isBuy o m).2.1 rest).trades m.ID = 0 :=
      ih3 m.ID hmo (fun h => by
        obtain ⟨y, hy, hy2⟩ := List.mem_map.mp h
        exact hnd.1 (List.mem_map.mpr ⟨y, List.mem_of_mem_take hy, hy2⟩))
    refine ⟨⟨?_, a2, by linarith⟩, ?_, ?_⟩
    · rw [tradedQuantity_cons, if_pos ((crossStep_refers isBuy o m o.ID).mpr (Or.inl rfl)), a1, e1]
      ring
    · intro i u x hu hx
      cases i with
      | zero =>
        simp only [List.getElem?_cons_zero, Option.some.injEq] at hu hx
        subst hu hx
        refine ⟨?_, e4, by linarith⟩
        rw [tradedQuantity_cons, if_pos ((crossStep_refers isBuy o m m.ID).mpr (Or.inr rfl)),
          hm0, e2]
        ring
      | succ i =>
        simp only [List.getElem?_cons_succ] at hu hx
        have hxm : x ∈ rest := List.getElem?_mem hx
        have hne : ¬ ((crossStep isBuy o m).1.BuyOrderID = x.ID ∨
            (crossStep isBuy o m).1.SellOrderID = x.ID) := by
          rw [crossStep_refers]
          rintro (h | h)
          · exact hid.2 (by rw [h]; exact List.mem_map_of_mem _ hxm)
          · exact hnd.1 (by rw [h]; exact List.mem_map_of_mem _ hxm)
        rw [tradedQuantity_cons, if_neg hne, zero_add]
        exact ih2 i u x hu hx
    · intro id hne hnot
      simp only [List.length_cons, List.take_succ_cons, List.map_cons, List.mem_cons,
        not_or] at hnot
      have hnr : ¬ ((crossStep isBuy o m).1.BuyOrderID = id ∨
          (crossStep isBuy o m).1.SellOrderID = id) := by
        rw [crossStep_refers]
        rintro (h | h)
        · exact hne h.symm
        · exact hnot.1 h.symm
      rw [tradedQuantity_cons, if_neg hnr, zero_add]
      exact ih3 id hne hnot.2
  · intro o m rest hpos _ _ _ h0 h1 hq hnd hid
    have hm := hq m (List.mem_cons_self _ _)
    obtain ⟨e0, e1, e2, e3, e4⟩ := crossStep_exact isBuy o m hpos h1 hm.1 hm.2
    rw [List.map_cons, List.mem_cons, not_or] at hid
    refine ⟨⟨?_, e3, by linarith⟩, ?_, ?_⟩
    · rw [tradedQuantity_cons, if_pos ((crossStep_refers isBuy o m o.ID).mpr (Or.inl rfl)),
        tradedQuantity_nil, e1]
      ring
    · intro i u x hu hx
      cases i with
      | zero =>
        simp only [List.getElem?_cons_zero, Option.some.injEq] at hu hx
        subst hu hx
        refine ⟨?_, e4, by linarith⟩
        rw [tradedQuantity_cons, if_pos ((crossStep_refers isBuy o m m.ID).mpr (Or.inr rfl)),
          tradedQuantity_nil, e2]
        ring
      | succ i => simp at hu
    · intro id hne hnot
      simp only [List.length_cons, List.length_nil, List.take_succ_cons, List.take_zero,
        List.map_cons, List.map_nil, List.mem_singleton] at hnot
      have hnr : ¬ ((crossStep isBuy o m).1.BuyOrderID = id ∨
          (crossStep isBuy o m).1.SellOrderID = id) := by
        rw [crossStep_refers]
        rintro (h | h)
        · exact hne h.symm
        · exact hnot h.symm
      rw [tradedQuantity_cons, if_neg hnr, tradedQuantity_nil, zero_add]
theorem foldl_updateOrderTx (upd : List Order) :
    ∀ rows : List Order, upd.foldl updateOrderTx rows = rows.map (updatedRow upd) := by
  induction upd with
  | nil =>
    intro rows
    have h : updatedRow [] = id := rfl
    rw [h, List.map_id]
    rfl
  | cons u upd ih =>
    intro rows
    rw [List.foldl_cons, ih]
    simp only [updateOrderTx, List.map_map]
    rfl

theorem updatedRow_same (upd : List Order) : ∀ r : Order, SameOrder (updatedRow upd r) r := by
  induction upd with
  | nil => intro r; exact SameOrder.refl r
  | cons u upd ih =>
    intro r
    unfold updatedRow
    rw [List.foldl_cons]
    refine SameOrder.trans (ih _) ?_
    split_ifs
    · simp [SameOrder]
    · exact SameOrder.refl r

theorem updatedRow_not_mem (upd : List Order) :
    ∀ r : Order, r.ID ∉ upd.map Order.ID → updatedRow upd r = r := by
  induction upd with
  | nil => intro r _; rfl
  | cons u upd ih =>
    intro r h
    rw [List.map_cons, List.mem_cons, not_or] at h
    unfold updatedRow
    rw [List.foldl_cons, if_neg h.1]
    exact ih r h.2

theorem updatedRow_mem (upd : List Order) :
    ∀ (r u : Order), (upd.map Order.ID).Nodup → u ∈ upd → u.ID = r.ID →
      updatedRow upd r =
        { r with RemainingQuantity := u.RemainingQuantity, Status := u.Status } := by
  induction upd with
  | nil => intro r u _ hu; simp at hu
  | cons v upd ih =>
    intro r u hnd hu hid
    rw [List.map_cons, List.nodup_cons] at hnd
    rw [List.mem_cons] at hu
    unfold updatedRow
    rw [List.foldl_cons]
    rcases hu with hu | hu
    · subst hu
      rw [if_pos hid.symm]
      exact updatedRow_not_mem upd _ (by
        show r.ID ∉ _
        rw [← hid]; exact hnd.1)
    · have hne : ¬ r.ID = v.ID := by
        intro h
        exact hnd.1 (by rw [← h, ← hid]; exact List.mem_map_of_mem _ hu)
      rw [if_neg hne]
      exact ih r u hnd.2 hu hid

theorem Order.eq_of_same {a b : Order} (h : SameOrder a b)
    (hr : a.RemainingQuantity = b.RemainingQuantity) (hs : a.Status = b.Status) : a = b := by
  obtain ⟨h1, h2, h3, h4, h5, h6, h7⟩ := h
  cases a
  cases b
  simp only at h1 h2 h3 h4 h5 h6 h7 hr hs
  subst h1 h2 h3 h4 h5 h6 h7 hr hs
  rfl

/-- The row of a maker after the batch is the updated maker. -/
theorem updatedRow_maker (upd : List Order) (m u : Order) (hnd : (upd.map Order.ID).Nodup)
    (hu : u ∈ upd) (hs : SameOrder u m) : updatedRow upd m = u := by
  rw [updatedRow_mem upd m u hnd hu hs.1]
  obtain ⟨h1, h2, h3, h4, h5, h6, h7⟩ := hs
  exact Order.eq_of_same ⟨h1.symm, h2.symm, h3.symm, h4.symm, h5.symm, h6.symm, h7.symm⟩ rfl rfl

theorem forall2_map_ID {l1 l2 : List Order} (h : List.Forall₂ SameOrder l1 l2) :
    l1.map Order.ID = l2.map Order.ID := by
  induction h with
  | nil => rfl
  | cons hab _ ih => simp [hab.1, ih]

/-- Two rows with the same id are the same row when ids are not repeated. -/
theorem eq_of_ID_eq {rows : List Order} (hnd : (rows.map Order.ID).Nodup) {a b : Order}
    (ha : a ∈ rows) (hb : b ∈ rows) (h : a.ID = b.ID) : a = b :=
  List.inj_on_of_nodup_map hnd ha hb h

theorem tradedQuantity_eq_zero (trades : List Trade) (id : String)
    (h : ∀ t ∈ trades, ¬ (t.BuyOrderID = id ∨ t.SellOrderID = id)) :
    tradedQuantity trades id = 0 := by
  induction trades with
  | nil => rfl
  | cons t l ih =>
    rw [tradedQuantity_cons, if_neg (h t (List.mem_cons_self _ _)), zero_add]
    exact ih (fun x hx => h x (List.mem_cons_of_mem _ hx))

theorem place_db (x : Exchange) (o : Order) :
    (place x o).db =
      { orders := (x.db.orders ++ [(matchOrder o (bookOf x.engine o.Symbol)).order]).map
          (updatedRow (cross (isBuy o) o (oppositeSide (bookOf x.engine o.Symbol) o)).updatedOrders),
        trades := x.db.trades ++
          (cross (isBuy o) o (oppositeSide (bookOf x.engine o.Symbol) o)).trades } := by
  unfold place
  simp only [ProcessOrder_sinkCalls, List.foldl_cons, List.foldl_nil, ExecuteOrderMatching,
    batchOf, foldl_updateOrderTx]
  rw [matchOrder_eq]
/-- Each updated order of the loop is the update of the order at the same index
of the opposite side. -/
theorem cross_updated_index (isBuy : Bool) (opp : List Order) (o u : Order)
    (hu : u ∈ (cross isBuy o opp).updatedOrders) :
    ∃ (i : Nat) (m : Order), (cross isBuy o opp).updatedOrders[i]? = some u ∧
      opp[i]? = some m ∧ SameOrder u m := by
  obtain ⟨h1, _, h3, _⟩ := cross_makers isBuy opp o
  obtain ⟨i, hi, rfl⟩ := List.mem_iff_getElem.mp hu
  have hi2 : i < (opp.take (cross isBuy o opp).trades.length).length := by
    rw [← h3.length_eq]; exact hi
  have hi3 : i < opp.length := by
    rw [List.length_take] at hi2; omega
  refine ⟨i, opp[i], List.getElem?_eq_getElem hi, List.getElem?_eq_getElem hi3, ?_⟩
  have := List.Forall₂.get h3 hi hi2
  simp only [List.get_eq_getElem, List.getElem_take] at this
  exact this

theorem not_mem_take_of_mem_drop {l : List Order} (hnd : (l.map Order.ID).Nodup) (k : Nat)
    {x : Order} (hx : x ∈ l.drop k) : x.ID ∉ (l.take k).map Order.ID := by
  rw [← List.take_append_drop k l, List.map_append] at hnd
  intro h
  exact (List.nodup_append.mp hnd).2.2 h (List.mem_map_of_mem _ hx)

/-- Every trade of the loop names the taker on the taker's side. -/
theorem cross_trades_taker (isBuy : Bool) (opp : List Order) (o : Order) :
    ∀ t ∈ (cross isBuy o opp).trades, (if isBuy then t.BuyOrderID else t.SellOrderID) = o.ID := by
  refine cross_induction isBuy
    (fun o _ s => ∀ t ∈ s.trades, (if isBuy then t.BuyOrderID else t.SellOrderID) = o.ID)
    ?_ ?_ ?_ ?_ opp o
  · intro o t ht; simp at ht
  · intro o m rest _ t ht; simp at ht
  · intro o m rest _ _ _ ih t ht
    rw [List.mem_cons] at ht
    rcases ht with ht | ht
    · subst ht; exact (crossStep_ids isBuy o m).2
    · rw [ih t ht]; exact (crossStep_taker_same isBuy o m).1
  · intro o m rest _ _ _ _ t ht
    rw [List.mem_singleton] at ht
    subst ht; exact (crossStep_ids isBuy o m).2

/-- What one crossing does to the rows of the orders table and to the quantities
traded. -/
theorem call_facts (rows : List Order) (o : Order) (opp : List Order)
    (hnd : (rows.map Order.ID).Nodup) (hv : Validated o) (hfresh : o.ID ∉ rows.map Order.ID)
    (hopp : SideOK rows o.Symbol (!isBuy o) opp) :
    ((cross (isBuy o) o opp).updatedOrders.map Order.ID).Nodup ∧
    (∀ r ∈ rows, r.ID ∉ (cross (isBuy o) o opp).updatedOrders.map Order.ID →
      updatedRow (cross (isBuy o) o opp).updatedOrders r = r ∧
      tradedQuantity (cross (isBuy o) o opp).trades r.ID = 0) ∧
    (∀ r ∈ rows, r.ID ∈ (cross (isBuy o) o opp).updatedOrders.map Order.ID →
      r ∈ opp ∧
      updatedRow (cross (isBuy o) o opp).updatedOrders r ∈
        (cross (isBuy o) o opp).updatedOrders ∧
      (updatedRow (cross (isBuy o) o opp).updatedOrders r).RemainingQuantity =
        r.RemainingQuantity - tradedQuantity (cross (isBuy o) o opp).trades r.ID) ∧
    (∀ t, SameOrder t o → updatedRow (cross (isBuy o) o opp).updatedOrders t = t) ∧
    ((cross (isBuy o) o opp).taker.RemainingQuantity =
        o.InitialQuantity - tradedQuantity (cross (isBuy o) o opp).trades o.ID ∧
      0 ≤ (cross (isBuy o) o opp).taker.RemainingQuantity ∧
      (cross (isBuy o) o opp).taker.RemainingQuantity < 2 ^ 63) ∧
    (∀ t ∈ (cross (isBuy o) o opp).trades,
      t.BuyOrderID ∈ rows.map Order.ID ++ [o.ID] ∧
      t.SellOrderID ∈ rows.map Order.ID ++ [o.ID]) ∧
    SideOK (rows.map (updatedRow (cross (isBuy o) o opp).updatedOrders)) o.Symbol (!isBuy o)
      ((cross (isBuy o) o opp).pre ++ (cross (isBuy o) o opp).suf) := by
  obtain ⟨hf1, hf2, hf3, hf4, hf5, hf6⟩ := hv.fields
  obtain ⟨ho1, ho2⟩ := hopp
  have hoppid : o.ID ∉ opp.map Order.ID := by
    intro h
    obtain ⟨m, hm, hmid⟩ := List.mem_map.mp h
    exact hfresh (by rw [← hmid]; exact List.mem_map_of_mem _ (ho1 m hm).1)
  obtain ⟨⟨a1, a2, a3⟩, a4, a5⟩ := cross_accounting (isBuy o) opp o (by rw [hf5]; linarith)
    (by rw [hf5]; exact hf4) (fun m hm => ⟨(ho1 m hm).2.1, (ho1 m hm).2.2.1⟩) ho2 hoppid
  obtain ⟨m1, m2, m3, _⟩ := cross_makers (isBuy o) opp o
  have hupdid : (cross (isBuy o) o opp).updatedOrders.map Order.ID =
      (opp.take (cross (isBuy o) o opp).trades.length).map Order.ID := forall2_map_ID m3
  have hupdnd : ((cross (isBuy o) o opp).updatedOrders.map Order.ID).Nodup := by
    rw [hupdid]
    exact (ho2.sublist ((List.take_sublist _ _).map _))
  have hmaker : ∀ u ∈ (cross (isBuy o) o opp).updatedOrders, ∃ m ∈ opp, SameOrder u m ∧
      updatedRow (cross (isBuy o) o opp).updatedOrders m = u ∧
      u.RemainingQuantity =
        m.RemainingQuantity - tradedQuantity (cross (isBuy o) o opp).trades m.ID ∧
      0 ≤ u.RemainingQuantity ∧ u.RemainingQuantity < 2 ^ 63 := by
    intro u hu
    obtain ⟨i, m, hi1, hi2, hi3⟩ := cross_updated_index (isBuy o) opp o u hu
    exact ⟨m, List.getElem?_mem hi2, hi3, updatedRow_maker _ m u hupdnd hu hi3, a4 i u m hi1 hi2⟩
  have hc3 : ∀ r ∈ rows, r.ID ∈ (cross (isBuy o) o opp).updatedOrders.map Order.ID →
      ∃ u ∈ (cross (isBuy o) o opp).updatedOrders, r ∈ opp ∧ SameOrder u r ∧
        updatedRow (cross (isBuy o) o opp).updatedOrders r = u ∧
        u.RemainingQuantity =
          r.RemainingQuantity - tradedQuantity (cross (isBuy o) o opp).trades r.ID := by
    intro r hr hid
    obtain ⟨u, hu, huid⟩ := List.mem_map.mp hid
    obtain ⟨m, hm, hs, hrow, hrem, _⟩ := hmaker u hu
    have hmr : m = r := eq_of_ID_eq hnd (ho1 m hm).1 hr (by rw [← hs.1, huid])
    subst hmr
    exact ⟨u, hu, hm, hs, hrow, hrem⟩
  refine ⟨hupdnd, ?_, ?_, ?_, ⟨by rw [a1, hf5], a2, by rw [hf5] at a3; linarith⟩, ?_, ?_⟩
  · intro r hr hid
    refine ⟨updatedRow_not_mem _ r hid, a5 r.ID ?_ (by rw [← hupdid]; exact hid)⟩
    intro h
    exact hfresh (by rw [← h]; exact List.mem_map_of_mem _ hr)
  · intro r hr hid
    obtain ⟨u, hu, hm, _, hrow, hrem⟩ := hc3 r hr hid
    rw [hrow]
    exact ⟨hm, hu, hrem⟩
  · intro t ht
    refine updatedRow_not_mem _ t ?_
    rw [ht.1, hupdid]
    intro h
    obtain ⟨y, hy, hy2⟩ := List.mem_map.mp h
    exact hoppid (List.mem_map.mpr ⟨y, List.mem_of_mem_take hy, hy2⟩)
  · have hall : ∀ (tr : List Trade) (ms : List Order),
        List.Forall₂ (fun t m => (if isBuy o then t.SellOrderID else t.BuyOrderID) = m.ID)
          tr ms → (∀ m ∈ ms, m ∈ opp) → ∀ t ∈ tr,
          (if isBuy o then t.SellOrderID else t.BuyOrderID) ∈ rows.map Order.ID := by
      intro tr ms h
      induction h with
      | nil => intro _ t ht; simp at ht
      | cons hx _ ih =>
        intro hms t ht
        rw [List.mem_cons] at ht
        rcases ht with ht | ht
        · subst ht
          rw [hx]
          exact List.mem_map_of_mem _ (ho1 _ (hms _ (List.mem_cons_self _ _))).1
        · exact ih (fun m hm => hms m (List.mem_cons_of_mem _ hm)) t ht
    have hmk := hall _ _ m2 (fun m hm => List.mem_of_mem_take hm)
    have htk := cross_trades_taker (isBuy o) opp o
    intro t ht
    have h1 := hmk t ht
    have h2 := htk t ht
    cases hb : isBuy o
    · simp only [hb, Bool.false_eq_true, if_false] at h1 h2
      rw [h2]
      exact ⟨List.mem_append_left _ h1, List.mem_append_right _ (List.mem_singleton_self _)⟩
    · simp only [hb, if_true] at h1 h2
      rw [h2]
      exact ⟨List.mem_append_right _ (List.mem_singleton_self _), List.mem_append_left _ h1⟩
  · obtain ⟨r1, _, r3⟩ := cross_residual (isBuy o) opp o
    constructor
    · intro x hx
      rw [List.mem_append] at hx
      rcases hx with hx | hx
      · rcases r3 with r3 | ⟨u, hu1, hu2, hu3, _⟩
        · rw [r3] at hx; simp at hx
        · rw [hu1, List.mem_singleton] at hx
          subst hx
          obtain ⟨m, hm, hs, hrow, _, hge, hlt⟩ := hmaker x (List.mem_of_getLast?_eq_some hu2)
          obtain ⟨b1, _, _, b4, b5⟩ := ho1 m hm
          refine ⟨List.mem_map.mpr ⟨m, b1, hrow⟩, lt_of_le_of_ne hge (Ne.symm hu3), hlt, ?_, ?_⟩
          · rw [hs.2.1]; exact b4
          · rw [hs.2.2.1]; exact b5
      · rw [r1] at hx
        obtain ⟨b1, b2, b3, b4, b5⟩ := ho1 x (List.mem_of_mem_drop hx)
        refine ⟨List.mem_map.mpr ⟨x, b1, updatedRow_not_mem _ x ?_⟩, b2, b3, b4, b5⟩
        rw [hupdid]
        exact not_mem_take_of_mem_drop ho2 _ hx
    · obtain ⟨j, hj⟩ := cross_rest_segment (isBuy o) opp o
      rw [forall2_map_ID hj]
      exact ho2.sublist ((List.drop_sublist _ _).map _)
theorem SideOK.mono {rows rows2 : List Order} {symbol : String} {isBid : Bool}
    {side : List Order} (h : SideOK rows symbol isBid side) (hsub : ∀ x ∈ side, x ∈ rows → x ∈ rows2) :
    SideOK rows2 symbol isBid side :=
  ⟨fun b hb => ⟨hsub b hb (h.1 b hb).1, (h.1 b hb).2⟩, h.2⟩

theorem insertSorted_insertAt (isBid : Bool) (orders : List Order) (newOrder : Order) :
    ∃ pos, pos ≤ orders.length ∧
      insertSorted isBid orders newOrder = insertAt orders pos newOrder := by
  cases isBid
  · exact insertSortedSell_insertAt orders newOrder
  · exact insertSortedBuy_insertAt orders newOrder

theorem SideOK.insert {rows : List Order} {symbol : String} {isBid : Bool} {side : List Order}
    (h : SideOK rows symbol isBid side) (t : Order) (ht : t ∈ rows)
    (hpos : 0 < t.RemainingQuantity) (hlt : t.RemainingQuantity < 2 ^ 63)
    (hsym : t.Symbol = symbol) (hside : t.Side = "buy" ↔ isBid = true)
    (hid : t.ID ∉ side.map Order.ID) :
    SideOK rows symbol isBid (insertSorted isBid side t) := by
  obtain ⟨pos, _, hpos2⟩ := insertSorted_insertAt isBid side t
  rw [hpos2]
  unfold insertAt
  constructor
  · intro b hb
    rw [List.mem_append, List.mem_cons] at hb
    rcases hb with hb | hb | hb
    · exact h.1 b (List.mem_of_mem_take hb)
    · subst hb; exact ⟨ht, hpos, hlt, hsym, hside⟩
    · exact h.1 b (List.mem_of_mem_drop hb)
  · have hnd := h.2
    rw [← List.take_append_drop pos side, List.map_append] at hnd hid
    rw [List.map_append, List.map_cons]
    rw [List.mem_append, not_or] at hid
    obtain ⟨n1, n2, n3⟩ := List.nodup_append.mp hnd
    rw [List.nodup_append]
    refine ⟨n1, List.nodup_cons.mpr ⟨hid.2, n2⟩, ?_⟩
    intro a ha1 ha2
    rw [List.mem_cons] at ha2
    rcases ha2 with ha2 | ha2
    · subst ha2; exact hid.1 ha1
    · exact n3 ha1 ha2

theorem forall2_sameOrder_map (G : Order → Order) (hG : ∀ r, SameOrder (G r) r)
    {l1 l2 : List Order} (h : List.Forall₂ SameOrder l1 l2) :
    List.Forall₂ SameOrder (l1.map G) l2 := by
  induction h with
  | nil => exact List.Forall₂.nil
  | cons hab _ ih => exact List.Forall₂.cons (SameOrder.trans (hG _) hab) ih

theorem forall2_sameOrder_snoc {l1 l2 : List Order} (h : List.Forall₂ SameOrder l1 l2)
    {a b : Order} (hab : SameOrder a b) : List.Forall₂ SameOrder (l1 ++ [a]) (l2 ++ [b]) := by
  induction h with
  | nil => exact List.Forall₂.cons hab List.Forall₂.nil
  | cons hxy _ ih => exact List.Forall₂.cons hxy ih

/-- The sides of the taker's book in terms of bids and asks. -/
theorem sides_of_isBuy (o : Order) (book : OrderBook) (rows : List Order)
    (h : SideOK rows o.Symbol true book.BuyOrders ∧ SideOK rows o.Symbol false book.SellOrders) :
    SideOK rows o.Symbol (isBuy o) (ownSide book o) ∧
    SideOK rows o.Symbol (!isBuy o) (oppositeSide book o) := by
  unfold isBuy ownSide oppositeSide
  by_cases hs : o.Side = "buy"
  · simp only [hs, if_true, decide_True, Bool.not_true]
    exact h
  · simp only [hs, if_false, decide_False, Bool.not_false]
    exact ⟨h.2, h.1⟩

theorem sides_to_book (o : Order) (book : OrderBook) (rows : List Order)
    (h : SideOK rows o.Symbol (isBuy o) (ownSide book o) ∧
      SideOK rows o.Symbol (!isBuy o) (oppositeSide book o)) :
    SideOK rows o.Symbol true book.BuyOrders ∧ SideOK rows o.Symbol false book.SellOrders := by
  unfold isBuy ownSide oppositeSide at h
  by_cases hs : o.Side = "buy"
  · simp only [hs, if_true, decide_True, Bool.not_true] at h
    exact h
  · simp only [hs, if_false, decide_False, Bool.not_false] at h
    exact ⟨h.2, h.1⟩
/-- One more validated order with a fresh id keeps the invariant of the run. -/
theorem place_inv (x : Exchange) (seen : List Order) (o : Order) (hinv : RunInv x seen)
    (hv : Validated o) (hnd : ((seen ++ [o]).map Order.ID).Nodup) :
    RunInv (place x o) (seen ++ [o]) := by
  obtain ⟨ia, ib, ie, ic⟩ := hinv
  have hids : x.db.orders.map Order.ID = seen.map Order.ID := forall2_map_ID ia
  rw [List.map_append, List.map_cons, List.map_nil] at hnd
  obtain ⟨hnd1, _, hdisj⟩ := List.nodup_append.mp hnd
  have hfresh : o.ID ∉ x.db.orders.map Order.ID := by
    rw [hids]
    intro h
    exact hdisj h (List.mem_singleton_self _)
  have hrows : (x.db.orders.map Order.ID).Nodup := by rw [hids]; exact hnd1
  obtain ⟨hown, hopp⟩ := sides_of_isBuy o (bookOf x.engine o.Symbol) x.db.orders (ic o.Symbol)
  obtain ⟨c1, c2, c3, c4, c5, c6, c7⟩ := call_facts x.db.orders o
    (oppositeSide (bookOf x.engine o.Symbol) o) hrows hv hfresh hopp
  obtain ⟨s1, s2, s3⟩ := matchOrder_sides o (bookOf x.engine o.Symbol)
  have hsame := cross_taker_same (isBuy o) (oppositeSide (bookOf x.engine o.Symbol) o) o
  have htk : SameOrder (matchOrder o (bookOf x.engine o.Symbol)).order o := by
    rw [s3]
    split_ifs
    · exact hsame
    · exact hsame
  have htkrem : (matchOrder o (bookOf x.engine o.Symbol)).order.RemainingQuantity =
      (cross (isBuy o) o (oppositeSide (bookOf x.engine o.Symbol) o)).taker.RemainingQuantity := by
    rw [s3]
    split_ifs <;> rfl
  have hdb := place_db x o
  have hrows2 : (place x o).db.orders =
      x.db.orders.map
        (updatedRow (cross (isBuy o) o (oppositeSide (bookOf x.engine o.Symbol) o)).updatedOrders)
        ++ [(matchOrder o (bookOf x.engine o.Symbol)).order] := by
    rw [hdb]
    simp only [List.map_append, List.map_cons, List.map_nil, c4 _ htk]
  have htrades2 : (place x o).db.trades = x.db.trades ++
      (cross (isBuy o) o (oppositeSide (bookOf x.engine o.Symbol) o)).trades := by
    rw [hdb]
  -- rows that the call does not touch stay rows
  have hkeep : ∀ r ∈ x.db.orders,
      r.ID ∉ (cross (isBuy o) o (oppositeSide (bookOf x.engine o.Symbol) o)).updatedOrders.map
        Order.ID → r ∈ (place x o).db.orders := by
    intro r hr hid
    rw [hrows2]
    exact List.mem_append_left _ (List.mem_map.mpr ⟨r, hr, (c2 r hr hid).1⟩)
  refine ⟨?_, ?_, ?_, ?_⟩
  · rw [hrows2]
    exact forall2_sameOrder_snoc (forall2_sameOrder_map _ (updatedRow_same _) ia) htk
  · intro r2 hr2
    rw [hrows2, List.mem_append, List.mem_singleton] at hr2
    rw [htrades2, tradedQuantity_append]
    rcases hr2 with hr2 | hr2
    · obtain ⟨r, hr, rfl⟩ := List.mem_map.mp hr2
      have hs := updatedRow_same
        (cross (isBuy o) o (oppositeSide (bookOf x.engine o.Symbol) o)).updatedOrders r
      rw [hs.1, hs.2.2.2.2.2.1]
      by_cases hid : r.ID ∈
          (cross (isBuy o) o (oppositeSide (bookOf x.engine o.Symbol) o)).updatedOrders.map
            Order.ID
      · rw [(c3 r hr hid).2.2, ib r hr]
        ring
      · rw [(c2 r hr hid).1, (c2 r hr hid).2, ib r hr]
        ring
    · subst hr2
      rw [htkrem, c5.1, htk.1, htk.2.2.2.2.2.1]
      rw [tradedQuantity_eq_zero x.db.trades o.ID (fun t ht hc => by
        rw [← hids] at ie
        rcases hc with hc | hc
        · exact hfresh (by rw [← hc]; exact (ie t ht).1)
        · exact hfresh (by rw [← hc]; exact (ie t ht).2)), zero_add]
  · intro t ht
    rw [htrades2, List.mem_append] at ht
    rw [List.map_append, List.map_cons, List.map_nil, ← hids]
    rcases ht with ht | ht
    · rw [hids]
      exact ⟨List.mem_append_left _ (ie t ht).1, List.mem_append_left _ (ie t ht).2⟩
    · exact c6 t ht
  · intro symbol
    rw [place_engine]
    by_cases hsym : symbol = o.Symbol
    · subst hsym
      rw [bookOf_ProcessOrder]
      apply sides_to_book
      constructor
      · -- the taker's own side
        have hown2 : SideOK (place x o).db.orders o.Symbol (isBuy o)
            (ownSide (bookOf x.engine o.Symbol) o) := by
          refine hown.mono (fun b hb hbr => hkeep b hbr (fun hid => ?_))
          have h1 := (hopp.1 b (c3 b hbr hid).1).2.2.2.2
          have h2 := (hown.1 b hb).2.2.2.2
          rw [h2] at h1
          cases hh : isBuy o <;> simp [hh] at h1
        rw [s2, insertSorted_isBuy]
        split_ifs with hins
        · refine hown2.insert _ ?_ hins.1 c5.2.2 hsame.2.1 ?_ ?_
          · rw [hrows2]
            refine List.mem_append_right _ (List.mem_singleton.mpr ?_)
            rw [s3]
            have : ¬ o.Typ = "market" := by rw [hins.2]; decide
            simp [this]
          · rw [hsame.2.2.1]; simp [isBuy]
          · rw [hsame.1]
            intro h
            obtain ⟨b, hb, hbid⟩ := List.mem_map.mp h
            exact hfresh (by rw [← hbid]; exact List.mem_map_of_mem _ (hown.1 b hb).1)
        · exact hown2
      · rw [s1]
        refine c7.mono (fun b _ hbr => ?_)
        rw [hrows2]
        exact List.mem_append_left _ hbr
    · rw [bookOf_ProcessOrder_ne _ _ _ _ hsym]
      have hother : ∀ (isBid : Bool) (side : List Order),
          SideOK x.db.orders symbol isBid side → SideOK (place x o).db.orders symbol isBid side := by
        intro isBid side h
        refine h.mono (fun b hb hbr => hkeep b hbr (fun hid => ?_))
        have h1 := (hopp.1 b (c3 b hbr hid).1).2.2.2.1
        have h2 := (h.1 b hb).2.2.2.1
        rw [h2] at h1
        exact hsym h1
      exact ⟨hother _ _ (ic symbol).1, hother _ _ (ic symbol).2⟩
/-- The rows after one more order: the old rows as updated, then the taker. -/
theorem place_rows (x : Exchange) (seen : List Order) (o : Order) (hinv : RunInv x seen)
    (hv : Validated o) (hnd : ((seen ++ [o]).map Order.ID).Nodup) :
    (place x o).db.orders =
      x.db.orders.map
        (updatedRow (cross (isBuy o) o (oppositeSide (bookOf x.engine o.Symbol) o)).updatedOrders)
        ++ [(matchOrder o (bookOf x.engine o.Symbol)).order] := by
  obtain ⟨ia, _, _, ic⟩ := hinv
  have hids : x.db.orders.map Order.ID = seen.map Order.ID := forall2_map_ID ia
  rw [List.map_append, List.map_cons, List.map_nil] at hnd
  obtain ⟨hnd1, _, hdisj⟩ := List.nodup_append.mp hnd
  have hfresh : o.ID ∉ x.db.orders.map Order.ID := by
    rw [hids]
    intro h
    exact hdisj h (List.mem_singleton_self _)
  have hrows : (x.db.orders.map Order.ID).Nodup := by rw [hids]; exact hnd1
  obtain ⟨_, hopp⟩ := sides_of_isBuy o (bookOf x.engine o.Symbol) x.db.orders (ic o.Symbol)
  obtain ⟨_, _, _, c4, _⟩ := call_facts x.db.orders o
    (oppositeSide (bookOf x.engine o.Symbol) o) hrows hv hfresh hopp
  obtain ⟨_, _, s3⟩ := matchOrder_sides o (bookOf x.engine o.Symbol)
  have hsame := cross_taker_same (isBuy o) (oppositeSide (bookOf x.engine o.Symbol) o) o
  have htk : SameOrder (matchOrder o (bookOf x.engine o.Symbol)).order o := by
    rw [s3]
    split_ifs
    · exact hsame
    · exact hsame
  rw [place_db]
  simp only [List.map_append, List.map_cons, List.map_nil, c4 _ htk]

theorem foldl_place_inv (os : List Order) :
    ∀ (x : Exchange) (seen : List Order), RunInv x seen → (∀ o ∈ os, Validated o) →
      ((seen ++ os).map Order.ID).Nodup → RunInv (os.foldl place x) (seen ++ os) := by
  induction os with
  | nil => intro x seen h _ _; simpa using h
  | cons o os ih =>
    intro x seen h hv hnd
    rw [List.foldl_cons]
    have hseen : seen ++ o :: os = (seen ++ [o]) ++ os := by simp
    rw [hseen] at hnd ⊢
    refine ih (place x o) (seen ++ [o]) ?_ (fun y hy => hv y (List.mem_cons_of_mem _ hy)) hnd
    refine place_inv x seen o h (hv o (List.mem_cons_self _ _)) ?_
    rw [List.map_append] at hnd
    exact (List.nodup_append.mp hnd).1

theorem runInv_empty : RunInv emptyExchange [] := by
  refine ⟨List.Forall₂.nil, ?_, ?_, ?_⟩
  · intro r hr; simp [emptyExchange] at hr
  · intro t ht; simp [emptyExchange] at ht
  · intro symbol
    have hb : bookOf emptyExchange.engine symbol = NewOrderBook symbol := rfl
    rw [hb]
    exact ⟨⟨fun b hb => by simp [NewOrderBook] at hb, List.nodup_nil⟩,
      ⟨fun b hb => by simp [NewOrderBook] at hb, List.nodup_nil⟩⟩

/-- C5. Quantity accounting. Along every sequence of validated orders with pairwise
distinct ids processed from the empty engine with a sink that always succeeds,
after each call (after the first n orders, for every n): the rows of the orders
table are the orders seen so far, each with its id and initial quantity; every
row satisfies remaining = initial − (sum of the quantities of all trades so far
that name its id as buy or sell order); the orders resting in the books are
such rows; and the call for the next order appends the trades it returns to the
trades so far and the taker it leaves as a new row. -/
theorem quantity_accounting (os : List Order) (hv : ∀ o ∈ os, Validated o)
    (hid : (os.map Order.ID).Nodup) (n : Nat) :
    List.Forall₂ SameOrder (run (os.take n)).db.orders (os.take n) ∧
    (∀ r ∈ (run (os.take n)).db.orders,
      r.RemainingQuantity =
        r.InitialQuantity - tradedQuantity (run (os.take n)).db.trades r.ID) ∧
    (∀ symbol, ∀ b ∈ (bookOf (run (os.take n)).engine symbol).BuyOrders ++
        (bookOf (run (os.take n)).engine symbol).SellOrders,
      b ∈ (run (os.take n)).db.orders) ∧
    (∀ o, os[n]? = some o →
      (run (os.take (n + 1))).db.trades = (run (os.take n)).db.trades ++
        (ProcessOrder okSink (run (os.take n)).engine (some o)).trades ∧
      (ProcessOrder okSink (run (os.take n)).engine (some o)).order =
        (run (os.take (n + 1))).db.orders.getLast?) := by
  have hinv : RunInv (run (os.take n)) (os.take n) := by
    have := foldl_place_inv (os.take n) emptyExchange [] runInv_empty
      (fun o ho => hv o (List.mem_of_mem_take ho))
      (by
        rw [List.nil_append]
        exact hid.sublist ((List.take_sublist _ _).map _))
    simpa [run] using this
  have hinv2 := hinv
  obtain ⟨ia, ib, _, ic⟩ := hinv
  refine ⟨ia, ib, ?_, ?_⟩
  · intro symbol b hb
    rw [List.mem_append] at hb
    rcases hb with hb | hb
    · exact ((ic symbol).1.1 b hb).1
    · exact ((ic symbol).2.1 b hb).1
  · intro o ho
    have htake : os.take (n + 1) = os.take n ++ [o] := by
      rw [List.take_succ, ho]
      rfl
    have hrun : run (os.take (n + 1)) = place (run (os.take n)) o := by
      unfold run
      rw [htake, List.foldl_append]
      rfl
    constructor
    · rw [hrun, place_db]
      simp only
      rw [ProcessOrder_trades, matchOrder_eq]
      simp [okSink]
    · rw [hrun, place_rows (run (os.take n)) (os.take n) o hinv2 (hv o (List.getElem?_mem ho))
        (by rw [← htake]; exact hid.sublist ((List.take_sublist _ _).map _)),
        ProcessOrder_order]
      simp

/-- Witness of `quantity_accounting`: scenario 3 of the specification, asks 100×2, 101×4
and 102×1, then a market buy of 5. -/
theorem quantity_accounting_witness :
    (run ([limitOrder "s1" "sell" 100 2 1, limitOrder "s2" "sell" 101 4 2,
        limitOrder "s3" "sell" 102 1 3, marketOrder "mb" "buy" 5 4].take 4)).db.orders.map
      (fun r => (r.ID, r.RemainingQuantity)) = [("s1", 0), ("s2", 1), ("s3", 1), ("mb", 0)] ∧
    (run ([limitOrder "s1" "sell" 100 2 1, limitOrder "s2" "sell" 101 4 2,
        limitOrder "s3" "sell" 102 1 3, marketOrder "mb" "buy" 5 4].take 4)).db.trades.map
      (fun t => (t.BuyOrderID, t.SellOrderID, t.Quantity)) =
        [("mb", "s1", 2), ("mb", "s2", 3)] ∧
    ∀ r ∈ (run ([limitOrder "s1" "sell" 100 2 1, limitOrder "s2" "sell" 101 4 2,
        limitOrder "s3" "sell" 102 1 3, marketOrder "mb" "buy" 5 4].take 4)).db.orders,
      r.RemainingQuantity = r.InitialQuantity -
        tradedQuantity (run ([limitOrder "s1" "sell" 100 2 1, limitOrder "s2" "sell" 101 4 2,
          limitOrder "s3" "sell" 102 1 3, marketOrder "mb" "buy" 5 4].take 4)).db.trades r.ID :=
  ⟨by decide, by decide,
    (quantity_accounting [limitOrder "s1" "sell" 100 2 1, limitOrder "s2" "sell" 101 4 2,
      limitOrder "s3" "sell" 102 1 3, marketOrder "mb" "buy" 5 4] (by decide) (by decide) 4).2.1⟩
/-! ## Quantities and statuses along the loop -/

theorem updateOrderStatus_matches (x : Order) (h0 : 0 ≤ x.RemainingQuantity)
    (h1 : x.RemainingQuantity < x.InitialQuantity) : StatusMatches (updateOrderStatus x) := by
  unfold updateOrderStatus StatusMatches
  by_cases hz : x.RemainingQuantity = 0
  · simp only [hz, if_true, true_iff, lt_irrefl, false_and, iff_false]
    exact ⟨trivial, by decide⟩
  · have hpos : 0 < x.RemainingQuantity := lt_of_le_of_ne h0 (Ne.symm hz)
    simp only [hz, if_false, h1, if_true, hpos, and_self, iff_true, iff_false]
    exact ⟨by decide, trivial⟩

/-- One matched iteration on positive bounded quantities: both orders lose the
positive trade quantity and their statuses match what is left. -/
theorem crossStep_status (isBuy : Bool) (o m : Order) (ho : 0 < o.RemainingQuantity)
    (ho2 : Bounded o) (hm : 0 < m.RemainingQuantity) (hm2 : Bounded m) :
    0 < (crossStep isBuy o m).1.Quantity ∧
    0 ≤ (crossStep isBuy o m).2.1.RemainingQuantity ∧
    (crossStep isBuy o m).2.1.RemainingQuantity < o.RemainingQuantity ∧
    0 ≤ (crossStep isBuy o m).2.2.RemainingQuantity ∧
    (crossStep isBuy o m).2.2.RemainingQuantity < m.RemainingQuantity ∧
    StatusMatches (crossStep isBuy o m).2.1 ∧ StatusMatches (crossStep isBuy o m).2.2 := by
  obtain ⟨e0, e1, e2, e3, e4⟩ := crossStep_exact isBuy o m ho (by unfold Bounded at ho2; linarith)
    hm (by unfold Bounded at hm2; linarith)
  have ht : (crossStep isBuy o m).2.1.RemainingQuantity < o.RemainingQuantity := by linarith
  have hk : (crossStep isBuy o m).2.2.RemainingQuantity < m.RemainingQuantity := by linarith
  refine ⟨e0, e3, ht, e4, hk, ?_, ?_⟩
  · cases isBuy
    · refine updateOrderStatus_matches _ ?_ ?_
      · have := e3; simp only [crossStep, Bool.false_eq_true, if_false, updateOrderStatus_rem] at this
        exact this
      · have := ht; simp only [crossStep, Bool.false_eq_true, if_false, updateOrderStatus_rem] at this
        exact lt_of_lt_of_le this ho2.1
    · refine updateOrderStatus_matches _ ?_ ?_
      · have := e3; simp only [crossStep, if_true, updateOrderStatus_rem] at this
        exact this
      · have := ht; simp only [crossStep, if_true, updateOrderStatus_rem] at this
        exact lt_of_lt_of_le this ho2.1
  · cases isBuy
    · refine updateOrderStatus_matches _ ?_ ?_
      · have := e4; simp only [crossStep, Bool.false_eq_true, if_false, updateOrderStatus_rem] at this
        exact this
      · have := hk; simp only [crossStep, Bool.false_eq_true, if_false, updateOrderStatus_rem] at this
        exact lt_of_lt_of_le this hm2.1
    · refine updateOrderStatus_matches _ ?_ ?_
      · have := e4; simp only [crossStep, if_true, updateOrderStatus_rem] at this
        exact this
      · have := hk; simp only [crossStep, if_true, updateOrderStatus_rem] at this
        exact lt_of_lt_of_le this hm2.1
/-- Quantities and statuses of one crossing, for a taker and an opposite side
with bounded quantities, the makers' positive. -/
theorem cross_bounds (isBuy : Bool) (opp : List Order) (o : Order) :
    0 ≤ o.RemainingQuantity → Bounded o →
    (∀ m ∈ opp, 0 < m.RemainingQuantity ∧ Bounded m) →
    (0 ≤ (cross isBuy o opp).taker.RemainingQuantity ∧
      (cross isBuy o opp).taker.RemainingQuantity ≤ o.RemainingQuantity) ∧
    ((cross isBuy o opp).trades = [] → (cross isBuy o opp).taker = o) ∧
    ((cross isBuy o opp).trades ≠ [] →
      (cross isBuy o opp).taker.RemainingQuantity < o.RemainingQuantity ∧
      StatusMatches (cross isBuy o opp).taker) ∧
    (∀ t ∈ (cross isBuy o opp).trades, 0 < t.Quantity) ∧
    List.Forall₂
      (fun u m => SameOrder u m ∧ 0 ≤ u.RemainingQuantity ∧
        u.RemainingQuantity < m.RemainingQuantity ∧ StatusMatches u)
      (cross isBuy o opp).updatedOrders (opp.take (cross isBuy o opp).trades.length) ∧
    (∀ x ∈ (cross isBuy o opp).pre ++ (cross isBuy o opp).suf, ∃ y ∈ opp, SameOrder x y ∧
      0 < x.RemainingQuantity ∧ x.RemainingQuantity ≤ y.RemainingQuantity ∧
      (x = y ∨ (x.RemainingQuantity < y.RemainingQuantity ∧ StatusMatches x))) := by
  refine cross_induction isBuy
    (fun o opp s => 0 ≤ o.RemainingQuantity → Bounded o →
      (∀ m ∈ opp, 0 < m.RemainingQuantity ∧ Bounded m) →
      (0 ≤ s.taker.RemainingQuantity ∧ s.taker.RemainingQuantity ≤ o.RemainingQuantity) ∧
      (s.trades = [] → s.taker = o) ∧
      (s.trades ≠ [] → s.taker.RemainingQuantity < o.RemainingQuantity ∧
        StatusMatches s.taker) ∧
      (∀ t ∈ s.trades, 0 < t.Quantity) ∧
      List.Forall₂
        (fun u m => SameOrder u m ∧ 0 ≤ u.RemainingQuantity ∧
          u.RemainingQuantity < m.RemainingQuantity ∧ StatusMatches u)
        s.updatedOrders (opp.take s.trades.length) ∧
      (∀ x ∈ s.pre ++ s.suf, ∃ y ∈ opp, SameOrder x y ∧
        0 < x.RemainingQuantity ∧ x.RemainingQuantity ≤ y.RemainingQuantity ∧
        (x = y ∨ (x.RemainingQuantity < y.RemainingQuantity ∧ StatusMatches x)))) ?_ ?_ ?_ ?_ opp o
  · intro o h0 _ _
    exact ⟨⟨h0, le_refl _⟩, fun _ => rfl, fun h => absurd rfl h, fun t ht => by simp at ht,
      List.Forall₂.nil, fun x hx => by simp at hx⟩
  · intro o m rest _ h0 _ hq
    refine ⟨⟨h0, le_refl _⟩, fun _ => rfl, fun h => absurd rfl h, fun t ht => by simp at ht,
      List.Forall₂.nil, fun x hx => ?_⟩
    rw [List.nil_append] at hx
    exact ⟨x, hx, SameOrder.refl x, (hq x hx).1, le_refl _, Or.inl rfl⟩
  · intro o m rest hpos _ _ ih _ hb hq
    have hm := hq m (List.mem_cons_self _ _)
    obtain ⟨e0, e1, e2, e3, e4, e5, e6⟩ := crossStep_status isBuy o m hpos hb hm.1 hm.2
    have hsame := crossStep_taker_same isBuy o m
    have hb2 : Bounded (crossStep isBuy o m).2.1 := by
      unfold Bounded at hb ⊢
      rw [hsame.2.2.2.2.2.1]
      exact ⟨by linarith, hb.2⟩
    obtain ⟨⟨a1, a2⟩, a3, a4, a5, a6, a7⟩ := ih e1 hb2
      (fun x hx => hq x (List.mem_cons_of_mem _ hx))
    refine ⟨⟨a1, by linarith⟩, fun h => by simp at h, fun _ => ⟨by linarith, ?_⟩, ?_, ?_, ?_⟩
    · by_cases hnil : (cross isBuy (crossStep isBuy o m).2.1 rest).trades = []
      · rw [a3 hnil]; exact e5
      · exact (a4 hnil).2
    · intro t ht
      rw [List.mem_cons] at ht
      rcases ht with ht | ht
      · rw [ht]; exact e0
      · exact a5 t ht
    · simp only [List.length_cons, List.take_succ_cons]
      exact List.Forall₂.cons ⟨crossStep_maker_same isBuy o m, e3, e4, e6⟩ a6
    · intro x hx
      obtain ⟨y, hy, hxy⟩ := a7 x hx
      exact ⟨y, List.mem_cons_of_mem _ hy, hxy⟩
  · intro o m rest hpos _ h3 _ _ hb hq
    have hm := hq m (List.mem_cons_self _ _)
    obtain ⟨e0, e1, e2, e3, e4, e5, e6⟩ := crossStep_status isBuy o m hpos hb hm.1 hm.2
    refine ⟨⟨e1, by linarith⟩, fun h => by simp at h, fun _ => ⟨e2, e5⟩, ?_, ?_, ?_⟩
    · intro t ht
      rw [List.mem_singleton] at ht
      rw [ht]; exact e0
    · simp only [List.length_cons, List.length_nil, List.take_succ_cons, List.take_zero]
      exact List.Forall₂.cons ⟨crossStep_maker_same isBuy o m, e3, e4, e6⟩ List.Forall₂.nil
    · intro x hx
      simp only [List.singleton_append, List.mem_cons] at hx
      rcases hx with hx | hx
      · subst hx
        exact ⟨m, List.mem_cons_self _ _, crossStep_maker_same isBuy o m,
          lt_of_le_of_ne e3 (Ne.symm h3), le_of_lt e4, Or.inr ⟨e4, e6⟩⟩
      · exact ⟨x, List.mem_cons_of_mem _ hx, SameOrder.refl x,
          (hq x (List.mem_cons_of_mem _ hx)).1, le_refl _, Or.inl rfl⟩
/-! ## C11: the resting-order invariant -/

theorem restingBounded_iff (book : OrderBook) :
    RestingBounded book ↔ SideResting true book.BuyOrders ∧ SideResting false book.SellOrders := by
  unfold RestingBounded RestingBook SideResting
  constructor
  · rintro ⟨⟨h1, h2⟩, h3⟩
    exact ⟨fun x hx => ⟨(h1 x hx).1, (h3 x (List.mem_append_left _ hx)).1,
        (h3 x (List.mem_append_left _ hx)).2, (h1 x hx).2⟩,
      fun x hx => ⟨(h2 x hx).1, (h3 x (List.mem_append_right _ hx)).1,
        (h3 x (List.mem_append_right _ hx)).2, (h2 x hx).2⟩⟩
  · rintro ⟨h1, h2⟩
    refine ⟨⟨fun x hx => ⟨(h1 x hx).1, (h1 x hx).2.2.2⟩,
      fun x hx => ⟨(h2 x hx).1, (h2 x hx).2.2.2⟩⟩, fun x hx => ?_⟩
    rw [List.mem_append] at hx
    rcases hx with hx | hx
    · exact ⟨(h1 x hx).2.1, (h1 x hx).2.2.1⟩
    · exact ⟨(h2 x hx).2.1, (h2 x hx).2.2.1⟩

theorem sideResting_of_isBuy (o : Order) (book : OrderBook)
    (h : SideResting true book.BuyOrders ∧ SideResting false book.SellOrders) :
    SideResting (isBuy o) (ownSide book o) ∧ SideResting (!isBuy o) (oppositeSide book o) := by
  unfold isBuy ownSide oppositeSide
  by_cases hs : o.Side = "buy"
  · simp only [hs, if_true, decide_True, Bool.not_true]
    exact h
  · simp only [hs, if_false, decide_False, Bool.not_false]
    exact ⟨h.2, h.1⟩

theorem sideResting_to_book (o : Order) (book : OrderBook)
    (h : SideResting (isBuy o) (ownSide book o) ∧ SideResting (!isBuy o) (oppositeSide book o)) :
    SideResting true book.BuyOrders ∧ SideResting false book.SellOrders := by
  unfold isBuy ownSide oppositeSide at h
  by_cases hs : o.Side = "buy"
  · simp only [hs, if_true, decide_True, Bool.not_true] at h
    exact h
  · simp only [hs, if_false, decide_False, Bool.not_false] at h
    exact ⟨h.2, h.1⟩

/-- The opposite side after a crossing keeps the invariant. -/
theorem cross_opposite_resting (o : Order) (opp : List Order) (isBid : Bool)
    (h0 : 0 ≤ o.RemainingQuantity) (hb : Bounded o) (hopp : SideResting isBid opp) :
    SideResting isBid
      ((cross (isBuy o) o opp).pre ++ (cross (isBuy o) o opp).suf) := by
  obtain ⟨_, _, _, _, _, a7⟩ := cross_bounds (isBuy o) opp o h0 hb
    (fun m hm => ⟨(hopp m hm).1.2.2.2, (hopp m hm).2.1⟩)
  intro x hx
  obtain ⟨y, hy, hs, hpos, hle, hcase⟩ := a7 x hx
  obtain ⟨⟨r1, r2, r3, r4⟩, ⟨b1, b2⟩, ⟨p, hp, hp0⟩, hside⟩ := hopp y hy
  have hbx : x.RemainingQuantity ≤ x.InitialQuantity := by
    rw [hs.2.2.2.2.2.1]; linarith
  refine ⟨⟨by rw [hs.2.2.2.1]; exact r1, by rw [hs.2.2.2.2.1]; exact r2, ?_, hpos⟩,
    ⟨hbx, by rw [hs.2.2.2.2.2.1]; exact b2⟩, ⟨p, by rw [hs.2.2.2.2.1]; exact hp, hp0⟩,
    by rw [hs.2.2.1]; exact hside⟩
  rcases hcase with hxy | ⟨hlt, hst⟩
  · rw [hxy]; exact r3
  · exact Or.inr (hst.2.mpr ⟨hpos, by rw [hs.2.2.2.2.2.1]; linarith⟩)

/-- A validated limit taker that is left with something rests as the invariant
asks. -/
theorem cross_taker_resting (o : Order) (opp : List Order) (hv : Validated o)
    (hopp : ∀ m ∈ opp, 0 < m.RemainingQuantity ∧ Bounded m)
    (hins : 0 < (cross (isBuy o) o opp).taker.RemainingQuantity ∧ o.Typ = "limit") :
    Resting (cross (isBuy o) o opp).taker ∧ Bounded (cross (isBuy o) o opp).taker ∧
    PositivePrice (cross (isBuy o) o opp).taker ∧
    (cross (isBuy o) o opp).taker.Side = (if isBuy o then "buy" else "sell") := by
  obtain ⟨hf1, hf2, hf3, hf4, hf5, hf6⟩ := hv.fields
  have hbo : Bounded o := ⟨by rw [hf5], hf4⟩
  obtain ⟨⟨a1, a2⟩, a3, a4, _, _, _⟩ := cross_bounds (isBuy o) opp o (by rw [hf5]; linarith)
    hbo hopp
  have hsame := cross_taker_same (isBuy o) opp o
  have hprice : PositivePrice o := by
    rcases hf2 with ⟨_, p, hp, hp0⟩ | ⟨hm, _⟩
    · exact ⟨p, hp, hp0⟩
    · rw [hm] at hins; exact absurd hins.2 (by decide)
  obtain ⟨p, hp, hp0⟩ := hprice
  refine ⟨⟨by rw [hsame.2.2.2.1]; exact hins.2, by rw [hsame.2.2.2.2.1, hp]; rfl, ?_, hins.1⟩,
    ⟨by rw [hsame.2.2.2.2.2.1]; linarith, by rw [hsame.2.2.2.2.2.1]; exact hf4⟩,
    ⟨p, by rw [hsame.2.2.2.2.1]; exact hp, hp0⟩, ?_⟩
  · by_cases hnil : (cross (isBuy o) o opp).trades = []
    · rw [a3 hnil]; exact Or.inl hf6
    · obtain ⟨hlt, hst⟩ := a4 hnil
      exact Or.inr (hst.2.mpr ⟨hins.1, by rw [hsame.2.2.2.2.2.1]; linarith⟩)
  · rw [hsame.2.2.1]
    unfold isBuy
    by_cases hs : o.Side = "buy"
    · simp [hs]
    · rcases hf1 with h | h
      · exact absurd h hs
      · simp [h]

/-- `matchBuyOrder` and `matchSellOrder` keep the resting-order invariant with
its bounds, for a validated taker. -/
theorem matchOrder_resting (o : Order) (book : OrderBook) (hv : Validated o)
    (hb : RestingBounded book) : RestingBounded (matchOrder o book).book := by
  rw [restingBounded_iff] at hb ⊢
  obtain ⟨hown, hopp⟩ := sideResting_of_isBuy o book hb
  obtain ⟨s1, s2, _⟩ := matchOrder_sides o book
  rw [insertSorted_isBuy] at s2
  obtain ⟨_, _, hf3, hf4, hf5, _⟩ := hv.fields
  apply sideResting_to_book o
  constructor
  · rw [s2]
    split_ifs with hins
    · obtain ⟨pos, _, hpos⟩ := insertSorted_insertAt (isBuy o) (ownSide book o)
        (cross (isBuy o) o (oppositeSide book o)).taker
      rw [hpos]
      unfold insertAt
      intro x hx
      rw [List.mem_append, List.mem_cons] at hx
      rcases hx with hx | hx | hx
      · exact hown x (List.mem_of_mem_take hx)
      · rw [hx]
        exact cross_taker_resting o _ hv
          (fun m hm => ⟨(hopp m hm).1.2.2.2, (hopp m hm).2.1⟩) hins
      · exact hown x (List.mem_of_mem_drop hx)
    · exact hown
  · rw [s1]
    exact cross_opposite_resting o _ _ (by rw [hf5]; linarith) ⟨by rw [hf5], hf4⟩ hopp

/-- The resting-order invariant with its bounds holds along a run of validated
orders. -/
theorem foldl_place_resting (os : List Order) :
    ∀ x : Exchange, (∀ o ∈ os, Validated o) →
      (∀ symbol, RestingBounded (bookOf x.engine symbol)) →
      ∀ symbol, RestingBounded (bookOf (os.foldl place x).engine symbol) := by
  induction os with
  | nil => intro x _ h; exact h
  | cons o os ih =>
    intro x hv hx
    rw [List.foldl_cons]
    refine ih (place x o) (fun y hy => hv y (List.mem_cons_of_mem _ hy)) ?_
    intro symbol
    rw [place_engine]
    by_cases hs : symbol = o.Symbol
    · subst hs
      rw [bookOf_ProcessOrder]
      exact matchOrder_resting o _ (hv o (List.mem_cons_self _ _)) (hx _)
    · rw [bookOf_ProcessOrder_ne _ _ _ _ hs]
      exact hx symbol

theorem restingBounded_empty (symbol : String) :
    RestingBounded (bookOf emptyExchange.engine symbol) := by
  have hb : bookOf emptyExchange.engine symbol = NewOrderBook symbol := rfl
  rw [hb]
  refine ⟨⟨fun b hb => ?_, fun a ha => ?_⟩, fun x hx => ?_⟩
  · simp [NewOrderBook] at hb
  · simp [NewOrderBook] at ha
  · simp [NewOrderBook] at hx

/-- C11. Resting-order invariant. In every state reached from the empty engine by
`ProcessOrder` calls on validated orders with a sink that always succeeds
(after the first n orders, for every n), in every symbol's book every bid is a
buy and every ask is a sell, and every resting order is a limit order with a
price, status open or partial and remaining quantity > 0; moreover its price is
positive and its remaining quantity does not exceed its initial quantity. -/
theorem resting_order_invariant (os : List Order) (hv : ∀ o ∈ os, Validated o) (n : Nat)
    (symbol : String) :
    (∀ b ∈ (bookOf (run (os.take n)).engine symbol).BuyOrders,
      b.Side = "buy" ∧ b.Typ = "limit" ∧ b.Price.isSome = true ∧
      (b.Status = "open" ∨ b.Status = "partial") ∧ 0 < b.RemainingQuantity) ∧
    (∀ a ∈ (bookOf (run (os.take n)).engine symbol).SellOrders,
      a.Side = "sell" ∧ a.Typ = "limit" ∧ a.Price.isSome = true ∧
      (a.Status = "open" ∨ a.Status = "partial") ∧ 0 < a.RemainingQuantity) ∧
    RestingBounded (bookOf (run (os.take n)).engine symbol) := by
  have h := foldl_place_resting (os.take n) emptyExchange
    (fun o ho => hv o (List.mem_of_mem_take ho)) restingBounded_empty symbol
  have h2 : RestingBounded (bookOf (run (os.take n)).engine symbol) := h
  obtain ⟨⟨h3, h4⟩, _⟩ := h2
  refine ⟨fun b hb => ?_, fun a ha => ?_, h⟩
  · obtain ⟨⟨r1, r2, r3, r4⟩, r5⟩ := h3 b hb
    exact ⟨r5, r1, r2, r3, r4⟩
  · obtain ⟨⟨r1, r2, r3, r4⟩, r5⟩ := h4 a ha
    exact ⟨r5, r1, r2, r3, r4⟩

/-- Witness of `resting_order_invariant`: after an ask of 5 at 100 and a bid of 3 at 100,
the ask rests with 2 left and status partial. -/
theorem resting_order_invariant_witness :
    (bookOf (run ([limitOrder "s" "sell" 100 5 1, limitOrder "b" "buy" 100 3 2].take 2)).engine
      "X").SellOrders =
      [{ limitOrder "s" "sell" 100 5 1 with RemainingQuantity := 2, Status := "partial" }] ∧
    RestingBook (bookOf (run ([limitOrder "s" "sell" 100 5 1,
      limitOrder "b" "buy" 100 3 2].take 2)).engine "X") :=
  ⟨by decide, (resting_order_invariant [limitOrder "s" "sell" 100 5 1,
    limitOrder "b" "buy" 100 3 2] (by decide) 2 "X").2.2.1⟩
/-! ## C12: filled means nothing left -/

theorem updateOrderStatus_filled_iff (x : Order) (h : x.Status ≠ "filled") :
    (updateOrderStatus x).Status = "filled" ↔ (updateOrderStatus x).RemainingQuantity = 0 := by
  rw [updateOrderStatus_rem]
  unfold updateOrderStatus
  by_cases hz : x.RemainingQuantity = 0
  · simp [hz]
  · by_cases hl : x.RemainingQuantity < x.InitialQuantity
    · simp only [hz, if_false, hl, if_true, iff_false]
      decide
    · simp only [hz, if_false, hl, iff_false]
      exact h

theorem crossStep_filled_iff (isBuy : Bool) (o m : Order) (ho : o.Status ≠ "filled")
    (hm : m.Status ≠ "filled") :
    ((crossStep isBuy o m).2.1.Status = "filled" ↔
      (crossStep isBuy o m).2.1.RemainingQuantity = 0) ∧
    ((crossStep isBuy o m).2.2.Status = "filled" ↔
      (crossStep isBuy o m).2.2.RemainingQuantity = 0) := by
  cases isBuy
  · exact ⟨updateOrderStatus_filled_iff _ ho, updateOrderStatus_filled_iff _ hm⟩
  · exact ⟨updateOrderStatus_filled_iff _ ho, updateOrderStatus_filled_iff _ hm⟩

/-- After the loop the taker and every updated maker are filled exactly when
they have nothing left, if that held of the taker before and no maker was
filled. -/
theorem cross_filled_iff (isBuy : Bool) (opp : List Order) (o : Order) :
    (o.Status = "filled" ↔ o.RemainingQuantity = 0) → (∀ m ∈ opp, m.Status ≠ "filled") →
    ((cross isBuy o opp).taker.Status = "filled" ↔
      (cross isBuy o opp).taker.RemainingQuantity = 0) ∧
    ∀ u ∈ (cross isBuy o opp).updatedOrders,
      (u.Status = "filled" ↔ u.RemainingQuantity = 0) := by
  refine cross_induction isBuy
    (fun o opp s => (o.Status = "filled" ↔ o.RemainingQuantity = 0) →
      (∀ m ∈ opp, m.Status ≠ "filled") →
      (s.taker.Status = "filled" ↔ s.taker.RemainingQuantity = 0) ∧
      ∀ u ∈ s.updatedOrders, (u.Status = "filled" ↔ u.RemainingQuantity = 0)) ?_ ?_ ?_ ?_ opp o
  · intro o h _; exact ⟨h, fun u hu => by simp at hu⟩
  · intro o m rest _ h _; exact ⟨h, fun u hu => by simp at hu⟩
  · intro o m rest hpos _ _ ih h hq
    have ho : o.Status ≠ "filled" := fun hf => by
      have := h.mp hf
      omega
    obtain ⟨e1, e2⟩ := crossStep_filled_iff isBuy o m ho (hq m (List.mem_cons_self _ _))
    obtain ⟨a1, a2⟩ := ih e1 (fun x hx => hq x (List.mem_cons_of_mem _ hx))
    refine ⟨a1, fun u hu => ?_⟩
    rw [List.mem_cons] at hu
    rcases hu with hu | hu
    · rw [hu]; exact e2
    · exact a2 u hu
  · intro o m rest hpos _ _ _ h hq
    have ho : o.Status ≠ "filled" := fun hf => by
      have := h.mp hf
      omega
    obtain ⟨e1, e2⟩ := crossStep_filled_iff isBuy o m ho (hq m (List.mem_cons_self _ _))
    refine ⟨e1, fun u hu => ?_⟩
    rw [List.mem_singleton] at hu
    rw [hu]; exact e2

/-- C12. After `ProcessOrder` on a validated order against a book that satisfies the
resting-order invariant, the taker, every maker touched (the updated orders
handed to the sink) and every order left on the opposite side have status
filled if and only if their remaining quantity is 0. -/
theorem filled_iff_nothing_left (sink : CommitSink) (me : MatchingEngine) (o : Order)
    (hv : Validated o) (hb : RestingBook (bookOf me o.Symbol)) :
    (∀ t, (ProcessOrder sink me (some o)).order = some t →
      (t.Status = "filled" ↔ t.RemainingQuantity = 0)) ∧
    (∀ b ∈ (ProcessOrder sink me (some o)).sinkCalls, ∀ u ∈ b.updatedOrders,
      (u.Status = "filled" ↔ u.RemainingQuantity = 0)) ∧
    (∀ x ∈ oppositeSide (bookOf (ProcessOrder sink me (some o)).engine o.Symbol) o,
      (x.Status = "filled" ↔ x.RemainingQuantity = 0)) := by
  obtain ⟨_, _, hf3, _, hf5, hf6⟩ := hv.fields
  have hopp : ∀ m ∈ oppositeSide (bookOf me o.Symbol) o,
      (m.Status = "open" ∨ m.Status = "partial") ∧ 0 < m.RemainingQuantity := by
    intro m hm
    unfold oppositeSide at hm
    split_ifs at hm
    · exact ⟨(hb.2 m hm).1.2.2.1, (hb.2 m hm).1.2.2.2⟩
    · exact ⟨(hb.1 m hm).1.2.2.1, (hb.1 m hm).1.2.2.2⟩
  have hnf : ∀ m ∈ oppositeSide (bookOf me o.Symbol) o, m.Status ≠ "filled" := by
    intro m hm hf
    rcases (hopp m hm).1 with h | h
    · rw [h] at hf; exact absurd hf (by decide)
    · rw [h] at hf; exact absurd hf (by decide)
  have hiff0 : o.Status = "filled" ↔ o.RemainingQuantity = 0 := by
    rw [hf6, hf5]
    constructor
    · intro h; exact absurd h (by decide)
    · intro h; omega
  obtain ⟨c1, c2⟩ := cross_filled_iff (isBuy o) (oppositeSide (bookOf me o.Symbol) o) o hiff0 hnf
  obtain ⟨s1, _, s3⟩ := matchOrder_sides o (bookOf me o.Symbol)
  refine ⟨?_, ?_, ?_⟩
  · intro t ht
    rw [ProcessOrder_order, s3] at ht
    simp only [Option.some.injEq] at ht
    split_ifs at ht with hc
    · rw [← ht]
      simp only
      constructor
      · intro h; exact absurd h (by decide)
      · intro h; omega
    · rw [← ht]; exact c1
  · intro b hb2 u hu
    rw [ProcessOrder_sinkCalls, List.mem_singleton] at hb2
    subst hb2
    rw [matchOrder_eq] at hu
    exact c2 u hu
  · intro x hx
    rw [bookOf_ProcessOrder, s1, List.mem_append] at hx
    obtain ⟨r1, _, r3⟩ := cross_residual (isBuy o) (oppositeSide (bookOf me o.Symbol) o) o
    rcases hx with hx | hx
    · rcases r3 with r3 | ⟨u, hu1, hu2, _, _⟩
      · rw [r3] at hx; simp at hx
      · rw [hu1, List.mem_singleton] at hx
        rw [hx]
        exact c2 u (List.mem_of_getLast?_eq_some hu2)
    · rw [r1] at hx
      have hm := List.mem_of_mem_drop hx
      constructor
      · intro h; exact absurd h (hnf x hm)
      · intro h
        have := (hopp x hm).2
        omega

/-- Witness of `filled_iff_nothing_left`: scenario 2 of the specification, the seller is
filled with nothing left and the buyer is not filled with 2 left. -/
theorem filled_iff_nothing_left_witness :
    (ProcessOrder okSink (engineAfter [limitOrder "s" "sell" 100 3 1])
      (some (limitOrder "b" "buy" 100 5 2))).sinkCalls.map
        (fun b => b.updatedOrders.map (fun u => (u.Status, u.RemainingQuantity))) =
      [[("filled", 0)]] ∧
    ∀ t, (ProcessOrder okSink (engineAfter [limitOrder "s" "sell" 100 3 1])
        (some (limitOrder "b" "buy" 100 5 2))).order = some t →
      (t.Status = "filled" ↔ t.RemainingQuantity = 0) :=
  ⟨by decide, (filled_iff_nothing_left okSink (engineAfter [limitOrder "s" "sell" 100 3 1])
    (limitOrder "b" "buy" 100 5 2) (by decide) (by decide)).1⟩
/-! ## C13: partial means something but not everything left -/

/-- C13, counterexample. A market buy of 5 against a resting ask of 3 ends with 2 of 5 left,
and its status is cancelled, not partial. -/
theorem market_residual_not_partial :
    ¬ (∀ t, (ProcessOrder okSink (engineAfter [limitOrder "s" "sell" 100 3 1])
          (some (marketOrder "mb" "buy" 5 2))).order = some t →
        (t.Status = "partial" ↔
          0 < t.RemainingQuantity ∧ t.RemainingQuantity < t.InitialQuantity)) := by
  intro h
  have h1 := h { marketOrder "mb" "buy" 5 2 with RemainingQuantity := 2, Status := "cancelled" }
    (by decide)
  exact absurd (h1.mpr (by decide)) (by decide)

/-- C13, amended. After `ProcessOrder` on a validated order against a book that satisfies
the resting-order invariant with remaining ≤ initial, every maker touched has
status partial if and only if 0 < remaining < initial, and so has the taker
unless it is a market order that ends with remaining > 0: the status of that
taker is cancelled, also when it was partly filled. -/
theorem partial_iff_partly_left (sink : CommitSink) (me : MatchingEngine) (o : Order)
    (hv : Validated o) (hb : RestingBounded (bookOf me o.Symbol)) :
    (∀ b ∈ (ProcessOrder sink me (some o)).sinkCalls, ∀ u ∈ b.updatedOrders,
      (u.Status = "partial" ↔
        0 < u.RemainingQuantity ∧ u.RemainingQuantity < u.InitialQuantity)) ∧
    (∀ t, (ProcessOrder sink me (some o)).order = some t →
      (¬ (o.Typ = "market" ∧ 0 < t.RemainingQuantity) →
        (t.Status = "partial" ↔
          0 < t.RemainingQuantity ∧ t.RemainingQuantity < t.InitialQuantity)) ∧
      (o.Typ = "market" ∧ 0 < t.RemainingQuantity → t.Status = "cancelled")) := by
  obtain ⟨_, _, hf3, hf4, hf5, hf6⟩ := hv.fields
  obtain ⟨_, hopp⟩ := sideResting_of_isBuy o _ ((restingBounded_iff _).mp hb)
  obtain ⟨_, a3, a4, _, a6, _⟩ := cross_bounds (isBuy o) (oppositeSide (bookOf me o.Symbol) o) o
    (by rw [hf5]; linarith) ⟨by rw [hf5], hf4⟩
    (fun m hm => ⟨(hopp m hm).1.2.2.2, (hopp m hm).2.1⟩)
  obtain ⟨_, _, s3⟩ := matchOrder_sides o (bookOf me o.Symbol)
  constructor
  · intro b hb2 u hu
    rw [ProcessOrder_sinkCalls, List.mem_singleton] at hb2
    subst hb2
    rw [matchOrder_eq] at hu
    have hall : ∀ (l1 l2 : List Order),
        List.Forall₂ (fun u m => SameOrder u m ∧ 0 ≤ u.RemainingQuantity ∧
          u.RemainingQuantity < m.RemainingQuantity ∧ StatusMatches u) l1 l2 →
        ∀ u ∈ l1, StatusMatches u := by
      intro l1 l2 h
      induction h with
      | nil => intro u hu; simp at hu
      | cons hx _ ih =>
        intro u hu
        rw [List.mem_cons] at hu
        rcases hu with hu | hu
        · rw [hu]; exact hx.2.2.2
        · exact ih u hu
    exact (hall _ _ a6 u hu).2
  · intro t ht
    rw [ProcessOrder_order, s3] at ht
    simp only [Option.some.injEq] at ht
    have hrem : t.RemainingQuantity =
        (cross (isBuy o) o (oppositeSide (bookOf me o.Symbol) o)).taker.RemainingQuantity := by
      rw [← ht]; split_ifs <;> rfl
    constructor
    · intro hn
      rw [hrem] at hn
      rw [if_neg hn] at ht
      rw [← ht]
      by_cases hnil : (cross (isBuy o) o (oppositeSide (bookOf me o.Symbol) o)).trades = []
      · rw [a3 hnil, hf6, hf5]
        constructor
        · intro h; exact absurd h (by decide)
        · intro h; exact absurd h.2 (lt_irrefl _)
      · exact (a4 hnil).2.2
    · intro hc
      rw [hrem] at hc
      rw [if_pos hc] at ht
      rw [← ht]

/-- Witness of `partial_iff_partly_left`: scenario 3 of the specification, the maker at 101
is left partial with 1 of 4. -/
theorem partial_iff_partly_left_witness :
    (ProcessOrder okSink (engineAfter [limitOrder "s1" "sell" 100 2 1,
        limitOrder "s2" "sell" 101 4 2, limitOrder "s3" "sell" 102 1 3])
      (some (marketOrder "mb" "buy" 5 4))).sinkCalls.map
        (fun b => b.updatedOrders.map (fun u => (u.ID, u.Status, u.RemainingQuantity))) =
      [[("s1", "filled", 0), ("s2", "partial", 1)]] ∧
    ∀ b ∈ (ProcessOrder okSink (engineAfter [limitOrder "s1" "sell" 100 2 1,
        limitOrder "s2" "sell" 101 4 2, limitOrder "s3" "sell" 102 1 3])
      (some (marketOrder "mb" "buy" 5 4))).sinkCalls, ∀ u ∈ b.updatedOrders,
      (u.Status = "partial" ↔
        0 < u.RemainingQuantity ∧ u.RemainingQuantity < u.InitialQuantity) :=
  ⟨by decide, (partial_iff_partly_left okSink (engineAfter [limitOrder "s1" "sell" 100 2 1,
      limitOrder "s2" "sell" 101 4 2, limitOrder "s3" "sell" 102 1 3])
    (marketOrder "mb" "buy" 5 4) (by decide) (by decide)).1⟩
/-! ## C14: bounds and monotonicity of the remaining quantity -/

theorem mem_book_iff (book : OrderBook) (o z : Order) :
    z ∈ book.BuyOrders ++ book.SellOrders ↔ z ∈ ownSide book o ∨ z ∈ oppositeSide book o := by
  unfold ownSide oppositeSide
  rw [List.mem_append]
  split_ifs
  · exact Iff.rfl
  · exact Or.comm

/-- C14. Remaining-quantity bounds and monotonicity. If the taker has
0 < remaining ≤ initial and every resting order of its book has
0 < remaining ≤ initial (initial quantities being Go `int`s), then after
`ProcessOrder`: the taker has 0 ≤ remaining ≤ initial, not more left than
before and its initial quantity; every updated maker has 0 ≤ remaining ≤
initial, not more left than the resting order it was, and its initial quantity
and id; every order in the book afterwards has 0 ≤ remaining ≤ initial and is
the taker or a resting order from before with not more left and the same
initial quantity; and the books of the other symbols are untouched. -/
theorem remaining_bounds_monotone (sink : CommitSink) (me : MatchingEngine) (o : Order)
    (ho : 0 < o.RemainingQuantity) (hob : Bounded o)
    (hbook : ∀ x ∈ (bookOf me o.Symbol).BuyOrders ++ (bookOf me o.Symbol).SellOrders,
      0 < x.RemainingQuantity ∧ Bounded x) :
    (∀ t, (ProcessOrder sink me (some o)).order = some t →
      0 ≤ t.RemainingQuantity ∧ t.RemainingQuantity ≤ t.InitialQuantity ∧
      t.RemainingQuantity ≤ o.RemainingQuantity ∧ t.InitialQuantity = o.InitialQuantity) ∧
    (∀ b ∈ (ProcessOrder sink me (some o)).sinkCalls,
      List.Forall₂
        (fun u m => 0 ≤ u.RemainingQuantity ∧ u.RemainingQuantity ≤ u.InitialQuantity ∧
          u.RemainingQuantity ≤ m.RemainingQuantity ∧ u.InitialQuantity = m.InitialQuantity ∧
          u.ID = m.ID)
        b.updatedOrders ((oppositeSide (bookOf me o.Symbol) o).take b.trades.length)) ∧
    (∀ x ∈ (bookOf (ProcessOrder sink me (some o)).engine o.Symbol).BuyOrders ++
        (bookOf (ProcessOrder sink me (some o)).engine o.Symbol).SellOrders,
      0 ≤ x.RemainingQuantity ∧ x.RemainingQuantity ≤ x.InitialQuantity ∧
      ((ProcessOrder sink me (some o)).order = some x ∨
        ∃ y ∈ (bookOf me o.Symbol).BuyOrders ++ (bookOf me o.Symbol).SellOrders,
          SameOrder x y ∧ x.RemainingQuantity ≤ y.RemainingQuantity)) ∧
    (∀ symbol, symbol ≠ o.Symbol →
      bookOf (ProcessOrder sink me (some o)).engine symbol = bookOf me symbol) := by
  have hopp : ∀ m ∈ oppositeSide (bookOf me o.Symbol) o, 0 < m.RemainingQuantity ∧ Bounded m :=
    fun m hm => hbook m ((mem_book_iff _ o m).mpr (Or.inr hm))
  have hown : ∀ m ∈ ownSide (bookOf me o.Symbol) o, 0 < m.RemainingQuantity ∧ Bounded m :=
    fun m hm => hbook m ((mem_book_iff _ o m).mpr (Or.inl hm))
  obtain ⟨⟨a1, a2⟩, _, _, _, a6, a7⟩ := cross_bounds (isBuy o)
    (oppositeSide (bookOf me o.Symbol) o) o (le_of_lt ho) hob hopp
  obtain ⟨s1, s2, s3⟩ := matchOrder_sides o (bookOf me o.Symbol)
  rw [insertSorted_isBuy] at s2
  have hsame := cross_taker_same (isBuy o) (oppositeSide (bookOf me o.Symbol) o) o
  have htk : ∀ t, (ProcessOrder sink me (some o)).order = some t →
      0 ≤ t.RemainingQuantity ∧ t.RemainingQuantity ≤ t.InitialQuantity ∧
      t.RemainingQuantity ≤ o.RemainingQuantity ∧ t.InitialQuantity = o.InitialQuantity := by
    intro t ht
    rw [ProcessOrder_order, s3] at ht
    simp only [Option.some.injEq] at ht
    have hrem : t.RemainingQuantity =
        (cross (isBuy o) o (oppositeSide (bookOf me o.Symbol) o)).taker.RemainingQuantity := by
      rw [← ht]; split_ifs <;> rfl
    have hinit : t.InitialQuantity = o.InitialQuantity := by
      rw [← ht]; split_ifs <;> exact hsame.2.2.2.2.2.1
    exact ⟨by rw [hrem]; exact a1, by rw [hrem, hinit]; linarith [hob.1], by rw [hrem]; exact a2,
      hinit⟩
  refine ⟨htk, ?_, ?_, fun symbol hs => bookOf_ProcessOrder_ne sink me o symbol hs⟩
  · intro b hb
    rw [ProcessOrder_sinkCalls, List.mem_singleton] at hb
    subst hb
    rw [matchOrder_eq]
    simp only [batchOf]
    have hall : ∀ (l1 l2 : List Order), (∀ m ∈ l2, Bounded m) →
        List.Forall₂ (fun u m => SameOrder u m ∧ 0 ≤ u.RemainingQuantity ∧
          u.RemainingQuantity < m.RemainingQuantity ∧ StatusMatches u) l1 l2 →
        List.Forall₂ (fun u m => 0 ≤ u.RemainingQuantity ∧
          u.RemainingQuantity ≤ u.InitialQuantity ∧
          u.RemainingQuantity ≤ m.RemainingQuantity ∧ u.InitialQuantity = m.InitialQuantity ∧
          u.ID = m.ID) l1 l2 := by
      intro l1 l2 hb h
      induction h with
      | nil => exact List.Forall₂.nil
      | @cons u m _ _ hx _ ih =>
        have hm := hb m (List.mem_cons_self _ _)
        exact List.Forall₂.cons
          ⟨hx.2.1, by rw [hx.1.2.2.2.2.2.1]; linarith [hm.1], le_of_lt hx.2.2.1,
            hx.1.2.2.2.2.2.1, hx.1.1⟩
          (ih (fun y hy => hb y (List.mem_cons_of_mem _ hy)))
    exact hall _ _ (fun m hm => (hopp m (List.mem_of_mem_take hm)).2) a6
  · intro x hx
    rw [mem_book_iff _ o x, bookOf_ProcessOrder, s1, s2] at hx
    rcases hx with hx | hx
    · have hold : x ∈ ownSide (bookOf me o.Symbol) o →
          0 ≤ x.RemainingQuantity ∧ x.RemainingQuantity ≤ x.InitialQuantity ∧
          ((ProcessOrder sink me (some o)).order = some x ∨
            ∃ y ∈ (bookOf me o.Symbol).BuyOrders ++ (bookOf me o.Symbol).SellOrders,
              SameOrder x y ∧ x.RemainingQuantity ≤ y.RemainingQuantity) := by
        intro h
        exact ⟨le_of_lt (hown x h).1, (hown x h).2.1,
          Or.inr ⟨x, (mem_book_iff _ o x).mpr (Or.inl h), SameOrder.refl x, le_refl _⟩⟩
      split_ifs at hx with hins
      · obtain ⟨pos, _, hpos⟩ := insertSorted_insertAt (isBuy o)
          (ownSide (bookOf me o.Symbol) o)
          (cross (isBuy o) o (oppositeSide (bookOf me o.Symbol) o)).taker
        rw [hpos] at hx
        unfold insertAt at hx
        rw [List.mem_append, List.mem_cons] at hx
        rcases hx with hx | hx | hx
        · exact hold (List.mem_of_mem_take hx)
        · have hord : (ProcessOrder sink me (some o)).order = some x := by
            rw [ProcessOrder_order, s3, hx]
            have : ¬ o.Typ = "market" := by rw [hins.2]; decide
            simp [this]
          obtain ⟨t1, t2, _, _⟩ := htk x hord
          exact ⟨t1, t2, Or.inl hord⟩
        · exact hold (List.mem_of_mem_drop hx)
      · exact hold hx
    · obtain ⟨y, hy, hs, hpos, hle, _⟩ := a7 x hx
      exact ⟨le_of_lt hpos, by rw [hs.2.2.2.2.2.1]; linarith [(hopp y hy).2.1],
        Or.inr ⟨y, (mem_book_iff _ o y).mpr (Or.inr hy), hs, hle⟩⟩

/-- Witness of `remaining_bounds_monotone`: scenario 3 of the specification, the taker ends
with 0 of 5 and the makers with 0 of 2 and 1 of 4. -/
theorem remaining_bounds_monotone_witness :
    (ProcessOrder okSink (engineAfter [limitOrder "s1" "sell" 100 2 1,
        limitOrder "s2" "sell" 101 4 2, limitOrder "s3" "sell" 102 1 3])
      (some (marketOrder "mb" "buy" 5 4))).sinkCalls.map
        (fun b => b.updatedOrders.map (fun u => (u.RemainingQuantity, u.InitialQuantity))) =
      [[(0, 2), (1, 4)]] ∧
    ∀ t, (ProcessOrder okSink (engineAfter [limitOrder "s1" "sell" 100 2 1,
        limitOrder "s2" "sell" 101 4 2, limitOrder "s3" "sell" 102 1 3])
      (some (marketOrder "mb" "buy" 5 4))).order = some t →
      0 ≤ t.RemainingQuantity ∧ t.RemainingQuantity ≤ t.InitialQuantity ∧
      t.RemainingQuantity ≤ (marketOrder "mb" "buy" 5 4).RemainingQuantity ∧
      t.InitialQuantity = (marketOrder "mb" "buy" 5 4).InitialQuantity :=
  ⟨by decide, (remaining_bounds_monotone okSink (engineAfter [limitOrder "s1" "sell" 100 2 1,
      limitOrder "s2" "sell" 101 4 2, limitOrder "s3" "sell" 102 1 3])
    (marketOrder "mb" "buy" 5 4) (by decide) (by decide) (by decide)).1⟩
/-! ## C15: trades are well-formed -/

theorem forall2_mem_left {α β : Type} {R : α → β → Prop} {l1 : List α} {l2 : List β}
    (h : List.Forall₂ R l1 l2) : ∀ a ∈ l1, ∃ b ∈ l2, R a b := by
  induction h with
  | nil => intro a ha; simp at ha
  | cons hx _ ih =>
    intro a ha
    rw [List.mem_cons] at ha
    rcases ha with ha | ha
    · subst ha; exact ⟨_, List.mem_cons_self _ _, hx⟩
    · obtain ⟨b, hb, hab⟩ := ih a ha
      exact ⟨b, List.mem_cons_of_mem _ hb, hab⟩

theorem tradeOK_of_subset {seen seen2 : List Order} {t : Trade} (h : TradeOK seen t)
    (hsub : ∀ x ∈ seen, x ∈ seen2) : TradeOK seen2 t := by
  obtain ⟨h1, h2, h3, ⟨b, hb, hb2⟩, ⟨a, ha, ha2⟩⟩ := h
  exact ⟨h1, h2, h3, ⟨b, hsub b hb, hb2⟩, ⟨a, hsub a ha, ha2⟩⟩

/-- The trades of one call are well-formed. -/
theorem call_trades_ok (rows seen : List Order) (o : Order) (opp : List Order)
    (hrs : List.Forall₂ SameOrder rows seen) (hv : Validated o)
    (hfresh : o.ID ∉ rows.map Order.ID) (hopp : SideOK rows o.Symbol (!isBuy o) opp)
    (hres : SideResting (!isBuy o) opp) :
    ∀ t ∈ (cross (isBuy o) o opp).trades, TradeOK (seen ++ [o]) t := by
  obtain ⟨hf1, hf2, hf3, hf4, hf5, hf6⟩ := hv.fields
  obtain ⟨_, _, _, hq, _, _⟩ := cross_bounds (isBuy o) opp o (by rw [hf5]; linarith)
    ⟨by rw [hf5], hf4⟩ (fun m hm => ⟨(hres m hm).1.2.2.2, (hres m hm).2.1⟩)
  have hmk := cross_trades_makers (isBuy o) o.Typ o.Price opp o rfl rfl
    (fun m hm => ⟨(hres m hm).1.1, (hres m hm).1.2.1⟩)
  have htk := cross_trades_taker (isBuy o) opp o
  intro t ht
  obtain ⟨m, hm, hmid, hprice⟩ := forall2_mem_left hmk t ht
  have hm2 := List.mem_of_mem_take hm
  obtain ⟨_, _, ⟨pm, hpm, hpm0⟩, hmside⟩ := hres m hm2
  have hmrow := (hopp.1 m hm2).1
  obtain ⟨a, ha, hma⟩ := forall2_mem_left hrs m hmrow
  have hne : o.ID ≠ m.ID := fun h => hfresh (by rw [h]; exact List.mem_map_of_mem _ hmrow)
  have hpos : 0 < t.Price := by
    split_ifs at hprice with hc
    · rcases hf2 with ⟨_, p, hp, hp0⟩ | ⟨hmkt, _⟩
      · rw [hp] at hprice
        cases hprice
        exact hp0
      · rw [hmkt] at hc; exact absurd hc.2 (by decide)
    · rw [hpm] at hprice
      cases hprice
      exact hpm0
  have hto := htk t ht
  have hoin : o ∈ seen ++ [o] := List.mem_append_right _ (List.mem_singleton_self _)
  have hain : a ∈ seen ++ [o] := List.mem_append_left _ ha
  cases hb : isBuy o
  · simp only [hb, Bool.false_eq_true, if_false, Bool.not_false, if_true] at hmid hto hmside
    have hos : o.Side = "sell" := by
      unfold isBuy at hb
      rcases hf1 with h | h
      · simp [h] at hb
      · exact h
    exact ⟨hq t ht, hpos, by rw [hmid, hto]; exact Ne.symm hne,
      ⟨a, hain, by rw [← hma.1, hmid], by rw [← hma.2.2.1]; exact hmside⟩,
      ⟨o, hoin, hto.symm, hos⟩⟩
  · simp only [hb, if_true, Bool.not_true, Bool.false_eq_true, if_false] at hmid hto hmside
    have hos : o.Side = "buy" := by
      unfold isBuy at hb
      simpa using hb
    exact ⟨hq t ht, hpos, by rw [hmid, hto]; exact hne,
      ⟨o, hoin, hto.symm, hos⟩,
      ⟨a, hain, by rw [← hma.1, hmid], by rw [← hma.2.2.1]; exact hmside⟩⟩

/-- Along a run of validated orders with pairwise distinct ids the invariant of
the accounting and the resting-order invariant hold and all trades are
well-formed. -/
theorem foldl_place_trades (os : List Order) :
    ∀ (x : Exchange) (seen : List Order), RunInv x seen →
      (∀ symbol, RestingBounded (bookOf x.engine symbol)) →
      (∀ t ∈ x.db.trades, TradeOK seen t) → (∀ o ∈ os, Validated o) →
      ((seen ++ os).map Order.ID).Nodup →
      ∀ t ∈ (os.foldl place x).db.trades, TradeOK (seen ++ os) t := by
  induction os with
  | nil => intro x seen _ _ h _ _; simpa using h
  | cons o os ih =>
    intro x seen hinv hres htr hv hnd
    rw [List.foldl_cons]
    have hseen : seen ++ o :: os = (seen ++ [o]) ++ os := by simp
    rw [hseen] at hnd ⊢
    have hvo := hv o (List.mem_cons_self _ _)
    have hnd1 : ((seen ++ [o]).map Order.ID).Nodup := by
      rw [List.map_append] at hnd
      exact (List.nodup_append.mp hnd).1
    refine ih (place x o) (seen ++ [o]) (place_inv x seen o hinv hvo hnd1) ?_ ?_
      (fun y hy => hv y (List.mem_cons_of_mem _ hy)) hnd
    · intro symbol
      rw [place_engine]
      by_cases hs : symbol = o.Symbol
      · subst hs
        rw [bookOf_ProcessOrder]
        exact matchOrder_resting o _ hvo (hres _)
      · rw [bookOf_ProcessOrder_ne _ _ _ _ hs]
        exact hres symbol
    · intro t ht
      rw [place_db] at ht
      simp only [List.mem_append] at ht
      rcases ht with ht | ht
      · exact tradeOK_of_subset (htr t ht) (fun y hy => List.mem_append_left _ hy)
      · obtain ⟨ia, _, _, ic⟩ := hinv
        have hids : x.db.orders.map Order.ID = seen.map Order.ID := forall2_map_ID ia
        have hfresh : o.ID ∉ x.db.orders.map Order.ID := by
          rw [hids]
          rw [List.map_append, List.map_cons, List.map_nil] at hnd1
          intro h
          exact (List.nodup_append.mp hnd1).2.2 h (List.mem_singleton_self _)
        exact call_trades_ok x.db.orders seen o _ ia hvo hfresh
          (sides_of_isBuy o _ _ (ic o.Symbol)).2
          (sideResting_of_isBuy o _ ((restingBounded_iff _).mp (hres o.Symbol))).2 t ht

/-- C15. Trade well-formedness. Along every sequence of validated orders with
pairwise distinct ids processed from the empty engine with a sink that always
succeeds, every trade emitted so far (after the first n orders, for every n)
has a positive quantity and a positive price, names two different orders, its
buy order id is the id of an order seen whose side is buy and its sell order id
the id of an order seen whose side is sell. -/
theorem trade_well_formed (os : List Order) (hv : ∀ o ∈ os, Validated o)
    (hid : (os.map Order.ID).Nodup) (n : Nat) :
    ∀ t ∈ (run (os.take n)).db.trades,
      0 < t.Quantity ∧ 0 < t.Price ∧ t.BuyOrderID ≠ t.SellOrderID ∧
      (∃ b ∈ os.take n, b.ID = t.BuyOrderID ∧ b.Side = "buy") ∧
      (∃ a ∈ os.take n, a.ID = t.SellOrderID ∧ a.Side = "sell") := by
  have h := foldl_place_trades (os.take n) emptyExchange [] runInv_empty restingBounded_empty
    (fun t ht => by simp [emptyExchange] at ht)
    (fun o ho => hv o (List.mem_of_mem_take ho))
    (by
      rw [List.nil_append]
      exact hid.sublist ((List.take_sublist _ _).map _))
  intro t ht
  have := h t ht
  rw [List.nil_append] at this
  exact this

/-- Witness of `trade_well_formed`: a bid at 100, then a limit sell at 90 that takes it;
the one trade has the bid as buy order and the taker as sell order. -/
theorem trade_well_formed_witness :
    (run ([limitOrder "b1" "buy" 100 5 1, limitOrder "s1" "sell" 90 3 2].take 2)).db.trades =
      [{ Symbol := "X", BuyOrderID := "b1", SellOrderID := "s1", Price := 90, Quantity := 3 }] ∧
    ∀ t ∈ (run ([limitOrder "b1" "buy" 100 5 1,
        limitOrder "s1" "sell" 90 3 2].take 2)).db.trades,
      0 < t.Quantity ∧ 0 < t.Price ∧ t.BuyOrderID ≠ t.SellOrderID ∧
      (∃ b ∈ [limitOrder "b1" "buy" 100 5 1, limitOrder "s1" "sell" 90 3 2].take 2,
        b.ID = t.BuyOrderID ∧ b.Side = "buy") ∧
      (∃ a ∈ [limitOrder "b1" "buy" 100 5 1, limitOrder "s1" "sell" 90 3 2].take 2,
        a.ID = t.SellOrderID ∧ a.Side = "sell") :=
  ⟨by decide, trade_well_formed [limitOrder "b1" "buy" 100 5 1, limitOrder "s1" "sell" 90 3 2]
    (by decide) (by decide) 2⟩
/-! ## C18 and C19: request validation -/

theorem utf8Size_ascii (c : Char) (h : c.val ≤ 0x7F) : c.utf8Size = 1 := by
  unfold Char.utf8Size
  exact if_pos h

theorem utf8ByteSize_ascii (s : String) (h : isASCII s) : s.utf8ByteSize = s.length := by
  cases s with
  | mk cs =>
    unfold isASCII at h
    simp only at h
    show String.utf8ByteSize.go cs = cs.length
    induction cs with
    | nil => rfl
    | cons c cs ih =>
      show String.utf8ByteSize.go cs + c.utf8Size = cs.length + 1
      rw [ih (fun x hx => h x (List.mem_cons_of_mem _ hx)),
        utf8Size_ascii c (h c (List.mem_cons_self _ _))]

/-- C18. The symbol check of `validateOrderRequest` counts bytes, not characters: a
request that is valid but for a symbol of 26 two-byte characters (52 bytes) is
rejected as too long. A request with an empty symbol is rejected with `symbol
is required` and a request with a non-empty symbol of more than 50 bytes with
`symbol too long (max 50 characters)`, whatever the other fields. -/
theorem symbol_length_counts_bytes :
    ("éééééééééééééééééééééééééé" : String).length = 26 ∧
    validateOrderRequest (requestWithSymbol "éééééééééééééééééééééééééé") =
      some "symbol too long (max 50 characters)" ∧
    validateOrderRequest (requestWithSymbol "ABCDEFGHIJKLMNOPQRSTUVWXYZ") = none ∧
    (∀ req : PlaceOrderRequest, req.Symbol = "" →
      validateOrderRequest req = some "symbol is required") ∧
    (∀ req : PlaceOrderRequest, req.Symbol ≠ "" → 50 < req.Symbol.utf8ByteSize →
      validateOrderRequest req = some "symbol too long (max 50 characters)") := by
  refine ⟨by decide, by decide, by decide, ?_, ?_⟩
  · intro req h
    unfold validateOrderRequest
    rw [if_pos h]
  · intro req h1 h2
    unfold validateOrderRequest
    rw [if_neg h1, if_pos h2]

/-- C19. Request validation. For a request with a non-empty ASCII symbol of at most 50
characters, `validateOrderRequest` accepts if and only if the side is `buy` or
`sell`, the type is `limit` or `market`, the quantity is positive, a limit
request has a positive price and a market request has no price. -/
theorem request_validation (req : PlaceOrderRequest) (h1 : req.Symbol ≠ "")
    (h2 : isASCII req.Symbol) (h3 : req.Symbol.length ≤ 50) :
    validateOrderRequest req = none ↔
      (req.Side = "buy" ∨ req.Side = "sell") ∧ (req.Typ = "limit" ∨ req.Typ = "market") ∧
      0 < req.Quantity ∧ (req.Typ = "limit" → ∃ p, req.Price = some p ∧ 0 < p) ∧
      (req.Typ = "market" → req.Price = none) := by
  rw [validateOrderRequest_none, utf8ByteSize_ascii _ h2]
  have hlm : ("limit" : String) ≠ "market" := by decide
  constructor
  · rintro ⟨_, _, hq, hs, ht⟩
    refine ⟨hs, ?_, hq, ?_, ?_⟩
    · rcases ht with ⟨h, _⟩ | ⟨h, _⟩
      · exact Or.inl h
      · exact Or.inr h
    · intro hl
      rcases ht with ⟨_, hp⟩ | ⟨h, _⟩
      · exact hp
      · rw [hl] at h; exact absurd h hlm
    · intro hm
      rcases ht with ⟨h, _⟩ | ⟨_, hp⟩
      · rw [hm] at h; exact absurd h.symm hlm
      · exact hp
  · rintro ⟨hs, ht, hq, hl, hm⟩
    refine ⟨h1, h3, hq, hs, ?_⟩
    rcases ht with h | h
    · exact Or.inl ⟨h, hl h⟩
    · exact Or.inr ⟨h, hm h⟩

/-- Witness of `request_validation`: a limit buy of 1 at 100 for a symbol of 26 letters is
accepted. -/
theorem request_validation_witness :
    validateOrderRequest (requestWithSymbol "ABCDEFGHIJKLMNOPQRSTUVWXYZ") = none :=
  (request_validation (requestWithSymbol "ABCDEFGHIJKLMNOPQRSTUVWXYZ") (by decide) (by decide)
    (by decide)).mpr (by decide)
/-! ## C16 and C17: CancelOrder -/

theorem GetOrderByID_none (db : Database) (id : String) :
    GetOrderByID db id = none ↔ ∀ r ∈ db.orders, r.ID ≠ id := by
  unfold GetOrderByID
  rw [List.find?_eq_none]
  simp

theorem CancelOrder_readError (e : String) (u : Option String) (x : Exchange) (id : String) :
    CancelOrder (StoreFaults.mk (some e) u) x id =
      (some (GoError.Errorf ("failed to get order: " ++ e)), x) := rfl

theorem CancelOrder_terminal (u : Option String) (x : Exchange) (id : String) (o : Order)
    (hget : GetOrderByID x.db id = some o)
    (hst : o.Status = "filled" ∨ o.Status = "cancelled") :
    CancelOrder (StoreFaults.mk none u) x id =
      (some (GoError.Errorf ("cannot cancel order with status: " ++ o.Status)), x) := by
  unfold CancelOrder
  simp only
  rw [hget]
  simp only [hst, if_true]

/-- C16. `CancelOrder` failure cases, the read of the store succeeding (the store is an
explicit table) and whatever a later write would do. If no order with the id
is stored the call fails with `ErrOrderNotFound`; if the stored order is filled
or cancelled it fails with the error `cannot cancel order with status: ...`,
which is not `ErrOrderNotFound`; in both cases the engine (every book) and the
store are left as they were. -/
theorem cancel_order_failures (u : Option String) (x : Exchange) (id : String) :
    ((∀ r ∈ x.db.orders, r.ID ≠ id) →
      CancelOrder (StoreFaults.mk none u) x id = (some GoError.ErrOrderNotFound, x)) ∧
    (∀ o, GetOrderByID x.db id = some o → (o.Status = "filled" ∨ o.Status = "cancelled") →
      (CancelOrder (StoreFaults.mk none u) x id).1 =
        some (GoError.Errorf ("cannot cancel order with status: " ++ o.Status)) ∧
      (CancelOrder (StoreFaults.mk none u) x id).1 ≠ some GoError.ErrOrderNotFound ∧
      (CancelOrder (StoreFaults.mk none u) x id).2 = x) := by
  constructor
  · intro h
    unfold CancelOrder
    simp only
    rw [(GetOrderByID_none x.db id).mpr h]
  · intro o hget hst
    rw [CancelOrder_terminal u x id o hget hst]
    exact ⟨rfl, by simp, rfl⟩

/-- Witness of `cancel_order_failures`: cancelling an id that was never placed, and
cancelling a filled order after scenario 1 of the specification. -/
theorem cancel_order_failures_witness :
    CancelOrder (StoreFaults.mk none none) emptyExchange "nobody" =
      (some GoError.ErrOrderNotFound, emptyExchange) ∧
    (CancelOrder (StoreFaults.mk none none)
      (run [limitOrder "s" "sell" 100 5 1, limitOrder "b" "buy" 100 5 2]) "s").1 =
      some (GoError.Errorf "cannot cancel order with status: filled") ∧
    (CancelOrder (StoreFaults.mk none none)
      (run [limitOrder "s" "sell" 100 5 1, limitOrder "b" "buy" 100 5 2]) "s").2 =
      run [limitOrder "s" "sell" 100 5 1, limitOrder "b" "buy" 100 5 2] :=
  have h := (cancel_order_failures none
    (run [limitOrder "s" "sell" 100 5 1, limitOrder "b" "buy" 100 5 2]) "s").2
    { limitOrder "s" "sell" 100 5 1 with RemainingQuantity := 0, Status := "filled" }
    (by decide) (by decide)
  ⟨(cancel_order_failures none emptyExchange "nobody").1 (by decide), h.1.trans (by decide),
    h.2.2⟩

theorem eraseP_eq_filter_of_nodup (l : List Order) (id : String)
    (hnd : (l.map Order.ID).Nodup) :
    l.eraseP (fun o => decide (o.ID = id)) = l.filter (fun o => decide (o.ID ≠ id)) := by
  induction l with
  | nil => rfl
  | cons a l ih =>
    rw [List.map_cons, List.nodup_cons] at hnd
    by_cases h : a.ID = id
    · simp only [List.eraseP_cons, List.filter_cons, h, decide_True, ne_eq, not_true_eq_false,
        decide_False, cond_true, Bool.false_eq_true, if_false]
      symm
      rw [List.filter_eq_self]
      intro b hb
      have : b.ID ≠ id := fun hh => hnd.1 (by rw [h, ← hh]; exact List.mem_map_of_mem _ hb)
      simpa using this
    · simp [List.eraseP_cons, List.filter_cons, h, ih hnd.2]

theorem filter_eq_self_of_not_mem (l : List Order) (id : String)
    (h : ∀ o ∈ l, o.ID ≠ id) : l.filter (fun o => decide (o.ID ≠ id)) = l := by
  rw [List.filter_eq_self]
  intro b hb
  simpa using h b hb

/-- `RemoveOrder` on a book without repeated ids keeps exactly the orders with
another id, in their order. -/
theorem RemoveOrder_filter (ob : OrderBook) (id : String)
    (hnd : (restingIDs ob).Nodup) :
    (RemoveOrder ob id).BuyOrders = ob.BuyOrders.filter (fun o => decide (o.ID ≠ id)) ∧
    (RemoveOrder ob id).SellOrders = ob.SellOrders.filter (fun o => decide (o.ID ≠ id)) ∧
    (RemoveOrder ob id).Symbol = ob.Symbol := by
  unfold restingIDs at hnd
  rw [List.map_append] at hnd
  obtain ⟨n1, n2, n3⟩ := List.nodup_append.mp hnd
  unfold RemoveOrder
  by_cases h : ob.BuyOrders.any (fun o => decide (o.ID = id)) = true
  · rw [if_pos h]
    refine ⟨eraseP_eq_filter_of_nodup _ id n1, ?_, rfl⟩
    rw [List.any_eq_true] at h
    obtain ⟨b, hb, hbid⟩ := h
    have hbid2 : b.ID = id := by simpa using hbid
    symm
    refine filter_eq_self_of_not_mem _ id (fun o ho hoid => ?_)
    exact n3 (List.mem_map_of_mem _ hb) (by rw [hbid2, ← hoid]; exact List.mem_map_of_mem _ ho)
  · rw [if_neg h]
    refine ⟨?_, eraseP_eq_filter_of_nodup _ id n2, rfl⟩
    symm
    refine filter_eq_self_of_not_mem _ id (fun o ho hoid => ?_)
    exact h (List.any_eq_true.mpr ⟨o, ho, by simpa using hoid⟩)

/-- The ids resting after `RemoveOrder` are a sublist of the ids resting before. -/
theorem RemoveOrder_sublist (ob : OrderBook) (id : String) :
    (restingIDs (RemoveOrder ob id)).Sublist (restingIDs ob) := by
  unfold restingIDs RemoveOrder
  split_ifs
  · exact List.Sublist.map _ (List.Sublist.append (List.eraseP_sublist _) (List.Sublist.refl _))
  · exact List.Sublist.map _ (List.Sublist.append (List.Sublist.refl _) (List.eraseP_sublist _))

theorem CancelOrder_ok (u : Option String) (x : Exchange) (id : String) (o : Order)
    (hget : GetOrderByID x.db id = some o)
    (hst : ¬ (o.Status = "filled" ∨ o.Status = "cancelled")) :
    CancelOrder (StoreFaults.mk none u) x id =
      (match u with
       | some e => some (GoError.driver e)
       | none => none,
       { engine :=
           (match lookupBook x.engine o.Symbol with
            | some book => storeBook x.engine o.Symbol (RemoveOrder book id)
            | none => x.engine),
         db := (match u with
           | some _ => x.db
           | none => UpdateOrder x.db { o with Status := "cancelled" }) }) := by
  unfold CancelOrder
  simp only
  rw [hget]
  simp only [hst, if_false]
  cases u <;> rfl

theorem bookOf_cancel (me : MatchingEngine) (symbol id : String) :
    bookOf (match lookupBook me symbol with
      | some book => storeBook me symbol (RemoveOrder book id)
      | none => me) symbol = RemoveOrder (bookOf me symbol) id := by
  rw [bookOf_eq, bookOf_eq]
  cases h : lookupBook me symbol with
  | none =>
    simp only [h, Option.getD_none]
    rfl
  | some b =>
    simp only [Option.getD_some]
    rw [lookupBook_storeBook, h]
    rfl

theorem bookOf_cancel_ne (me : MatchingEngine) (symbol id other : String) (hne : other ≠ symbol) :
    bookOf (match lookupBook me symbol with
      | some book => storeBook me symbol (RemoveOrder book id)
      | none => me) other = bookOf me other := by
  cases h : lookupBook me symbol with
  | none => rfl
  | some b =>
    simp only
    rw [bookOf_eq, bookOf_eq, lookupBook_storeBook_ne _ _ _ _ hne]

theorem find_updateOrderTx (rows : List Order) (id : String) (o u : Order)
    (h : rows.find? (fun r => decide (r.ID = id)) = some o) (hu : u.ID = id) :
    (updateOrderTx rows u).find? (fun r => decide (r.ID = id)) =
      some { o with RemainingQuantity := u.RemainingQuantity, Status := u.Status } := by
  unfold updateOrderTx
  induction rows with
  | nil => simp at h
  | cons a rows ih =>
    rw [List.find?_cons] at h
    rw [List.map_cons, List.find?_cons]
    by_cases ha : a.ID = id
    · simp only [ha, decide_True, Option.some.injEq] at h
      subst h
      simp [ha, hu]
    · simp only [ha, decide_False] at h
      have hne : ¬ a.ID = u.ID := by rw [hu]; exact ha
      simp only [hne, if_false, ha, decide_False]
      exact ih h

/-- The engine a `CancelOrder` call leaves: the engine before, or the engine with
`RemoveOrder` applied to the book of one symbol. -/
theorem CancelOrder_engine (faults : StoreFaults) (x : Exchange) (id : String) :
    (CancelOrder faults x id).2.engine = x.engine ∨
    ∃ symbol, (CancelOrder faults x id).2.engine =
      (match lookupBook x.engine symbol with
       | some book => storeBook x.engine symbol (RemoveOrder book id)
       | none => x.engine) := by
  unfold CancelOrder
  cases faults.getErr with
  | some e => exact Or.inl rfl
  | none =>
    simp only
    cases GetOrderByID x.db id with
    | none => exact Or.inl rfl
    | some order =>
      simp only
      by_cases hst : order.Status = "filled" ∨ order.Status = "cancelled"
      · rw [if_pos hst]
        exact Or.inl rfl
      · rw [if_neg hst]
        right
        refine ⟨order.Symbol, ?_⟩
        cases faults.updateErr <;> rfl

/-! ### No two resting orders of a book share an id -/

theorem idsOK_new (seen : List String) : IdsOK NewMatchingEngine seen := by
  intro symbol
  have h : restingIDs (bookOf NewMatchingEngine symbol) = [] := rfl
  rw [h]
  exact ⟨List.nodup_nil, fun i hi => absurd hi (List.not_mem_nil i)⟩

/-- The ids of two sides after a call, from the ids before: the taker's side is
as it was or has gained the taker, the opposite side is a sublist. -/
theorem ids_sides (own opp own2 opp2 : List String) (t : String) (seen : List String)
    (hown : own2 = own ∨ own2.Perm (t :: own)) (hopp : opp2.Sublist opp)
    (hnd : (own ++ opp).Nodup) (hsub : ∀ i ∈ own ++ opp, i ∈ seen) (hfresh : t ∉ seen) :
    (own2 ++ opp2).Nodup ∧ ∀ i ∈ own2 ++ opp2, i ∈ t :: seen := by
  have hbig : (t :: (own ++ opp)).Nodup :=
    List.nodup_cons.2 ⟨fun h => hfresh (hsub t h), hnd⟩
  rcases hown with h | h
  · subst h
    have hsl : (own2 ++ opp2).Sublist (own2 ++ opp) :=
      List.Sublist.append (List.Sublist.refl _) hopp
    exact ⟨hnd.sublist hsl, fun i hi => List.mem_cons_of_mem _ (hsub i (hsl.subset hi))⟩
  · have hp : (own2 ++ opp2).Perm ((t :: own) ++ opp2) := List.Perm.append_right _ h
    have hsl : ((t :: own) ++ opp2).Sublist (t :: (own ++ opp)) := by
      rw [List.cons_append]
      exact List.Sublist.cons₂ _ (List.Sublist.append (List.Sublist.refl _) hopp)
    refine ⟨hp.nodup_iff.2 (hbig.sublist hsl), fun i hi => ?_⟩
    have h1 := hsl.subset (hp.subset hi)
    rcases List.mem_cons.1 h1 with h2 | h2
    · rw [h2]; exact List.mem_cons_self _ _
    · exact List.mem_cons_of_mem _ (hsub i h2)

theorem insertAt_ids_perm (orders : List Order) (pos : Nat) (t : Order) :
    ((insertAt orders pos t).map Order.ID).Perm (t.ID :: orders.map Order.ID) := by
  unfold insertAt
  rw [List.map_append, List.map_cons]
  refine List.perm_middle.trans ?_
  rw [← List.map_append, List.take_append_drop]

/-- The ids resting in the book `matchOrder` leaves are pairwise different and are
ids seen before or the taker's id, when the taker's id is new. -/
theorem matchOrder_ids (o : Order) (book : OrderBook) (seen : List String)
    (hnd : (restingIDs book).Nodup) (hsub : ∀ i ∈ restingIDs book, i ∈ seen)
    (hfresh : o.ID ∉ seen) :
    (restingIDs (matchOrder o book).book).Nodup ∧
    ∀ i ∈ restingIDs (matchOrder o book).book, i ∈ o.ID :: seen := by
  obtain ⟨s1, s2, _⟩ := matchOrder_sides o book
  obtain ⟨j, hj⟩ := cross_rest_segment (isBuy o) (oppositeSide book o) o
  have htid : (cross (isBuy o) o (oppositeSide book o)).taker.ID = o.ID :=
    (cross_taker_same (isBuy o) (oppositeSide book o) o).1
  have hopp : ((oppositeSide (matchOrder o book).book o).map Order.ID).Sublist
      ((oppositeSide book o).map Order.ID) := by
    rw [s1, forall2_map_ID hj, List.map_drop]
    exact List.drop_sublist _ _
  have hown : (ownSide (matchOrder o book).book o).map Order.ID = (ownSide book o).map Order.ID ∨
      ((ownSide (matchOrder o book).book o).map Order.ID).Perm
        (o.ID :: (ownSide book o).map Order.ID) := by
    rw [s2]
    split_ifs with h1 h2
    · obtain ⟨pos, _, hpos⟩ := insertSortedBuy_insertAt (ownSide book o)
        (cross (isBuy o) o (oppositeSide book o)).taker
      rw [hpos, ← htid]
      exact Or.inr (insertAt_ids_perm _ _ _)
    · obtain ⟨pos, _, hpos⟩ := insertSortedSell_insertAt (ownSide book o)
        (cross (isBuy o) o (oppositeSide book o)).taker
      rw [hpos, ← htid]
      exact Or.inr (insertAt_ids_perm _ _ _)
    · exact Or.inl rfl
  unfold restingIDs at hnd hsub ⊢
  rw [List.map_append] at hnd hsub ⊢
  by_cases hs : o.Side = "buy"
  · simp only [ownSide, oppositeSide, hs, if_true] at hown hopp
    exact ids_sides _ _ _ _ o.ID seen hown hopp hnd hsub hfresh
  · simp only [ownSide, oppositeSide, hs, if_false] at hown hopp
    have hnd2 := List.nodup_append_comm.1 hnd
    have hsub2 : ∀ i ∈ book.SellOrders.map Order.ID ++ book.BuyOrders.map Order.ID, i ∈ seen := by
      intro i hi
      exact hsub i (by rw [List.mem_append] at hi ⊢; exact hi.symm)
    obtain ⟨r1, r2⟩ := ids_sides _ _ _ _ o.ID seen hown hopp hnd2 hsub2 hfresh
    refine ⟨List.nodup_append_comm.1 r1, fun i hi => r2 i ?_⟩
    rw [List.mem_append] at hi ⊢
    exact hi.symm

theorem idsOK_ProcessOrder (sink : CommitSink) (me : MatchingEngine) (o : Order)
    (seen : List String) (h : IdsOK me seen) (hfresh : o.ID ∉ seen) :
    IdsOK (ProcessOrder sink me (some o)).engine (seen ++ [o.ID]) := by
  intro symbol
  by_cases hs : symbol = o.Symbol
  · subst hs
    rw [bookOf_ProcessOrder]
    obtain ⟨r1, r2⟩ := matchOrder_ids o (bookOf me o.Symbol) seen (h o.Symbol).1 (h o.Symbol).2
      hfresh
    refine ⟨r1, fun i hi => ?_⟩
    have := r2 i hi
    rw [List.mem_append, List.mem_singleton]
    rcases List.mem_cons.1 this with h1 | h1
    · exact Or.inr h1
    · exact Or.inl h1
  · rw [bookOf_ProcessOrder_ne sink me o symbol hs]
    exact ⟨(h symbol).1, fun i hi => List.mem_append_left _ ((h symbol).2 i hi)⟩

theorem idsOK_CancelOrder (faults : StoreFaults) (x : Exchange) (id : String)
    (seen : List String) (h : IdsOK x.engine seen) :
    IdsOK (CancelOrder faults x id).2.engine seen := by
  rcases CancelOrder_engine faults x id with he | ⟨s, he⟩
  · rw [he]; exact h
  · rw [he]
    intro symbol
    by_cases hs : symbol = s
    · subst hs
      rw [bookOf_cancel]
      have hsl := RemoveOrder_sublist (bookOf x.engine symbol) id
      exact ⟨(h symbol).1.sublist hsl, fun i hi => (h symbol).2 i (hsl.subset hi)⟩
    · rw [bookOf_cancel_ne x.engine s id symbol hs]
      exact h symbol

theorem idsOK_foldl (calls : List Call) :
    ∀ (x : Exchange) (seen : List String), IdsOK x.engine seen →
      (seen ++ processedIDs calls).Nodup →
      IdsOK (calls.foldl applyCall x).engine (seen ++ processedIDs calls) := by
  induction calls with
  | nil =>
    intro x seen h _
    simpa [processedIDs] using h
  | cons c calls ih =>
    intro x seen h hnd
    rw [List.foldl_cons]
    cases c with
    | process sink order =>
      have hseen : seen ++ processedIDs (Call.process sink order :: calls) =
          (seen ++ [order.ID]) ++ processedIDs calls := by
        simp [processedIDs]
      rw [hseen] at hnd ⊢
      refine ih _ _ ?_ hnd
      have hfresh : order.ID ∉ seen := by
        intro hm
        have h1 := (List.nodup_append.1 hnd).1
        exact (List.nodup_append.1 h1).2.2 hm (List.mem_singleton_self _)
      exact idsOK_ProcessOrder sink x.engine order seen h hfresh
    | cancel faults id =>
      have hseen : seen ++ processedIDs (Call.cancel faults id :: calls) =
          seen ++ processedIDs calls := by
        simp [processedIDs]
      rw [hseen] at hnd ⊢
      exact ih _ _ (idsOK_CancelOrder faults x id seen h) hnd

/-- In every state reached from the empty engine by calls whose processed orders
carry pairwise different ids, no two orders resting in one book share an id. -/
theorem idsOK_runCalls (calls : List Call) (hids : (processedIDs calls).Nodup) :
    IdsOK (runCalls calls).engine (processedIDs calls) := by
  have := idsOK_foldl calls emptyExchange [] (idsOK_new []) (by simpa using hids)
  simpa using this

/-- With sinks that always commit, the calls are a run. -/
theorem runCalls_process (os : List Order) :
    runCalls (os.map (Call.process okSink)) = run os := by
  have : ∀ (l : List Order) (x : Exchange),
      (l.map (Call.process okSink)).foldl applyCall x = l.foldl place x := by
    intro l
    induction l with
    | nil => intro x; rfl
    | cons o l ih =>
      intro x
      rw [List.map_cons, List.foldl_cons, List.foldl_cons, ih]
      rfl
  exact this os emptyExchange

/-- C17, counterexample. Three bids and an ask rest and are stored as open. The `UPDATE`
of the cancel of bid `b2` fails: the call does not succeed, it returns the
error of the database; the bid has left the book all the same, and the stored
order is still open with its remaining quantity. -/
theorem cancel_fails_after_removal :
    (processedIDs restingCalls).Nodup ∧
    GetOrderByID (runCalls restingCalls).db "b2" = some (limitOrder "b2" "buy" 9 2 2) ∧
    (limitOrder "b2" "buy" 9 2 2).Status = "open" ∧
    (bookOf (runCalls restingCalls).engine "X").BuyOrders.map Order.ID = ["b1", "b2", "b3"] ∧
    (CancelOrder (StoreFaults.mk none (some "database is locked"))
      (runCalls restingCalls) "b2").1 = some (GoError.driver "database is locked") ∧
    (CancelOrder (StoreFaults.mk none (some "database is locked"))
      (runCalls restingCalls) "b2").1 ≠ none ∧
    (bookOf (CancelOrder (StoreFaults.mk none (some "database is locked"))
      (runCalls restingCalls) "b2").2.engine "X").BuyOrders.map Order.ID = ["b1", "b3"] ∧
    GetOrderByID (CancelOrder (StoreFaults.mk none (some "database is locked"))
      (runCalls restingCalls) "b2").2.db "b2" = some (limitOrder "b2" "buy" 9 2 2) := by
  decide

/-- C17, amended. In a state reached from the empty engine by `ProcessOrder` and
`CancelOrder` calls, whatever their commits and database statements did, the
processed orders carrying pairwise different ids, take a stored order with
status open or partial and cancel it. If the read of the store fails, the call
fails with `failed to get order: ...` and changes nothing. If the read
succeeds then, whether the write succeeds or not: no two orders resting in a
book share an id, afterwards no side of the book of the order's symbol holds an
order with the id, both sides are the sides before without that order (the
other resting orders unchanged and in their order), the books of the other
symbols are untouched and so are the trades; and the call succeeds exactly
when the write does. If the write succeeds, the stored order is cancelled with
its remaining quantity as before, the other rows are as before, and a second
cancel of the id whose read succeeds fails with the invalid-status error and
changes nothing. If the write fails, the call returns the error of the
database and the rows are as before, the stored order with them. -/
theorem cancel_order_success (calls : List Call) (hids : (processedIDs calls).Nodup)
    (id : String) (o : Order)
    (hget : GetOrderByID (runCalls calls).db id = some o)
    (hst : o.Status = "open" ∨ o.Status = "partial") :
    (∀ e u, CancelOrder (StoreFaults.mk (some e) u) (runCalls calls) id =
      (some (GoError.Errorf ("failed to get order: " ++ e)), runCalls calls)) ∧
    (∀ symbol, (restingIDs (bookOf (runCalls calls).engine symbol)).Nodup) ∧
    (∀ u : Option String,
      (∀ y ∈ (bookOf (CancelOrder (StoreFaults.mk none u) (runCalls calls) id).2.engine
            o.Symbol).BuyOrders ++
          (bookOf (CancelOrder (StoreFaults.mk none u) (runCalls calls) id).2.engine
            o.Symbol).SellOrders, y.ID ≠ id) ∧
      (bookOf (CancelOrder (StoreFaults.mk none u) (runCalls calls) id).2.engine
          o.Symbol).BuyOrders =
        (bookOf (runCalls calls).engine o.Symbol).BuyOrders.filter
          (fun r => decide (r.ID ≠ id)) ∧
      (bookOf (CancelOrder (StoreFaults.mk none u) (runCalls calls) id).2.engine
          o.Symbol).SellOrders =
        (bookOf (runCalls calls).engine o.Symbol).SellOrders.filter
          (fun r => decide (r.ID ≠ id)) ∧
      (∀ symbol, symbol ≠ o.Symbol →
        bookOf (CancelOrder (StoreFaults.mk none u) (runCalls calls) id).2.engine symbol =
          bookOf (runCalls calls).engine symbol) ∧
      (CancelOrder (StoreFaults.mk none u) (runCalls calls) id).2.db.trades =
        (runCalls calls).db.trades ∧
      ((CancelOrder (StoreFaults.mk none u) (runCalls calls) id).1 = none ↔ u = none)) ∧
    (GetOrderByID (CancelOrder (StoreFaults.mk none none) (runCalls calls) id).2.db id =
        some { o with Status := "cancelled" } ∧
      (CancelOrder (StoreFaults.mk none none) (runCalls calls) id).2.db.orders =
        (runCalls calls).db.orders.map (fun r =>
          if r.ID = id then
            { r with RemainingQuantity := o.RemainingQuantity, Status := "cancelled" }
          else r) ∧
      ∀ u : Option String,
        CancelOrder (StoreFaults.mk none u)
            (CancelOrder (StoreFaults.mk none none) (runCalls calls) id).2 id =
          (some (GoError.Errorf "cannot cancel order with status: cancelled"),
            (CancelOrder (StoreFaults.mk none none) (runCalls calls) id).2)) ∧
    (∀ e : String,
      (CancelOrder (StoreFaults.mk none (some e)) (runCalls calls) id).1 =
        some (GoError.driver e) ∧
      (CancelOrder (StoreFaults.mk none (some e)) (runCalls calls) id).2.db =
        (runCalls calls).db ∧
      GetOrderByID (CancelOrder (StoreFaults.mk none (some e)) (runCalls calls) id).2.db id =
        some o) := by
  have hnot : ¬ (o.Status = "filled" ∨ o.Status = "cancelled") := by
    rcases hst with h | h <;> rw [h] <;> decide
  have hid : o.ID = id := by
    unfold GetOrderByID at hget
    simpa using List.find?_some hget
  have hc := fun u => CancelOrder_ok u (runCalls calls) id o hget hnot
  have hnd := fun symbol => (idsOK_runCalls calls hids symbol).1
  obtain ⟨r1, r2, _⟩ := RemoveOrder_filter (bookOf (runCalls calls).engine o.Symbol) id
    (hnd o.Symbol)
  have hget2 : GetOrderByID (CancelOrder (StoreFaults.mk none none) (runCalls calls) id).2.db id =
      some { o with Status := "cancelled" } := by
    rw [hc]
    unfold GetOrderByID UpdateOrder
    unfold GetOrderByID at hget
    simp only
    exact find_updateOrderTx (runCalls calls).db.orders id o { o with Status := "cancelled" }
      hget hid
  refine ⟨fun e u => CancelOrder_readError e u _ id, hnd, ?_, ⟨hget2, ?_, ?_⟩, ?_⟩
  · intro u
    rw [hc u]
    simp only [bookOf_cancel]
    refine ⟨?_, r1, r2, ?_, ?_, ?_⟩
    · intro y hy
      rw [r1, r2, List.mem_append, List.mem_filter, List.mem_filter] at hy
      rcases hy with hy | hy
      · simpa using hy.2
      · simpa using hy.2
    · intro symbol hs
      exact bookOf_cancel_ne (runCalls calls).engine o.Symbol id symbol hs
    · cases u <;> rfl
    · cases u <;> simp
  · rw [hc]
    simp only [UpdateOrder, updateOrderTx, hid]
  · intro u
    exact CancelOrder_terminal u _ id _ hget2 (Or.inr rfl)
  · intro e
    rw [hc]
    exact ⟨rfl, rfl, hget⟩

/-- Witness of `cancel_order_success`: three bids and an ask rest; the middle bid `b2` is
cancelled; the other two bids keep their order, the ask stays, the stored
order is cancelled with 2 left, and the second cancel fails. -/
theorem cancel_order_success_witness :
    (processedIDs restingCalls).Nodup ∧
    (bookOf (runCalls restingCalls).engine "X").BuyOrders.map Order.ID = ["b1", "b2", "b3"] ∧
    (CancelOrder (StoreFaults.mk none none) (runCalls restingCalls) "b2").1 = none ∧
    (bookOf (CancelOrder (StoreFaults.mk none none) (runCalls restingCalls) "b2").2.engine
      "X").BuyOrders =
      [limitOrder "b1" "buy" 10 1 1, limitOrder "b3" "buy" 8 3 3] ∧
    (bookOf (CancelOrder (StoreFaults.mk none none) (runCalls restingCalls) "b2").2.engine
      "X").SellOrders = [limitOrder "s1" "sell" 11 4 4] ∧
    GetOrderByID (CancelOrder (StoreFaults.mk none none) (runCalls restingCalls) "b2").2.db "b2" =
      some { limitOrder "b2" "buy" 9 2 2 with Status := "cancelled" } ∧
    (CancelOrder (StoreFaults.mk none none)
      (CancelOrder (StoreFaults.mk none none) (runCalls restingCalls) "b2").2 "b2").1 =
      some (GoError.Errorf "cannot cancel order with status: cancelled") :=
  have h := cancel_order_success restingCalls (by decide) "b2" (limitOrder "b2" "buy" 9 2 2)
    (by decide) (by decide)
  ⟨by decide, by decide, (h.2.2.1 none).2.2.2.2.2.2 rfl,
    (h.2.2.1 none).2.1.trans (by decide), (h.2.2.1 none).2.2.1.trans (by decide),
    h.2.2.2.1.1, congrArg Prod.fst (h.2.2.2.1.2.2 none)⟩

/-! ## Book aggregation -/

theorem wrapInt64_add_wrap (a b : Int) : wrapInt64 (wrapInt64 a + b) = wrapInt64 (a + b) := by
  unfold wrapInt64
  have e1 : ((a + 2 ^ 63) % 2 ^ 64 - 2 ^ 63 + b + 2 ^ 63) = ((a + 2 ^ 63) % 2 ^ 64 + b) := by
    ring
  have e2 : a + b + 2 ^ 63 = (a + 2 ^ 63) + b := by ring
  rw [e1, e2, Int.emod_add_emod]

theorem levelQuantity_append (a b : List Order) (p : Rat) :
    levelQuantity (a ++ b) p = levelQuantity a p + levelQuantity b p := by
  simp [levelQuantity, List.filter_append, List.sum_append]

theorem levelQuantity_single (o : Order) (p : Rat) :
    levelQuantity [o] p = if o.Price = some p then o.RemainingQuantity else 0 := by
  by_cases h : o.Price = some p <;> simp [levelQuantity, List.filter_cons, h]

theorem getElem?_snoc_lt (pre : List Order) (o x : Order) (k : Nat)
    (h : pre[k]? = some x) : (pre ++ [o])[k]? = some x := by
  have hk : k < pre.length := by
    by_contra hc
    rw [List.getElem?_eq_none (by omega)] at h
    exact Option.noConfusion h
  rw [List.getElem?_append_left hk]
  exact h

theorem getElem?_of_snoc_lt (pre : List Order) (o x : Order) (j : Nat) (hj : j < pre.length)
    (h : (pre ++ [o])[j]? = some x) : pre[j]? = some x := by
  rw [List.getElem?_append_left hj] at h
  exact h

theorem getElem?_lt_length (pre : List Order) (x : Order) (k : Nat)
    (h : pre[k]? = some x) : k < pre.length := by
  by_contra hc
  rw [List.getElem?_eq_none (by omega)] at h
  exact Option.noConfusion h

theorem entrySpec_snoc_other (pre : List Order) (o : Order) (p : Rat) (q t : Int) (pos : Nat)
    (h : EntrySpec pre p q t pos) (hne : o.Price ≠ some p) :
    EntrySpec (pre ++ [o]) p q t pos := by
  obtain ⟨hq, ⟨k, o1, hk, hp1, ht1, hpos, hbefore⟩, hmin⟩ := h
  refine ⟨?_, ⟨k, o1, getElem?_snoc_lt pre o o1 k hk, hp1, ht1, hpos, ?_⟩, ?_⟩
  · rw [levelQuantity_append, levelQuantity_single, if_neg hne, hq, add_zero]
  · intro j o2 hj hj2 hp2
    have hkl := getElem?_lt_length pre o1 k hk
    exact hbefore j o2 hj (getElem?_of_snoc_lt pre o o2 j (by omega) hj2) hp2
  · intro x hx hpx
    rcases List.mem_append.1 hx with h1 | h1
    · exact hmin x h1 hpx
    · rw [List.mem_singleton] at h1
      subst h1
      exact absurd hpx hne

theorem entrySpec_snoc_new (pre : List Order) (o : Order) (p : Rat)
    (hp : o.Price = some p) (hnone : ∀ x ∈ pre, x.Price ≠ some p)
    (h1 : -(2 ^ 63) ≤ o.RemainingQuantity) (h2 : o.RemainingQuantity < 2 ^ 63) :
    EntrySpec (pre ++ [o]) p o.RemainingQuantity o.CreatedAt (pre.length + 1) := by
  have hlast : (pre ++ [o])[pre.length]? = some o := by simp
  refine ⟨?_, ⟨pre.length, o, hlast, hp, rfl, rfl, ?_⟩, ?_⟩
  · have hz : levelQuantity pre p = 0 := by
      unfold levelQuantity
      rw [List.filter_eq_nil_iff.2]
      · rfl
      · intro x hx
        simpa using hnone x hx
    rw [levelQuantity_append, levelQuantity_single, if_pos hp, hz, zero_add,
      wrapInt64_of_range _ h1 h2]
  · intro j o2 hj hj2 hp2
    have h2 := getElem?_of_snoc_lt pre o o2 j hj hj2
    exact absurd hp2 (hnone o2 (List.getElem?_mem h2))
  · intro x hx hpx
    rcases List.mem_append.1 hx with h1 | h1
    · exact absurd hpx (hnone x h1)
    · rw [List.mem_singleton] at h1
      subst h1
      exact le_refl _

theorem entrySpec_snoc_same (pre : List Order) (o : Order) (p : Rat) (q t : Int) (pos : Nat)
    (h : EntrySpec pre p q t pos) (hp : o.Price = some p) :
    EntrySpec (pre ++ [o]) p (wrapInt64 (q + o.RemainingQuantity))
      (if o.CreatedAt < t then o.CreatedAt else t)
      (if o.CreatedAt < t then pre.length + 1 else pos) := by
  obtain ⟨hq, ⟨k, o1, hk, hp1, ht1, hpos, hbefore⟩, hmin⟩ := h
  have hlast : (pre ++ [o])[pre.length]? = some o := by simp
  have hqe : wrapInt64 (q + o.RemainingQuantity) = wrapInt64 (levelQuantity (pre ++ [o]) p) := by
    rw [levelQuantity_append, levelQuantity_single, if_pos hp, hq, wrapInt64_add_wrap]
  by_cases hlt : o.CreatedAt < t
  · rw [if_pos hlt, if_pos hlt]
    refine ⟨hqe, ⟨pre.length, o, hlast, hp, rfl, rfl, ?_⟩, ?_⟩
    · intro j o2 hj hj2 hp2
      have h2 := getElem?_of_snoc_lt pre o o2 j hj hj2
      have := hmin o2 (List.getElem?_mem h2) hp2
      omega
    · intro x hx hpx
      rcases List.mem_append.1 hx with h1 | h1
      · have := hmin x h1 hpx
        omega
      · rw [List.mem_singleton] at h1
        subst h1
        exact le_refl _
  · rw [if_neg hlt, if_neg hlt]
    refine ⟨hqe, ⟨k, o1, getElem?_snoc_lt pre o o1 k hk, hp1, ht1, hpos, ?_⟩, ?_⟩
    · intro j o2 hj hj2 hp2
      have hkl := getElem?_lt_length pre o1 k hk
      exact hbefore j o2 hj (getElem?_of_snoc_lt pre o o2 j (by omega) hj2) hp2
    · intro x hx hpx
      rcases List.mem_append.1 hx with h1 | h1
      · exact hmin x h1 hpx
      · rw [List.mem_singleton] at h1
        subst h1
        omega

theorem addToPriceMap_none (m : PriceMap) (i : Nat) (o : Order) (hp : o.Price = none) :
    addToPriceMap m i o = m := by
  unfold addToPriceMap
  rw [hp]

theorem addToPriceMap_some (m : PriceMap) (i : Nat) (o : Order) (p : Rat)
    (hp : o.Price = some p) :
    addToPriceMap m i o =
      if m.any (fun e => e.1 = p) then
        m.map (fun e =>
          if e.1 = p then
            (e.1,
              { Quantity := wrapInt64 (e.2.Quantity + o.RemainingQuantity),
                EarliestTime :=
                  if o.CreatedAt < e.2.EarliestTime then o.CreatedAt else e.2.EarliestTime,
                QueuePosition :=
                  if o.CreatedAt < e.2.EarliestTime then i + 1 else e.2.QueuePosition })
          else e)
      else
        m ++ [(p, { Quantity := o.RemainingQuantity, EarliestTime := o.CreatedAt,
                    QueuePosition := i + 1 })] := by
  unfold addToPriceMap
  rw [hp]

theorem keys_snoc_iff (pre : List Order) (o : Order) (p : Rat) :
    (∃ x ∈ pre ++ [o], x.Price = some p) ↔ (∃ x ∈ pre, x.Price = some p) ∨ o.Price = some p := by
  constructor
  · rintro ⟨x, hx, hpx⟩
    rcases List.mem_append.1 hx with h1 | h1
    · exact Or.inl ⟨x, h1, hpx⟩
    · rw [List.mem_singleton] at h1
      subst h1
      exact Or.inr hpx
  · rintro (⟨x, hx, hpx⟩ | h)
    · exact ⟨x, List.mem_append_left _ hx, hpx⟩
    · exact ⟨o, List.mem_append_right _ (List.mem_singleton_self o), h⟩

theorem map_fst_keep (m : PriceMap) (f : Rat × priceInfo → Rat × priceInfo)
    (hf : ∀ e, (f e).1 = e.1) : List.map Prod.fst (List.map f m) = List.map Prod.fst m := by
  rw [List.map_map]
  apply List.map_congr_left
  intro e _
  exact hf e

theorem aggregates_step (pre : List Order) (m : PriceMap) (o : Order)
    (h : Aggregates pre m) (h1 : -(2 ^ 63) ≤ o.RemainingQuantity)
    (h2 : o.RemainingQuantity < 2 ^ 63) :
    Aggregates (pre ++ [o]) (addToPriceMap m pre.length o) := by
  obtain ⟨hnd, hkeys, hent⟩ := h
  cases hp : o.Price with
  | none =>
    rw [addToPriceMap_none m _ o hp]
    refine ⟨hnd, ?_, ?_⟩
    · intro p
      rw [hkeys p, keys_snoc_iff, hp]
      constructor
      · exact Or.inl
      · rintro (h | h)
        · exact h
        · exact Option.noConfusion h
    · intro e he
      exact entrySpec_snoc_other pre o e.1 _ _ _ (hent e he)
        (by rw [hp]; exact fun h => Option.noConfusion h)
  | some p =>
    rw [addToPriceMap_some m _ o p hp]
    by_cases hany : m.any (fun e => decide (e.1 = p)) = true
    · rw [if_pos hany]
      have hmem : p ∈ m.map Prod.fst := by
        rw [List.any_eq_true] at hany
        obtain ⟨e, he, hep⟩ := hany
        exact List.mem_map.2 ⟨e, he, by simpa using hep⟩
      refine ⟨?_, ?_, ?_⟩
      · rw [map_fst_keep]
        · exact hnd
        · intro e
          split_ifs <;> rfl
      · intro p2
        rw [map_fst_keep m _ (fun e => by split_ifs <;> rfl), keys_snoc_iff, ← hkeys p2]
        constructor
        · exact Or.inl
        · rintro (h | h)
          · exact h
          · have : p2 = p := Option.some.inj (h.symm.trans hp)
            rw [this]
            exact hmem
      · intro e he
        obtain ⟨e0, he0, rfl⟩ := List.mem_map.1 he
        by_cases hep : e0.1 = p
        · rw [if_pos hep]
          exact entrySpec_snoc_same pre o e0.1 _ _ _ (hent e0 he0) (by rw [hep]; exact hp)
        · rw [if_neg hep]
          exact entrySpec_snoc_other pre o e0.1 _ _ _ (hent e0 he0)
            (by rw [hp]; exact fun h => hep (Option.some.inj h).symm)
    · rw [if_neg hany]
      have hnot : p ∉ m.map Prod.fst := by
        intro hm
        apply hany
        obtain ⟨e, he, hep⟩ := List.mem_map.1 hm
        rw [List.any_eq_true]
        exact ⟨e, he, by simpa using hep⟩
      have hnone : ∀ x ∈ pre, x.Price ≠ some p :=
        fun x hx hpx => hnot ((hkeys p).2 ⟨x, hx, hpx⟩)
      refine ⟨?_, ?_, ?_⟩
      · rw [List.map_append, List.map_singleton]
        refine List.Nodup.append hnd (List.nodup_singleton _) ?_
        intro a ha ha2
        rw [List.mem_singleton] at ha2
        subst ha2
        exact hnot ha
      · intro p2
        rw [List.map_append, List.map_singleton, List.mem_append, List.mem_singleton,
          keys_snoc_iff, ← hkeys p2]
        constructor
        · rintro (h | h)
          · exact Or.inl h
          · exact Or.inr (by rw [h]; exact hp)
        · rintro (h | h)
          · exact Or.inl h
          · exact Or.inr (Option.some.inj (h.symm.trans hp))
      · intro e he
        rcases List.mem_append.1 he with h3 | h3
        · exact entrySpec_snoc_other pre o e.1 _ _ _ (hent e h3)
            (by
              rw [hp]
              intro h
              exact hnot (List.mem_map.2 ⟨e, h3, (Option.some.inj h).symm⟩))
        · rw [List.mem_singleton] at h3
          subst h3
          exact entrySpec_snoc_new pre o p hp hnone h1 h2

theorem aggregates_loop (rest : List Order) :
    ∀ (pre : List Order) (m : PriceMap), Aggregates pre m →
      (∀ x ∈ rest, -(2 ^ 63) ≤ x.RemainingQuantity ∧ x.RemainingQuantity < 2 ^ 63) →
      Aggregates (pre ++ rest) (priceMapLoop m pre.length rest) := by
  induction rest with
  | nil =>
    intro pre m h _
    rw [List.append_nil]
    exact h
  | cons o rest ih =>
    intro pre m h h0
    have e : pre ++ o :: rest = (pre ++ [o]) ++ rest := by simp
    have hl : pre.length + 1 = (pre ++ [o]).length := by simp
    have ho := h0 o (List.mem_cons_self _ _)
    have hs := aggregates_step pre m o h ho.1 ho.2
    have := ih (pre ++ [o]) _ hs (fun x hx => h0 x (List.mem_cons_of_mem _ hx))
    unfold priceMapLoop
    rw [e, hl]
    exact this

theorem aggregates_priceMap (orders : List Order)
    (h0 : ∀ x ∈ orders, -(2 ^ 63) ≤ x.RemainingQuantity ∧ x.RemainingQuantity < 2 ^ 63) :
    Aggregates orders (priceMapLoop [] 0 orders) := by
  have hnil : Aggregates [] ([] : PriceMap) := by
    refine ⟨List.nodup_nil, ?_, ?_⟩
    · intro p
      simp
    · intro e he
      exact absurd he (List.not_mem_nil e)
  have := aggregates_loop orders [] [] hnil h0
  simpa using this

theorem sortSlice_perm (less : OrderBookLevel → OrderBookLevel → Bool)
    (l : List OrderBookLevel) : (sortSlice less l).Perm l :=
  List.perm_insertionSort _ l

theorem sortSlice_sorted (less : OrderBookLevel → OrderBookLevel → Bool)
    (htot : ∀ a b, less b a = false ∨ less a b = false)
    (htr : ∀ a b c, less b a = false → less c b = false → less c a = false)
    (l : List OrderBookLevel) :
    (sortSlice less l).Pairwise (fun a b => less b a = false) := by
  haveI : IsTotal OrderBookLevel (fun a b => less b a = false) := ⟨fun a b => htot a b⟩
  haveI : IsTrans OrderBookLevel (fun a b => less b a = false) :=
    ⟨fun a b c h1 h2 => htr a b c h1 h2⟩
  exact List.sorted_insertionSort _ l

theorem levels_eq_of_prices (L1 : List OrderBookLevel) :
    ∀ L2 : List OrderBookLevel, (∀ a ∈ L1, ∀ b ∈ L2, a.Price = b.Price → a = b) →
      L1.map (fun l => l.Price) = L2.map (fun l => l.Price) → L1 = L2 := by
  induction L1 with
  | nil =>
    intro L2 _ h
    cases L2 with
    | nil => rfl
    | cons b L2 => simp at h
  | cons a L1 ih =>
    intro L2 hinj h
    cases L2 with
    | nil => simp at h
    | cons b L2 =>
      simp only [List.map_cons, List.cons.injEq] at h
      have hab := hinj a (List.mem_cons_self _ _) b (List.mem_cons_self _ _) h.1
      rw [hab, ih L2 (fun x hx y hy => hinj x (List.mem_cons_of_mem _ hx) y
        (List.mem_cons_of_mem _ hy)) h.2]

theorem sorted_levels_unique (r : Rat → Rat → Prop) (hanti : ∀ a b, r a b → r b a → a = b)
    (L1 L2 : List OrderBookLevel) (hperm : L1.Perm L2)
    (hnd : (L1.map (fun l => l.Price)).Nodup)
    (h1 : L1.Pairwise (fun a b => r a.Price b.Price))
    (h2 : L2.Pairwise (fun a b => r a.Price b.Price)) : L1 = L2 := by
  haveI : IsAntisymm Rat r := ⟨hanti⟩
  have hp : (L1.map (fun l => l.Price)).Perm (L2.map (fun l => l.Price)) := hperm.map _
  have e := List.eq_of_perm_of_sorted hp (List.pairwise_map.2 h1) (List.pairwise_map.2 h2)
  apply levels_eq_of_prices L1 L2 _ e
  intro a ha b hb hab
  exact List.inj_on_of_nodup_map hnd ha (hperm.mem_iff.2 hb) hab

theorem levelsOf_prices (m : PriceMap) :
    (levelsOf m).map (fun l => l.Price) = m.map Prod.fst := by
  unfold levelsOf
  rw [List.map_map]
  rfl

theorem levels_facts (orders : List Order) (m : PriceMap) (L : List OrderBookLevel)
    (hagg : Aggregates orders m) (hperm : L.Perm (levelsOf m)) :
    (L.map (fun l => l.Price)).Nodup ∧
    (∀ p, p ∈ L.map (fun l => l.Price) ↔ ∃ o ∈ orders, o.Price = some p) ∧
    ∀ l ∈ L, LevelSpec orders l := by
  obtain ⟨hnd, hkeys, hent⟩ := hagg
  have hp : (L.map (fun l => l.Price)).Perm (m.map Prod.fst) := by
    rw [← levelsOf_prices]
    exact hperm.map _
  refine ⟨hp.nodup_iff.2 hnd, ?_, ?_⟩
  · intro p
    rw [hp.mem_iff]
    exact hkeys p
  · intro l hl
    have hl2 := hperm.mem_iff.1 hl
    unfold levelsOf at hl2
    obtain ⟨e, he, rfl⟩ := List.mem_map.1 hl2
    exact hent e he

theorem aggregates_perm (orders : List Order) (m m2 : PriceMap) (h : Aggregates orders m)
    (hperm : m2.Perm m) : Aggregates orders m2 := by
  obtain ⟨hnd, hkeys, hent⟩ := h
  have hp : (m2.map Prod.fst).Perm (m.map Prod.fst) := hperm.map _
  refine ⟨hp.nodup_iff.2 hnd, ?_, ?_⟩
  · intro p
    rw [hp.mem_iff]
    exact hkeys p
  · intro e he
    exact hent e (hperm.mem_iff.1 he)

theorem levelsOf_perm (m m2 : PriceMap) (hperm : m2.Perm m) :
    (levelsOf m2).Perm (levelsOf m) := hperm.map _

theorem formatBids_eq (orders : List Order) :
    formatBidsWithTimestamp orders =
      sortSlice (fun a b => decide (b.Price < a.Price)) (levelsOf (priceMapLoop [] 0 orders)) := by
  unfold formatBidsWithTimestamp
  split_ifs with h
  · rw [List.length_eq_zero] at h
    subst h
    rfl
  · rfl

theorem formatAsks_eq (orders : List Order) :
    formatAsksWithTimestamp orders =
      sortSlice (fun a b => decide (a.Price < b.Price)) (levelsOf (priceMapLoop [] 0 orders)) := by
  unfold formatAsksWithTimestamp
  split_ifs with h
  · rw [List.length_eq_zero] at h
    subst h
    rfl
  · rfl

theorem formatBids_sorted (orders : List Order) :
    (formatBidsWithTimestamp orders).Pairwise (fun a b => ¬ a.Price < b.Price) := by
  rw [formatBids_eq]
  have := sortSlice_sorted (fun a b => decide (b.Price < a.Price))
    (fun a b => by
      simp only [decide_eq_false_iff_not, not_lt]
      exact le_total _ _)
    (fun a b c h1 h2 => by
      simp only [decide_eq_false_iff_not, not_lt] at h1 h2 ⊢
      exact le_trans h2 h1)
    (levelsOf (priceMapLoop [] 0 orders))
  exact this.imp (fun h => by simpa using h)

theorem formatAsks_sorted (orders : List Order) :
    (formatAsksWithTimestamp orders).Pairwise (fun a b => ¬ b.Price < a.Price) := by
  rw [formatAsks_eq]
  have := sortSlice_sorted (fun a b => decide (a.Price < b.Price))
    (fun a b => by
      simp only [decide_eq_false_iff_not, not_lt]
      exact le_total _ _)
    (fun a b c h1 h2 => by
      simp only [decide_eq_false_iff_not, not_lt] at h1 h2 ⊢
      exact le_trans h1 h2)
    (levelsOf (priceMapLoop [] 0 orders))
  exact this.imp (fun h => by simpa using h)

theorem strict_of_sorted_nodup (r : Rat → Rat → Prop) (L : List OrderBookLevel)
    (hnd : (L.map (fun l => l.Price)).Nodup)
    (hs : L.Pairwise (fun a b => r a.Price b.Price)) :
    L.Pairwise (fun a b => r a.Price b.Price ∧ a.Price ≠ b.Price) := by
  have hne : L.Pairwise (fun a b => a.Price ≠ b.Price) := List.pairwise_map.1 hnd
  exact hs.and hne

/-- C20 (counterexample): two resting bids of 2^62 units each at the price 100, both
valid Go `int` quantities, aggregate into one level whose quantity is -2^63 and
not the sum 2^63 of their remaining quantities. -/
theorem level_quantity_wraps :
    (∀ o ∈ heavyBids, Resting o ∧ Bounded o ∧ PositivePrice o) ∧
    formatBidsWithTimestamp heavyBids =
      [{ Price := 100, Quantity := -9223372036854775808, Timestamp := 1, QueuePosition := 1 }] ∧
    levelQuantity heavyBids 100 = 9223372036854775808 := by
  decide

/-- C20 (amended): for a slice of orders whose remaining quantities are Go `int`s,
`formatBidsWithTimestamp` and `formatAsksWithTimestamp` return exactly one level
per distinct price of the slice; each level's quantity is the sum of the
remaining quantities of the orders at its price in 64-bit wrap-around
arithmetic, hence the sum itself whenever that fits a Go `int`; its timestamp is
the least `CreatedAt` among them and its queue position is the 1-based index of
the first order at that price with that `CreatedAt`; bid levels are strictly
descending and ask levels strictly ascending in price; and whatever order the
map is iterated in and whatever sorted permutation `sort.Slice` returns, the
result is the same list. -/
theorem book_aggregation (orders : List Order)
    (htyp : ∀ o ∈ orders, -(2 ^ 63) ≤ o.RemainingQuantity ∧ o.RemainingQuantity < 2 ^ 63) :
    (∀ levels : List OrderBookLevel,
      levels = formatBidsWithTimestamp orders ∨ levels = formatAsksWithTimestamp orders →
      (levels.map (fun l => l.Price)).Nodup ∧
      (∀ p, p ∈ levels.map (fun l => l.Price) ↔ ∃ o ∈ orders, o.Price = some p) ∧
      ∀ l ∈ levels, LevelSpec orders l ∧
        (-(2 ^ 63) ≤ levelQuantity orders l.Price → levelQuantity orders l.Price < 2 ^ 63 →
          l.Quantity = levelQuantity orders l.Price)) ∧
    (formatBidsWithTimestamp orders).Pairwise (fun a b => b.Price < a.Price) ∧
    (formatAsksWithTimestamp orders).Pairwise (fun a b => a.Price < b.Price) ∧
    ∀ (m2 : PriceMap) (L2 : List OrderBookLevel),
      m2.Perm (priceMapLoop [] 0 orders) → L2.Perm (levelsOf m2) →
      (L2.Pairwise (fun a b => ¬ a.Price < b.Price) → L2 = formatBidsWithTimestamp orders) ∧
      (L2.Pairwise (fun a b => ¬ b.Price < a.Price) → L2 = formatAsksWithTimestamp orders) := by
  have hagg := aggregates_priceMap orders htyp
  have hb : (formatBidsWithTimestamp orders).Perm (levelsOf (priceMapLoop [] 0 orders)) := by
    rw [formatBids_eq]
    exact sortSlice_perm _ _
  have ha : (formatAsksWithTimestamp orders).Perm (levelsOf (priceMapLoop [] 0 orders)) := by
    rw [formatAsks_eq]
    exact sortSlice_perm _ _
  have fb := levels_facts orders _ _ hagg hb
  have fa := levels_facts orders _ _ hagg ha
  have sb := formatBids_sorted orders
  have sa := formatAsks_sorted orders
  refine ⟨?_, ?_, ?_, ?_⟩
  · intro levels hl
    have f : (levels.map (fun l => l.Price)).Nodup ∧
        (∀ p, p ∈ levels.map (fun l => l.Price) ↔ ∃ o ∈ orders, o.Price = some p) ∧
        ∀ l ∈ levels, LevelSpec orders l := by
      rcases hl with h | h
      · rw [h]
        exact fb
      · rw [h]
        exact fa
    refine ⟨f.1, f.2.1, fun l hl => ⟨f.2.2 l hl, fun h1 h2 => ?_⟩⟩
    rw [(f.2.2 l hl).1]
    exact wrapInt64_of_range _ h1 h2
  · refine (strict_of_sorted_nodup (fun a b => ¬ a < b) _ fb.1 sb).imp ?_
    intro a b h
    exact lt_of_le_of_ne (not_lt.1 h.1) (Ne.symm h.2)
  · refine (strict_of_sorted_nodup (fun a b => ¬ b < a) _ fa.1 sa).imp ?_
    intro a b h
    exact lt_of_le_of_ne (not_lt.1 h.1) h.2
  · intro m2 L2 hm hL
    have hp2 : L2.Perm (levelsOf (priceMapLoop [] 0 orders)) :=
      hL.trans (levelsOf_perm _ _ hm)
    have f2 := levels_facts orders _ _ hagg hp2
    constructor
    · intro hs
      exact sorted_levels_unique (fun a b => ¬ a < b)
        (fun a b h1 h2 => le_antisymm (not_lt.1 h2) (not_lt.1 h1)) _ _ (hp2.trans hb.symm)
        f2.1 hs sb
    · intro hs
      exact sorted_levels_unique (fun a b => ¬ b < a)
        (fun a b h1 h2 => le_antisymm (not_lt.1 h1) (not_lt.1 h2)) _ _ (hp2.trans ha.symm)
        f2.1 hs sa

/-- C20 (witness): two bids at 100 and one at 101; the level at 100 sums 2 + 3, carries
the earlier time 4 of the third order of the slice and its position 3. -/
theorem book_aggregation_witness :
    (∀ o ∈ sampleBids, -(2 ^ 63) ≤ o.RemainingQuantity ∧ o.RemainingQuantity < 2 ^ 63) ∧
    formatBidsWithTimestamp sampleBids =
      [{ Price := 101, Quantity := 1, Timestamp := 6, QueuePosition := 1 },
       { Price := 100, Quantity := 5, Timestamp := 4, QueuePosition := 3 }] ∧
    (formatBidsWithTimestamp sampleBids).Pairwise (fun a b => b.Price < a.Price) ∧
    (formatAsksWithTimestamp sampleBids).Pairwise (fun a b => a.Price < b.Price) ∧
    (∀ l ∈ formatBidsWithTimestamp sampleBids, LevelSpec sampleBids l) :=
  have h := book_aggregation sampleBids (by decide)
  ⟨by decide, by decide, h.2.1, h.2.2.1,
    fun l hl => ((h.1 (formatBidsWithTimestamp sampleBids) (Or.inl rfl)).2.2 l hl).1⟩

/-! ## C21: the spread -/

theorem calculateSpread_cons (b a : OrderBookLevel) (bids asks : List OrderBookLevel) :
    calculateSpread (b :: bids) (a :: asks) = some (float64Sub a.Price b.Price) := by
  simp [calculateSpread]

theorem calculateSpread_none_iff (bids asks : List OrderBookLevel) :
    calculateSpread bids asks = none ↔ bids = [] ∨ asks = [] := by
  cases bids with
  | nil => simp [calculateSpread]
  | cons b bids =>
    cases asks with
    | nil => simp [calculateSpread]
    | cons a asks => simp [calculateSpread_cons]

theorem calculateSpread_some (bids asks : List OrderBookLevel) (s : Float64)
    (h : calculateSpread bids asks = some s) :
    ∃ b a, bids.head? = some b ∧ asks.head? = some a ∧ s = float64Sub a.Price b.Price := by
  cases bids with
  | nil => simp [calculateSpread] at h
  | cons b bids =>
    cases asks with
    | nil => simp [calculateSpread] at h
    | cons a asks =>
      rw [calculateSpread_cons] at h
      exact ⟨b, a, rfl, rfl, (Option.some.inj h).symm⟩

theorem head_extreme {R : OrderBookLevel → OrderBookLevel → Prop} (l : List OrderBookLevel)
    (x : OrderBookLevel) (hs : l.Pairwise R) (hx : l.head? = some x) :
    x ∈ l ∧ ∀ y ∈ l, y = x ∨ R x y := by
  cases l with
  | nil => simp at hx
  | cons a l =>
    simp only [List.head?_cons, Option.some.injEq] at hx
    subst hx
    refine ⟨List.mem_cons_self _ _, ?_⟩
    intro y hy
    rcases List.mem_cons.1 hy with h | h
    · exact Or.inl h
    · exact Or.inr ((List.pairwise_cons.1 hs).1 y h)

theorem bookOrdered_empty (symbol : String) :
    BookOrdered (bookOf emptyExchange.engine symbol) := by
  show BookOrdered (NewOrderBook symbol)
  refine ⟨?_, ?_, List.Pairwise.nil, List.Pairwise.nil, ?_⟩
  · intro x hx; simp [NewOrderBook] at hx
  · intro x hx; simp [NewOrderBook] at hx
  · intro x hx; simp [NewOrderBook] at hx

theorem format_price_mem (orders : List Order) (l : OrderBookLevel)
    (htyp : ∀ o ∈ orders, -(2 ^ 63) ≤ o.RemainingQuantity ∧ o.RemainingQuantity < 2 ^ 63)
    (hl : l ∈ formatBidsWithTimestamp orders ∨ l ∈ formatAsksWithTimestamp orders) :
    ∃ o ∈ orders, o.Price = some l.Price := by
  have hagg := aggregates_priceMap orders htyp
  rcases hl with h | h
  · have hb : (formatBidsWithTimestamp orders).Perm (levelsOf (priceMapLoop [] 0 orders)) := by
      rw [formatBids_eq]
      exact sortSlice_perm _ _
    exact ((levels_facts orders _ _ hagg hb).2.1 l.Price).1 (List.mem_map.2 ⟨l, h, rfl⟩)
  · have ha : (formatAsksWithTimestamp orders).Perm (levelsOf (priceMapLoop [] 0 orders)) := by
      rw [formatAsks_eq]
      exact sortSlice_perm _ _
    exact ((levels_facts orders _ _ hagg ha).2.1 l.Price).1 (List.mem_map.2 ⟨l, h, rfl⟩)

theorem resting_typed (book : OrderBook) (h : RestingBounded book) (x : Order)
    (hx : x ∈ book.BuyOrders ∨ x ∈ book.SellOrders) :
    -(2 ^ 63) ≤ x.RemainingQuantity ∧ x.RemainingQuantity < 2 ^ 63 := by
  obtain ⟨⟨hb, ha⟩, hbd⟩ := h
  have hm : x ∈ book.BuyOrders ++ book.SellOrders := List.mem_append.2 hx
  have h1 := (hbd x hm).1
  have h2 : 0 < x.RemainingQuantity := by
    rcases hx with h | h
    · exact (hb x h).1.2.2.2
    · exact (ha x h).1.2.2.2
  unfold Bounded at h1
  constructor <;> omega

/-! ### float64 rounding -/

/-- Halving `n` times is enough: `log2Loop` with fuel `n` or more returns the
exponent of the highest power of two that is at most `n`. -/
theorem log2Loop_spec (fuel : Nat) :
    ∀ n : Nat, n ≤ fuel → 0 < n →
      2 ^ log2Loop fuel n ≤ n ∧ n < 2 ^ (log2Loop fuel n + 1) := by
  induction fuel with
  | zero =>
    intro n h1 h2
    omega
  | succ fuel ih =>
    intro n h1 h2
    unfold log2Loop
    by_cases h : 2 ≤ n
    · rw [if_pos h]
      obtain ⟨a, b⟩ := ih (n / 2) (by omega) (by omega)
      rw [pow_succ, pow_succ]
      constructor <;> omega
    · rw [if_neg h]
      have : n = 1 := by omega
      subst this
      simp

theorem log2_spec (n : Nat) (h : 0 < n) : 2 ^ log2 n ≤ n ∧ n < 2 ^ (log2 n + 1) :=
  log2Loop_spec n n (le_refl n) h

theorem roundFloat64_nonneg (x : Rat) (h : 0 ≤ x) : notNegative (roundFloat64 x) := by
  unfold roundFloat64
  have hx : ¬ x < 0 := not_lt.2 h
  by_cases h0 : x = 0
  · rw [if_pos h0]
    exact le_refl (0 : Rat)
  · rw [if_neg h0]
    by_cases h1 : float64Limit ≤ significand x * 2 ^ (ulpExponent x).toNat
    · rw [if_pos h1]
      show decide (x < 0) = false
      exact decide_eq_false hx
    · rw [if_neg h1, if_neg hx]
      show (0 : Rat) ≤ 1 * (significand x : Rat) * 2 ^ ulpExponent x
      exact mul_nonneg (mul_nonneg zero_le_one (Nat.cast_nonneg _))
        (zpow_nonneg (by norm_num) _)

theorem bookSpread_nonneg (book : OrderBook) (ho : BookOrdered book) (hr : RestingBounded book)
    (s : Float64) (h : bookSpread book = some s) : notNegative s := by
  unfold bookSpread at h
  obtain ⟨b, a, hb, ha, rfl⟩ := calculateSpread_some _ _ s h
  have hbm : b ∈ formatBidsWithTimestamp (GetTopBids book 10) := List.mem_of_mem_head? hb
  have ham : a ∈ formatAsksWithTimestamp (GetTopAsks book 10) := List.mem_of_mem_head? ha
  obtain ⟨ob, hob, hpb⟩ := format_price_mem (GetTopBids book 10) b
    (fun o ho2 => resting_typed book hr o (Or.inl (List.mem_of_mem_take ho2))) (Or.inl hbm)
  obtain ⟨oa, hoa, hpa⟩ := format_price_mem (GetTopAsks book 10) a
    (fun o ho2 => resting_typed book hr o (Or.inr (List.mem_of_mem_take ho2))) (Or.inr ham)
  obtain ⟨pb, pa, h1, h2, h3⟩ := ho.2.2.2.2 ob (List.mem_of_mem_take hob) oa
    (List.mem_of_mem_take hoa)
  rw [hpb] at h1
  rw [hpa] at h2
  cases h1
  cases h2
  exact roundFloat64_nonneg _ (by linarith)

theorem roundHalfEven_near (p q : Nat) (hq : 0 < q) :
    |((roundHalfEven p q : Nat) : Rat) - (p : Rat) / (q : Rat)| ≤ 1 / 2 := by
  have hq0 : (0 : Rat) < (q : Rat) := Nat.cast_pos.2 hq
  have hp : (p : Rat) = (q : Rat) * ((p / q : Nat) : Rat) + ((p % q : Nat) : Rat) := by
    have := Nat.div_add_mod p q
    exact_mod_cast this.symm
  have hr : (p % q : Nat) < q := Nat.mod_lt p hq
  have hdiv : (p : Rat) / (q : Rat) = ((p / q : Nat) : Rat) + ((p % q : Nat) : Rat) / (q : Rat) := by
    have hne : (q : Rat) ≠ 0 := ne_of_gt hq0
    rw [eq_comm, ← sub_eq_zero]
    field_simp
    rw [sub_eq_zero]
    linarith
  have ht0 : (0 : Rat) ≤ ((p % q : Nat) : Rat) / (q : Rat) :=
    div_nonneg (Nat.cast_nonneg _) (le_of_lt hq0)
  have ht1 : ((p % q : Nat) : Rat) / (q : Rat) ≤ 1 := by
    rw [div_le_one hq0]
    exact_mod_cast le_of_lt hr
  rw [hdiv]
  unfold roundHalfEven
  by_cases h1 : 2 * (p % q) < q
  · rw [if_pos h1]
    have : ((p % q : Nat) : Rat) / (q : Rat) ≤ 1 / 2 := by
      rw [div_le_iff₀ hq0]
      have : (2 : Rat) * ((p % q : Nat) : Rat) ≤ (q : Rat) := by exact_mod_cast le_of_lt h1
      linarith
    rw [abs_le]
    constructor <;> linarith
  · rw [if_neg h1]
    have hge : (1 : Rat) / 2 ≤ ((p % q : Nat) : Rat) / (q : Rat) := by
      rw [le_div_iff₀ hq0]
      have : (q : Rat) ≤ (2 : Rat) * ((p % q : Nat) : Rat) := by exact_mod_cast not_lt.1 h1
      linarith
    by_cases h2 : q < 2 * (p % q)
    · rw [if_pos h2]
      push_cast
      rw [abs_le]
      constructor <;> linarith
    · rw [if_neg h2]
      have hle : ((p % q : Nat) : Rat) / (q : Rat) ≤ 1 / 2 := by
        rw [div_le_iff₀ hq0]
        have : (2 : Rat) * ((p % q : Nat) : Rat) ≤ (q : Rat) := by exact_mod_cast not_lt.1 h2
        linarith
      by_cases h3 : (p / q) % 2 = 0
      · rw [if_pos h3]
        rw [abs_le]
        constructor <;> linarith
      · rw [if_neg h3]
        push_cast
        rw [abs_le]
        constructor <;> linarith

/-- The quotient `roundFloat64` rounds is `|x| / 2^e`. -/
theorem scaled_eq (x : Rat) (e : Int) :
    ((x.num.natAbs * 2 ^ (-e).toNat : Nat) : Rat) / ((x.den * 2 ^ e.toNat : Nat) : Rat) =
      |x| * (2 : Rat) ^ (-e) := by
  have hd : (0 : Rat) < (x.den : Rat) := Nat.cast_pos.2 x.den_pos
  have habs : |x| = (x.num.natAbs : Rat) / (x.den : Rat) := by
    have h1 : x = (x.num : Rat) / (x.den : Rat) := (Rat.num_div_den x).symm
    have h2 : ((x.num.natAbs : Nat) : Rat) = |(x.num : Rat)| := by
      rw [Nat.cast_natAbs, Int.cast_abs]
    rw [h2]
    conv_lhs => rw [h1]
    rw [abs_div, abs_of_pos hd]
  rw [habs]
  push_cast
  rcases le_or_lt 0 e with he | he
  · have h1 : (-e).toNat = 0 := Int.toNat_eq_zero.2 (by omega)
    have h2 : ((2 : Rat) ^ e.toNat) = (2 : Rat) ^ e := by
      rw [← zpow_natCast, Int.toNat_of_nonneg he]
    rw [h1, h2, pow_zero, mul_one, zpow_neg]
    ring
  · have h1 : e.toNat = 0 := Int.toNat_eq_zero.2 (le_of_lt he)
    have h2 : ((2 : Rat) ^ (-e).toNat) = (2 : Rat) ^ (-e) := by
      rw [← zpow_natCast, Int.toNat_of_nonneg (by omega)]
    rw [h1, h2, pow_zero, mul_one]
    ring

/-- A finite result of `roundFloat64` is within half a unit in the last place of
the rational it rounds. -/
theorem roundFloat64_near (x v : Rat) (h : roundFloat64 x = Float64.finite v) :
    |v - x| ≤ (2 : Rat) ^ ulpExponent x / 2 := by
  have hpow : (0 : Rat) < (2 : Rat) ^ ulpExponent x := zpow_pos (by norm_num) _
  unfold roundFloat64 at h
  by_cases h0 : x = 0
  · rw [if_pos h0] at h
    cases h
    rw [h0]
    simp only [sub_self, abs_zero]
    exact le_of_lt (by positivity)
  · rw [if_neg h0] at h
    by_cases h1 : float64Limit ≤ significand x * 2 ^ (ulpExponent x).toNat
    · rw [if_pos h1] at h
      exact Float64.noConfusion h
    · rw [if_neg h1] at h
      have hv : v = (if x < 0 then -1 else 1) * (significand x : Rat) * 2 ^ ulpExponent x :=
        (Float64.finite.inj h).symm
      have hq : 0 < x.den * 2 ^ (ulpExponent x).toNat :=
        Nat.mul_pos x.den_pos (pow_pos (by norm_num) _)
      have hnear := roundHalfEven_near (x.num.natAbs * 2 ^ (-ulpExponent x).toNat)
        (x.den * 2 ^ (ulpExponent x).toNat) hq
      rw [scaled_eq x (ulpExponent x)] at hnear
      have hm : |(significand x : Rat) - |x| * (2 : Rat) ^ (-ulpExponent x)| ≤ 1 / 2 := hnear
      have hmul : |(significand x : Rat) * 2 ^ ulpExponent x - abs x| ≤
          (2 : Rat) ^ ulpExponent x / 2 := by
        have e1 : (significand x : Rat) * 2 ^ ulpExponent x - abs x =
            ((significand x : Rat) - abs x * (2 : Rat) ^ (-ulpExponent x)) *
              2 ^ ulpExponent x := by
          rw [zpow_neg]
          field_simp
        rw [e1, abs_mul, abs_of_pos hpow]
        calc |(significand x : Rat) - abs x * (2 : Rat) ^ (-ulpExponent x)| *
              2 ^ ulpExponent x
            ≤ 1 / 2 * 2 ^ ulpExponent x := mul_le_mul_of_nonneg_right hm (le_of_lt hpow)
          _ = (2 : Rat) ^ ulpExponent x / 2 := by ring
      by_cases hneg : x < 0
      · rw [if_pos hneg] at hv
        have e2 : v - x = -((significand x : Rat) * 2 ^ ulpExponent x - abs x) := by
          rw [hv, abs_of_neg hneg]
          ring
        rw [e2, abs_neg]
        exact hmul
      · rw [if_neg hneg] at hv
        have e2 : v - x = (significand x : Rat) * 2 ^ ulpExponent x - abs x := by
          rw [hv, abs_of_nonneg (not_lt.1 hneg)]
          ring
        rw [e2]
        exact hmul

theorem pow_toNat_ratio (k : Int) :
    ((2 : Rat) ^ k.toNat) / ((2 : Rat) ^ (-k).toNat) = (2 : Rat) ^ k := by
  rcases le_or_lt 0 k with hk | hk
  · have h1 : (-k).toNat = 0 := Int.toNat_eq_zero.2 (by omega)
    rw [h1, pow_zero, div_one, ← zpow_natCast, Int.toNat_of_nonneg hk]
  · have h1 : k.toNat = 0 := Int.toNat_eq_zero.2 (le_of_lt hk)
    have h2 : (2 : Rat) ^ (-k).toNat = (2 : Rat) ^ (-k) := by
      rw [← zpow_natCast, Int.toNat_of_nonneg (by omega)]
    rw [h1, h2, pow_zero, zpow_neg, one_div, inv_inv]

/-- `floorLog2 n d` is the exponent of the highest power of two that is at most
`n / d`. -/
theorem floorLog2_spec (n d : Nat) (hn : 0 < n) (hd : 0 < d) :
    (2 : Rat) ^ floorLog2 n d ≤ (n : Rat) / (d : Rat) ∧
    (n : Rat) / (d : Rat) < (2 : Rat) ^ (floorLog2 n d + 1) := by
  obtain ⟨a1, a2⟩ := log2_spec n hn
  obtain ⟨b1, b2⟩ := log2_spec d hd
  have hd0 : (0 : Rat) < (d : Rat) := Nat.cast_pos.2 hd
  have ha1 : (2 : Rat) ^ (log2 n : Int) ≤ (n : Rat) := by
    rw [zpow_natCast]
    exact_mod_cast a1
  have ha2 : (n : Rat) < (2 : Rat) ^ ((log2 n : Int) + 1) := by
    have : (n : Rat) < (2 : Rat) ^ (log2 n + 1) := by exact_mod_cast a2
    rw [← zpow_natCast] at this
    exact_mod_cast this
  have hb1 : (2 : Rat) ^ (log2 d : Int) ≤ (d : Rat) := by
    rw [zpow_natCast]
    exact_mod_cast b1
  have hb2 : (d : Rat) < (2 : Rat) ^ ((log2 d : Int) + 1) := by
    have : (d : Rat) < (2 : Rat) ^ (log2 d + 1) := by exact_mod_cast b2
    rw [← zpow_natCast] at this
    exact_mod_cast this
  have h2 : (2 : Rat) ≠ 0 := by norm_num
  have hA : (0 : Rat) < (2 : Rat) ^ ((log2 n : Int) - (log2 d : Int)).toNat :=
    pow_pos (by norm_num) _
  have hB : (0 : Rat) < (2 : Rat) ^ ((log2 d : Int) - (log2 n : Int)).toNat :=
    pow_pos (by norm_num) _
  have hneg : (log2 d : Int) - (log2 n : Int) = -((log2 n : Int) - (log2 d : Int)) := by ring
  have htest : d * 2 ^ ((log2 n : Int) - (log2 d : Int)).toNat ≤
        n * 2 ^ ((log2 d : Int) - (log2 n : Int)).toNat ↔
      (2 : Rat) ^ ((log2 n : Int) - (log2 d : Int)) ≤ (n : Rat) / (d : Rat) := by
    rw [← pow_toNat_ratio, ← hneg, div_le_div_iff₀ hB hd0]
    constructor
    · intro h
      have : ((d * 2 ^ ((log2 n : Int) - (log2 d : Int)).toNat : Nat) : Rat) ≤
          ((n * 2 ^ ((log2 d : Int) - (log2 n : Int)).toNat : Nat) : Rat) := by exact_mod_cast h
      push_cast at this
      linarith
    · intro h
      have : ((d * 2 ^ ((log2 n : Int) - (log2 d : Int)).toNat : Nat) : Rat) ≤
          ((n * 2 ^ ((log2 d : Int) - (log2 n : Int)).toNat : Nat) : Rat) := by
        push_cast
        linarith
      exact_mod_cast this
  unfold floorLog2
  by_cases ht : d * 2 ^ ((log2 n : Int) - (log2 d : Int)).toNat ≤
      n * 2 ^ ((log2 d : Int) - (log2 n : Int)).toNat
  · rw [if_pos ht]
    refine ⟨htest.1 ht, ?_⟩
    rw [div_lt_iff₀ hd0]
    have e : (2 : Rat) ^ ((log2 n : Int) - (log2 d : Int) + 1) * (2 : Rat) ^ (log2 d : Int) =
        (2 : Rat) ^ ((log2 n : Int) + 1) := by
      rw [← zpow_add₀ h2]
      congr 1
      ring
    have hp : (0 : Rat) < (2 : Rat) ^ ((log2 n : Int) - (log2 d : Int) + 1) :=
      zpow_pos (by norm_num) _
    calc (n : Rat) < (2 : Rat) ^ ((log2 n : Int) + 1) := ha2
      _ = (2 : Rat) ^ ((log2 n : Int) - (log2 d : Int) + 1) * (2 : Rat) ^ (log2 d : Int) := e.symm
      _ ≤ (2 : Rat) ^ ((log2 n : Int) - (log2 d : Int) + 1) * (d : Rat) :=
        mul_le_mul_of_nonneg_left hb1 (le_of_lt hp)
  · rw [if_neg ht]
    have hlt : (n : Rat) / (d : Rat) < (2 : Rat) ^ ((log2 n : Int) - (log2 d : Int)) :=
      not_le.1 (fun h => ht (htest.2 h))
    refine ⟨?_, ?_⟩
    · rw [le_div_iff₀ hd0]
      have e : (2 : Rat) ^ ((log2 n : Int) - (log2 d : Int) - 1) *
          (2 : Rat) ^ ((log2 d : Int) + 1) = (2 : Rat) ^ (log2 n : Int) := by
        rw [← zpow_add₀ h2]
        congr 1
        ring
      have hp : (0 : Rat) < (2 : Rat) ^ ((log2 n : Int) - (log2 d : Int) - 1) :=
        zpow_pos (by norm_num) _
      calc (2 : Rat) ^ ((log2 n : Int) - (log2 d : Int) - 1) * (d : Rat)
          ≤ (2 : Rat) ^ ((log2 n : Int) - (log2 d : Int) - 1) *
              (2 : Rat) ^ ((log2 d : Int) + 1) :=
            mul_le_mul_of_nonneg_left (le_of_lt hb2) (le_of_lt hp)
        _ = (2 : Rat) ^ (log2 n : Int) := e
        _ ≤ (n : Rat) := ha1
    · have e : (log2 n : Int) - (log2 d : Int) - 1 + 1 = (log2 n : Int) - (log2 d : Int) := by
        ring
      rw [e]
      exact hlt

theorem abs_eq_natAbs_div (x : Rat) : |x| = (x.num.natAbs : Rat) / (x.den : Rat) := by
  have hd : (0 : Rat) < (x.den : Rat) := Nat.cast_pos.2 x.den_pos
  have h1 : x = (x.num : Rat) / (x.den : Rat) := (Rat.num_div_den x).symm
  have h2 : ((x.num.natAbs : Nat) : Rat) = |(x.num : Rat)| := by
    rw [Nat.cast_natAbs, Int.cast_abs]
  rw [h2]
  conv_lhs => rw [h1]
  rw [abs_div, abs_of_pos hd]

/-- The exponent `floorLog2` finds for a rational other than 0 is the exponent of
its absolute value. -/
theorem floorLog2_abs (x : Rat) (hx : x ≠ 0) :
    (2 : Rat) ^ floorLog2 x.num.natAbs x.den ≤ |x| ∧
    |x| < (2 : Rat) ^ (floorLog2 x.num.natAbs x.den + 1) := by
  rw [abs_eq_natAbs_div]
  exact floorLog2_spec _ _ (Int.natAbs_pos.2 (Rat.num_ne_zero.2 hx)) x.den_pos

/-- In the range of the normal float64 values the result of `roundFloat64` has a
relative error of at most `2^-53`. -/
theorem roundFloat64_relative (x v : Rat) (h : roundFloat64 x = Float64.finite v)
    (hx : (2 : Rat) ^ (-1022 : Int) ≤ |x|) : |v - x| ≤ |x| / 2 ^ 53 := by
  have hx0 : x ≠ 0 := by
    intro h0
    rw [h0, abs_zero] at hx
    exact absurd hx (not_le.2 (zpow_pos (by norm_num) _))
  obtain ⟨k1, k2⟩ := floorLog2_abs x hx0
  have hk : (-1022 : Int) < floorLog2 x.num.natAbs x.den + 1 :=
    (zpow_lt_zpow_iff_right₀ (by norm_num : (1 : Rat) < 2)).1 (lt_of_le_of_lt hx k2)
  have he : ulpExponent x = floorLog2 x.num.natAbs x.den - 52 := by
    unfold ulpExponent
    exact max_eq_left (by omega)
  have hnear := roundFloat64_near x v h
  rw [he] at hnear
  have e : (2 : Rat) ^ (floorLog2 x.num.natAbs x.den - 52) / 2 =
      (2 : Rat) ^ floorLog2 x.num.natAbs x.den / 2 ^ 53 := by
    rw [zpow_sub₀ (by norm_num : (2 : Rat) ≠ 0)]
    norm_num
    ring
  rw [e] at hnear
  exact le_trans hnear (div_le_div_of_nonneg_right k1 (by positivity))

/-- The significand `roundFloat64` computes has at most 53 bits, or is `2^53`. -/
theorem significand_le (x : Rat) (hx : x ≠ 0) : significand x ≤ 2 ^ 53 := by
  obtain ⟨_, k2⟩ := floorLog2_abs x hx
  have hq : 0 < x.den * 2 ^ (ulpExponent x).toNat :=
    Nat.mul_pos x.den_pos (pow_pos (by norm_num) _)
  have hnear := roundHalfEven_near (x.num.natAbs * 2 ^ (-ulpExponent x).toNat)
    (x.den * 2 ^ (ulpExponent x).toNat) hq
  rw [scaled_eq x (ulpExponent x)] at hnear
  have hm : |(significand x : Rat) - abs x * (2 : Rat) ^ (-ulpExponent x)| ≤ 1 / 2 := hnear
  have he : floorLog2 x.num.natAbs x.den - 52 ≤ ulpExponent x := le_max_left _ _
  have hp : (0 : Rat) < (2 : Rat) ^ (-ulpExponent x) := zpow_pos (by norm_num) _
  have hs : abs x * (2 : Rat) ^ (-ulpExponent x) < (2 : Rat) ^ (53 : Int) := by
    calc abs x * (2 : Rat) ^ (-ulpExponent x)
        < (2 : Rat) ^ (floorLog2 x.num.natAbs x.den + 1) * (2 : Rat) ^ (-ulpExponent x) :=
          mul_lt_mul_of_pos_right k2 hp
      _ = (2 : Rat) ^ (floorLog2 x.num.natAbs x.den + 1 + -ulpExponent x) :=
          (zpow_add₀ (by norm_num : (2 : Rat) ≠ 0) _ _).symm
      _ ≤ (2 : Rat) ^ (53 : Int) :=
          (zpow_le_zpow_iff_right₀ (by norm_num : (1 : Rat) < 2)).2 (by omega)
  have h53 : (2 : Rat) ^ (53 : Int) = ((2 ^ 53 : Nat) : Rat) := by norm_num
  rw [h53] at hs
  have hlt : (significand x : Rat) < ((2 ^ 53 + 1 : Nat) : Rat) := by
    have := (abs_le.1 hm).2
    push_cast
    push_cast at hs
    linarith
  have : significand x < 2 ^ 53 + 1 := by exact_mod_cast hlt
  omega

/-- A finite result of `roundFloat64` is a float64: a significand of at most 53
bits (or `2^53`) times a power of two with an exponent of at least -1074, below
`2^1024`, with a sign. -/
theorem roundFloat64_float64 (x v : Rat) (h : roundFloat64 x = Float64.finite v) :
    ∃ (m : Nat) (e : Int), m ≤ 2 ^ 53 ∧ -1074 ≤ e ∧ m * 2 ^ e.toNat < float64Limit ∧
      (v = (m : Rat) * 2 ^ e ∨ v = -((m : Rat) * 2 ^ e)) := by
  unfold roundFloat64 at h
  by_cases h0 : x = 0
  · rw [if_pos h0] at h
    cases h
    refine ⟨0, 0, by norm_num, by norm_num, ?_, Or.inl (by simp)⟩
    rw [Nat.zero_mul]
    unfold float64Limit
    apply Nat.pos_of_ne_zero
    apply pow_ne_zero
    decide
  · rw [if_neg h0] at h
    by_cases h1 : float64Limit ≤ significand x * 2 ^ (ulpExponent x).toNat
    · rw [if_pos h1] at h
      exact Float64.noConfusion h
    · rw [if_neg h1] at h
      have hv := (Float64.finite.inj h).symm
      refine ⟨significand x, ulpExponent x, significand_le x h0, le_max_right _ _,
        not_le.1 h1, ?_⟩
      by_cases hneg : x < 0
      · rw [if_pos hneg] at hv
        right
        rw [hv]
        ring
      · rw [if_neg hneg] at hv
        left
        rw [hv]
        ring

/-- C21, amended. `calculateSpread` returns no spread exactly when one of the two level
lists is empty. On the aggregated level lists of any two slices of orders, a
spread that is present is the float64 difference of the lowest ask level price
and the highest bid level price: their difference rounded to the nearest
float64. A finite float64 difference of `a` and `b` is within half a unit in the
last place of `a - b`, and within `|a - b| / 2^53` of it when `|a - b|` is at
least `2^-1022`; it is not negative when `b <= a`. In every state reached from
the empty engine by `ProcessOrder` calls on validated orders with a sink that
always succeeds, the spread the handler reports for a book, when present, is
not negative. -/
theorem spread_rule (os : List Order) (hv : ∀ o ∈ os, Validated o) (symbol : String) :
    (∀ bids asks : List OrderBookLevel,
      calculateSpread bids asks = none ↔ bids = [] ∨ asks = []) ∧
    (∀ (bs ss : List Order) (s : Float64),
      calculateSpread (formatBidsWithTimestamp bs) (formatAsksWithTimestamp ss) = some s →
      ∃ b ∈ formatBidsWithTimestamp bs, ∃ a ∈ formatAsksWithTimestamp ss,
        s = float64Sub a.Price b.Price ∧
        (∀ y ∈ formatBidsWithTimestamp bs, y.Price ≤ b.Price) ∧
        (∀ y ∈ formatAsksWithTimestamp ss, a.Price ≤ y.Price)) ∧
    (∀ a b v : Rat, float64Sub a b = Float64.finite v →
      |v - (a - b)| ≤ (2 : Rat) ^ ulpExponent (a - b) / 2 ∧
      ((2 : Rat) ^ (-1022 : Int) ≤ |a - b| → |v - (a - b)| ≤ |a - b| / 2 ^ 53)) ∧
    (∀ a b : Rat, b ≤ a → notNegative (float64Sub a b)) ∧
    (∀ s, bookSpread (bookOf (run os).engine symbol) = some s → notNegative s) := by
  refine ⟨calculateSpread_none_iff, ?_, ?_, ?_, ?_⟩
  · intro bs ss s h
    obtain ⟨b, a, hb, ha, hs⟩ := calculateSpread_some _ _ s h
    obtain ⟨hbm, hbx⟩ := head_extreme _ b (formatBids_sorted bs) hb
    obtain ⟨ham, hax⟩ := head_extreme _ a (formatAsks_sorted ss) ha
    refine ⟨b, hbm, a, ham, hs, ?_, ?_⟩
    · intro y hy
      rcases hbx y hy with h1 | h1
      · rw [h1]
      · exact not_lt.1 h1
    · intro y hy
      rcases hax y hy with h1 | h1
      · rw [h1]
      · exact not_lt.1 h1
  · intro a b v h
    exact ⟨roundFloat64_near (a - b) v h, roundFloat64_relative (a - b) v h⟩
  · intro a b h
    exact roundFloat64_nonneg (a - b) (by linarith)
  · intro s h
    have ho := foldl_place_ordered os emptyExchange hv bookOrdered_empty symbol
    have hr := foldl_place_resting os emptyExchange hv restingBounded_empty symbol
    exact bookSpread_nonneg (bookOf (run os).engine symbol) ho hr s h

/-- Witness of `spread_rule`: after an ask at 100 and a bid at 99 the spread is 1, which
is not negative; after an ask alone there is none. -/
theorem spread_rule_witness :
    (∀ o ∈ [limitOrder "s" "sell" 100 5 1, limitOrder "b" "buy" 99 3 2], Validated o) ∧
    bookSpread (bookOf (run [limitOrder "s" "sell" 100 5 1,
      limitOrder "b" "buy" 99 3 2]).engine "X") = some (Float64.finite 1) ∧
    notNegative (Float64.finite 1) ∧
    bookSpread (bookOf (run [limitOrder "s" "sell" 100 5 1]).engine "X") = none :=
  ⟨by decide, by decide!,
   (spread_rule [limitOrder "s" "sell" 100 5 1, limitOrder "b" "buy" 99 3 2] (by decide)
      "X").2.2.2.2 (Float64.finite 1) (by decide!),
   by decide⟩

/-- C21, counterexample. With a validated ask at 9007199254740994 and a validated bid at 1
resting, the two level prices are these, and the spread reported is
9007199254740992, not their difference 9007199254740993, which no float64
holds. With an ask at 2.1 and a bid at 0.01, that is at the float64 values
nearest to them, the spread reported is the float64 that prints as
2.0900000000000003: it is neither the difference of the two level prices nor the
float64 nearest to 2.09. -/
theorem spread_not_exact_difference :
    (Validated (limitOrder "s" "sell" 9007199254740994 1 1) ∧
      Validated (limitOrder "b" "buy" 1 1 2)) ∧
    (formatAsksWithTimestamp (GetTopAsks wideBook 10)).map (fun l => l.Price) =
      [9007199254740994] ∧
    (formatBidsWithTimestamp (GetTopBids wideBook 10)).map (fun l => l.Price) = [1] ∧
    bookSpread wideBook = some (Float64.finite 9007199254740992) ∧
    bookSpread wideBook ≠ some (Float64.finite (9007199254740994 - 1)) ∧
    roundFloat64 (21 / 10) = Float64.finite (4728779608739021 / 2251799813685248) ∧
    roundFloat64 (1 / 100) = Float64.finite (5764607523034235 / 576460752303423488) ∧
    (formatAsksWithTimestamp (GetTopAsks decimalBook 10)).map (fun l => l.Price) =
      [4728779608739021 / 2251799813685248] ∧
    (formatBidsWithTimestamp (GetTopBids decimalBook 10)).map (fun l => l.Price) =
      [5764607523034235 / 576460752303423488] ∧
    bookSpread decimalBook = some (Float64.finite (4706261610602169 / 2251799813685248)) ∧
    roundFloat64 (20900000000000003 / 10000000000000000) =
      Float64.finite (4706261610602169 / 2251799813685248) ∧
    bookSpread decimalBook ≠ some (Float64.finite
      (4728779608739021 / 2251799813685248 - 5764607523034235 / 576460752303423488)) ∧
    bookSpread decimalBook ≠ some (roundFloat64 (209 / 100)) := by
  decide!

/-! ## C22: the read operations -/

theorem getOrderBook_known (me : MatchingEngine) (symbol : String)
    (h : lookupBook me symbol ≠ none) : (getOrderBook me symbol).2 = me := by
  unfold getOrderBook
  cases hl : lookupBook me symbol with
  | none => exact absurd hl h
  | some book => rfl

theorem getOrderBook_unknown (me : MatchingEngine) (symbol : String)
    (h : lookupBook me symbol = none) :
    (getOrderBook me symbol).2 = { orderBooks := me.orderBooks ++ [(symbol, NewOrderBook symbol)] } := by
  unfold getOrderBook
  rw [h]

theorem lookupBook_none_iff (me : MatchingEngine) (symbol : String) :
    lookupBook me symbol = none ↔ symbol ∉ symbolsOf me := by
  unfold lookupBook symbolsOf
  rw [Option.map_eq_none', List.find?_eq_none]
  constructor
  · intro h hm
    obtain ⟨e, he, hes⟩ := List.mem_map.1 hm
    exact h e he (by simpa using hes)
  · intro h e he hes
    exact h (List.mem_map.2 ⟨e, he, by simpa using hes⟩)

theorem bookOf_getOrderBook (me : MatchingEngine) (symbol other : String) :
    bookOf (getOrderBook me symbol).2 other = bookOf me other := by
  by_cases hne : other = symbol
  · subst hne
    rw [bookOf_eq, lookupBook_getOrderBook]
    rfl
  · rw [bookOf_eq, bookOf_eq, lookupBook_getOrderBook_ne me symbol other hne]

/-- C22. On an engine that has no book for `X`, `GetOrderBook` puts a new empty book
for `X` in the engine's map, so the set of symbols is not as before the call and
`GetAllOrderBooks` lists `X` afterwards. What holds: `GetOrderBook` on a symbol
the map has leaves the engine as it was; on a symbol the map lacks it appends
exactly that symbol with an empty book; it never changes what any symbol's book
contains; and `GetAllOrderBooks` leaves the engine as it was. -/
theorem get_book_inserts_symbol :
    symbolsOf NewMatchingEngine = [] ∧
    symbolsOf (GetOrderBook NewMatchingEngine "X").2 = ["X"] ∧
    (GetOrderBook NewMatchingEngine "X").2 ≠ NewMatchingEngine ∧
    (GetAllOrderBooks NewMatchingEngine).1 = [] ∧
    (GetAllOrderBooks (GetOrderBook NewMatchingEngine "X").2).1 =
      [{ symbol := "X", bids := [], asks := [] }] ∧
    (∀ (me : MatchingEngine) (symbol : String), symbol ∈ symbolsOf me →
      (GetOrderBook me symbol).2 = me) ∧
    (∀ (me : MatchingEngine) (symbol : String), symbol ∉ symbolsOf me →
      (GetOrderBook me symbol).2 =
        { orderBooks := me.orderBooks ++ [(symbol, NewOrderBook symbol)] }) ∧
    (∀ (me : MatchingEngine) (symbol other : String),
      bookOf (GetOrderBook me symbol).2 other = bookOf me other) ∧
    (∀ me : MatchingEngine, (GetAllOrderBooks me).2 = me) := by
  refine ⟨by decide, by decide, by decide, by decide, by decide, ?_, ?_, ?_, fun _ => rfl⟩
  · intro me symbol h
    exact getOrderBook_known me symbol (fun hn => (lookupBook_none_iff me symbol).1 hn h)
  · intro me symbol h
    exact getOrderBook_unknown me symbol ((lookupBook_none_iff me symbol).2 h)
  · intro me symbol other
    exact bookOf_getOrderBook me symbol other

/-! ## C23: what a call does to the opposite side -/

/-- Shape of the opposite side after the loop, for a bounded taker against
makers with positive bounded quantities: the first `j` makers are gone, each
filled; the rest is as before, but for the head when the taker ran out on it. -/
theorem cross_opposite_shape (isBuy : Bool) (opp : List Order) (o : Order) :
    Bounded o → (∀ m ∈ opp, 0 < m.RemainingQuantity ∧ Bounded m) →
    ∃ j : Nat,
      (∀ i : Nat, i < j → ∃ u m, (cross isBuy o opp).updatedOrders[i]? = some u ∧
        opp[i]? = some m ∧ SameOrder u m ∧ u.RemainingQuantity = 0 ∧ u.Status = "filled") ∧
      (((cross isBuy o opp).pre ++ (cross isBuy o opp).suf = opp.drop j ∧
          (cross isBuy o opp).trades.length = j) ∨
        ∃ u m rest, opp.drop j = m :: rest ∧
          (cross isBuy o opp).pre ++ (cross isBuy o opp).suf = u :: rest ∧
          SameOrder u m ∧ 0 < u.RemainingQuantity ∧ u.RemainingQuantity < m.RemainingQuantity ∧
          u.Status = "partial" ∧ (cross isBuy o opp).taker.RemainingQuantity = 0 ∧
          (cross isBuy o opp).updatedOrders[j]? = some u ∧
          (cross isBuy o opp).trades.length = j + 1) := by
  refine cross_induction isBuy
    (fun o opp s => Bounded o → (∀ m ∈ opp, 0 < m.RemainingQuantity ∧ Bounded m) →
      ∃ j : Nat,
        (∀ i : Nat, i < j → ∃ u m, s.updatedOrders[i]? = some u ∧
          opp[i]? = some m ∧ SameOrder u m ∧ u.RemainingQuantity = 0 ∧ u.Status = "filled") ∧
        ((s.pre ++ s.suf = opp.drop j ∧ s.trades.length = j) ∨
          ∃ u m rest, opp.drop j = m :: rest ∧ s.pre ++ s.suf = u :: rest ∧
            SameOrder u m ∧ 0 < u.RemainingQuantity ∧
            u.RemainingQuantity < m.RemainingQuantity ∧
            u.Status = "partial" ∧ s.taker.RemainingQuantity = 0 ∧
            s.updatedOrders[j]? = some u ∧ s.trades.length = j + 1)) ?_ ?_ ?_ ?_ opp o
  · intro o _ _
    exact ⟨0, fun i hi => absurd hi (Nat.not_lt_zero i), Or.inl ⟨rfl, rfl⟩⟩
  · intro o m rest _ _ _
    exact ⟨0, fun i hi => absurd hi (Nat.not_lt_zero i), Or.inl ⟨rfl, rfl⟩⟩
  · intro o m rest hpos _ h3 ih hb hq
    have hm := hq m (List.mem_cons_self _ _)
    obtain ⟨_, e1, e2, _, _, _, _⟩ := crossStep_status isBuy o m hpos hb hm.1 hm.2
    have hsame := crossStep_taker_same isBuy o m
    have hb2 : Bounded (crossStep isBuy o m).2.1 := by
      unfold Bounded at hb ⊢
      rw [hsame.2.2.2.2.2.1]
      exact ⟨by linarith, hb.2⟩
    obtain ⟨j, hrem, hrest⟩ := ih hb2 (fun x hx => hq x (List.mem_cons_of_mem _ hx))
    refine ⟨j + 1, ?_, ?_⟩
    · intro i hi
      cases i with
      | zero =>
        exact ⟨(crossStep isBuy o m).2.2, m, by simp, by simp, crossStep_maker_same isBuy o m, h3,
          crossStep_maker_filled isBuy o m h3⟩
      | succ i =>
        obtain ⟨u, y, h1, h2, h4⟩ := hrem i (by omega)
        exact ⟨u, y, by simpa using h1, by simpa using h2, h4⟩
    · rcases hrest with ⟨h1, h2⟩ | ⟨u, y, r, h1, h2, h4, h5, h6, h7, h8, h9, h10⟩
      · exact Or.inl ⟨by simpa using h1, by simp [h2]⟩
      · exact Or.inr ⟨u, y, r, by simpa using h1, h2, h4, h5, h6, h7, h8, by simpa using h9,
          by simp [h10]⟩
  · intro o m rest hpos _ h3 h4 hb hq
    have hm := hq m (List.mem_cons_self _ _)
    obtain ⟨_, _, _, e3, e4, _, e6⟩ := crossStep_status isBuy o m hpos hb hm.1 hm.2
    have hsame := crossStep_maker_same isBuy o m
    have hu : 0 < (crossStep isBuy o m).2.2.RemainingQuantity := lt_of_le_of_ne e3 (Ne.symm h3)
    refine ⟨0, fun i hi => absurd hi (Nat.not_lt_zero i),
      Or.inr ⟨(crossStep isBuy o m).2.2, m, rest, rfl, rfl, hsame, hu, e4, ?_, h4, by simp,
        rfl⟩⟩
    refine e6.2.mpr ⟨hu, ?_⟩
    rw [hsame.2.2.2.2.2.1]
    exact lt_of_lt_of_le e4 hm.2.1

theorem matchOrder_order_rem (o : Order) (book : OrderBook) :
    (matchOrder o book).order.RemainingQuantity =
      (cross (isBuy o) o (oppositeSide book o)).taker.RemainingQuantity := by
  rw [(matchOrder_sides o book).2.2]
  split_ifs <;> rfl

theorem opposite_bounds (o : Order) (book : OrderBook) (hb : RestingBounded book) :
    ∀ m ∈ oppositeSide book o, 0 < m.RemainingQuantity ∧ Bounded m := by
  rw [restingBounded_iff] at hb
  obtain ⟨_, hopp⟩ := sideResting_of_isBuy o book hb
  intro m hm
  exact ⟨(hopp m hm).1.2.2.2, (hopp m hm).2.1⟩

theorem Validated.bounded {o : Order} (hv : Validated o) : Bounded o := by
  obtain ⟨_, _, _, hf4, hf5, _⟩ := hv.fields
  exact ⟨by rw [hf5], hf4⟩

/-- C23. Opposite-side effect of `ProcessOrder`. For a validated taker and a book under
the resting-order invariant (with remaining <= initial), there is a number `j`
of makers removed: the opposite side afterwards is the opposite side before
without its first `j` orders, except possibly for its head; each of the `j`
removed makers is in the batch with remaining 0 and status filled; either no
surviving order changed (and `j` trades were made), or only the new head did:
it has less remaining than before, still positive, and status partial, the
taker ends with remaining 0 (and `j + 1` trades were made). In scenario 3 the
trades are (100, 2), (101, 3) and the asks left are 101 x 1 and 102 x 1. -/
theorem opposite_side_effect (sink : CommitSink) (me : MatchingEngine) (o : Order)
    (hv : Validated o) (hb : RestingBounded (bookOf me o.Symbol)) :
    (∃ (j : Nat) (t : Order), (ProcessOrder sink me (some o)).order = some t ∧
      (∀ b ∈ (ProcessOrder sink me (some o)).sinkCalls, ∀ i : Nat, i < j →
        ∃ u m, b.updatedOrders[i]? = some u ∧
          (oppositeSide (bookOf me o.Symbol) o)[i]? = some m ∧ SameOrder u m ∧
          u.RemainingQuantity = 0 ∧ u.Status = "filled") ∧
      ((oppositeSide (bookOf (ProcessOrder sink me (some o)).engine o.Symbol) o =
            (oppositeSide (bookOf me o.Symbol) o).drop j ∧
          ∀ b ∈ (ProcessOrder sink me (some o)).sinkCalls, b.trades.length = j) ∨
        ∃ u m rest, (oppositeSide (bookOf me o.Symbol) o).drop j = m :: rest ∧
          oppositeSide (bookOf (ProcessOrder sink me (some o)).engine o.Symbol) o = u :: rest ∧
          SameOrder u m ∧ 0 < u.RemainingQuantity ∧
          u.RemainingQuantity < m.RemainingQuantity ∧ u.Status = "partial" ∧
          t.RemainingQuantity = 0 ∧
          ∀ b ∈ (ProcessOrder sink me (some o)).sinkCalls,
            b.updatedOrders[j]? = some u ∧ b.trades.length = j + 1)) ∧
    (ProcessOrder okSink walkEngine (some walkTaker)).trades =
      [{ Symbol := "X", BuyOrderID := "b", SellOrderID := "s1", Price := 100, Quantity := 2 },
       { Symbol := "X", BuyOrderID := "b", SellOrderID := "s2", Price := 101, Quantity := 3 }] ∧
    (bookOf (ProcessOrder okSink walkEngine (some walkTaker)).engine "X").SellOrders =
      [{ limitOrder "s2" "sell" 101 4 2 with RemainingQuantity := 1, Status := "partial" },
       limitOrder "s3" "sell" 102 1 3] := by
  refine ⟨?_, by decide, by decide⟩
  obtain ⟨j, hrem, hrest⟩ := cross_opposite_shape (isBuy o) (oppositeSide (bookOf me o.Symbol) o) o
    hv.bounded (opposite_bounds o _ hb)
  have hm := matchOrder_eq o (bookOf me o.Symbol)
  have hu : (matchOrder o (bookOf me o.Symbol)).updatedOrders =
      (cross (isBuy o) o (oppositeSide (bookOf me o.Symbol) o)).updatedOrders := by
    rw [hm]
  have ht : (matchOrder o (bookOf me o.Symbol)).trades =
      (cross (isBuy o) o (oppositeSide (bookOf me o.Symbol) o)).trades := by
    rw [hm]
  refine ⟨j, (matchOrder o (bookOf me o.Symbol)).order, ProcessOrder_order sink me o, ?_, ?_⟩
  · intro b hbm i hi
    rw [ProcessOrder_sinkCalls, List.mem_singleton] at hbm
    subst hbm
    show ∃ u m, (matchOrder o (bookOf me o.Symbol)).updatedOrders[i]? = some u ∧ _
    rw [hu]
    exact hrem i hi
  · rw [bookOf_ProcessOrder, (matchOrder_sides o (bookOf me o.Symbol)).1]
    rcases hrest with ⟨h1, h2⟩ | ⟨u, y, r, h1, h2, h4, h5, h6, h7, h8, h9, h10⟩
    · refine Or.inl ⟨h1, ?_⟩
      intro b hbm
      rw [ProcessOrder_sinkCalls, List.mem_singleton] at hbm
      subst hbm
      show (matchOrder o (bookOf me o.Symbol)).trades.length = j
      rw [ht]
      exact h2
    · refine Or.inr ⟨u, y, r, h1, h2, h4, h5, h6, h7, ?_, ?_⟩
      · rw [matchOrder_order_rem]
        exact h8
      · intro b hbm
        rw [ProcessOrder_sinkCalls, List.mem_singleton] at hbm
        subst hbm
        show (matchOrder o (bookOf me o.Symbol)).updatedOrders[j]? = some u ∧
          (matchOrder o (bookOf me o.Symbol)).trades.length = j + 1
        rw [hu, ht]
        exact ⟨h9, h10⟩

/-- Witness of `opposite_side_effect`: scenario 3, a validated market buy of 5 against
the asks 100 x 2, 101 x 4, 102 x 1, which satisfy the resting-order invariant. -/
theorem opposite_side_effect_witness :
    Validated walkTaker ∧ RestingBounded (bookOf walkEngine walkTaker.Symbol) ∧
    (ProcessOrder okSink walkEngine (some walkTaker)).trades =
      [{ Symbol := "X", BuyOrderID := "b", SellOrderID := "s1", Price := 100, Quantity := 2 },
       { Symbol := "X", BuyOrderID := "b", SellOrderID := "s2", Price := 101, Quantity := 3 }] :=
  ⟨by decide, by decide,
    (opposite_side_effect okSink walkEngine walkTaker (by decide) (by decide)).2.1⟩

/-! ## C24: the batch handed to the sink -/

theorem crossStep_maker_post (isBuy : Bool) (o m : Order) :
    (crossStep isBuy o m).2.2 =
      updateOrderStatus
        { m with
          RemainingQuantity := wrapInt64 (m.RemainingQuantity - (crossStep isBuy o m).1.Quantity) } := by
  cases isBuy <;> rfl

/-- The i-th updated order of the loop is the i-th order of the opposite side
after the i-th trade: less the trade's quantity, with the status
`updateOrderStatus` gives. -/
theorem cross_batch (isBuy : Bool) (opp : List Order) (o : Order) :
    (cross isBuy o opp).updatedOrders.length = (cross isBuy o opp).trades.length ∧
    List.Forall₂
      (fun (tu : Trade × Order) (m : Order) =>
        (if isBuy then tu.1.SellOrderID else tu.1.BuyOrderID) = m.ID ∧
        tu.2 = updateOrderStatus
          { m with RemainingQuantity := wrapInt64 (m.RemainingQuantity - tu.1.Quantity) })
      ((cross isBuy o opp).trades.zip (cross isBuy o opp).updatedOrders)
      (opp.take (cross isBuy o opp).trades.length) := by
  refine cross_induction isBuy
    (fun _ opp s => s.updatedOrders.length = s.trades.length ∧
      List.Forall₂
        (fun (tu : Trade × Order) (m : Order) =>
          (if isBuy then tu.1.SellOrderID else tu.1.BuyOrderID) = m.ID ∧
          tu.2 = updateOrderStatus
            { m with RemainingQuantity := wrapInt64 (m.RemainingQuantity - tu.1.Quantity) })
        (s.trades.zip s.updatedOrders) (opp.take s.trades.length)) ?_ ?_ ?_ ?_ opp o
  · intro o
    exact ⟨rfl, List.Forall₂.nil⟩
  · intro o m rest _
    exact ⟨rfl, List.Forall₂.nil⟩
  · intro o m rest _ _ _ ih
    refine ⟨by simp [ih.1], ?_⟩
    simp only [List.zip_cons_cons, List.length_cons, List.take_succ_cons]
    exact List.Forall₂.cons ⟨(crossStep_ids isBuy o m).1, crossStep_maker_post isBuy o m⟩ ih.2
  · intro o m rest _ _ _ _
    refine ⟨rfl, ?_⟩
    simp only [List.zip_cons_cons, List.zip_nil_right, List.length_cons, List.length_nil,
      List.take_succ_cons, List.take_zero]
    exact List.Forall₂.cons ⟨(crossStep_ids isBuy o m).1, crossStep_maker_post isBuy o m⟩
      List.Forall₂.nil

theorem cross_updated_nodup (isBuy : Bool) (opp : List Order) (o : Order)
    (hnd : (opp.map Order.ID).Nodup) :
    ((cross isBuy o opp).updatedOrders.map Order.ID).Nodup := by
  have h3 := (cross_makers isBuy opp o).2.2.1
  rw [forall2_map_ID h3]
  rw [← List.take_append_drop (cross isBuy o opp).trades.length opp, List.map_append] at hnd
  exact (List.nodup_append.1 hnd).1

theorem mem_insertSorted (isBid : Bool) (orders : List Order) (newOrder x : Order)
    (hx : x ∈ orders) : x ∈ insertSorted isBid orders newOrder := by
  obtain ⟨pos, _, hpos⟩ := insertSorted_insertAt isBid orders newOrder
  rw [hpos]
  unfold insertAt
  rw [← List.take_append_drop pos orders] at hx
  rw [List.mem_append] at hx ⊢
  rcases hx with h | h
  · exact Or.inl h
  · exact Or.inr (List.mem_cons_of_mem _ h)

/-- Every order resting before the call either still rests, as it was, on its
side, or is one of the makers of the batch. -/
theorem matchOrder_changed (o : Order) (book : OrderBook) (x : Order)
    (hx : x ∈ book.BuyOrders ∨ x ∈ book.SellOrders) :
    ((x ∈ book.BuyOrders ∧ x ∈ (matchOrder o book).book.BuyOrders) ∨
      (x ∈ book.SellOrders ∧ x ∈ (matchOrder o book).book.SellOrders)) ∨
    ∃ u ∈ (matchOrder o book).updatedOrders, SameOrder u x := by
  obtain ⟨s1, s2, _⟩ := matchOrder_sides o book
  rw [insertSorted_isBuy] at s2
  have hu : (matchOrder o book).updatedOrders =
      (cross (isBuy o) o (oppositeSide book o)).updatedOrders := by
    rw [matchOrder_eq]
  have hown : ∀ y ∈ ownSide book o, y ∈ ownSide (matchOrder o book).book o := by
    intro y hy
    rw [s2]
    split_ifs
    · exact mem_insertSorted _ _ _ y hy
    · exact hy
  have hopp : ∀ y ∈ oppositeSide book o, y ∈ oppositeSide (matchOrder o book).book o ∨
      ∃ u ∈ (matchOrder o book).updatedOrders, SameOrder u y := by
    intro y hy
    rw [← List.take_append_drop (cross (isBuy o) o (oppositeSide book o)).trades.length
      (oppositeSide book o), List.mem_append] at hy
    rcases hy with h | h
    · right
      rw [hu]
      have h3 := (cross_makers (isBuy o) (oppositeSide book o) o).2.2.1
      obtain ⟨i, hi, rfl⟩ := List.mem_iff_getElem.1 h
      have hi2 : i < (cross (isBuy o) o (oppositeSide book o)).updatedOrders.length := by
        rw [h3.length_eq]; exact hi
      have := List.Forall₂.get h3 hi2 hi
      simp only [List.get_eq_getElem] at this
      exact ⟨_, List.getElem_mem hi2, this⟩
    · left
      rw [s1]
      refine List.mem_append_right _ ?_
      rw [(cross_residual (isBuy o) (oppositeSide book o) o).1]
      exact h
  unfold ownSide at hown
  unfold oppositeSide at hopp
  by_cases hs : o.Side = "buy"
  · simp only [hs, if_true] at hown hopp
    rcases hx with h | h
    · exact Or.inl (Or.inl ⟨h, hown x h⟩)
    · rcases hopp x h with h2 | h2
      · exact Or.inl (Or.inr ⟨h, h2⟩)
      · exact Or.inr h2
  · simp only [hs, if_false] at hown hopp
    rcases hx with h | h
    · rcases hopp x h with h2 | h2
      · exact Or.inl (Or.inl ⟨h, h2⟩)
      · exact Or.inr h2
    · exact Or.inl (Or.inr ⟨h, hown x h⟩)

theorem mem_of_mem_insertSorted (isBid : Bool) (orders : List Order) (newOrder x : Order)
    (hx : x ∈ insertSorted isBid orders newOrder) : x = newOrder ∨ x ∈ orders := by
  obtain ⟨pos, _, hpos⟩ := insertSorted_insertAt isBid orders newOrder
  rw [hpos] at hx
  unfold insertAt at hx
  rw [List.mem_append, List.mem_cons] at hx
  rcases hx with h | h | h
  · exact Or.inr (List.mem_of_mem_take h)
  · exact Or.inl h
  · exact Or.inr (List.mem_of_mem_drop h)

/-- Every order resting after the call rested before, as it is, or is the taker
as the batch has it, or is one of the makers as the batch has it. -/
theorem matchOrder_after (o : Order) (book : OrderBook) (x : Order)
    (hx : x ∈ (matchOrder o book).book.BuyOrders ∨ x ∈ (matchOrder o book).book.SellOrders) :
    (x ∈ book.BuyOrders ∨ x ∈ book.SellOrders) ∨ x = (matchOrder o book).order ∨
      x ∈ (matchOrder o book).updatedOrders := by
  obtain ⟨s1, s2, s3⟩ := matchOrder_sides o book
  rw [insertSorted_isBuy] at s2
  have hu : (matchOrder o book).updatedOrders =
      (cross (isBuy o) o (oppositeSide book o)).updatedOrders := by
    rw [matchOrder_eq]
  have hown : ∀ y ∈ ownSide (matchOrder o book).book o,
      y ∈ ownSide book o ∨ y = (matchOrder o book).order := by
    intro y hy
    rw [s2] at hy
    split_ifs at hy with hins
    · rcases mem_of_mem_insertSorted _ _ _ y hy with h | h
      · right
        rw [h, s3, if_neg]
        rintro ⟨hm, _⟩
        rw [hm] at hins
        exact absurd hins.2 (by decide)
      · exact Or.inl h
    · exact Or.inl hy
  have hopp : ∀ y ∈ oppositeSide (matchOrder o book).book o,
      y ∈ oppositeSide book o ∨ y ∈ (matchOrder o book).updatedOrders := by
    intro y hy
    rw [s1, List.mem_append] at hy
    obtain ⟨r1, _, r3⟩ := cross_residual (isBuy o) (oppositeSide book o) o
    rcases hy with h | h
    · rcases r3 with h0 | ⟨u, hu1, hu2, _⟩
      · rw [h0] at h
        exact absurd h (List.not_mem_nil y)
      · rw [hu1, List.mem_singleton] at h
        subst h
        right
        rw [hu]
        exact List.mem_of_getLast?_eq_some hu2
    · rw [r1] at h
      exact Or.inl (List.mem_of_mem_drop h)
  unfold ownSide at hown
  unfold oppositeSide at hopp
  by_cases hs : o.Side = "buy"
  · simp only [hs, if_true] at hown hopp
    rcases hx with h | h
    · rcases hown x h with h2 | h2
      · exact Or.inl (Or.inl h2)
      · exact Or.inr (Or.inl h2)
    · rcases hopp x h with h2 | h2
      · exact Or.inl (Or.inr h2)
      · exact Or.inr (Or.inr h2)
  · simp only [hs, if_false] at hown hopp
    rcases hx with h | h
    · rcases hopp x h with h2 | h2
      · exact Or.inl (Or.inl h2)
      · exact Or.inr (Or.inr h2)
    · rcases hown x h with h2 | h2
      · exact Or.inl (Or.inr h2)
      · exact Or.inr (Or.inl h2)

/-- C24, counterexample. With an ask of 5 at 100 resting, a limit buy of 3 at 100 whose
commit fails hands the sink a batch with one trade, while the caller is returned
an error and no trade: the trade list of the batch is not the trade list
returned. -/
theorem batch_trades_not_returned :
    ¬ (∀ b ∈ (ProcessOrder failSink (engineAfter [limitOrder "s1" "sell" 100 5 1])
          (some (limitOrder "b1" "buy" 100 3 2))).sinkCalls,
        b.trades = (ProcessOrder failSink (engineAfter [limitOrder "s1" "sell" 100 5 1])
          (some (limitOrder "b1" "buy" 100 3 2))).trades) := by
  decide

/-- C24, amended. A `ProcessOrder` call on a nil order does not reach the sink. A call on
an order invokes the sink exactly once, with the taker as the call leaves it,
the trades of the crossing and the updated makers. The trades of the batch are
the trades returned when the sink accepts; when it fails the caller gets an
error and no trades. The updated makers are as many as the trades; the i-th is
the maker of the i-th trade, the i-th order of the opposite side, with the
trade's quantity taken off and the status `updateOrderStatus` gives; their ids
are distinct when the ids of the opposite side are. Every order that rested in
the book before the call still rests on its side as it was or is among the
updated makers; every order resting after the call rested before as it is, or
is the taker or an updated maker as the batch has them; and the books of the
other symbols are as before. -/
theorem commit_batch_contents (sink : CommitSink) (me : MatchingEngine) (o : Order) :
    (ProcessOrder sink me none).sinkCalls = [] ∧
    ∃ b : CommitBatch, (ProcessOrder sink me (some o)).sinkCalls = [b] ∧
      (ProcessOrder sink me (some o)).order = some b.order ∧
      (sink b = none → (ProcessOrder sink me (some o)).trades = b.trades) ∧
      (sink b ≠ none → (ProcessOrder sink me (some o)).trades = [] ∧
        (ProcessOrder sink me (some o)).err ≠ none) ∧
      b.updatedOrders.length = b.trades.length ∧
      List.Forall₂
        (fun (tu : Trade × Order) (m : Order) =>
          makerID o tu.1 = m.ID ∧
          tu.2 = updateOrderStatus
            { m with RemainingQuantity := wrapInt64 (m.RemainingQuantity - tu.1.Quantity) })
        (b.trades.zip b.updatedOrders)
        ((oppositeSide (bookOf me o.Symbol) o).take b.trades.length) ∧
      (((oppositeSide (bookOf me o.Symbol) o).map Order.ID).Nodup →
        (b.updatedOrders.map Order.ID).Nodup) ∧
      (∀ x, x ∈ (bookOf me o.Symbol).BuyOrders ∨ x ∈ (bookOf me o.Symbol).SellOrders →
        ((x ∈ (bookOf me o.Symbol).BuyOrders ∧
            x ∈ (bookOf (ProcessOrder sink me (some o)).engine o.Symbol).BuyOrders) ∨
          (x ∈ (bookOf me o.Symbol).SellOrders ∧
            x ∈ (bookOf (ProcessOrder sink me (some o)).engine o.Symbol).SellOrders)) ∨
        ∃ u ∈ b.updatedOrders, SameOrder u x) ∧
      (∀ x, x ∈ (bookOf (ProcessOrder sink me (some o)).engine o.Symbol).BuyOrders ∨
          x ∈ (bookOf (ProcessOrder sink me (some o)).engine o.Symbol).SellOrders →
        (x ∈ (bookOf me o.Symbol).BuyOrders ∨ x ∈ (bookOf me o.Symbol).SellOrders) ∨
          x = b.order ∨ x ∈ b.updatedOrders) ∧
      (∀ other, other ≠ o.Symbol →
        bookOf (ProcessOrder sink me (some o)).engine other = bookOf me other) := by
  refine ⟨rfl, batchOf (matchOrder o (bookOf me o.Symbol)), ProcessOrder_sinkCalls sink me o,
    ProcessOrder_order sink me o, ?_, ?_, ?_, ?_, ?_, ?_, ?_, ?_⟩
  · intro hs
    rw [ProcessOrder_trades, if_pos hs]
    rfl
  · intro hs
    rw [ProcessOrder_trades, if_neg hs, ProcessOrder_err]
    refine ⟨rfl, ?_⟩
    cases hc : sink (batchOf (matchOrder o (bookOf me o.Symbol))) with
    | none => exact absurd hc hs
    | some e => simp
  · show (matchOrder o (bookOf me o.Symbol)).updatedOrders.length =
      (matchOrder o (bookOf me o.Symbol)).trades.length
    rw [matchOrder_eq]
    exact (cross_batch (isBuy o) _ o).1
  · show List.Forall₂ _
      ((matchOrder o (bookOf me o.Symbol)).trades.zip
        (matchOrder o (bookOf me o.Symbol)).updatedOrders)
      ((oppositeSide (bookOf me o.Symbol) o).take
        (matchOrder o (bookOf me o.Symbol)).trades.length)
    rw [matchOrder_eq]
    refine (cross_batch (isBuy o) _ o).2.imp ?_
    intro tu m h
    exact ⟨by simpa [makerID, isBuy] using h.1, h.2⟩
  · intro hnd
    show ((matchOrder o (bookOf me o.Symbol)).updatedOrders.map Order.ID).Nodup
    rw [matchOrder_eq]
    exact cross_updated_nodup (isBuy o) _ o hnd
  · intro x hx
    rw [bookOf_ProcessOrder]
    exact matchOrder_changed o (bookOf me o.Symbol) x hx
  · intro x hx
    rw [bookOf_ProcessOrder] at hx
    exact matchOrder_after o (bookOf me o.Symbol) x hx
  · intro other hne
    exact bookOf_ProcessOrder_ne sink me o other hne

/-! ## C25: the other symbols -/

theorem crossStep_symbol (isBuy : Bool) (o m : Order) :
    (crossStep isBuy o m).1.Symbol = if isBuy then o.Symbol else m.Symbol := by
  cases isBuy <;> rfl

theorem cross_trades_symbol (isBuy : Bool) (opp : List Order) (o : Order) :
    (∀ m ∈ opp, m.Symbol = o.Symbol) →
    ∀ t ∈ (cross isBuy o opp).trades, t.Symbol = o.Symbol := by
  refine cross_induction isBuy
    (fun o opp s => (∀ m ∈ opp, m.Symbol = o.Symbol) → ∀ t ∈ s.trades, t.Symbol = o.Symbol)
    ?_ ?_ ?_ ?_ opp o
  · intro o _ t ht; simp at ht
  · intro o m rest _ _ t ht; simp at ht
  · intro o m rest _ _ _ ih hq t ht
    have hm := hq m (List.mem_cons_self _ _)
    have hs : (crossStep isBuy o m).1.Symbol = o.Symbol := by
      rw [crossStep_symbol]
      split_ifs
      · rfl
      · exact hm
    rw [List.mem_cons] at ht
    rcases ht with ht | ht
    · rw [ht]; exact hs
    · have hsame := (crossStep_taker_same isBuy o m).2.1
      rw [← hsame]
      exact ih (fun x hx => by rw [hsame]; exact hq x (List.mem_cons_of_mem _ hx)) t ht
  · intro o m rest _ _ _ _ hq t ht
    have hm := hq m (List.mem_cons_self _ _)
    rw [List.mem_singleton] at ht
    rw [ht, crossStep_symbol]
    split_ifs
    · rfl
    · exact hm

theorem matchOrder_order_same (o : Order) (book : OrderBook) :
    SameOrder (matchOrder o book).order o := by
  rw [(matchOrder_sides o book).2.2]
  have h := cross_taker_same (isBuy o) (oppositeSide book o) o
  split_ifs
  · exact h
  · exact h

theorem symbolsOK_new : SymbolsOK NewMatchingEngine := by
  intro symbol x hx
  rw [bookOf_NewMatchingEngine] at hx
  simp [NewOrderBook] at hx

theorem symbolsOK_ProcessOrder (sink : CommitSink) (me : MatchingEngine) (o : Order)
    (h : SymbolsOK me) : SymbolsOK (ProcessOrder sink me (some o)).engine := by
  intro symbol x hx
  by_cases hs : symbol = o.Symbol
  · subst hs
    rw [bookOf_ProcessOrder] at hx
    rcases matchOrder_after o (bookOf me o.Symbol) x hx with h1 | h1 | h1
    · exact h o.Symbol x h1
    · rw [h1]
      exact (matchOrder_order_same o _).2.1
    · rw [matchOrder_eq] at h1
      obtain ⟨i, m, _, hm, hsame⟩ := cross_updated_index (isBuy o) _ o x h1
      rw [hsame.2.1]
      have hmem : m ∈ oppositeSide (bookOf me o.Symbol) o := List.getElem?_mem hm
      unfold oppositeSide at hmem
      split_ifs at hmem
      · exact h o.Symbol m (Or.inr hmem)
      · exact h o.Symbol m (Or.inl hmem)
  · rw [bookOf_ProcessOrder_ne sink me o symbol hs] at hx
    exact h symbol x hx

theorem symbolsOK_run (os : List Order) : SymbolsOK (run os).engine := by
  have : ∀ (l : List Order) (x : Exchange), SymbolsOK x.engine →
      SymbolsOK (l.foldl place x).engine := by
    intro l
    induction l with
    | nil => intro x hx; exact hx
    | cons o l ih =>
      intro x hx
      rw [List.foldl_cons]
      exact ih (place x o) (by rw [place_engine]; exact symbolsOK_ProcessOrder okSink x.engine o hx)
  exact this os emptyExchange symbolsOK_new

/-- C25. Cross-symbol frame. `ProcessOrder` on an order with symbol S leaves the book of
every other symbol exactly as it was, for every engine state. When the orders
resting on the opposite side of the book of S carry the symbol S, every trade
of the call, returned or handed to the sink, carries the symbol S. Every order
resting in a book carries the book's symbol in every state reached from the
empty engine by `ProcessOrder` calls, so the hypothesis holds there. -/
theorem cross_symbol_frame (sink : CommitSink) (me : MatchingEngine) (o : Order)
    (os : List Order)
    (hsym : ∀ m ∈ oppositeSide (bookOf me o.Symbol) o, m.Symbol = o.Symbol) :
    (∀ other, other ≠ o.Symbol →
      bookOf (ProcessOrder sink me (some o)).engine other = bookOf me other) ∧
    (∀ t ∈ (ProcessOrder sink me (some o)).trades, t.Symbol = o.Symbol) ∧
    (∀ b ∈ (ProcessOrder sink me (some o)).sinkCalls, ∀ t ∈ b.trades, t.Symbol = o.Symbol) ∧
    (∀ (symbol : String) (x : Order),
      x ∈ (bookOf (run os).engine symbol).BuyOrders ∨
        x ∈ (bookOf (run os).engine symbol).SellOrders → x.Symbol = symbol) := by
  have hc := cross_trades_symbol (isBuy o) (oppositeSide (bookOf me o.Symbol) o) o hsym
  have ht : (matchOrder o (bookOf me o.Symbol)).trades =
      (cross (isBuy o) o (oppositeSide (bookOf me o.Symbol) o)).trades := by
    rw [matchOrder_eq]
  refine ⟨fun other hne => bookOf_ProcessOrder_ne sink me o other hne, ?_, ?_, symbolsOK_run os⟩
  · intro t htm
    rw [ProcessOrder_trades] at htm
    split_ifs at htm
    · rw [ht] at htm
      exact hc t htm
    · exact absurd htm (List.not_mem_nil t)
  · intro b hb t htm
    rw [ProcessOrder_sinkCalls, List.mem_singleton] at hb
    subst hb
    have : t ∈ (matchOrder o (bookOf me o.Symbol)).trades := htm
    rw [ht] at this
    exact hc t this

/-- Witness of `cross_symbol_frame`: a sell of symbol `X` against a resting bid of symbol
`X` makes a trade of symbol `X`. -/
theorem cross_symbol_frame_witness :
    (∀ m ∈ oppositeSide (bookOf (engineAfter [limitOrder "b1" "buy" 100 5 1])
        (limitOrder "s1" "sell" 100 3 2).Symbol) (limitOrder "s1" "sell" 100 3 2),
      m.Symbol = (limitOrder "s1" "sell" 100 3 2).Symbol) ∧
    (ProcessOrder okSink (engineAfter [limitOrder "b1" "buy" 100 5 1])
      (some (limitOrder "s1" "sell" 100 3 2))).trades.map Trade.Symbol = ["X"] ∧
    ∀ t ∈ (ProcessOrder okSink (engineAfter [limitOrder "b1" "buy" 100 5 1])
      (some (limitOrder "s1" "sell" 100 3 2))).trades,
      t.Symbol = (limitOrder "s1" "sell" 100 3 2).Symbol :=
  ⟨by decide, by decide,
    (cross_symbol_frame okSink (engineAfter [limitOrder "b1" "buy" 100 5 1])
      (limitOrder "s1" "sell" 100 3 2) [] (by decide)).2.1⟩

/-! ## C26: no trade-through -/

theorem canMatch_limit_iff (buyOrder sellOrder : Order) (hb : buyOrder.Typ = "limit")
    (hs : sellOrder.Typ = "limit") :
    canMatch buyOrder sellOrder = true ↔
      ∃ pb ps, buyOrder.Price = some pb ∧ sellOrder.Price = some ps ∧ ps ≤ pb := by
  unfold canMatch
  have h1 : ¬ (buyOrder.Typ = "market" ∨ sellOrder.Typ = "market") := by
    rw [hb, hs]
    decide
  rw [if_neg h1]
  cases hpb : buyOrder.Price with
  | none => simp
  | some pb =>
    cases hps : sellOrder.Price with
    | none => simp
    | some ps => simp

theorem tradePrice_limit_sell (buyOrder sellOrder : Order) (ps : Rat)
    (hs : sellOrder.Typ = "limit") (hp : sellOrder.Price = some ps) :
    (executeTrade buyOrder sellOrder).1.Price = ps := by
  show tradePrice buyOrder sellOrder = ps
  unfold tradePrice
  rw [hs, hp]
  rfl

theorem crossStep_limits (isBuy : Bool) (o m : Order) (ho : o.Typ = "limit")
    (hm : m.Typ = "limit") (hc : crossCan isBuy o m = true) :
    ∃ po pm, o.Price = some po ∧ m.Price = some pm ∧
      (if isBuy then pm ≤ (crossStep isBuy o m).1.Price ∧ (crossStep isBuy o m).1.Price ≤ po
       else po ≤ (crossStep isBuy o m).1.Price ∧ (crossStep isBuy o m).1.Price ≤ pm) := by
  cases isBuy
  · have hc2 : canMatch m o = true := hc
    obtain ⟨pb, ps, h1, h2, h3⟩ := (canMatch_limit_iff m o hm ho).1 hc2
    have hp : (crossStep false o m).1.Price = ps := tradePrice_limit_sell m o ps ho h2
    refine ⟨ps, pb, h2, h1, ?_⟩
    simp only [Bool.false_eq_true, if_false, hp]
    exact ⟨le_refl _, h3⟩
  · have hc2 : canMatch o m = true := hc
    obtain ⟨pb, ps, h1, h2, h3⟩ := (canMatch_limit_iff o m ho hm).1 hc2
    have hp : (crossStep true o m).1.Price = ps := tradePrice_limit_sell o m ps hm h2
    refine ⟨pb, ps, h1, h2, ?_⟩
    simp only [if_true, hp]
    exact ⟨le_refl _, h3⟩

theorem cross_limits (isBuy : Bool) (typ : String) (price : Option Rat) (opp : List Order) :
    ∀ o : Order, o.Typ = typ → o.Price = price → typ = "limit" →
      (∀ m ∈ opp, m.Typ = "limit") →
      List.Forall₂
        (fun t m => ∃ po pm, price = some po ∧ m.Price = some pm ∧
          (if isBuy then pm ≤ t.Price ∧ t.Price ≤ po else po ≤ t.Price ∧ t.Price ≤ pm))
        (cross isBuy o opp).trades (opp.take (cross isBuy o opp).trades.length) := by
  intro o
  refine cross_induction isBuy
    (fun o opp s => o.Typ = typ → o.Price = price → typ = "limit" →
      (∀ m ∈ opp, m.Typ = "limit") →
      List.Forall₂
        (fun t m => ∃ po pm, price = some po ∧ m.Price = some pm ∧
          (if isBuy then pm ≤ t.Price ∧ t.Price ≤ po else po ≤ t.Price ∧ t.Price ≤ pm))
        s.trades (opp.take s.trades.length)) ?_ ?_ ?_ ?_ opp o
  · intro o _ _ _ _
    exact List.Forall₂.nil
  · intro o m rest _ _ _ _ _
    exact List.Forall₂.nil
  · intro o m rest _ hc _ ih ht hp hl hq
    have hsame := crossStep_taker_same isBuy o m
    obtain ⟨po, pm, h1, h2, h3⟩ := crossStep_limits isBuy o m (ht.trans hl)
      (hq m (List.mem_cons_self _ _)) hc
    simp only [List.length_cons, List.take_succ_cons]
    refine List.Forall₂.cons ⟨po, pm, hp.symm.trans h1, h2, h3⟩ ?_
    exact ih (hsame.2.2.2.1.trans ht) (hsame.2.2.2.2.1.trans hp) hl
      (fun x hx => hq x (List.mem_cons_of_mem _ hx))
  · intro o m rest _ hc _ _ ht hp hl hq
    obtain ⟨po, pm, h1, h2, h3⟩ := crossStep_limits isBuy o m (ht.trans hl)
      (hq m (List.mem_cons_self _ _)) hc
    simp only [List.length_cons, List.length_nil, List.take_succ_cons, List.take_zero]
    exact List.Forall₂.cons ⟨po, pm, hp.symm.trans h1, h2, h3⟩ List.Forall₂.nil

/-- C26. No trade-through. Two limit orders can be matched exactly when both have a
price and the buy price is at least the sell price; the trade `executeTrade`
then makes has sell.price <= trade.price <= buy.price. And in a `ProcessOrder`
call of a limit taker against resting limit orders, the i-th trade, made with
the i-th order of the opposite side, has a price between the price of the sell
order and the price of the buy order of the two. -/
theorem no_trade_through (buyOrder sellOrder : Order) (hb : buyOrder.Typ = "limit")
    (hs : sellOrder.Typ = "limit") :
    (canMatch buyOrder sellOrder = true ↔
      ∃ pb ps, buyOrder.Price = some pb ∧ sellOrder.Price = some ps ∧ ps ≤ pb) ∧
    (canMatch buyOrder sellOrder = true →
      ∃ pb ps, buyOrder.Price = some pb ∧ sellOrder.Price = some ps ∧
        ps ≤ (executeTrade buyOrder sellOrder).1.Price ∧
        (executeTrade buyOrder sellOrder).1.Price ≤ pb) ∧
    (∀ (sink : CommitSink) (me : MatchingEngine) (o : Order), o.Typ = "limit" →
      (∀ m ∈ oppositeSide (bookOf me o.Symbol) o, m.Typ = "limit") →
      ∀ b ∈ (ProcessOrder sink me (some o)).sinkCalls,
        List.Forall₂
          (fun t m => ∃ po pm, o.Price = some po ∧ m.Price = some pm ∧
            (if o.Side = "buy" then pm ≤ t.Price ∧ t.Price ≤ po
             else po ≤ t.Price ∧ t.Price ≤ pm))
          b.trades ((oppositeSide (bookOf me o.Symbol) o).take b.trades.length)) := by
  refine ⟨canMatch_limit_iff buyOrder sellOrder hb hs, ?_, ?_⟩
  · intro hc
    obtain ⟨pb, ps, h1, h2, h3⟩ := (canMatch_limit_iff buyOrder sellOrder hb hs).1 hc
    refine ⟨pb, ps, h1, h2, ?_, ?_⟩
    · rw [tradePrice_limit_sell buyOrder sellOrder ps hs h2]
    · rw [tradePrice_limit_sell buyOrder sellOrder ps hs h2]
      exact h3
  · intro sink me o ho hq b hbm
    rw [ProcessOrder_sinkCalls, List.mem_singleton] at hbm
    subst hbm
    show List.Forall₂ _ (matchOrder o (bookOf me o.Symbol)).trades
      ((oppositeSide (bookOf me o.Symbol) o).take
        (matchOrder o (bookOf me o.Symbol)).trades.length)
    rw [matchOrder_eq]
    have := cross_limits (isBuy o) o.Typ o.Price (oppositeSide (bookOf me o.Symbol) o) o rfl rfl
      ho hq
    refine this.imp ?_
    intro t m h
    simpa [isBuy] using h

/-- Witness of `no_trade_through`: a limit buy at 105 and a limit sell at 100 match, and
trade at 100. -/
theorem no_trade_through_witness :
    canMatch (limitOrder "b" "buy" 105 3 2) (limitOrder "s" "sell" 100 5 1) = true ∧
    (executeTrade (limitOrder "b" "buy" 105 3 2) (limitOrder "s" "sell" 100 5 1)).1.Price = 100 ∧
    ∃ pb ps, (limitOrder "b" "buy" 105 3 2).Price = some pb ∧
      (limitOrder "s" "sell" 100 5 1).Price = some ps ∧
      ps ≤ (executeTrade (limitOrder "b" "buy" 105 3 2)
        (limitOrder "s" "sell" 100 5 1)).1.Price ∧
      (executeTrade (limitOrder "b" "buy" 105 3 2)
        (limitOrder "s" "sell" 100 5 1)).1.Price ≤ pb :=
  ⟨by decide, by decide,
    (no_trade_through (limitOrder "b" "buy" 105 3 2) (limitOrder "s" "sell" 100 5 1)
      (by decide) (by decide)).2.1 (by decide)⟩

/-! ## C27: the loop terminates -/

theorem loopIteration_at (isBuy : Bool) (pre : List Order) (m : Order) (rest : List Order)
    (taker : Order) (trades : List Trade) (upd : List Order) :
    loopIteration isBuy (IndexState.mk pre.length (pre ++ m :: rest) taker trades upd) =
      if 0 < taker.RemainingQuantity then
        if crossCan isBuy taker m then
          if (crossStep isBuy taker m).2.2.RemainingQuantity = 0 then
            some { i := pre.length, side := pre ++ rest, taker := (crossStep isBuy taker m).2.1,
                   trades := trades ++ [(crossStep isBuy taker m).1],
                   updatedOrders := upd ++ [(crossStep isBuy taker m).2.2] }
          else
            some { i := (pre ++ [(crossStep isBuy taker m).2.2]).length,
                   side := (pre ++ [(crossStep isBuy taker m).2.2]) ++ rest,
                   taker := (crossStep isBuy taker m).2.1,
                   trades := trades ++ [(crossStep isBuy taker m).1],
                   updatedOrders := upd ++ [(crossStep isBuy taker m).2.2] }
        else none
      else none := by
  unfold loopIteration
  have hlen : pre.length < (pre ++ m :: rest).length := by simp
  have hget : (pre ++ m :: rest)[pre.length]? = some m := by
    rw [List.getElem?_append_right (le_refl _)]
    simp
  have htake : (pre ++ m :: rest).take pre.length ++ (pre ++ m :: rest).drop (pre.length + 1) =
      pre ++ rest := by simp
  have hset : ∀ x : Order, (pre ++ m :: rest).set pre.length x = (pre ++ [x]) ++ rest := by
    intro x
    simp
  simp only [hlen, true_and, hget, htake, hset]
  by_cases h1 : 0 < taker.RemainingQuantity
  · simp only [h1, if_true]
    by_cases h2 : crossCan isBuy taker m = true
    · simp only [h2, if_true]
      by_cases h3 : (crossStep isBuy taker m).2.2.RemainingQuantity = 0
      · simp only [h3, if_true]
      · simp only [h3, if_false, List.length_append, List.length_singleton]
    · simp only [h2]
      rfl
  · simp only [h1, if_false]

theorem loopIteration_end (isBuy : Bool) (pre : List Order) (taker : Order)
    (trades : List Trade) (upd : List Order) :
    loopIteration isBuy (IndexState.mk pre.length (pre ++ []) taker trades upd) = none := by
  unfold loopIteration
  simp

theorem runLoop_exit (isBuy : Bool) (fuel : Nat) (s : IndexState)
    (h : loopIteration isBuy s = none) : runLoop isBuy fuel s = some s := by
  cases fuel <;> simp [runLoop, h]

/-- With as many iterations allowed as orders remain from the index on, the loop
exits, in the state the recursive loop computes. -/
theorem runLoop_crossLoop (isBuy : Bool) (suf : List Order) :
    ∀ (pre : List Order) (taker : Order) (trades : List Trade) (upd : List Order) (fuel : Nat),
      suf.length ≤ fuel →
      runLoop isBuy fuel (IndexState.mk pre.length (pre ++ suf) taker trades upd) =
        some (indexState (crossLoop isBuy taker pre trades upd suf)) := by
  induction suf with
  | nil =>
    intro pre taker trades upd fuel _
    rw [runLoop_exit isBuy fuel _ (loopIteration_end isBuy pre taker trades upd)]
    rfl
  | cons m rest ih =>
    intro pre taker trades upd fuel hf
    have hit := loopIteration_at isBuy pre m rest taker trades upd
    by_cases h1 : 0 < taker.RemainingQuantity
    · by_cases h2 : crossCan isBuy taker m = true
      · obtain ⟨f, rfl⟩ : ∃ f, fuel = f + 1 := by
          cases fuel with
          | zero => simp at hf
          | succ f => exact ⟨f, rfl⟩
        have hf2 : rest.length ≤ f := by
          simp only [List.length_cons] at hf
          omega
        by_cases h3 : (crossStep isBuy taker m).2.2.RemainingQuantity = 0
        · simp only [h1, h2, h3, if_true] at hit
          simp only [runLoop, hit, crossLoop, h1, h2, h3, if_true]
          exact ih pre _ _ _ f hf2
        · simp only [h1, h2, h3, if_true, if_false] at hit
          simp only [runLoop, hit, crossLoop, h1, h2, h3, if_true, if_false]
          exact ih (pre ++ [(crossStep isBuy taker m).2.2]) _ _ _ f hf2
      · simp only [h1, h2, if_true] at hit
        rw [runLoop_exit isBuy fuel _ hit]
        simp only [crossLoop, h1, h2, if_true]
        rfl
    · simp only [h1, if_false] at hit
      rw [runLoop_exit isBuy fuel _ hit]
      simp only [crossLoop, h1, if_false]
      rfl

theorem runLoop_exits (isBuy : Bool) (fuel : Nat) :
    ∀ s f : IndexState, runLoop isBuy fuel s = some f → loopIteration isBuy f = none := by
  induction fuel with
  | zero =>
    intro s f h
    unfold runLoop at h
    cases hl : loopIteration isBuy s with
    | none =>
      rw [hl] at h
      cases h
      exact hl
    | some s1 =>
      rw [hl] at h
      exact Option.noConfusion h
  | succ n ih =>
    intro s f h
    unfold runLoop at h
    cases hl : loopIteration isBuy s with
    | none =>
      rw [hl] at h
      cases h
      exact hl
    | some s1 =>
      rw [hl] at h
      exact ih s1 f h

/-- An iteration that is executed finds the taker with something left and an
order at the index; it appends one trade, and either cuts one order out of the
side and keeps the index, or keeps the side's length and advances the index,
the taker then having nothing left. -/
theorem loopIteration_progress (isBuy : Bool) (s s1 : IndexState)
    (h : loopIteration isBuy s = some s1) :
    s.i < s.side.length ∧ 0 < s.taker.RemainingQuantity ∧
    s1.trades.length = s.trades.length + 1 ∧
    ((s1.i = s.i ∧ s1.side.length + 1 = s.side.length) ∨
      (s1.i = s.i + 1 ∧ s1.side.length = s.side.length ∧ s1.taker.RemainingQuantity = 0)) := by
  unfold loopIteration at h
  by_cases hc : s.i < s.side.length ∧ 0 < s.taker.RemainingQuantity
  · rw [if_pos hc] at h
    refine ⟨hc.1, hc.2, ?_⟩
    cases hg : s.side[s.i]? with
    | none =>
      rw [hg] at h
      exact Option.noConfusion h
    | some maker =>
      rw [hg] at h
      simp only at h
      by_cases h2 : crossCan isBuy s.taker maker = true
      · rw [if_pos h2] at h
        by_cases h3 : (crossStep isBuy s.taker maker).2.2.RemainingQuantity = 0
        · rw [if_pos h3] at h
          cases h
          refine ⟨by simp, Or.inl ⟨rfl, ?_⟩⟩
          simp only [List.length_append, List.length_take, List.length_drop]
          omega
        · rw [if_neg h3] at h
          cases h
          exact ⟨by simp, Or.inr ⟨rfl, by simp, crossStep_one_filled isBuy s.taker maker h3⟩⟩
      · rw [if_neg h2] at h
        exact Option.noConfusion h
  · rw [if_neg hc] at h
    exact Option.noConfusion h

theorem afterIterations_index (isBuy : Bool) (n : Nat) :
    ∀ s0 s : IndexState, (s0.i = 0 ∨ s0.taker.RemainingQuantity = 0) →
      afterIterations isBuy n s0 = some s → (s.i = 0 ∨ s.taker.RemainingQuantity = 0) := by
  induction n with
  | zero =>
    intro s0 s h0 h
    unfold afterIterations at h
    cases h
    exact h0
  | succ n ih =>
    intro s0 s h0 h
    unfold afterIterations at h
    cases hl : loopIteration isBuy s0 with
    | none =>
      rw [hl] at h
      exact Option.noConfusion h
    | some s1 =>
      rw [hl] at h
      obtain ⟨_, hpos, _, hcase⟩ := loopIteration_progress isBuy s0 s1 hl
      refine ih s1 s ?_ h
      rcases hcase with ⟨hi, _⟩ | ⟨_, _, hz⟩
      · rcases h0 with h0 | h0
        · exact Or.inl (hi.trans h0)
        · rw [h0] at hpos
          exact absurd hpos (lt_irrefl 0)
      · exact Or.inr hz

/-- C27. The crossing loop terminates, for every taker and every opposite side, whatever
the quantities. Run for at least as many iterations as the side has orders, the
indexed loop of `matchBuyOrder` / `matchSellOrder` exits, in the state the
recursive loops `buyLoop` and `sellLoop` compute. Every iteration that is
executed appends one trade and either cuts one order out of the side, keeping
the index, or advances the index, so the trades are at most as many as the
orders of the opposite side before the call, also for `ProcessOrder`. Every
iteration that is executed is executed at index 0: after an iteration that
advances the index the taker has nothing left. -/
theorem crossing_loop_terminates (buy : Bool) (taker : Order) (side : List Order) :
    (∀ fuel, side.length ≤ fuel →
      runLoop buy fuel (initLoop taker side) = some (indexState (cross buy taker side))) ∧
    loopIteration buy (indexState (cross buy taker side)) = none ∧
    buyLoop taker [] [] [] side = cross true taker side ∧
    sellLoop taker [] [] [] side = cross false taker side ∧
    (cross buy taker side).trades.length ≤ side.length ∧
    (∀ s s1 : IndexState, loopIteration buy s = some s1 →
      s1.trades.length = s.trades.length + 1 ∧
      ((s1.i = s.i ∧ s1.side.length + 1 = s.side.length) ∨
        (s1.i = s.i + 1 ∧ s1.side.length = s.side.length))) ∧
    (∀ (n : Nat) (s s1 : IndexState), afterIterations buy n (initLoop taker side) = some s →
      loopIteration buy s = some s1 → s.i = 0) ∧
    (∀ (sink : CommitSink) (me : MatchingEngine) (o : Order),
      (ProcessOrder sink me (some o)).trades.length ≤
        (oppositeSide (bookOf me o.Symbol) o).length ∧
      ∀ b ∈ (ProcessOrder sink me (some o)).sinkCalls,
        b.trades = (cross (isBuy o) o (oppositeSide (bookOf me o.Symbol) o)).trades ∧
        b.trades.length ≤ (oppositeSide (bookOf me o.Symbol) o).length) := by
  have hrun : ∀ fuel, side.length ≤ fuel →
      runLoop buy fuel (initLoop taker side) = some (indexState (cross buy taker side)) :=
    fun fuel hf => runLoop_crossLoop buy side [] taker [] [] fuel hf
  refine ⟨hrun, runLoop_exits buy side.length _ _ (hrun side.length (le_refl _)),
    buyLoop_eq_crossLoop side taker [] [] [], sellLoop_eq_crossLoop side taker [] [] [],
    (cross_residual buy side taker).2.1, ?_, ?_, ?_⟩
  · intro s s1 h
    obtain ⟨_, _, h3, h4⟩ := loopIteration_progress buy s s1 h
    refine ⟨h3, ?_⟩
    rcases h4 with h4 | ⟨h5, h6, _⟩
    · exact Or.inl h4
    · exact Or.inr ⟨h5, h6⟩
  · intro n s s1 hn hl
    obtain ⟨_, hpos, _, _⟩ := loopIteration_progress buy s s1 hl
    rcases afterIterations_index buy n (initLoop taker side) s (Or.inl rfl) hn with h | h
    · exact h
    · rw [h] at hpos
      exact absurd hpos (lt_irrefl 0)
  · intro sink me o
    have hle := (cross_residual (isBuy o) (oppositeSide (bookOf me o.Symbol) o)
      o).2.1
    have ht : (matchOrder o (bookOf me o.Symbol)).trades =
        (cross (isBuy o) o (oppositeSide (bookOf me o.Symbol) o)).trades := by
      rw [matchOrder_eq]
    constructor
    · rw [ProcessOrder_trades]
      split_ifs
      · rw [ht]
        exact hle
      · exact Nat.zero_le _
    · intro b hb
      rw [ProcessOrder_sinkCalls, List.mem_singleton] at hb
      subst hb
      have hb2 : (batchOf (matchOrder o (bookOf me o.Symbol))).trades =
          (cross (isBuy o) o (oppositeSide (bookOf me o.Symbol) o)).trades := ht
      rw [hb2]
      exact ⟨rfl, hle⟩

end OrderMatching
